import Mathlib

/-!
# IDB: an in-memory B+ tree index with a snapshot transaction layer

A shallow embedding of the Go package `IDB` (`bptree.go`, `storage.go`,
`transaction.go`, `undo_log.go`, `inspector.go`, `common.go`).

Conventions of the embedding.

* Go pointers are addresses (natural numbers) into explicit heaps: a heap of
  `Node` objects owned by each `Tree`, and one heap of `Record` objects.
* A Go run-time panic (index out of range, nil dereference, failed type
  assertion) and a loop that does not terminate are both `none`; every
  function that can panic returns an `Option`.
* A Go `error` result is a value of `Error`; `nil` is `none : Option Error`.
* Go `int` is `Int` for keys and transaction ids and `Nat` for counters and
  slice indices that the code never makes negative.
* A Go `map` is an association list without duplicate keys; `range` visits it
  in list order, which is one of the orders Go may choose.
* Locks (`sync.RWMutex`, `sync.Mutex`) are left out: every operation is
  modelled as running alone.
-/

namespace IDB

/-! ## Errors and basic data -/

/-- The error values declared in `bptree.go`, `storage.go`, `transaction.go`,
`undo_log.go` and `inspector.go`. -/
inductive Error where
  | ErrKeyExists
  | ErrKeyNotFound
  | ErrValueNotFound
  | ErrUpdateSame
  | ErrNoSuchChild
  | ErrTableNotExist
  | ErrRecordNotExist
  | ErrUnsupportedFieldType
  | ErrMismatchFieldType
  | ErrFieldNotExist
  | ErrFieldRequired
  | ErrInvalidOp
  | ErrNoSuchATableInTxMgr
  | ErrRecordNotCommit
  | ErrNoSuchRecordInUndoInspector
  deriving DecidableEq, Repr

/-- The package variable `order = 3` of `bptree.go`. -/
def order : Nat := 3

/-- The struct `RecordMeta`. -/
structure RecordMeta where
  LastTxID : Int
  deriving DecidableEq, Repr

/-- The struct `Record`; `Meta = none` is the nil pointer.  The `lock` field
is left out. -/
structure Record where
  Key : Int
  Value : List String
  Meta : Option RecordMeta := none
  deleted : Bool := false
  deriving DecidableEq, Repr

/-- A value of a `Pointers` slot (`interface{}`): nil, a `*Node` or a
`*Record`. -/
inductive Ptr where
  | nil
  | node (a : Nat)
  | record (a : Nat)
  deriving DecidableEq, Repr

/-- The struct `Node`.  `Parent` and `Next` are addresses in the node heap. -/
structure Node where
  Pointers : List Ptr
  Keys : List Int
  Parent : Option Nat := none
  IsLeaf : Bool := false
  NumKeys : Nat := 0
  Next : Option Nat := none
  deriving DecidableEq, Repr

/-- The struct `Tree` together with the heap of the nodes it allocated.
`inspector` tells whether an `UndoInspector` is installed. -/
structure Tree where
  Root : Option Nat := none
  nodes : List Node := []
  inspector : Bool := false
  deriving DecidableEq, Repr

/-- `NewTree`. -/
def NewTree : Tree := {}

/-- `Tree.WithInspector`. -/
def Tree.WithInspector (t : Tree) (inspector : Bool) : Tree :=
  { t with inspector := inspector }

/-! ## Slice helpers -/

/-- The assignment `xs[i] = v` on a slice: panics when `i` is out of range. -/
def wr {α : Type} (xs : List α) (i : Nat) (v : α) : Option (List α) :=
  if i < xs.length then some (xs.set i v) else none

/-- Sequencing of two steps of which the first may panic: the rest runs on the
value of the first step.  It is `Option.bind`, kept out of line. -/
@[noinline]
def andThen {α β : Type} (x : Option α) (f : α → Option β) : Option β :=
  match x with
  | none => none
  | some a => f a

/-- The expression `n.Keys[n.NumKeys-1]`: index `-1` panics. -/
def lastKey (n : Node) : Option Int :=
  if n.NumKeys = 0 then none else n.Keys[n.NumKeys - 1]?

/-- Store a node at an address of the heap. -/
def setNode (nodes : List Node) (a : Nat) (n : Node) : Option (List Node) :=
  wr nodes a n

/-- `makeNode`: a node with `order+1` nil pointers and `order+1` zero keys. -/
def makeNode : Node :=
  { Pointers := List.replicate (order + 1) Ptr.nil
    Keys := List.replicate (order + 1) 0 }

/-- `makeLeaf`. -/
def makeLeaf : Node := { makeNode with IsLeaf := true }

/-- `cut`. -/
def cut (l : Nat) : Nat :=
  if l % 2 = 0 then l / 2 else l / 2 + 1

/-! ## Lookup -/

/-- The inner loop of `findLeaf`: advance `i` while `i < n.NumKeys-1` and
`key > n.Keys[i]`. -/
def findLeaf.child (n : Node) (key : Int) : Nat → Nat → Option Nat
  | 0, i => some i
  | fuel + 1, i =>
    if i + 1 < n.NumKeys then
      match n.Keys[i]? with
      | none => none
      | some k => if key > k then findLeaf.child n key fuel (i + 1) else some i
    else some i

/-- The outer loop of `findLeaf`: descend until a leaf is reached. -/
def findLeaf.descend (nodes : List Node) (key : Int) : Nat → Nat → Option Nat
  | 0, _ => none
  | fuel + 1, a =>
    match nodes[a]? with
    | none => none
    | some n =>
      if n.IsLeaf then some a
      else
        match findLeaf.child n key n.NumKeys 0 with
        | none => none
        | some i =>
          match n.Pointers[i]? with
          | some (Ptr.node c) => findLeaf.descend nodes key fuel c
          | _ => none

/-- `Tree.findLeaf`: `some none` is the nil result for the empty tree. -/
def Tree.findLeaf (t : Tree) (key : Int) : Option (Option Nat) :=
  match t.Root with
  | none => some none
  | some r => (findLeaf.descend t.nodes key (t.nodes.length + 1) r).map some

/-- The loop of `Find`: first `i < l.NumKeys` with `l.Keys[i] == key`, or
`l.NumKeys`. -/
def Find.scan (l : Node) (key : Int) : Nat → Nat → Option Nat
  | 0, i => some i
  | fuel + 1, i =>
    if i < l.NumKeys then
      match l.Keys[i]? with
      | none => none
      | some k => if k = key then some i else Find.scan l key fuel (i + 1)
    else some i

/-- `Tree.Find`: the address of the record, or `ErrKeyNotFound`. -/
def Tree.Find (t : Tree) (key : Int) : Option (Except Error Nat) :=
  match t.findLeaf key with
  | none => none
  | some none => some (.error .ErrKeyNotFound)
  | some (some a) =>
    match t.nodes[a]? with
    | none => none
    | some l =>
      match Find.scan l key l.NumKeys 0 with
      | none => none
      | some i =>
        if i = l.NumKeys then some (.error .ErrKeyNotFound)
        else
          match l.Pointers[i]? with
          | some (Ptr.record r) => some (.ok r)
          | _ => none

/-! ## Insertion -/

/-- First loop of `insertIntoLeaf`: advance `insertPoint` while
`insertPoint < leaf.NumKeys && leaf.Keys[insertPoint] < key`. -/
def insertIntoLeaf.point (leaf : Node) (key : Int) : Nat → Nat → Option Nat
  | 0, i => some i
  | fuel + 1, i =>
    if i < leaf.NumKeys then
      match leaf.Keys[i]? with
      | none => none
      | some k => if k < key then insertIntoLeaf.point leaf key fuel (i + 1) else some i
    else some i

/-- The loop `for i := start; i > insertPoint; i-- { xs[i] = xs[i-1] }`. -/
def shiftRight {α : Type} (xs : List α) (insertPoint : Nat) : Nat → Option (List α)
  | 0 => some xs
  | i + 1 =>
    if i + 1 > insertPoint then
      match xs[i]? with
      | none => none
      | some v =>
        match wr xs (i + 1) v with
        | none => none
        | some xs1 => shiftRight xs1 insertPoint i
    else some xs

/-- `insertIntoLeaf` on the leaf at address `leaf`. -/
def insertIntoLeaf (nodes : List Node) (leaf : Nat) (key : Int) (r : Nat) :
    Option (List Node) :=
  andThen nodes[leaf]? fun l =>
  andThen (insertIntoLeaf.point l key l.NumKeys 0) fun insertPoint =>
  andThen (shiftRight l.Keys insertPoint l.NumKeys) fun keys =>
  andThen (shiftRight l.Pointers insertPoint l.NumKeys) fun ptrs =>
  andThen (wr keys insertPoint key) fun keys =>
  andThen (wr ptrs insertPoint (Ptr.record r)) fun ptrs =>
  setNode nodes leaf { l with Keys := keys, Pointers := ptrs, NumKeys := l.NumKeys + 1 }

/-- First loop of `insertIntoLeafAfterSplitting`: advance `insertPoint` while
`insertPoint < order-1 && leaf.Keys[insertPoint] < key`. -/
def insertIntoLeafAfterSplitting.point (leaf : Node) (key : Int) : Nat → Nat → Option Nat
  | 0, i => some i
  | fuel + 1, i =>
    if i < order - 1 then
      match leaf.Keys[i]? with
      | none => none
      | some k =>
        if k < key then insertIntoLeafAfterSplitting.point leaf key fuel (i + 1) else some i
    else some i

/-- The copy loops of the two splitting functions: for `i` from `i` up to
`num-1`, skip slot `skip` of the temporary and store `src[i]` in the next slot
`j` of the temporary `tmp`. -/
def copySkip {α : Type} (src : List α) (num skip : Nat) :
    Nat → Nat → Nat → List α → Option (List α)
  | 0, _, _, tmp => some tmp
  | fuel + 1, i, j, tmp =>
    if i < num then
      let j1 := if j = skip then j + 1 else j
      match src[i]? with
      | none => none
      | some v =>
        match wr tmp j1 v with
        | none => none
        | some tmp1 => copySkip src num skip fuel (i + 1) (j1 + 1) tmp1
    else some tmp

/-- The loops that move `tmp[lo .. hi-1]` to `dst[j ..]`, one slot at a
time. -/
def copyRange {α : Type} (tmp : List α) (hi : Nat) :
    Nat → Nat → Nat → List α → Option (List α)
  | 0, _, _, dst => some dst
  | fuel + 1, k, j, dst =>
    if k < hi then
      match tmp[k]? with
      | none => none
      | some v =>
        match wr dst j v with
        | none => none
        | some dst1 => copyRange tmp hi fuel (k + 1) (j + 1) dst1
    else some dst

/-- The loop `for i = from; i < order; i++ { xs[i] = nil }`. -/
def clearFrom (xs : List Ptr) : Nat → Nat → Option (List Ptr)
  | 0, _ => some xs
  | fuel + 1, i =>
    if i < order then
      match wr xs i Ptr.nil with
      | none => none
      | some xs1 => clearFrom xs1 fuel (i + 1)
    else some xs

/-- `getNodeIndex`: first `i < parent.NumKeys` with `parent.Pointers[i] == node`,
or `parent.NumKeys`. -/
def getNodeIndex (parent : Node) (node : Nat) : Nat → Nat → Option Nat
  | 0, i => some i
  | fuel + 1, i =>
    if i < parent.NumKeys then
      match parent.Pointers[i]? with
      | none => none
      | some p => if p ≠ Ptr.node node then getNodeIndex parent node fuel (i + 1) else some i
    else some i

/-- `insertIntoNode` on the node at address `parent`. -/
def insertIntoNode (nodes : List Node) (parent : Nat) (rightIndex : Nat) (key : Int)
    (right : Nat) : Option (List Node) :=
  andThen nodes[parent]? fun p =>
  andThen (shiftRight p.Pointers rightIndex p.NumKeys) fun ptrs =>
  andThen (shiftRight p.Keys rightIndex p.NumKeys) fun keys =>
  andThen (wr ptrs rightIndex (Ptr.node right)) fun ptrs =>
  andThen (wr keys rightIndex key) fun keys =>
  setNode nodes parent { p with Pointers := ptrs, Keys := keys, NumKeys := p.NumKeys + 1 }

/-- `Tree.insertIntoNewRoot`. -/
def Tree.insertIntoNewRoot (t : Tree) (left right : Nat) : Option Tree :=
  let root := t.nodes.length
  let nodes := t.nodes ++ [makeNode]
  andThen nodes[left]? fun l =>
  andThen nodes[right]? fun r =>
  andThen nodes[root]? fun rt =>
  andThen (lastKey l) fun kl =>
  andThen (wr rt.Keys 0 kl) fun keys =>
  andThen (lastKey r) fun kr =>
  andThen (wr keys 1 kr) fun keys =>
  andThen (wr rt.Pointers 0 (Ptr.node left)) fun ptrs =>
  andThen (wr ptrs 1 (Ptr.node right)) fun ptrs =>
  andThen (setNode nodes root
    { rt with Keys := keys, Pointers := ptrs, NumKeys := 2, Parent := none }) fun nodes =>
  andThen nodes[left]? fun l =>
  andThen (setNode nodes left { l with Parent := some root }) fun nodes =>
  andThen nodes[right]? fun r =>
  andThen (setNode nodes right { r with Parent := some root }) fun nodes =>
  some { t with Root := some root, nodes := nodes }

/-- The loop of `insertIntoNodeAfterSplitting` that makes the new node the
parent of each of its children: `newNode.Pointers[i].(*Node).Parent = newNode`. -/
def setParents (newNode : Nat) : Nat → Nat → List Node → Option (List Node)
  | 0, _, nodes => some nodes
  | fuel + 1, i, nodes =>
    match nodes[newNode]? with
    | none => none
    | some nn =>
      if i < nn.NumKeys then
        match nn.Pointers[i]? with
        | some (Ptr.node c) =>
          match nodes[c]? with
          | none => none
          | some ch =>
            match setNode nodes c { ch with Parent := some newNode } with
            | none => none
            | some nodes1 => setParents newNode fuel (i + 1) nodes1
        | _ => none
      else some nodes

/-- The part of `insertIntoNodeAfterSplitting` before its final call of
`insertIntoParent`: it splits `oldNode` and returns the tree, the key and the
address of the new node to hand to `insertIntoParent`. -/
def Tree.splitNode (t : Tree) (oldNode : Nat) (rightIndex : Nat) (key : Int)
    (right : Nat) : Option (Tree × Int × Nat) :=
  andThen t.nodes[oldNode]? fun o =>
  andThen (copySkip o.Pointers o.NumKeys rightIndex o.NumKeys 0 0
    (List.replicate order Ptr.nil)) fun values =>
  andThen (copySkip o.Keys o.NumKeys rightIndex o.NumKeys 0 0
    (List.replicate order 0)) fun keys =>
  andThen (wr values rightIndex (Ptr.node right)) fun values =>
  andThen (wr keys rightIndex key) fun keys =>
  let newNode := t.nodes.length
  let split := cut order
  andThen (copyRange values split split 0 0 o.Pointers) fun optrs =>
  andThen (copyRange keys split split 0 0 o.Keys) fun okeys =>
  andThen (copyRange values order (order - split) split 0 makeNode.Pointers) fun nptrs =>
  andThen (copyRange keys order (order - split) split 0 makeNode.Keys) fun nkeys =>
  let nn : Node :=
    { makeNode with Pointers := nptrs, Keys := nkeys, NumKeys := order - split,
                    Parent := o.Parent }
  andThen (setNode t.nodes oldNode
    { o with Pointers := optrs, Keys := okeys, NumKeys := split }) fun nodes =>
  andThen (setParents newNode nn.NumKeys 0 (nodes ++ [nn])) fun nodes =>
  andThen nodes[newNode]? fun nn =>
  andThen (lastKey nn) fun k =>
  some ({ t with nodes := nodes }, k, newNode)

/-- `Tree.insertIntoParent`, with `insertIntoNodeAfterSplitting` (which calls
it back) unfolded through `Tree.splitNode`.  The fuel bounds the number of
levels climbed. -/
def Tree.insertIntoParent : Nat → Tree → Nat → Int → Nat → Option Tree
  | 0, _, _, _, _ => none
  | fuel + 1, t, left, key, right =>
    match t.nodes[left]? with
    | none => none
    | some l =>
      match l.Parent with
      | none => t.insertIntoNewRoot left right
      | some parent =>
        match t.nodes[parent]? with
        | none => none
        | some p =>
          match getNodeIndex p left p.NumKeys 0 with
          | none => none
          | some leftIndex =>
            match lastKey l with
            | none => none
            | some kl =>
              match wr p.Keys leftIndex kl with
              | none => none
              | some pkeys =>
                let p1 : Node := { p with Keys := pkeys }
                match setNode t.nodes parent p1 with
                | none => none
                | some nodes =>
                  if p1.NumKeys < order - 1 then
                    match insertIntoNode nodes parent (leftIndex + 1) key right with
                    | none => none
                    | some nodes1 => some { t with nodes := nodes1 }
                  else
                    match Tree.splitNode { t with nodes := nodes } parent (leftIndex + 1)
                        key right with
                    | none => none
                    | some (t1, k1, newNode) => Tree.insertIntoParent fuel t1 parent k1 newNode

/-- `Tree.insertIntoNodeAfterSplitting`. -/
def Tree.insertIntoNodeAfterSplitting (fuel : Nat) (t : Tree) (oldNode : Nat)
    (rightIndex : Nat) (key : Int) (right : Nat) : Option Tree :=
  match t.splitNode oldNode rightIndex key right with
  | none => none
  | some (t1, k1, newNode) => Tree.insertIntoParent fuel t1 oldNode k1 newNode

/-- The part of `insertIntoLeafAfterSplitting` before its final call of
`insertIntoParent`: it splits the leaf at address `leaf` and returns the heap,
in which the new leaf has the address `nodes.length`, and the key to hand to
`insertIntoParent`. -/
def insertIntoLeafAfterSplitting.split (nodes : List Node) (leaf : Nat) (key : Int) (r : Nat) :
    Option (List Node × Int) :=
  andThen nodes[leaf]? fun l =>
  let nl := nodes.length
  andThen (insertIntoLeafAfterSplitting.point l key (order - 1) 0) fun insertPoint =>
  andThen (copySkip l.Keys l.NumKeys insertPoint l.NumKeys 0 0
    (List.replicate (order + 1) 0)) fun keys =>
  andThen (copySkip l.Pointers l.NumKeys insertPoint l.NumKeys 0 0
    (List.replicate (order + 1) Ptr.nil)) fun vals =>
  andThen (wr keys insertPoint key) fun keys =>
  andThen (wr vals insertPoint (Ptr.record r)) fun vals =>
  let split := cut (order - 1)
  andThen (copyRange vals split split 0 0 l.Pointers) fun lptrs =>
  andThen (copyRange keys split split 0 0 l.Keys) fun lkeys =>
  andThen (copyRange vals order (order - split) split 0 makeLeaf.Pointers) fun nptrs =>
  andThen (copyRange keys order (order - split) split 0 makeLeaf.Keys) fun nkeys =>
  andThen lptrs[order]? fun next =>
  andThen (wr nptrs order next) fun nptrs =>
  andThen (wr lptrs order (Ptr.node nl)) fun lptrs =>
  andThen (clearFrom lptrs (order - split) split) fun lptrs =>
  andThen (clearFrom nptrs split (order - split)) fun nptrs =>
  let nn : Node :=
    { makeLeaf with Pointers := nptrs, Keys := nkeys, NumKeys := order - split,
                    Parent := l.Parent }
  andThen (setNode nodes leaf
    { l with Pointers := lptrs, Keys := lkeys, NumKeys := split }) fun nodes =>
  andThen (lastKey nn) fun k =>
  some (nodes ++ [nn], k)

/-- `Tree.insertIntoLeafAfterSplitting`. -/
def Tree.insertIntoLeafAfterSplitting (t : Tree) (leaf : Nat) (key : Int) (r : Nat) :
    Option Tree :=
  andThen (insertIntoLeafAfterSplitting.split t.nodes leaf key r) fun sp =>
  Tree.insertIntoParent (sp.1.length + 1) { t with nodes := sp.1 } leaf sp.2 t.nodes.length

/-- `Tree.createNewTree`. -/
def Tree.createNewTree (t : Tree) (key : Int) (r : Nat) : Option Tree :=
  let root := t.nodes.length
  andThen (wr makeLeaf.Keys 0 key) fun keys =>
  andThen (wr makeLeaf.Pointers 0 (Ptr.record r)) fun ptrs =>
  some { t with Root := some root
                nodes := t.nodes ++ [{ makeLeaf with Keys := keys, Pointers := ptrs, NumKeys := 1 }] }

/-- `Tree.Insert` of the record at address `record` of the record heap
`recs`. -/
def Tree.Insert (t : Tree) (recs : List Record) (record : Nat) :
    Option (Tree × Option Error) :=
  match recs[record]? with
  | none => none
  | some rc =>
    let key := rc.Key
    match t.Find key with
    | none => none
    | some (.ok _) => some (t, some .ErrKeyExists)
    | some (.error _) =>
      match t.Root with
      | none => (t.createNewTree key record).map fun t1 => (t1, none)
      | some _ =>
        match t.findLeaf key with
        | some (some leaf) =>
          match t.nodes[leaf]? with
          | none => none
          | some l =>
            if l.NumKeys < order - 1 then
              (insertIntoLeaf t.nodes leaf key record).map fun nodes =>
                ({ t with nodes := nodes }, none)
            else
              (t.insertIntoLeafAfterSplitting leaf key record).map fun t1 => (t1, none)
        | _ => none

/-! ## The undo inspector (`inspector.go`) -/

/-- The struct `sharedData` of the `UndoInspector`: `upData` maps a transaction
id to its map from record id to captured record, `delData` maps a record id to
the captured record.  Captured records are fresh `Record` objects that nothing
else points to, so they are stored by value. -/
structure sharedData where
  upData : List (Int × List (Int × Record)) := []
  delData : List (Int × Record) := []
  deriving Repr

/-- Read `m[k]` of a Go map. -/
def mapGet {κ ν : Type} [DecidableEq κ] (m : List (κ × ν)) (k : κ) : Option ν :=
  match m with
  | [] => none
  | (k1, v) :: rest => if k1 = k then some v else mapGet rest k

/-- The assignment `m[k] = v` of a Go map. -/
def mapSet {κ ν : Type} [DecidableEq κ] (m : List (κ × ν)) (k : κ) (v : ν) : List (κ × ν) :=
  match m with
  | [] => [(k, v)]
  | (k1, v1) :: rest => if k1 = k then (k, v) :: rest else (k1, v1) :: mapSet rest k v

/-- The statement `delete(m, k)` of a Go map. -/
def mapDel {κ ν : Type} [DecidableEq κ] (m : List (κ × ν)) (k : κ) : List (κ × ν) :=
  match m with
  | [] => []
  | (k1, v1) :: rest => if k1 = k then mapDel rest k else (k1, v1) :: mapDel rest k

/-- `NewUndoInspector`. -/
def NewUndoInspector : sharedData := {}

/-- `UndoInspector.HandleDataBeforeUpdate`. -/
def HandleDataBeforeUpdate (ui : sharedData) (oldRecord : Record)
    (newRecordMeta : Option RecordMeta) : sharedData :=
  match newRecordMeta with
  | none => ui
  | some m =>
    let txRecords := (mapGet ui.upData m.LastTxID).getD []
    let copy : Record := { Key := oldRecord.Key, Value := oldRecord.Value }
    { ui with upData := mapSet ui.upData m.LastTxID (mapSet txRecords oldRecord.Key copy) }

/-- `UndoInspector.HandleDataBeforeDelete`. -/
def HandleDataBeforeDelete (ui : sharedData) (record : Record) : sharedData :=
  let copy : Record := { Key := record.Key, Value := record.Value }
  { ui with delData := mapSet ui.delData record.Key copy }

/-- `UndoInspector.GetRecordBeforeUpdate`. -/
def GetRecordBeforeUpdate (ui : sharedData) (txID recordID : Int) :
    sharedData × Except Error Record :=
  match mapGet ui.upData txID with
  | none => (ui, .error .ErrNoSuchRecordInUndoInspector)
  | some txRecords =>
    match mapGet txRecords recordID with
    | none => (ui, .error .ErrNoSuchRecordInUndoInspector)
    | some record =>
      let txRecords1 := mapDel txRecords recordID
      if txRecords1.length = 0 then
        ({ ui with upData := mapDel ui.upData txID }, .ok record)
      else
        ({ ui with upData := mapSet ui.upData txID txRecords1 }, .ok record)

/-- `UndoInspector.GetRecordBeforeDelete`. -/
def GetRecordBeforeDelete (ui : sharedData) (recordID : Int) :
    sharedData × Except Error Record :=
  match mapGet ui.delData recordID with
  | none => (ui, .error .ErrNoSuchRecordInUndoInspector)
  | some record => ({ ui with delData := mapDel ui.delData recordID }, .ok record)

/-! ## Deletion -/

/-- The loop of `removeEntryFromLeaf`: advance `delPoint` while
`n.Keys[delPoint] != key`; running off the slice panics. -/
def removeEntryFromLeaf.point (n : Node) (key : Int) : Nat → Nat → Option Nat
  | 0, _ => none
  | fuel + 1, i =>
    match n.Keys[i]? with
    | none => none
    | some k => if k ≠ key then removeEntryFromLeaf.point n key fuel (i + 1) else some i

/-- The loop `for i := start; i < num; i++ { xs[i-1] = xs[i] }`. -/
def shiftLeft {α : Type} (xs : List α) (num : Nat) : Nat → Nat → Option (List α)
  | 0, _ => some xs
  | fuel + 1, i =>
    if i < num then
      match xs[i]? with
      | none => none
      | some v =>
        match wr xs (i - 1) v with
        | none => none
        | some xs1 => shiftLeft xs1 num fuel (i + 1)
    else some xs

/-- `removeEntryFromLeaf` on a node value: the node after the removal, or
`ErrNoSuchChild`. -/
def removeEntryFromLeaf (n : Node) (key : Int) : Option (Except Error Node) :=
  match removeEntryFromLeaf.point n key (n.Keys.length + 1) 0 with
  | none => none
  | some delPoint =>
    if delPoint ≥ n.NumKeys then some (.error .ErrNoSuchChild)
    else
      match shiftLeft n.Keys n.NumKeys n.NumKeys (delPoint + 1),
            shiftLeft n.Pointers n.NumKeys n.NumKeys (delPoint + 1) with
      | some keys, some ptrs =>
        some (.ok { n with Keys := keys, Pointers := ptrs, NumKeys := n.NumKeys - 1 })
      | _, _ => none

/-- The search loop of `removeEntryFromNode`: first `nodeIndex < n.NumKeys`
whose pointer equals `p`, or `n.NumKeys`.  `reflect.DeepEqual` on two node
pointers is taken as pointer identity. -/
def removeEntryFromNode.point (n : Node) (p : Ptr) : Nat → Nat → Option Nat
  | 0, i => some i
  | fuel + 1, i =>
    if i < n.NumKeys then
      match n.Pointers[i]? with
      | none => none
      | some q => if q = p then some i else removeEntryFromNode.point n p fuel (i + 1)
    else some i

/-- `removeEntryFromNode` on a node value. -/
def removeEntryFromNode (n : Node) (p : Ptr) : Option (Except Error Node) :=
  match removeEntryFromNode.point n p n.NumKeys 0 with
  | none => none
  | some nodeIndex =>
    if nodeIndex ≥ n.NumKeys then some (.error .ErrNoSuchChild)
    else
      match shiftLeft n.Pointers n.NumKeys n.NumKeys (nodeIndex + 1),
            shiftLeft n.Keys n.NumKeys n.NumKeys (nodeIndex + 1) with
      | some ptrs, some keys =>
        some (.ok { n with Keys := keys, Pointers := ptrs, NumKeys := n.NumKeys - 1 })
      | _, _ => none

/-- `Tree.adjustRoot`. -/
def Tree.adjustRoot (t : Tree) : Option Tree :=
  match t.Root with
  | none => none
  | some r =>
    match t.nodes[r]? with
    | none => none
    | some rt => if rt.NumKeys > 0 then some t else some { t with Root := none }

/-- The loop of `getNeighbourIndex` over the parent `p` of the node at address
`n`: first `i <= p.NumKeys` with `p.Pointers[i]` equal to `n` gives `i-1`; if
there is none the loop counter is returned.  `reflect.DeepEqual` on two node
pointers is taken as pointer identity. -/
def getNeighbourIndex.loop (p : Node) (n : Nat) : Nat → Nat → Option Int
  | 0, i => some (i : Int)
  | fuel + 1, i =>
    if i ≤ p.NumKeys then
      match p.Pointers[i]? with
      | none => none
      | some q =>
        if q = Ptr.node n then some ((i : Int) - 1) else getNeighbourIndex.loop p n fuel (i + 1)
    else some (i : Int)

/-- `getNeighbourIndex`. -/
def getNeighbourIndex (nodes : List Node) (n : Nat) : Option Int :=
  andThen nodes[n]? fun nd =>
  andThen nd.Parent fun pa =>
  andThen nodes[pa]? fun p =>
  getNeighbourIndex.loop p n (p.NumKeys + 1) 0

/-- The moving loop of `coalesceNodes`:
`for j = 0; j < n.NumKeys; j++ { neighbour.Keys[i] = n.Keys[j]; ...;
neighbour.NumKeys++; n.NumKeys--; i++ }`.  Both nodes are read from the heap
at every step, as the loop condition reads the shrinking `n.NumKeys`. -/
def coalesceNodes.move (n neighbour : Nat) : Nat → Nat → Nat → List Node → Option (List Node × Nat)
  | 0, _, _, _ => none
  | fuel + 1, j, i, nodes =>
    match nodes[n]? with
    | none => none
    | some nd =>
      if j < nd.NumKeys then
        match nodes[neighbour]?, nd.Keys[j]?, nd.Pointers[j]? with
        | some nb, some k, some p =>
          match wr nb.Keys i k, wr nb.Pointers i p with
          | some keys, some ptrs =>
            match setNode nodes neighbour
                { nb with Keys := keys, Pointers := ptrs, NumKeys := nb.NumKeys + 1 } with
            | none => none
            | some nodes1 =>
              match nodes1[n]? with
              | none => none
              | some nd1 =>
                match setNode nodes1 n { nd1 with NumKeys := nd1.NumKeys - 1 } with
                | none => none
                | some nodes2 => coalesceNodes.move n neighbour fuel (j + 1) (i + 1) nodes2
          | _, _ => none
        | _, _, _ => none
      else some (nodes, i)

/-- The parent-fixing loop of `coalesceNodes` for internal nodes:
`for k := 0; k < neighbour.NumKeys; k++ { neighbour.Pointers[i].(*Node).Parent = neighbour }`
(the index is `i`, not `k`). -/
def coalesceNodes.fix (neighbour i : Nat) : Nat → Nat → List Node → Option (List Node)
  | 0, _, nodes => some nodes
  | fuel + 1, k, nodes =>
    match nodes[neighbour]? with
    | none => none
    | some nb =>
      if k < nb.NumKeys then
        match nb.Pointers[i]? with
        | some (Ptr.node c) =>
          match nodes[c]? with
          | none => none
          | some ch =>
            match setNode nodes c { ch with Parent := some neighbour } with
            | none => none
            | some nodes1 => coalesceNodes.fix neighbour i fuel (k + 1) nodes1
        | _ => none
      else some nodes

/-- The part of `coalesceNodes` before its final call of `deleteEntry`: the
heap after the merge, the parent of `n`, the key and the node to delete from
the parent. -/
def coalesceNodes.merge (nodes : List Node) (n neighbour : Nat) (neighbourIndex : Int)
    (originalNKey : Int) : Option (List Node × Nat × Int × Nat) :=
  let n1 := if neighbourIndex = -1 then neighbour else n
  let neighbour1 := if neighbourIndex = -1 then n else neighbour
  andThen nodes[n1]? fun nd =>
  andThen (if neighbourIndex = -1 then lastKey nd else some originalNKey) fun originalNKey =>
  andThen nodes[neighbour1]? fun nb =>
  andThen (coalesceNodes.move n1 neighbour1 (nd.NumKeys + 1) 0 nb.NumKeys nodes) fun moved =>
  let nodes := moved.1
  let i := moved.2
  andThen nodes[n1]? fun nd =>
  andThen nodes[neighbour1]? fun nb =>
  andThen
    (if nd.IsLeaf then
      andThen nd.Pointers[order]? fun nx =>
      andThen (wr nb.Pointers order nx) fun ptrs =>
      setNode nodes neighbour1 { nb with Pointers := ptrs }
    else coalesceNodes.fix neighbour1 i nb.NumKeys 0 nodes) fun nodes =>
  andThen nodes[n1]? fun nd =>
  andThen nd.Parent fun pa =>
  some (nodes, pa, originalNKey, n1)

/-- The shifting loop of `redistributeNodes`:
`for i = 0; i < n.NumKeys; i++ { xs[i] = xs[i+1] }`. -/
def redistributeNodes.shift {α : Type} (xs : List α) (num : Nat) : Nat → Nat → Option (List α)
  | 0, _ => some xs
  | fuel + 1, i =>
    if i < num then
      match xs[i + 1]? with
      | none => none
      | some v =>
        match wr xs i v with
        | none => none
        | some xs1 => redistributeNodes.shift xs1 num fuel (i + 1)
    else some xs

/-- `Tree.redistributeNodes`.  `n.NumKeys--` is reached only with
`n.NumKeys ≥ 1`: the caller passes `neighbour.NumKeys + node.NumKeys ≥ order`
and the guard lets only a neighbour with fewer than `order-1` keys through. -/
def redistributeNodes (nodes : List Node) (n neighbor : Nat) (neighbourIndex : Int)
    (neighborIndexInParent : Nat) : Option (List Node) :=
  let n1 := if neighbourIndex = -1 then neighbor else n
  let neighbor1 := if neighbourIndex = -1 then n else neighbor
  andThen nodes[neighbor1]? fun nb =>
  if nb.NumKeys ≥ order - 1 then some nodes
  else
    andThen nodes[n1]? fun nd =>
    andThen nd.Keys[0]? fun k0 =>
    andThen nd.Pointers[0]? fun p0 =>
    andThen (wr nb.Keys nb.NumKeys k0) fun keys =>
    andThen (wr nb.Pointers nb.NumKeys p0) fun ptrs =>
    andThen (setNode nodes neighbor1 { nb with Keys := keys, Pointers := ptrs }) fun nodes =>
    andThen nodes[neighbor1]? fun nb =>
    andThen nb.Parent fun pa =>
    andThen nodes[pa]? fun p =>
    andThen nodes[n1]? fun nd =>
    andThen nd.Keys[0]? fun k0 =>
    andThen (wr p.Keys neighborIndexInParent k0) fun pkeys =>
    andThen (setNode nodes pa { p with Keys := pkeys }) fun nodes =>
    andThen nodes[n1]? fun nd =>
    andThen (redistributeNodes.shift nd.Keys nd.NumKeys nd.NumKeys 0) fun keys =>
    andThen (redistributeNodes.shift nd.Pointers nd.NumKeys nd.NumKeys 0) fun ptrs =>
    andThen (setNode nodes n1
      { nd with Keys := keys, Pointers := ptrs, NumKeys := nd.NumKeys - 1 }) fun nodes =>
    andThen nodes[neighbor1]? fun nb =>
    setNode nodes neighbor1 { nb with NumKeys := nb.NumKeys + 1 }

/-- `Tree.deleteEntry`, with `coalesceNodes` (which calls it back) unfolded
through `coalesceNodes.merge`.  The fuel bounds the number of levels
climbed. -/
def Tree.deleteEntry : Nat → Tree → Nat → Int → Ptr → Option (Tree × Option Error)
  | 0, _, _, _, _ => none
  | fuel + 1, t, node, key, p =>
    match t.nodes[node]? with
    | none => none
    | some nd =>
      match lastKey nd with
      | none => none
      | some originNKey =>
        match (if nd.IsLeaf then removeEntryFromLeaf nd key else removeEntryFromNode nd p) with
        | none => none
        | some (.error e) => some (t, some e)
        | some (.ok nd1) =>
          match setNode t.nodes node nd1 with
          | none => none
          | some nodes =>
            let t1 : Tree := { t with nodes := nodes }
            if some node = t1.Root then
              (t1.adjustRoot).map fun t2 => (t2, none)
            else if nd1.NumKeys ≥ cut (order - 1) then some (t1, none)
            else
              match nd1.Parent with
              | none => none
              | some pa =>
                match nodes[pa]? with
                | none => none
                | some par =>
                  if par.NumKeys = 1 then some (t1, none)
                  else
                    match getNeighbourIndex nodes node with
                    | none => none
                    | some neighbourIndex =>
                      if neighbourIndex ≥ (par.NumKeys : Int) then
                        some (t1, some .ErrNoSuchChild)
                      else
                        let slot := if neighbourIndex = -1 then 1 else neighbourIndex.toNat
                        match par.Pointers[slot]? with
                        | some (Ptr.node neighbour) =>
                          match nodes[neighbour]? with
                          | none => none
                          | some nb =>
                            let kPrimeIndex := if neighbourIndex = -1 then 0 else neighbourIndex.toNat
                            if nb.NumKeys + nd1.NumKeys < order then
                              match coalesceNodes.merge nodes node neighbour neighbourIndex
                                  originNKey with
                              | none => none
                              | some (nodes1, pa1, k1, n1) =>
                                Tree.deleteEntry fuel { t1 with nodes := nodes1 } pa1 k1
                                  (Ptr.node n1)
                            else
                              match redistributeNodes nodes node neighbour neighbourIndex
                                  kPrimeIndex with
                              | none => none
                              | some nodes1 => some ({ t1 with nodes := nodes1 }, none)
                        | _ => none

/-- `Tree.coalesceNodes`. -/
def Tree.coalesceNodes (fuel : Nat) (t : Tree) (n neighbour : Nat) (neighbourIndex : Int)
    (originalNKey : Int) : Option (Tree × Option Error) :=
  match coalesceNodes.merge t.nodes n neighbour neighbourIndex originalNKey with
  | none => none
  | some (nodes1, pa1, k1, n1) =>
    Tree.deleteEntry fuel { t with nodes := nodes1 } pa1 k1 (Ptr.node n1)

/-- `Tree.Delete`, threading the record heap and the inspector's data. -/
def Tree.Delete (t : Tree) (recs : List Record) (ui : sharedData) (key : Int) :
    Option (Tree × List Record × sharedData × Option Error) :=
  match t.Find key with
  | none => none
  | some (.error e) => some (t, recs, ui, some e)
  | some (.ok r) =>
    match recs[r]? with
    | none => none
    | some record =>
      if record.deleted then some (t, recs, ui, some .ErrKeyNotFound)
      else
        let ui1 := if t.inspector then HandleDataBeforeDelete ui record else ui
        match t.findLeaf key with
        | none => none
        | some none =>
          (wr recs r { record with deleted := true }).map fun recs1 => (t, recs1, ui1, none)
        | some (some leaf) =>
          match Tree.deleteEntry (t.nodes.length + 1) t leaf key (Ptr.record r) with
          | none => none
          | some (t1, some e) =>
            if e = .ErrNoSuchChild then some (t1, recs, ui1, some .ErrKeyNotFound)
            else some (t1, recs, ui1, some e)
          | some (t1, none) =>
            (wr recs r { record with deleted := true }).map fun recs1 => (t1, recs1, ui1, none)

/-! ## In-place update and scan -/

/-- The update loop of `UpdateRecord` over the entries of `updatedData`:
it returns the new field values and the count `sameValueUpdate`. -/
def UpdateRecord.loop : List (Nat × String) → List String → Nat → Option (List String × Nat)
  | [], value, same => some (value, same)
  | (index, v) :: rest, value, same =>
    match value[index]? with
    | none => none
    | some old =>
      if old = v then UpdateRecord.loop rest value (same + 1)
      else
        match wr value index v with
        | none => none
        | some value1 => UpdateRecord.loop rest value1 same

/-- `Tree.UpdateRecord`.  The argument `ma` is `none` for a nil `metaAlter`
and `some id` for the only `metaAlter` of the package, the closure built in
`idbServer.commit` that writes `id` into `meta.LastTxID` in place and returns
its argument (it panics on a nil `Meta`). -/
def Tree.UpdateRecord (t : Tree) (recs : List Record) (ui : sharedData)
    (updatedData : List (Nat × String)) (key : Int) (ma : Option Int) :
    Option (List Record × sharedData × Option Error) :=
  match t.Find key with
  | none => none
  | some (.error e) => some (recs, ui, some e)
  | some (.ok r) =>
    match recs[r]? with
    | none => none
    | some record =>
      if record.deleted then some (recs, ui, some .ErrKeyNotFound)
      else
        let altered : Option Record :=
          match ma with
          | none => some record
          | some id =>
            match record.Meta with
            | none => none
            | some _ => some { record with Meta := some { LastTxID := id } }
        match altered with
        | none => none
        | some record1 =>
          let nrm : Option RecordMeta := if ma.isSome then record1.Meta else none
          let ui1 := if t.inspector then HandleDataBeforeUpdate ui record1 nrm else ui
          match UpdateRecord.loop updatedData record1.Value 0 with
          | none => none
          | some (value, sameValueUpdate) =>
            match wr recs r { record1 with Value := value } with
            | none => none
            | some recs1 =>
              if sameValueUpdate = updatedData.length then
                some (recs1, ui1, some .ErrUpdateSame)
              else some (recs1, ui1, none)

/-- The descent of `FineByValue` to the leftmost leaf:
`for !n.IsLeaf { n = n.Pointers[0].(*Node) }`. -/
def FineByValue.leftmost (nodes : List Node) : Nat → Nat → Option Nat
  | 0, _ => none
  | fuel + 1, a =>
    match nodes[a]? with
    | none => none
    | some n =>
      if n.IsLeaf then some a
      else
        match n.Pointers[0]? with
        | some (Ptr.node c) => FineByValue.leftmost nodes fuel c
        | _ => none

/-- The inner loop of `FineByValue` over the records of one leaf; the result
lists record addresses. -/
def FineByValue.collect (n : Node) (recs : List Record) (isTarget : Record → Bool) :
    Nat → Nat → List Nat → Option (List Nat)
  | 0, _, rs => some rs
  | fuel + 1, i, rs =>
    if i < n.NumKeys then
      match n.Pointers[i]? with
      | some (Ptr.record r) =>
        match recs[r]? with
        | none => none
        | some rc =>
          FineByValue.collect n recs isTarget fuel (i + 1) (if isTarget rc then rs ++ [r] else rs)
      | _ => none
    else some rs

/-- The outer loop of `FineByValue`: after each leaf it follows
`n.Pointers[order-1]` and stops when that slot is nil or is not a node. -/
def FineByValue.walk (nodes : List Node) (recs : List Record) (isTarget : Record → Bool) :
    Nat → Nat → List Nat → Option (List Nat)
  | 0, _, _ => none
  | fuel + 1, a, rs =>
    match nodes[a]? with
    | none => none
    | some n =>
      match FineByValue.collect n recs isTarget n.NumKeys 0 rs with
      | none => none
      | some rs1 =>
        match n.Pointers[order - 1]? with
        | none => none
        | some (Ptr.node c) => FineByValue.walk nodes recs isTarget fuel c rs1
        | some _ => some rs1

/-- `Tree.FineByValue`: the addresses of the matching records, or
`ErrValueNotFound`. -/
def Tree.FineByValue (t : Tree) (recs : List Record) (isTarget : Record → Bool) :
    Option (Except Error (List Nat)) :=
  match t.Root with
  | none => some (.error .ErrValueNotFound)
  | some root =>
    match FineByValue.leftmost t.nodes (t.nodes.length + 1) root with
    | none => none
    | some leaf =>
      match FineByValue.walk t.nodes recs isTarget (t.nodes.length + 1) leaf [] with
      | none => none
      | some rs => if rs.length = 0 then some (.error .ErrValueNotFound) else some (.ok rs)

/-! ## The undo log (`undo_log.go`) -/

/-- The type `opType` of `transaction.go`. -/
inductive opType where
  | INVALID
  | UPDATE
  | INSERT
  | DELETE
  deriving DecidableEq, Repr

/-- A Go `map[int]bool`. -/
abbrev TxSet := List (Int × Bool)

/-- The expression `m[k]` on a `map[int]bool`: `false` for an absent key. -/
def TxSet.has (m : TxSet) (k : Int) : Bool := (mapGet m k).getD false

/-- The struct `UndoRecord`.  Its `record` is never nil in a log
(`convRecordCacheSliceToMap` dereferences it) and is a private copy, so it is
stored by value. -/
structure UndoRecord where
  record : Record
  op : opType := opType.INVALID
  deriving Repr

/-- The struct `UndoLogItem`.  `mayAffectedTxIDs` is the address, in the heap
of maps, of the map that `Append` was given: the item keeps the caller's map,
it does not copy it. -/
structure UndoLogItem where
  commitTxID : Int
  records : List (Int × UndoRecord)
  mayAffectedTxIDs : Nat
  id : Nat
  deriving Repr

/-- The struct `undoRecord`: three parallel slices. -/
structure undoRecord where
  records : List UndoRecord
  id : List Nat
  commitTxIDs : List Int
  deriving Repr

/-- The struct `UndoLog`. -/
structure UndoLog where
  items : List UndoLogItem := []
  idCounter : Nat := 0
  recordsCache : List (Int × undoRecord) := []
  affectTxItems : List (Int × List UndoLogItem) := []
  deriving Repr

/-- `NewUndoLog`. -/
def NewUndoLog : UndoLog := {}

/-- `convRecordCacheSliceToMap`. -/
def convRecordCacheSliceToMap (records : List UndoRecord) : List (Int × UndoRecord) :=
  records.foldl (fun rcm record => mapSet rcm record.record.Key record) []

/-- `transferToRecord`: `none` is the nil record. -/
def transferToRecord (rc : UndoRecord) : Option Record :=
  match rc.op with
  | opType.DELETE => none
  | _ => some rc.record

/-- The inner loop of `removeItem` over one `undoRecord`: every position `i`
with `rc.id[i] == item.id` is cut out of the three slices. -/
def removeItem.prune (itemID : Nat) : Nat → Nat → undoRecord → Option undoRecord
  | 0, _, rc => some rc
  | fuel + 1, i, rc =>
    if i < rc.id.length then
      match rc.id[i]? with
      | none => none
      | some x =>
        if x = itemID then
          if i + 1 ≤ rc.records.length ∧ i + 1 ≤ rc.commitTxIDs.length then
            removeItem.prune itemID fuel i
              { id := rc.id.eraseIdx i, records := rc.records.eraseIdx i,
                commitTxIDs := rc.commitTxIDs.eraseIdx i }
          else none
        else removeItem.prune itemID fuel (i + 1) rc
    else some rc

/-- The first loop of `removeItem`, over the record ids of the item. -/
def removeItem.records (itemID : Nat) :
    List Int → List (Int × undoRecord) → Option (List (Int × undoRecord))
  | [], cache => some cache
  | rid :: rest, cache =>
    match mapGet cache rid with
    | none => removeItem.records itemID rest cache
    | some rc =>
      match removeItem.prune itemID rc.id.length 0 rc with
      | none => none
      | some rc1 =>
        if rc1.id.length = 0 then removeItem.records itemID rest (mapDel cache rid)
        else removeItem.records itemID rest (mapSet cache rid rc1)

/-- The second loop of `removeItem`: first position of `l.items` whose id is
the item's, or `len(l.items)`. -/
def removeItem.index (itemID : Nat) : List UndoLogItem → Nat → Nat
  | [], i => i
  | it :: rest, i => if itemID = it.id then i else removeItem.index itemID rest (i + 1)

/-- `UndoLog.removeItem`.  The last statement slices `l.items[i+1:]`, which
panics when no item of the list has the id. -/
def UndoLog.removeItem (l : UndoLog) (item : UndoLogItem) : Option UndoLog :=
  match removeItem.records item.id (item.records.map Prod.fst) l.recordsCache with
  | none => none
  | some cache =>
    let i := removeItem.index item.id l.items 0
    if i + 1 ≤ l.items.length then
      some { l with recordsCache := cache, items := l.items.eraseIdx i }
    else none

/-- The first loop of `Append`, over the items that list `txID`: the id is
deleted from the map of each item and an item whose map became empty is
removed. -/
def Append.release (txID : Int) :
    List UndoLogItem → List TxSet → UndoLog → Option (List TxSet × UndoLog)
  | [], maps, l => some (maps, l)
  | logItem :: rest, maps, l =>
    match maps[logItem.mayAffectedTxIDs]? with
    | none => none
    | some m =>
      let m1 := mapDel m txID
      match wr maps logItem.mayAffectedTxIDs m1 with
      | none => none
      | some maps1 =>
        if m1.length = 0 then
          match l.removeItem logItem with
          | none => none
          | some l1 => Append.release txID rest maps1 l1
        else Append.release txID rest maps1 l

/-- The loop of `Append` that files the new item under every id of
`mayAffectedTxIDs`. -/
def Append.register (item : UndoLogItem) :
    List Int → List (Int × List UndoLogItem) → List (Int × List UndoLogItem)
  | [], affect => affect
  | tid :: rest, affect =>
    match mapGet affect tid with
    | none => Append.register item rest (mapSet affect tid [item])
    | some its => Append.register item rest (mapSet affect tid (its ++ [item]))

/-- The last loop of `Append`, which extends the history of every record of
the new item. -/
def Append.cache (id : Nat) (txID : Int) :
    List (Int × UndoRecord) → List (Int × undoRecord) → List (Int × undoRecord)
  | [], cache => cache
  | (recordIndex, recordCache) :: rest, cache =>
    match mapGet cache recordIndex with
    | none =>
      Append.cache id txID rest
        (mapSet cache recordIndex
          { records := [recordCache], id := [id], commitTxIDs := [txID] })
    | some rc =>
      Append.cache id txID rest
        (mapSet cache recordIndex
          { records := rc.records ++ [recordCache], id := rc.id ++ [id],
            commitTxIDs := rc.commitTxIDs ++ [txID] })

/-- `UndoLog.Append`.  `mayAffectedTxIDs` is `none` for a nil map and the
address of the caller's map otherwise; `maps` is the heap of maps. -/
def UndoLog.Append (l : UndoLog) (maps : List TxSet) (txID : Int)
    (mayAffectedTxIDs : Option Nat) (undoRecords : List UndoRecord) :
    Option (List TxSet × UndoLog) :=
  let released : Option (List TxSet × UndoLog) :=
    match mapGet l.affectTxItems txID with
    | none => some (maps, l)
    | some logItems =>
      match Append.release txID logItems maps l with
      | none => none
      | some (maps1, l1) => some (maps1, { l1 with affectTxItems := mapDel l1.affectTxItems txID })
  match released with
  | none => none
  | some (maps1, l1) =>
    match mayAffectedTxIDs with
    | none => some (maps1, l1)
    | some a =>
      match maps1[a]? with
      | none => none
      | some m =>
        if m.length = 0 then some (maps1, l1)
        else
          let id := l1.idCounter
          let item : UndoLogItem :=
            { commitTxID := txID, records := convRecordCacheSliceToMap undoRecords,
              mayAffectedTxIDs := a, id := id }
          some (maps1,
            { items := l1.items ++ [item]
              idCounter := l1.idCounter + 1
              recordsCache := Append.cache id txID item.records l1.recordsCache
              affectTxItems := Append.register item (m.map Prod.fst) l1.affectTxItems })

/-- The loop of `UndoLog.Find` over `rcs.commitTxIDs`. -/
def UndoLog.Find.scan (activeTxIDs : TxSet) (records : List UndoRecord) :
    List Int → Nat → Option (Except Error (Option Record))
  | [], _ => some (.error .ErrRecordNotCommit)
  | txID :: rest, i =>
    if activeTxIDs.has txID then
      match records[i]? with
      | none => none
      | some rc => some (.ok (transferToRecord rc))
    else UndoLog.Find.scan activeTxIDs records rest (i + 1)

/-- `UndoLog.Find`: `.ok none` is the result `(nil, nil)`. -/
def UndoLog.Find (l : UndoLog) (activeTxIDs : TxSet) (recordID : Int) :
    Option (Except Error (Option Record)) :=
  match mapGet l.recordsCache recordID with
  | none => some (.error .ErrRecordNotCommit)
  | some rcs => UndoLog.Find.scan activeTxIDs rcs.records rcs.commitTxIDs 0

/-- `UndoLog.IsEmpty`. -/
def UndoLog.IsEmpty (l : UndoLog) : Bool := l.items.length = 0

/-! ## Tables, transactions and the world state -/

/-- The type `fieldType` of `storage.go`; `other` stands for any value that
is neither `INT` nor `STRING`. -/
inductive fieldType where
  | INT
  | STRING
  | other
  deriving DecidableEq, Repr

/-- A Go `interface{}` value handed to the storage layer: nil, a string, an
int, or a value of another type. -/
inductive Value where
  | nil
  | str (s : String)
  | int (i : Int)
  | other
  deriving DecidableEq, Repr

/-- The struct `FieldMeta`. -/
structure FieldMeta where
  name : String
  isPrimaryKey : Bool := false
  tp : fieldType := fieldType.INT
  required : Bool := false
  deriving DecidableEq, Repr

/-- The struct `tableMeta`. -/
structure tableMeta where
  idCount : Int := 0
  fields : List FieldMeta := []
  deriving Repr

/-- The struct `table`. -/
structure table where
  meta : tableMeta
  data : Tree
  deriving Repr

/-- The payload `opChange` of an `OpRecord`: a `*DeleteOpChange`, an
`*InsertOpChange` or an `*UpdateOpChange`.  The record of an insert is only
referenced from the write set until commit, and the memoized record of an
update is a private copy, so both are stored by value. -/
inductive OpChange where
  | DeleteOpChange (id : Int)
  | InsertOpChange (record : Record)
  | UpdateOpChange (change : List (Nat × String)) (record : Option Record)
  deriving Repr

/-- The struct `OpRecord`. -/
structure OpRecord where
  op : opType
  opChange : OpChange
  LastTxID : Int := 0
  deriving Repr

/-- The struct `txCache`; `t` is the address of the table in the heap of
tables. -/
structure txCache where
  t : Nat
  cache : List (Int × OpRecord) := []
  deriving Repr

/-- The struct `readView`; `activeTxIDs` is the transaction's own copy. -/
structure readView where
  activeTxIDs : TxSet
  minActiveID : Int
  nextTxID : Int
  deriving Repr

/-- The struct `Tx`.  Its `executor` and `mgr` are the server and the manager
of the world. -/
structure Tx where
  id : Int
  cache : List (String × txCache) := []
  rv : readView
  deriving Repr

/-- The struct `TxMgrImpl`.  `activeTxIDs` is the address of the live map in
the heap of maps; `undoCollector` tells whether the collector is the
`UndoInspector` (otherwise it is nil). -/
structure TxMgrImpl where
  txIDCounter : Int := 0
  activeTxIDs : Nat
  undoLogs : List (String × UndoLog) := []
  undoCollector : Bool := false
  deriving Repr

/-- The whole state: the `idbServer` (`tables` is `DB.tables`, `inspector` is
`config.options.inspector`), the heaps of tables, records and maps, the data
of the `UndoInspector` and the transaction manager. -/
structure World where
  tables : List (String × Nat) := []
  tableHeap : List table := []
  inspector : Bool := false
  recs : List Record := []
  maps : List TxSet := []
  ui : sharedData := {}
  tm : TxMgrImpl := { activeTxIDs := 0 }
  deriving Repr

/-- `InvalidLastTxID` of `storage.go`. -/
def InvalidLastTxID : Int := 0

/-- `InvalidTxID = math.MaxInt` of `transaction.go` (64-bit `int`). -/
def InvalidTxID : Int := 9223372036854775807

/-- `minInt`. -/
def minInt (a b : Int) : Int := if a < b then a else b

/-- `copyMap`. -/
def copyMap (m : TxSet) : TxSet :=
  m.foldl (fun r kb => mapSet r kb.1 kb.2) []

/-- `NewIDBServer` followed by `WithOptions` setting the inspector (or not),
and `NewTxMgr(server, collector)`: a fresh world.  The manager's empty live
map is allocated at address `0`. -/
def NewWorld (inspector collector : Bool) : World :=
  { inspector := inspector
    maps := [[]]
    tm := { activeTxIDs := 0, undoCollector := collector } }

/-- `idbServer.createDataTree`. -/
def World.createDataTree (w : World) : Tree := NewTree.WithInspector w.inspector

/-- `idbServer.CreateTable`. -/
def World.CreateTable (w : World) (tableName : String) (fieldMetas : List FieldMeta) : World :=
  let t : table := { meta := { idCount := 0, fields := fieldMetas }, data := w.createDataTree }
  { w with tables := mapSet w.tables tableName w.tableHeap.length
           tableHeap := w.tableHeap ++ [t] }

/-- `convertValueToString`. -/
def convertValueToString (ft : fieldType) (v : Value) : Except Error String :=
  match v with
  | Value.nil => .ok ""
  | _ =>
    match ft with
    | fieldType.STRING =>
      match v with
      | Value.str r => .ok r
      | _ => .error .ErrMismatchFieldType
    | fieldType.INT =>
      match v with
      | Value.int r => .ok (toString r)
      | _ => .error .ErrMismatchFieldType
    | fieldType.other => .error .ErrUnsupportedFieldType

/-- The inner scan of `convValuesToBPlusData` and `SelectByFields`: from
`startIndex` on, cache the index of every field name passed and stop at the
field called `key`.  It returns the cache and the final `startIndex`. -/
def convValuesToBPlusData.scan (fields : List FieldMeta) (key : String) :
    Nat → Nat → List (String × Nat) → List (String × Nat) × Nat
  | 0, startIndex, cache => (cache, startIndex)
  | fuel + 1, startIndex, cache =>
    match fields[startIndex]? with
    | none => (cache, startIndex)
    | some f =>
      let cache1 := mapSet cache f.name startIndex
      if f.name = key then (cache1, startIndex)
      else convValuesToBPlusData.scan fields key fuel (startIndex + 1) cache1

/-- The loop of `convValuesToBPlusData` over the entries of `values`. -/
def convValuesToBPlusData.loop (fields : List FieldMeta) :
    List (String × Value) → Nat → List (String × Nat) → List (Nat × String) →
    Option (Except Error (List (Nat × String)))
  | [], _, _, data => some (.ok data)
  | (key, value) :: rest, startIndex, cache, data =>
    let found : Except Error (Nat × Nat × List (String × Nat)) :=
      match mapGet cache key with
      | some i => .ok (i, startIndex, cache)
      | none =>
        let r := convValuesToBPlusData.scan fields key (fields.length + 1) startIndex cache
        if r.2 ≥ fields.length then .error .ErrFieldNotExist else .ok (r.2, r.2, r.1)
    match found with
    | .error e => some (.error e)
    | .ok (i, startIndex1, cache1) =>
      match fields[i]? with
      | none => none
      | some f =>
        match convertValueToString f.tp value with
        | .error e => some (.error e)
        | .ok v => convValuesToBPlusData.loop fields rest startIndex1 cache1 (mapSet data i v)

/-- `convValuesToBPlusData`. -/
def convValuesToBPlusData (t : table) (values : List (String × Value)) :
    Option (Except Error (List (Nat × String))) :=
  convValuesToBPlusData.loop t.meta.fields values 0 [] []

/-- The loop of `convDataToStorageData`. -/
def convDataToStorageData.loop : List FieldMeta → List Value → Except Error (List String)
  | f :: fields, d :: data =>
    if d = Value.nil ∧ f.required then .error .ErrFieldRequired
    else
      match convertValueToString f.tp d with
      | .error e => .error e
      | .ok v =>
        match convDataToStorageData.loop fields data with
        | .error e => .error e
        | .ok vs => .ok (v :: vs)
  | _, _ => .ok []

/-- `convDataToStorageData`. -/
def convDataToStorageData (fields : List FieldMeta) (data : List Value) :
    Except Error (List String) :=
  if fields.length ≠ data.length then .error .ErrFieldRequired
  else convDataToStorageData.loop fields data

/-! ## The transaction manager (`transaction.go`) -/

/-- `TxMgrImpl.StartTransaction`. -/
def World.StartTransaction (w : World) : Option (World × Tx) :=
  let id := w.tm.txIDCounter + 1
  match w.maps[w.tm.activeTxIDs]? with
  | none => none
  | some active =>
    let minTxID := active.foldl (fun m kb => minInt m kb.1) InvalidTxID
    let rv : readView :=
      { activeTxIDs := copyMap active, minActiveID := minTxID, nextTxID := id + 1 }
    match wr w.maps w.tm.activeTxIDs (mapSet active id true) with
    | none => none
    | some maps1 =>
      some ({ w with maps := maps1, tm := { w.tm with txIDCounter := id } },
            { id := id, cache := [], rv := rv })

/-- `TxMgrImpl.DeactivateTx`. -/
def World.DeactivateTx (w : World) (tx : Tx) : Option World :=
  match w.maps[w.tm.activeTxIDs]? with
  | none => none
  | some active =>
    (wr w.maps w.tm.activeTxIDs (mapDel active tx.id)).map fun maps1 => { w with maps := maps1 }

/-- `TxMgrImpl.convToUndoRecord`: the loop over the write set of one table.
Calling a method of the nil collector panics. -/
def convToUndoRecord (collector : Bool) (txID : Int) :
    List (Int × OpRecord) → sharedData → List UndoRecord → Option (sharedData × List UndoRecord)
  | [], ui, records => some (ui, records)
  | (rid, opRecord) :: rest, ui, records =>
    match opRecord.op with
    | opType.UPDATE =>
      if collector then
        match GetRecordBeforeUpdate ui txID rid with
        | (ui1, .error _) => convToUndoRecord collector txID rest ui1 records
        | (ui1, .ok r) =>
          convToUndoRecord collector txID rest ui1 (records ++ [{ record := r, op := opType.UPDATE }])
      else none
    | opType.DELETE =>
      if collector then
        match GetRecordBeforeDelete ui rid with
        | (ui1, .error _) => convToUndoRecord collector txID rest ui1 records
        | (ui1, .ok r) =>
          convToUndoRecord collector txID rest ui1 (records ++ [{ record := r, op := opType.INSERT }])
      else none
    | opType.INSERT =>
      convToUndoRecord collector txID rest ui
        (records ++ [{ record := { Key := rid, Value := [] }, op := opType.DELETE }])
    | opType.INVALID => none

/-- The loop of `AfterCommit` over the tables of the write set. -/
def AfterCommit.loop (txID : Int) : List (String × txCache) → World → Option World
  | [], w => some w
  | (tableName, tc) :: rest, w =>
    let log := (mapGet w.tm.undoLogs tableName).getD NewUndoLog
    match convToUndoRecord w.tm.undoCollector txID tc.cache w.ui [] with
    | none => none
    | some (ui1, undoRecords) =>
      match log.Append w.maps txID (some w.tm.activeTxIDs) undoRecords with
      | none => none
      | some (maps1, log1) =>
        AfterCommit.loop txID rest
          { w with ui := ui1, maps := maps1
                   tm := { w.tm with undoLogs := mapSet w.tm.undoLogs tableName log1 } }

/-- `TxMgrImpl.AfterCommit`. -/
def World.AfterCommit (w : World) (tx : Tx) : Option World :=
  match w.DeactivateTx tx with
  | none => none
  | some w1 => AfterCommit.loop tx.id tx.cache w1

/-- The loop of `AfterRollback` over the tables of the write set. -/
def AfterRollback.loop (txID : Int) : List (String × txCache) → World → Option World
  | [], w => some w
  | (tableName, _) :: rest, w =>
    match mapGet w.tm.undoLogs tableName with
    | none => AfterRollback.loop txID rest w
    | some log =>
      if log.IsEmpty then
        AfterRollback.loop txID rest
          { w with tm := { w.tm with undoLogs := mapDel w.tm.undoLogs tableName } }
      else
        match log.Append w.maps txID none [] with
        | none => none
        | some (maps1, log1) =>
          AfterRollback.loop txID rest
            { w with maps := maps1
                     tm := { w.tm with undoLogs := mapSet w.tm.undoLogs tableName log1 } }

/-- `TxMgrImpl.AfterRollback`. -/
def World.AfterRollback (w : World) (tx : Tx) : Option World :=
  match w.DeactivateTx tx with
  | none => none
  | some w1 => AfterRollback.loop tx.id tx.cache w1

/-- `TxMgrImpl.FindRecordInUndoLog`. -/
def World.FindRecordInUndoLog (w : World) (tableName : String) (recordID : Int)
    (activeTxIDs : TxSet) : Option (Except Error (Option Record)) :=
  match mapGet w.tm.undoLogs tableName with
  | none => some (.error .ErrNoSuchATableInTxMgr)
  | some log => log.Find activeTxIDs recordID

/-- `Tx.Rollback`: the write set is replaced by an empty map and only then
does the deferred `AfterRollback` run, on the emptied transaction. -/
def World.Rollback (w : World) (tx : Tx) : Option (World × Tx × Option Error) :=
  let tx1 : Tx := { tx with cache := [] }
  (w.AfterRollback tx1).map fun w1 => (w1, tx1, none)

/-! ## The storage layer (`storage.go`) -/

/-- The table stored under a name in `DB.tables`, with its address. -/
def World.lookupTable (w : World) (tableName : String) : Option (Option (Nat × table)) :=
  match mapGet w.tables tableName with
  | none => some none
  | some a =>
    match w.tableHeap[a]? with
    | none => none
    | some t => some (some (a, t))

/-- `idbServer.SelectByID`: the address of the record. -/
def World.SelectByID (w : World) (tableName : String) (id : Int) :
    Option (Except Error Nat) :=
  match w.lookupTable tableName with
  | none => none
  | some none => some (.error .ErrTableNotExist)
  | some (some (_, t)) => t.data.Find id

/-- The loop of `trySelectFromCache` that lays the buffered changes over a
copy of the field values: `values[i] = v`. -/
def trySelectFromCache.apply : List (Nat × String) → List String → Option (List String)
  | [], values => some values
  | (i, v) :: rest, values =>
    match wr values i v with
    | none => none
    | some values1 => trySelectFromCache.apply rest values1

/-- `idbServer.trySelectFromCache`.  The result `.ok none` is `(nil, nil)`;
a returned record is given by its content.  The transaction comes back with
the memoized record of an update filled in. -/
def World.trySelectFromCache (w : World) (tx : Tx) (tableName : String) (id : Int) :
    Option (Tx × Except Error (Option Record)) :=
  match mapGet tx.cache tableName with
  | none => some (tx, .ok none)
  | some c =>
    match mapGet c.cache id with
    | none => some (tx, .ok none)
    | some opRecord =>
      match opRecord.op with
      | opType.DELETE => some (tx, .error .ErrKeyNotFound)
      | opType.INSERT =>
        match opRecord.opChange with
        | OpChange.InsertOpChange record => some (tx, .ok (some record))
        | _ => none
      | opType.UPDATE =>
        match opRecord.opChange with
        | OpChange.UpdateOpChange _ (some record) => some (tx, .ok (some record))
        | OpChange.UpdateOpChange change none =>
          match w.SelectByID tableName id with
          | none => none
          | some (.error e) => some (tx, .error e)
          | some (.ok a) =>
            match w.recs[a]? with
            | none => none
            | some record =>
              match trySelectFromCache.apply change record.Value with
              | none => none
              | some values =>
                let r : Record := { Key := id, Value := values }
                let opRecord1 : OpRecord :=
                  { opRecord with opChange := OpChange.UpdateOpChange change (some r) }
                let c1 : txCache := { c with cache := mapSet c.cache id opRecord1 }
                some ({ tx with cache := mapSet tx.cache tableName c1 }, .ok (some r))
        | _ => none
      | opType.INVALID => some (tx, .ok none)

/-- `idbServer.SelectByIDTx`; a returned record is given by its content. -/
def World.SelectByIDTx (w : World) (tx : Tx) (tableName : String) (id : Int) :
    Option (Tx × Except Error Record) :=
  match w.trySelectFromCache tx tableName id with
  | none => none
  | some (tx1, .error e) => some (tx1, .error e)
  | some (tx1, .ok (some record)) => some (tx1, .ok record)
  | some (tx1, .ok none) =>
    match w.SelectByID tableName id with
    | none => none
    | some (.error e) =>
      if e ≠ .ErrKeyNotFound then some (tx1, .error e)
      else
        match w.FindRecordInUndoLog tableName id tx1.rv.activeTxIDs with
        | none => none
        | some (.error ferr) =>
          if ferr = .ErrRecordNotCommit then some (tx1, .error .ErrKeyNotFound)
          else some (tx1, .error ferr)
        | some (.ok none) => some (tx1, .error .ErrKeyNotFound)
        | some (.ok (some ur)) => some (tx1, .ok ur)
    | some (.ok a) =>
      match w.recs[a]? with
      | none => none
      | some record =>
        match record.Meta with
        | none => none
        | some m =>
          let lastTxID := m.LastTxID
          let rv := tx1.rv
          if rv.minActiveID = InvalidLastTxID ∨ lastTxID < rv.minActiveID ∨
              (!rv.activeTxIDs.has lastTxID ∧ lastTxID < rv.nextTxID) then
            some (tx1, .ok record)
          else
            match w.FindRecordInUndoLog tableName id tx1.rv.activeTxIDs with
            | none => none
            | some (.error ferr) =>
              if ferr = .ErrRecordNotCommit then some (tx1, .ok record)
              else some (tx1, .error ferr)
            | some (.ok none) => some (tx1, .error .ErrKeyNotFound)
            | some (.ok (some ur)) => some (tx1, .ok ur)

/-- `idbServer.findTableTxCache`: the transaction with the table's write set
present, and that write set. -/
def World.findTableTxCache (w : World) (tx : Tx) (tableName : String) :
    Option (Tx × Except Error txCache) :=
  match mapGet tx.cache tableName with
  | some c => some (tx, .ok c)
  | none =>
    match mapGet w.tables tableName with
    | none => some (tx, .error .ErrTableNotExist)
    | some a =>
      let c : txCache := { t := a, cache := [] }
      some ({ tx with cache := mapSet tx.cache tableName c }, .ok c)

/-- The loops of `wrapOpRecordWhenUpdate` writing `data` into the field
values of a record: `record.Value[i] = v`. -/
def wrapOpRecordWhenUpdate.write : List (Nat × String) → List String → Option (List String)
  | [], values => some values
  | (i, v) :: rest, values =>
    match wr values i v with
    | none => none
    | some values1 => wrapOpRecordWhenUpdate.write rest values1

/-- The loop of `wrapOpRecordWhenUpdate` merging `data` into the buffered
delta: `opChange.change[i] = v`. -/
def wrapOpRecordWhenUpdate.merge : List (Nat × String) → List (Nat × String) → List (Nat × String)
  | [], change => change
  | (i, v) :: rest, change => wrapOpRecordWhenUpdate.merge rest (mapSet change i v)

/-- `wrapOpRecordWhenUpdate`: the op record after the update, or an error. -/
def wrapOpRecordWhenUpdate (t : table) (values : List (String × Value)) (opRecord : OpRecord) :
    Option (Except Error OpRecord) :=
  match convValuesToBPlusData t values with
  | none => none
  | some (.error e) => some (.error e)
  | some (.ok data) =>
    match opRecord.op with
    | opType.INSERT =>
      match opRecord.opChange with
      | OpChange.InsertOpChange record =>
        match wrapOpRecordWhenUpdate.write data record.Value with
        | none => none
        | some value =>
          some (.ok { opRecord with
            opChange := OpChange.InsertOpChange { record with Value := value } })
      | _ => none
    | opType.UPDATE =>
      match opRecord.opChange with
      | OpChange.UpdateOpChange change none =>
        some (.ok { opRecord with
          opChange := OpChange.UpdateOpChange (wrapOpRecordWhenUpdate.merge data change) none })
      | OpChange.UpdateOpChange change (some record) =>
        match wrapOpRecordWhenUpdate.write data record.Value with
        | none => none
        | some value =>
          some (.ok { opRecord with
            opChange := OpChange.UpdateOpChange (wrapOpRecordWhenUpdate.merge data change)
              (some { record with Value := value }) })
      | _ => none
    | _ => some (.error .ErrInvalidOp)

/-- Store an op record in the write set of a table of a transaction. -/
def Tx.setOp (tx : Tx) (tableName : String) (c : txCache) (id : Int) (opRecord : OpRecord) : Tx :=
  { tx with cache := mapSet tx.cache tableName { c with cache := mapSet c.cache id opRecord } }

/-- `idbServer.UpdateByIDTx`. -/
def World.UpdateByIDTx (w : World) (tx : Tx) (tableName : String)
    (values : List (String × Value)) (id : Int) : Option (Tx × Option Error) :=
  match w.findTableTxCache tx tableName with
  | none => none
  | some (tx1, .error e) => some (tx1, some e)
  | some (tx1, .ok c) =>
    match w.tableHeap[c.t]? with
    | none => none
    | some t =>
      let found : Option (Except Error (Tx × OpRecord)) :=
        match mapGet c.cache id with
        | some opRecord =>
          if opRecord.op = opType.DELETE then some (.error .ErrKeyNotFound)
          else some (.ok (tx1, opRecord))
        | none =>
          match t.data.Find id with
          | none => none
          | some (.error e) => some (.error e)
          | some (.ok _) =>
            let opRecord : OpRecord :=
              { opChange := OpChange.UpdateOpChange [] none, op := opType.UPDATE }
            some (.ok (tx1.setOp tableName c id opRecord, opRecord))
      match found with
      | none => none
      | some (.error e) => some (tx1, some e)
      | some (.ok (tx2, opRecord)) =>
        match wrapOpRecordWhenUpdate t values opRecord with
        | none => none
        | some (.error e) => some (tx2, some e)
        | some (.ok opRecord1) =>
          let opRecord2 : OpRecord := { opRecord1 with LastTxID := tx.id }
          match mapGet tx2.cache tableName with
          | none => none
          | some c2 => some (tx2.setOp tableName c2 id opRecord2, none)

/-- `idbServer.InsertTx`.  The id counter of the table advances even when the
data is rejected. -/
def World.InsertTx (w : World) (tx : Tx) (tableName : String) (data : List Value) :
    Option (World × Tx × Option Error) :=
  match w.findTableTxCache tx tableName with
  | none => none
  | some (tx1, .error e) => some (w, tx1, some e)
  | some (tx1, .ok c) =>
    match w.tableHeap[c.t]? with
    | none => none
    | some t =>
      let id := t.meta.idCount + 1
      let t1 : table := { t with meta := { t.meta with idCount := id } }
      match wr w.tableHeap c.t t1 with
      | none => none
      | some heap1 =>
        let w1 : World := { w with tableHeap := heap1 }
        match convDataToStorageData t.meta.fields data with
        | .error e => some (w1, tx1, some e)
        | .ok innerData =>
          let record : Record :=
            { Key := id, Value := innerData, Meta := some { LastTxID := tx.id } }
          let opRecord : OpRecord :=
            { opChange := OpChange.InsertOpChange record, op := opType.INSERT,
              LastTxID := tx.id }
          some (w1, tx1.setOp tableName c id opRecord, none)

/-- `idbServer.DeleteByIDTx`. -/
def World.DeleteByIDTx (w : World) (tx : Tx) (tableName : String) (id : Int) :
    Option (Tx × Option Error) :=
  match w.findTableTxCache tx tableName with
  | none => none
  | some (tx1, .error e) => some (tx1, some e)
  | some (tx1, .ok c) =>
    match w.tableHeap[c.t]? with
    | none => none
    | some t =>
      let cr := mapGet c.cache id
      if (cr.map fun r => r.op) = some opType.DELETE then some (tx1, some .ErrKeyNotFound)
      else if (cr.map fun r => r.op) = some opType.INSERT then
        some ({ tx1 with cache := mapSet tx1.cache tableName { c with cache := mapDel c.cache id } },
              none)
      else
        match t.data.Find id with
        | none => none
        | some (.error e) => some (tx1, some e)
        | some (.ok a) =>
          match w.recs[a]? with
          | none => none
          | some record =>
            some (tx1.setOp tableName c id
              { opChange := OpChange.DeleteOpChange record.Key, op := opType.DELETE }, none)

/-- Replace the tree of the table at address `a`. -/
def World.setTree (w : World) (a : Nat) (data : Tree) : Option World :=
  match w.tableHeap[a]? with
  | none => none
  | some t => (wr w.tableHeap a { t with data := data }).map fun heap1 =>
      { w with tableHeap := heap1 }

/-- One step of the inner loop of `idbServer.commit`: apply the buffered
operation `rc` on `key` to the tree of the table at address `a`. -/
def commit.apply (w : World) (a : Nat) (key : Int) (rc : OpRecord) :
    Option (World × Option Error) :=
  match w.tableHeap[a]? with
  | none => none
  | some t =>
    match rc.op with
    | opType.UPDATE =>
      match rc.opChange with
      | OpChange.UpdateOpChange change _ =>
        match t.data.UpdateRecord w.recs w.ui change key (some rc.LastTxID) with
        | none => none
        | some (recs1, ui1, err) =>
          let w1 : World := { w with recs := recs1, ui := ui1 }
          if err ≠ none ∧ err ≠ some .ErrKeyNotFound ∧ err ≠ some .ErrUpdateSame then
            some (w1, err)
          else some (w1, none)
      | _ => none
    | opType.INSERT =>
      match rc.opChange with
      | OpChange.InsertOpChange record =>
        let recs1 := w.recs ++ [record]
        match t.data.Insert recs1 w.recs.length with
        | none => none
        | some (data1, err) =>
          match ({ w with recs := recs1 } : World).setTree a data1 with
          | none => none
          | some w1 => some (w1, err)
      | _ => none
    | opType.DELETE =>
      match t.data.Delete w.recs w.ui key with
      | none => none
      | some (data1, recs1, ui1, err) =>
        match ({ w with recs := recs1, ui := ui1 } : World).setTree a data1 with
        | none => none
        | some w1 =>
          if err ≠ none ∧ err ≠ some .ErrKeyNotFound then some (w1, err) else some (w1, none)
    | opType.INVALID => some (w, none)

/-- The inner loop of `idbServer.commit` over the write set of one table. -/
def commit.table (a : Nat) : List (Int × OpRecord) → World → Option (World × Option Error)
  | [], w => some (w, none)
  | (key, rc) :: rest, w =>
    match commit.apply w a key rc with
    | none => none
    | some (w1, some e) => some (w1, some e)
    | some (w1, none) => commit.table a rest w1

/-- `idbServer.commit`: the outer loop over the tables of the write set. -/
def World.commit : World → List (String × txCache) → Option (World × Option Error)
  | w, [] => some (w, none)
  | w, (_, c) :: rest =>
    match commit.table c.t c.cache w with
    | none => none
    | some (w1, some e) => some (w1, some e)
    | some (w1, none) => World.commit w1 rest

/-- `Tx.Commit`. -/
def World.Commit (w : World) (tx : Tx) : Option (World × Tx × Option Error) :=
  match w.commit tx.cache with
  | none => none
  | some (w1, some _) => w1.Rollback tx
  | some (w1, none) => (w1.AfterCommit tx).map fun w2 => (w2, tx, none)

/-- `idbServer.Insert`. -/
def World.Insert (w : World) (tableName : String) (data : List Value) :
    Option (World × Option Error) :=
  match w.lookupTable tableName with
  | none => none
  | some none => some (w, some .ErrTableNotExist)
  | some (some (a, t)) =>
    match convDataToStorageData t.meta.fields data with
    | .error e => some (w, some e)
    | .ok innerData =>
      let id := t.meta.idCount + 1
      let record : Record := { Key := id, Value := innerData, Meta := some { LastTxID := 0 } }
      let recs1 := w.recs ++ [record]
      match t.data.Insert recs1 w.recs.length with
      | none => none
      | some (data1, err) =>
        match wr w.tableHeap a { meta := { t.meta with idCount := id }, data := data1 } with
        | none => none
        | some heap1 => some ({ w with recs := recs1, tableHeap := heap1 }, err)

/-- `idbServer.UpdateByID`. -/
def World.UpdateByID (w : World) (tableName : String) (values : List (String × Value))
    (id : Int) : Option (World × Option Error) :=
  match w.lookupTable tableName with
  | none => none
  | some none => some (w, some .ErrTableNotExist)
  | some (some (_, t)) =>
    match convValuesToBPlusData t values with
    | none => none
    | some (.error e) => some (w, some e)
    | some (.ok data) =>
      match t.data.UpdateRecord w.recs w.ui data id none with
      | none => none
      | some (recs1, ui1, err) => some ({ w with recs := recs1, ui := ui1 }, err)

/-- `idbServer.DeleteByID`. -/
def World.DeleteByID (w : World) (tableName : String) (id : Int) :
    Option (World × Option Error) :=
  match w.lookupTable tableName with
  | none => none
  | some none => some (w, some .ErrTableNotExist)
  | some (some (a, t)) =>
    match t.data.Delete w.recs w.ui id with
    | none => none
    | some (data1, recs1, ui1, err) =>
      (({ w with recs := recs1, ui := ui1 } : World).setTree a data1).map fun w1 => (w1, err)

/-! ## Sequences of calls -/

/-- A call of `Tree.Insert` with a fresh record object, or of `Tree.Delete`. -/
inductive TreeCall where
  | Insert (record : Record)
  | Delete (key : Int)
  deriving Repr

/-- A tree together with the record heap and the data of its inspector. -/
structure TreeState where
  t : Tree := NewTree
  recs : List Record := []
  ui : sharedData := {}
  deriving Repr

/-- Run one call on a tree; the error result of the call is returned with the
new state. -/
def TreeState.step (s : TreeState) : TreeCall → Option (TreeState × Option Error)
  | TreeCall.Insert record =>
    match s.t.Insert (s.recs ++ [record]) s.recs.length with
    | none => none
    | some (t1, err) => some ({ s with t := t1, recs := s.recs ++ [record] }, err)
  | TreeCall.Delete key =>
    match s.t.Delete s.recs s.ui key with
    | none => none
    | some (t1, recs1, ui1, err) => some ({ t := t1, recs := recs1, ui := ui1 }, err)

/-- Run a sequence of calls on a tree, whatever their error results. -/
def TreeState.run : TreeState → List TreeCall → Option TreeState
  | s, [] => some s
  | s, c :: rest =>
    match s.step c with
    | none => none
    | some (s1, _) => TreeState.run s1 rest

/-- A call of the storage layer or of the transaction manager.  A transaction
is named by its position in the order of the `StartTransaction` calls. -/
inductive Call where
  | CreateTable (tableName : String) (fieldMetas : List FieldMeta)
  | Insert (tableName : String) (data : List Value)
  | UpdateByID (tableName : String) (values : List (String × Value)) (id : Int)
  | DeleteByID (tableName : String) (id : Int)
  | StartTransaction
  | InsertTx (tx : Nat) (tableName : String) (data : List Value)
  | UpdateByIDTx (tx : Nat) (tableName : String) (values : List (String × Value)) (id : Int)
  | DeleteByIDTx (tx : Nat) (tableName : String) (id : Int)
  | SelectByIDTx (tx : Nat) (tableName : String) (id : Int)
  | Commit (tx : Nat)
  | Rollback (tx : Nat)
  deriving Repr

/-- The world, the transaction objects in the order they were started, and
for each of them whether a `Commit` or `Rollback` call on it has returned. -/
structure Session where
  w : World
  txs : List Tx := []
  finished : List Bool := []
  deriving Repr

/-- A session on a fresh server and manager. -/
def Session.new (inspector collector : Bool) : Session :=
  { w := NewWorld inspector collector }

/-- Run one call. -/
def Session.step (s : Session) : Call → Option Session
  | Call.CreateTable tableName fieldMetas =>
    some { s with w := s.w.CreateTable tableName fieldMetas }
  | Call.Insert tableName data =>
    (s.w.Insert tableName data).map fun r => { s with w := r.1 }
  | Call.UpdateByID tableName values id =>
    (s.w.UpdateByID tableName values id).map fun r => { s with w := r.1 }
  | Call.DeleteByID tableName id =>
    (s.w.DeleteByID tableName id).map fun r => { s with w := r.1 }
  | Call.StartTransaction =>
    (s.w.StartTransaction).map fun r =>
      { w := r.1, txs := s.txs ++ [r.2], finished := s.finished ++ [false] }
  | Call.InsertTx i tableName data =>
    match s.txs[i]? with
    | none => none
    | some tx =>
      (s.w.InsertTx tx tableName data).map fun r => { s with w := r.1, txs := s.txs.set i r.2.1 }
  | Call.UpdateByIDTx i tableName values id =>
    match s.txs[i]? with
    | none => none
    | some tx =>
      (s.w.UpdateByIDTx tx tableName values id).map fun r => { s with txs := s.txs.set i r.1 }
  | Call.DeleteByIDTx i tableName id =>
    match s.txs[i]? with
    | none => none
    | some tx =>
      (s.w.DeleteByIDTx tx tableName id).map fun r => { s with txs := s.txs.set i r.1 }
  | Call.SelectByIDTx i tableName id =>
    match s.txs[i]? with
    | none => none
    | some tx =>
      (s.w.SelectByIDTx tx tableName id).map fun r => { s with txs := s.txs.set i r.1 }
  | Call.Commit i =>
    match s.txs[i]? with
    | none => none
    | some tx =>
      (s.w.Commit tx).map fun r =>
        { w := r.1, txs := s.txs.set i r.2.1, finished := s.finished.set i true }
  | Call.Rollback i =>
    match s.txs[i]? with
    | none => none
    | some tx =>
      (s.w.Rollback tx).map fun r =>
        { w := r.1, txs := s.txs.set i r.2.1, finished := s.finished.set i true }

/-- Run a sequence of calls. -/
def Session.run : Session → List Call → Option Session
  | s, [] => some s
  | s, c :: rest =>
    match s.step c with
    | none => none
    | some s1 => Session.run s1 rest

/-- The result of `SelectByIDTx` for a transaction of the session: the field
values of the returned record, or the error. -/
def Session.read (s : Session) (i : Nat) (tableName : String) (id : Int) :
    Option (Except Error (List String)) :=
  match s.txs[i]? with
  | none => none
  | some tx =>
    match s.w.SelectByIDTx tx tableName id with
    | none => none
    | some (_, .error e) => some (.error e)
    | some (_, .ok record) => some (.ok record.Value)

/-- The undo log of a table in the manager. -/
def Session.undoLog (s : Session) (tableName : String) : Option UndoLog :=
  mapGet s.w.tm.undoLogs tableName

/-- The manager's live active set. -/
def World.active (w : World) : Option TxSet := w.maps[w.tm.activeTxIDs]?

/-! ## Concrete inputs -/

/-- Records with keys 1, 2, 3 inserted in this order into an empty tree. -/
def threeKeys : List TreeCall :=
  [TreeCall.Insert { Key := 1, Value := ["a"] },
   TreeCall.Insert { Key := 2, Value := ["b"] },
   TreeCall.Insert { Key := 3, Value := ["c"] }]

/-- The five inserts of `TestFindByValue`. -/
def findByValueInput : List TreeCall :=
  [TreeCall.Insert { Key := 1, Value := ["test"] },
   TreeCall.Insert { Key := 2, Value := ["world1"] },
   TreeCall.Insert { Key := 3, Value := ["world2"] },
   TreeCall.Insert { Key := 4, Value := ["world3"] },
   TreeCall.Insert { Key := 5, Value := ["test", "world3"] }]

/-- The predicate of `TestFindByValue`: the first field is `"world3"`. -/
def isWorld3 (record : Record) : Bool := record.Value[0]? = some "world3"

/-- The table layout of the tests of `transaction_test.go`: one string field
called `name`. -/
def nameField : List FieldMeta := [{ name := "name", tp := fieldType.STRING }]

/-- A table `test` holding record 1 with field `"hello"`.  Two transactions
start; the second buffers an update of record 1; the first updates record 1
and commits, so that the undo item of this commit waits on the second
transaction only. -/
def rollbackInput : List Call :=
  [Call.CreateTable "test" nameField,
   Call.Insert "test" [Value.str "hello"],
   Call.StartTransaction,
   Call.StartTransaction,
   Call.UpdateByIDTx 1 "test" [("name", Value.str "x")] 1,
   Call.UpdateByIDTx 0 "test" [("name", Value.str "world")] 1,
   Call.Commit 0]

/-! ## Invariants -/

/-- The manager invariant of a session: the heap of maps holds the live active
set alone, the id counter is the number of transactions started, the `n`-th
transaction started has id `n`, and the live active set holds exactly the ids
of the transactions on which no `Commit` or `Rollback` has returned. -/
def Session.Inv (s : Session) : Prop :=
  s.w.tm.activeTxIDs = 0 ∧
  s.w.tm.txIDCounter = (s.txs.length : Int) ∧
  s.finished.length = s.txs.length ∧
  (∀ (n : Nat) (tx : Tx), s.txs[n]? = some tx → tx.id = (n : Int) + 1) ∧
  ∃ active : TxSet, s.w.maps = [active] ∧
    ∀ k : Int, active.has k = true ↔ ∃ n : Nat, k = (n : Int) + 1 ∧ s.finished[n]? = some false

/-- A world with table `test` holding record 1, one started transaction, and
that transaction's handle given a write set whose buffered insert carries the
key 1 that the index already holds, so that the commit applier fails with
`ErrKeyExists`.  (`InsertTx` never produces such a write set; the handle is
built directly, as code of the package can.) -/
def clashInput : Option (World × Tx) :=
  andThen (((NewWorld true true).CreateTable "test" nameField).Insert "test"
    [Value.str "hello"]) fun r =>
  andThen r.1.StartTransaction fun r =>
  some (r.1, { r.2 with cache := [("test", { t := 0, cache := [(1,
    { op := opType.INSERT
      opChange := OpChange.InsertOpChange { Key := 1, Value := ["again"] } })] })] })

/-- One call of `UndoLog.Append`: the heap of maps as the caller holds it at
the call, and the three arguments. -/
structure AppendCall where
  maps : List TxSet
  txID : Int
  mayAffectedTxIDs : Option Nat
  undoRecords : List UndoRecord
  deriving Repr

/-- Run a sequence of `Append` calls on an undo log. -/
def UndoLog.runAppends : UndoLog → List AppendCall → Option UndoLog
  | l, [] => some l
  | l, c :: rest =>
    match l.Append c.maps c.txID c.mayAffectedTxIDs c.undoRecords with
    | none => none
    | some (_, l1) => UndoLog.runAppends l1 rest

/-- The reading of `Find` in the words of the specification, on the list of
the items still in the log, which is in the order of the `Append` calls: the
pre-image of the first item that has an undo record for `recordID` and whose
committing transaction is in `activeTxIDs`; `ErrRecordNotCommit` when there is
no such item. -/
def findSpec (activeTxIDs : TxSet) (recordID : Int) :
    List UndoLogItem → Except Error (Option Record)
  | [] => .error .ErrRecordNotCommit
  | item :: rest =>
    match mapGet item.records recordID with
    | none => findSpec activeTxIDs recordID rest
    | some rc =>
      if activeTxIDs.has item.commitTxID then .ok (transferToRecord rc)
      else findSpec activeTxIDs recordID rest

/-- The history of a record id read off the items of a log: for every item
that has an undo record for it, in order, the item's id, its committing
transaction and the undo record. -/
def history (recordID : Int) : List UndoLogItem → List (Nat × Int × UndoRecord)
  | [] => []
  | item :: rest =>
    match mapGet item.records recordID with
    | none => history recordID rest
    | some rc => (item.id, item.commitTxID, rc) :: history recordID rest

/-- An entry of `recordsCache` (or its absence) agrees with a history. -/
def agrees (entry : Option undoRecord) (h : List (Nat × Int × UndoRecord)) : Prop :=
  match entry with
  | none => h = []
  | some rc =>
    h ≠ [] ∧ rc.id = h.map (fun x => x.1) ∧ rc.commitTxIDs = h.map (fun x => x.2.1) ∧
      rc.records = h.map (fun x => x.2.2)

/-- The consistency invariant of an undo log: item ids are distinct and below
the counter, the undo records of an item have distinct record ids, every item
filed in `affectTxItems` has an id below the counter and is the item of that id
in `items` if there is one, and `recordsCache` holds for every record id the
history read off `items`. -/
def UndoLog.Consistent (l : UndoLog) : Prop :=
  (l.items.map fun item => item.id).Nodup ∧
  (∀ item ∈ l.items, item.id < l.idCounter ∧ (item.records.map Prod.fst).Nodup) ∧
  (∀ tid items, mapGet l.affectTxItems tid = some items → ∀ item ∈ items,
    item.id < l.idCounter ∧ ∀ item1 ∈ l.items, item1.id = item.id → item1 = item) ∧
  ∀ recordID : Int, agrees (mapGet l.recordsCache recordID) (history recordID l.items)

/-- The two `Append` calls of `TestUndoLogBasicPath`: transaction 1 commits
record 1 = `hello` while 2 and 3 are active, then transaction 2 commits record
2 = `world` while 3 is active.  Each call has a map of its own. -/
def basicPathCalls : List AppendCall :=
  [{ maps := [[(2, true), (3, true)]], txID := 1, mayAffectedTxIDs := some 0
     undoRecords := [{ record := { Key := 1, Value := ["hello"] } }] },
   { maps := [[(3, true)]], txID := 2, mayAffectedTxIDs := some 0
     undoRecords := [{ record := { Key := 2, Value := ["world"] } }] }]

/-! ## The leaf chain -/

/-- The keys a leaf holds: `Keys[0 .. NumKeys)`. -/
def Node.liveKeys (n : Node) : List Int := n.Keys.take n.NumKeys

/-- Follow the leaf chain from the leaf at address `a`: after each leaf go to
the node in `Pointers[order]`, the slot `insertIntoLeafAfterSplitting` and
`coalesceNodes` link the leaves through, and stop where that slot is nil.  The
result lists the keys met, leaf by leaf. -/
def leafChain.walk (nodes : List Node) : Nat → Nat → Option (List Int)
  | 0, _ => none
  | fuel + 1, a =>
    match nodes[a]? with
    | none => none
    | some n =>
      match n.Pointers[order]? with
      | some (Ptr.node c) =>
        match leafChain.walk nodes fuel c with
        | none => none
        | some ks => some (n.liveKeys ++ ks)
      | some Ptr.nil => some n.liveKeys
      | _ => none

/-- The keys on the leaf chain of a tree, from the leftmost leaf (reached from
the root through `Pointers[0]`, as `FineByValue` does). -/
def Tree.leafChain (t : Tree) : Option (List Int) :=
  match t.Root with
  | none => some []
  | some root =>
    match FineByValue.leftmost t.nodes (t.nodes.length + 1) root with
    | none => none
    | some leaf => leafChain.walk t.nodes (t.nodes.length + 1) leaf

/-! ## Reads inside a transaction -/

/-- The op record a transaction has buffered for a record id of a table:
`tx.cache[tableName].cache[id]`, nil when either map has no entry. -/
def Tx.buffered (tx : Tx) (tableName : String) (id : Int) : Option OpRecord :=
  match mapGet tx.cache tableName with
  | none => none
  | some c => mapGet c.cache id

/-- Every undo log of the manager is consistent. -/
def World.LogsConsistent (w : World) : Prop :=
  ∀ (tableName : String) (l : UndoLog), mapGet w.tm.undoLogs tableName = some l → l.Consistent

/-- The read invariant of a session: the ids in the live active set are
positive, the `minActiveID` of every read view is positive, and every undo log
of the manager is consistent. -/
def Session.Sound (s : Session) : Prop :=
  (∀ active ∈ s.w.maps, ∀ kb ∈ active, (0 : Int) < kb.1) ∧
  (∀ tx ∈ s.txs, 0 < tx.rv.minActiveID) ∧
  s.w.LogsConsistent

/-- A table `test` holding record 1 with field `"hello"`.  Two transactions
start; the first updates record 1 to `"world"` and commits; a third
transaction starts.  The second transaction has buffered nothing. -/
def visibilityInput : List Call :=
  [Call.CreateTable "test" nameField,
   Call.Insert "test" [Value.str "hello"],
   Call.StartTransaction,
   Call.StartTransaction,
   Call.UpdateByIDTx 0 "test" [("name", Value.str "world")] 1,
   Call.Commit 0,
   Call.StartTransaction]
/-- A fresh table `test` and one transaction: nothing was ever committed to
the table and its index is empty. -/
def freshTableInput : List Call :=
  [Call.CreateTable "test" nameField,
   Call.StartTransaction]

/-- A table `test` holding record 1 with field `"hello"`, and one transaction
that has buffered an update of record 1. -/
def shadowInput : List Call :=
  [Call.CreateTable "test" nameField,
   Call.Insert "test" [Value.str "hello"],
   Call.StartTransaction,
   Call.UpdateByIDTx 0 "test" [("name", Value.str "x")] 1]

/-! ## The structural invariant of the tree -/

/-- The pointers a node holds: `Pointers[0 .. NumKeys)`. -/
def Node.liveChildren (n : Node) : List Ptr := n.Pointers.take n.NumKeys

/-- The part of the invariant that looks at one node alone: both slices have
`order+1` slots, at most `order-1` entries are held, and the keys of a leaf
strictly increase. -/
def NodeLocal (n : Node) : Prop :=
  n.Keys.length = order + 1 ∧ n.Pointers.length = order + 1 ∧ n.NumKeys ≤ order - 1 ∧
  (n.IsLeaf = true → n.liveKeys.Pairwise (fun x y => x < y))

/-- What the invariant asks of the node `n` at address `a` of the heap: it is
locally well formed; the parent, if any, is another node and is internal; an internal node
holds at least one child, its children are distinct nodes of one kind (all
leaves or all internal) and each has the node as its `Parent`. -/
structure NodeWF (nodes : List Node) (a : Nat) (n : Node) : Prop where
  loc : NodeLocal n
  notSelf : n.Parent ≠ some a
  parentInternal : ∀ p : Nat, n.Parent = some p →
    ∃ pn, nodes[p]? = some pn ∧ pn.IsLeaf = false
  numPos : n.IsLeaf = false → 1 ≤ n.NumKeys
  children : n.IsLeaf = false → ∃ k : Bool, ∀ q ∈ n.liveChildren,
    ∃ (c : Nat) (cn : Node), q = Ptr.node c ∧ nodes[c]? = some cn ∧ cn.Parent = some a ∧
      cn.IsLeaf = k
  childrenNodup : n.IsLeaf = false → n.liveChildren.Nodup

/-- The node at address `a` is linked into the tree: its parent holds it among
its children, and without a parent it is the root. -/
def Linked (t : Tree) (a : Nat) (n : Node) : Prop :=
  (∀ p : Nat, n.Parent = some p →
    ∃ pn, t.nodes[p]? = some pn ∧ Ptr.node a ∈ pn.liveChildren) ∧
  (n.Parent = none → t.Root = some a)

/-- The structural invariant, with the node at address `x` (if any) exempt
from being linked: it is the new right node of a split on its way into the
parent.  Every node of the heap is well formed, every internal node is linked,
and the root has no parent and holds at least one entry. -/
def Tree.WFx (t : Tree) (x : Option Nat) : Prop :=
  (∀ (a : Nat) (n : Node), t.nodes[a]? = some n →
    NodeWF t.nodes a n ∧ (n.IsLeaf = false → x ≠ some a → Linked t a n)) ∧
  ∀ r : Nat, t.Root = some r → ∃ rn, t.nodes[r]? = some rn ∧ rn.Parent = none ∧ 1 ≤ rn.NumKeys

/-- The structural invariant of the tree. -/
def Tree.WF (t : Tree) : Prop := t.WFx none

/-- Two heaps with the same skeleton: the same addresses, and at each address
the same kind of node with the same parent and, for an internal node, the same
children. -/
def Skel (nodes nodes1 : List Node) : Prop :=
  nodes1.length = nodes.length ∧
  ∀ (a : Nat) (n n1 : Node), nodes[a]? = some n → nodes1[a]? = some n1 →
    n1.IsLeaf = n.IsLeaf ∧ n1.Parent = n.Parent ∧
    (n.IsLeaf = false → n1.liveChildren = n.liveChildren ∧ n1.NumKeys = n.NumKeys)


/-- What `insertIntoParent` is called with: the invariant holds with `right`
exempt; `right` has the parent and the kind of `left`; `left` is linked into
the tree and no node holds `right` yet. -/
structure InsPre (t : Tree) (left right : Nat) (l r : Node) : Prop where
  wf : t.WFx (some right)
  hl : t.nodes[left]? = some l
  hr : t.nodes[right]? = some r
  par : r.Parent = l.Parent
  kind : r.IsLeaf = l.IsLeaf
  linked : Linked t left l
  unheld : ∀ (a : Nat) (n : Node), t.nodes[a]? = some n → n.IsLeaf = false →
    Ptr.node right ∉ n.liveChildren
  ne : left ≠ right

/-- A tree that no sequence of `Insert` and `Delete` calls builds: the root
(address 2) holds the leaves at addresses 0 and 1, but the `Parent` field of
leaf 0 names the internal node at address 3, which does not hold it.  Leaf 0
holds key 1 and leaf 1 holds key 5. -/
def orphanLeafTree : Tree :=
  { Root := some 2
    nodes :=
      [{ Pointers := [Ptr.record 0, Ptr.nil, Ptr.nil, Ptr.nil], Keys := [1, 0, 0, 0],
         Parent := some 3, IsLeaf := true, NumKeys := 1 },
       { Pointers := [Ptr.record 1, Ptr.nil, Ptr.nil, Ptr.nil], Keys := [5, 0, 0, 0],
         Parent := some 2, IsLeaf := true, NumKeys := 1 },
       { Pointers := [Ptr.node 0, Ptr.node 1, Ptr.nil, Ptr.nil], Keys := [1, 5, 0, 0],
         NumKeys := 2 },
       { Pointers := [Ptr.node 1, Ptr.node 1, Ptr.nil, Ptr.nil], Keys := [1, 5, 0, 0],
         NumKeys := 2 }] }

/-- The records the leaves of `orphanLeafTree` point to. -/
def orphanLeafRecs : List Record :=
  [{ Key := 1, Value := ["a"] }, { Key := 5, Value := ["b"] }]

/-- A table `test` holding record 1 with field `"hello"`; a transaction
buffers an update of record 1, and the record is then deleted from the index
by a non-transactional `DeleteByID`: the buffered Update has lost its
target. -/
def vanishedInput : List Call :=
  [Call.CreateTable "test" nameField,
   Call.Insert "test" [Value.str "hello"],
   Call.StartTransaction,
   Call.UpdateByIDTx 0 "test" [("name", Value.str "x")] 1,
   Call.DeleteByID "test" 1]

/-- A node with two children has no empty leaf among them: a leaf is emptied
under a parent of two only on its way into a merge. -/
def Tree.Full (t : Tree) : Prop :=
  ∀ (a : Nat) (n : Node), t.nodes[a]? = some n → n.IsLeaf = false → n.NumKeys = 2 →
    ∀ (c : Nat) (cn : Node), Ptr.node c ∈ n.liveChildren → t.nodes[c]? = some cn →
      cn.IsLeaf = true → 1 ≤ cn.NumKeys

/-- An assignment of heights to the nodes of a heap: a leaf has height 0 and
an internal node is one above each of its children. -/
def Heights (nodes : List Node) (ht : Nat → Nat) : Prop :=
  ∀ (a : Nat) (n : Node), nodes[a]? = some n →
    (n.IsLeaf = true → ht a = 0) ∧
    (n.IsLeaf = false → ∀ c : Nat, Ptr.node c ∈ n.liveChildren → ht a = ht c + 1)

/-- The nodes of the heap can be given heights. -/
def Tree.Ranked (t : Tree) : Prop := ∃ ht : Nat → Nat, Heights t.nodes ht

/-- The invariant of the trees built by `Insert` and `Delete`. -/
def Tree.Inv (t : Tree) : Prop := t.WF ∧ t.Full ∧ t.Ranked

/-- The node at address `c` is reached from the node at address `a` by `d`
steps, each from an internal node to one of the children it holds. -/
inductive Descends (nodes : List Node) : Nat → Nat → Nat → Prop where
  | here (a : Nat) : Descends nodes a a 0
  | step {a b c d : Nat} {n : Node} : Descends nodes a b d → nodes[b]? = some n →
      n.IsLeaf = false → Ptr.node c ∈ n.liveChildren → Descends nodes a c (d + 1)

/-- Keys 1, 2, 3 are inserted and key 3 is deleted. -/
def staleSeparatorInput : List TreeCall := threeKeys ++ [TreeCall.Delete 3]

/-- Keys 1, 2, 3 are inserted and keys 1 and 2 are deleted. -/
def emptiedLeafInput : List TreeCall := threeKeys ++ [TreeCall.Delete 1, TreeCall.Delete 2]

/-! ## Undo logs whose maps are touched by `Append` alone -/

/-- The Go map with the given keys, each mapped to `true`. -/
def TxSet.ofList (ids : List Int) : TxSet := ids.foldl (fun m k => mapSet m k true) []

/-- The `mayAffectedTxIDs` argument of an `Append` call: nil, a map the caller
makes for this call (given by its keys), or the map that was made for an
earlier call (given by its address in the heap of maps). -/
inductive SetArg where
  | absent
  | fresh (ids : List Int)
  | earlier (a : Nat)
  deriving Repr

/-- One call of `UndoLog.Append`. -/
structure LogCall where
  txID : Int
  mayAffectedTxIDs : SetArg
  undoRecords : List UndoRecord
  deriving Repr

/-- Run one call: a map made for the call is allocated at the end of the heap
of maps. -/
def UndoLog.appendCall (maps : List TxSet) (l : UndoLog) (c : LogCall) :
    Option (List TxSet × UndoLog) :=
  match c.mayAffectedTxIDs with
  | .absent => l.Append maps c.txID none c.undoRecords
  | .fresh ids => l.Append (maps ++ [TxSet.ofList ids]) c.txID (some maps.length) c.undoRecords
  | .earlier a => l.Append maps c.txID (some a) c.undoRecords

/-- Run a sequence of calls, the heap of maps being touched by `Append`
alone. -/
def UndoLog.runCalls : List TxSet → UndoLog → List LogCall → Option (List TxSet × UndoLog)
  | maps, l, [] => some (maps, l)
  | maps, l, c :: rest =>
    match l.appendCall maps c with
    | none => none
    | some (maps1, l1) => UndoLog.runCalls maps1 l1 rest

/-- Every map passed by address has been made by then: `n` maps exist before
the first call. -/
def wellAddressed : Nat → List LogCall → Bool
  | _, [] => true
  | n, c :: rest =>
    match c.mayAffectedTxIDs with
    | .absent => wellAddressed n rest
    | .fresh _ => wellAddressed (n + 1) rest
    | .earlier a => decide (a < n) && wellAddressed n rest

/-- The ids an item of the log is still waiting on: the keys of its map. -/
def pending (maps : List TxSet) (item : UndoLogItem) : List Int :=
  ((maps[item.mayAffectedTxIDs]?).getD []).map Prod.fst

/-- The invariant of a log whose maps are touched by `Append` alone: the log
is consistent; item ids increase along `items`; the keys of every map are
distinct; every item waits on at least one id; every list of `affectTxItems`
is non-empty, names items of the log with distinct ids, each of them waiting
on the id of the list; and an item is filed under every id it waits on. -/
def LogInv (maps : List TxSet) (l : UndoLog) : Prop :=
  l.Consistent ∧
  (l.items.map fun item => item.id).Pairwise (fun a b => a < b) ∧
  (∀ m ∈ maps, (m.map Prod.fst).Nodup) ∧
  (∀ item ∈ l.items, item.mayAffectedTxIDs < maps.length ∧ pending maps item ≠ []) ∧
  (∀ tid items, mapGet l.affectTxItems tid = some items →
    items ≠ [] ∧ (items.map fun item => item.id).Nodup ∧
    ∀ item ∈ items, item ∈ l.items ∧ tid ∈ pending maps item) ∧
  ∀ item ∈ l.items, ∀ tid ∈ pending maps item,
    ∃ items, mapGet l.affectTxItems tid = some items ∧ item ∈ items

/-- The three `Append` calls of `TestReclaim`: transaction 1 commits record 1
while 2 and 3 are active, transaction 2 while 3 is active, transaction 3 with
an empty map. -/
def reclaimCalls : List LogCall :=
  [LogCall.mk 1 (SetArg.fresh [2, 3]) [{ record := { Key := 1, Value := ["hello"] } }],
   LogCall.mk 2 (SetArg.fresh [3]) [{ record := { Key := 1, Value := ["hello"] } }],
   LogCall.mk 3 (SetArg.fresh []) [{ record := { Key := 1, Value := ["hello"] } }]]

/-- Transactions 1 and 2 commit an update of record 1 one after the other,
with pre-images `a` and `b`, while transaction 9 is active. -/
def twoVersionCalls : List LogCall :=
  [LogCall.mk 1 (SetArg.fresh [9])
     [{ record := { Key := 1, Value := ["a"] }, op := opType.UPDATE }],
   LogCall.mk 2 (SetArg.fresh [9])
     [{ record := { Key := 1, Value := ["b"] }, op := opType.UPDATE }]]

/-! ## The order invariant of the trees built by `Insert` alone -/

/-- The entries a leaf holds: the pairs of `Keys[i]` and `Pointers[i]` for
`i < NumKeys`. -/
def Node.liveEntries (n : Node) : List (Int × Ptr) := (n.Keys.zip n.Pointers).take n.NumKeys

/-- The last key of the node at an address of the heap. -/
def lastKeyAt (nodes : List Node) (c : Nat) : Option Int :=
  match nodes[c]? with
  | none => none
  | some cn => lastKey cn

/-- The key lies above a lower bound, `none` being no bound. -/
def Above (lo : Option Int) (k : Int) : Prop := ∀ v : Int, lo = some v → v < k

/-- What the order invariant asks of the node `n` at address `a`, given for
every node a lower bound `lo` of its keys and a flag `b` telling whether the
node has a right neighbour on its level.  The keys of a leaf lie above its
lower bound, and a leaf holds an entry.  The child `i` of an internal node has
the key before it as its lower bound (the first child inherits the bound of
the node), it has a right neighbour unless it is the last child of a node
without one, and if it has a right neighbour the key `i` of the node is its
last key.  The child at address `x` is exempt from the last two: it is the
left half of a split whose right half is on its way into the node. -/
structure OrdNode (nodes : List Node) (lo : Nat → Option Int) (b : Nat → Bool)
    (x : Option Nat) (a : Nat) (n : Node) : Prop where
  leaf : n.IsLeaf = true → 1 ≤ n.NumKeys ∧ ∀ k ∈ n.liveKeys, Above (lo a) k
  child : n.IsLeaf = false → ∀ (i c : Nat), i < n.NumKeys →
    n.Pointers[i]? = some (Ptr.node c) →
    lo c = (if i = 0 then lo a else n.Keys[i - 1]?) ∧
    (x ≠ some c → b c = (if i + 1 < n.NumKeys then true else b a) ∧
      (b c = true → lastKeyAt nodes c = n.Keys[i]?))

/-- The order invariant of a tree, with the child at address `x` exempt: the
root has no lower bound and no right neighbour, and every node of the heap is
in order. -/
def Tree.Ordered (t : Tree) (lo : Nat → Option Int) (b : Nat → Bool) (x : Option Nat) : Prop :=
  (∀ r : Nat, t.Root = some r → lo r = none ∧ (x ≠ some r → b r = false)) ∧
  ∀ (a : Nat) (n : Node), t.nodes[a]? = some n → OrdNode t.nodes lo b x a n

/-- What `insertIntoParent` is called with, as to the order: the tree is in
order with `left` exempt; `key` is the last key of `right`; the lower bound of
`right` is the last key of `left`, which now has a right neighbour; and
`right` has the right neighbour that `left` had, in which case `key` is the
key the parent holds for `left`. -/
structure InsOrd (t : Tree) (lo : Nat → Option Int) (b : Nat → Bool) (left right : Nat)
    (l r : Node) (key : Int) : Prop where
  ord : t.Ordered lo b (some left)
  last : lastKey r = some key
  low : ∃ kl : Int, lastKey l = some kl ∧ lo right = some kl
  bl : b left = true
  root : l.Parent = none → b right = false
  par : ∀ (pa : Nat) (p : Node) (j : Nat), l.Parent = some pa → t.nodes[pa]? = some p →
    j < p.NumKeys → p.Pointers[j]? = some (Ptr.node left) →
    b right = (if j + 1 < p.NumKeys then true else b pa) ∧
    (b right = true → p.Keys[j]? = some key)

/-- Two heaps with bounds and flags have the same leaves: every leaf of the
first is a leaf of the second with the same keys, pointers, bound and flag,
and the second has no other leaf. -/
def SameLeaves (nodes nodes1 : List Node) (lo lo1 : Nat → Option Int) (b b1 : Nat → Bool) :
    Prop :=
  (∀ (a : Nat) (n : Node), nodes[a]? = some n → n.IsLeaf = true →
    lo1 a = lo a ∧ b1 a = b a ∧ ∃ n1, nodes1[a]? = some n1 ∧ n1.Pointers = n.Pointers ∧
      n1.Keys = n.Keys ∧ n1.NumKeys = n.NumKeys ∧ n1.IsLeaf = true) ∧
  ∀ (a : Nat) (n1 : Node), nodes1[a]? = some n1 → n1.IsLeaf = true →
    ∃ n, nodes[a]? = some n ∧ n.IsLeaf = true

/-- The keys of the leaf at an address. -/
def keysAt (nodes : List Node) (a : Nat) : List Int :=
  match nodes[a]? with
  | none => []
  | some n => n.liveKeys

/-- The entries of the leaf at an address. -/
def entriesAt (nodes : List Node) (a : Nat) : List (Int × Ptr) :=
  match nodes[a]? with
  | none => []
  | some n => n.liveEntries

/-- The leaves at the addresses of the list are chained: each has the next as
its `Pointers[order]` and as its right neighbour, whose lower bound is the
last key of the leaf, and the last one has neither. -/
def Chained (nodes : List Node) (lo : Nat → Option Int) (b : Nat → Bool) : List Nat → Prop
  | [] => True
  | [a] => b a = false ∧ ∃ n, nodes[a]? = some n ∧ n.Pointers[order]? = some Ptr.nil
  | a :: a1 :: rest =>
    b a = true ∧
    (∃ (n : Node) (v : Int), nodes[a]? = some n ∧ n.Pointers[order]? = some (Ptr.node a1) ∧
      lastKey n = some v ∧ lo a1 = some v) ∧
    Chained nodes lo b (a1 :: rest)

/-- The list names the leaves of the heap, each once, in the order of the
chain, and the first has no lower bound. -/
structure LeafChain (nodes : List Node) (lo : Nat → Option Int) (b : Nat → Bool)
    (chain : List Nat) : Prop where
  mem : ∀ a : Nat, a ∈ chain ↔ ∃ n, nodes[a]? = some n ∧ n.IsLeaf = true
  nodup : chain.Nodup
  links : Chained nodes lo b chain
  head : ∀ (a : Nat) (rest : List Nat), chain = a :: rest → lo a = none

/-- The invariant of the trees built by `Insert` alone, with the entries `E`
they hold in the order of the leaf chain: the structural invariant, no node
without a root, and bounds and flags under which the tree is in order and the
leaves form one chain. -/
def Tree.Built (t : Tree) (E : List (Int × Ptr)) : Prop :=
  t.Inv ∧ (t.Root = none → t.nodes = []) ∧
  ∃ (lo : Nat → Option Int) (b : Nat → Bool) (chain : List Nat),
    t.Ordered lo b none ∧ LeafChain t.nodes lo b chain ∧
    E = chain.flatMap (entriesAt t.nodes)

/-- Put `y` after `x` in a list. -/
def insertAfter (x y : Nat) : List Nat → List Nat
  | [] => []
  | a :: rest => a :: (if a = x then y :: rest else insertAfter x y rest)

/-- The addresses of the leaves met on the leaf chain from the leaf at address
`a`, following `Pointers[order]` as `leafChain.walk` does. -/
def leafChain.visit (nodes : List Node) : Nat → Nat → Option (List Nat)
  | 0, _ => none
  | fuel + 1, a =>
    match nodes[a]? with
    | none => none
    | some n =>
      match n.Pointers[order]? with
      | some (Ptr.node c) =>
        match leafChain.visit nodes fuel c with
        | none => none
        | some as => some (a :: as)
      | some Ptr.nil => some [a]
      | _ => none

/-- The addresses of the leaves on the leaf chain of a tree, from the leftmost
leaf. -/
def Tree.leafAddrs (t : Tree) : Option (List Nat) :=
  match t.Root with
  | none => some []
  | some root =>
    match FineByValue.leftmost t.nodes (t.nodes.length + 1) root with
    | none => none
    | some leaf => leafChain.visit t.nodes (t.nodes.length + 1) leaf

/-- Run a sequence of calls on a tree and list the error result of each call,
in the order of the calls. -/
def TreeState.results : TreeState → List TreeCall → Option (List (Option Error))
  | _, [] => some []
  | s, c :: rest =>
    match s.step c with
    | none => none
    | some (s1, e) => (TreeState.results s1 rest).map fun es => e :: es

/-- The leaf entries that inserting `records` one after the other writes, when
the first of them becomes the record at address `base` of the record heap: the
key of each record with the address of the record. -/
def insertedEntries (base : Nat) (records : List Record) : List (Int × Ptr) :=
  (records.enumFrom base).map fun p => (p.2.Key, Ptr.record p.1)

/-! ## The entries of an undo log in the order of the calls -/

/-- The entries a sequence of `Append` calls appends to `items`, in the order
of the calls, whether or not they are still in the log at the end: with each
entry the position of the call in the sequence, counted from `j`.  A call has
appended an entry when it returns with `idCounter` moved; the entry is then
the last item of the list. -/
def UndoLog.appendLog : UndoLog → Nat → List AppendCall → List (Nat × UndoLogItem)
  | _, _, [] => []
  | l, j, c :: rest =>
    match l.Append c.maps c.txID c.mayAffectedTxIDs c.undoRecords with
    | none => []
    | some (_, l1) =>
      (if l1.idCounter = l.idCounter then []
        else l1.items.getLast?.toList.map fun item => (j, item))
        ++ UndoLog.appendLog l1 (j + 1) rest

/-- Four `Append` calls.  Transactions 1, 2 and 3 commit an update of record 1
one after the other, with pre-images `a`, `b` and `c`: the first while 5 is
active, the other two while 6 is active.  Then 5 finishes and releases the
log, which evicts the entry of transaction 1. -/
def evictedFirstCalls : List AppendCall :=
  [{ maps := [[(5, true)]], txID := 1, mayAffectedTxIDs := some 0
     undoRecords := [{ record := { Key := 1, Value := ["a"] }, op := opType.UPDATE }] },
   { maps := [[(5, true)], [(6, true)]], txID := 2, mayAffectedTxIDs := some 1
     undoRecords := [{ record := { Key := 1, Value := ["b"] }, op := opType.UPDATE }] },
   { maps := [[(5, true)], [(6, true)], [(6, true)]], txID := 3, mayAffectedTxIDs := some 2
     undoRecords := [{ record := { Key := 1, Value := ["c"] }, op := opType.UPDATE }] },
   { maps := [[(5, true)], [(6, true)], [(6, true)]], txID := 5, mayAffectedTxIDs := none
     undoRecords := [] }]

/-- Three `Append` calls between which the caller empties the map it passed to
the first.  Transaction 1 commits record 1 while 2 and 3 are active; the caller
then deletes 2 and 3 from that map (as the manager deletes a finished
transaction from its live map); then 2 and 3 each release the log with a nil
map. -/
def emptiedMapCalls : List AppendCall :=
  [{ maps := [[(2, true), (3, true)]], txID := 1, mayAffectedTxIDs := some 0
     undoRecords := [{ record := { Key := 1, Value := ["hello"] } }] },
   { maps := [[]], txID := 2, mayAffectedTxIDs := none, undoRecords := [] },
   { maps := [[]], txID := 3, mayAffectedTxIDs := none, undoRecords := [] }]

/-- A table `test` holding record 1; three transactions start; the first
commits an update of record 1, the second rolls back, the third commits an
update of record 1, and the second, used again after its rollback, buffers an
update of record 1 and commits. -/
def reuseAfterRollbackInput : List Call :=
  [Call.CreateTable "test" nameField,
   Call.Insert "test" [Value.str "hello"],
   Call.StartTransaction,
   Call.StartTransaction,
   Call.StartTransaction,
   Call.UpdateByIDTx 0 "test" [("name", Value.str "a")] 1,
   Call.Commit 0,
   Call.Rollback 1,
   Call.UpdateByIDTx 2 "test" [("name", Value.str "b")] 1,
   Call.Commit 2,
   Call.UpdateByIDTx 1 "test" [("name", Value.str "c")] 1,
   Call.Commit 1]

/-! ## Further concrete inputs -/

/-- A table `test` holding records 1 and 2 with fields `a` and `b`.  A
transaction buffers an update of record 1 to `x` and an update of record 2 to
`z`; then, outside the transaction, record 1 is deleted: the buffered update
of 1 has lost its target. -/
def toleratedInput : List Call :=
  [Call.CreateTable "test" nameField,
   Call.Insert "test" [Value.str "a"],
   Call.Insert "test" [Value.str "b"],
   Call.StartTransaction,
   Call.UpdateByIDTx 0 "test" [("name", Value.str "x")] 1,
   Call.UpdateByIDTx 0 "test" [("name", Value.str "z")] 2,
   Call.DeleteByID "test" 1]

/-- A table `test` holding records 1 to 4 with fields `a`, `b`, `c`, `d`.  A
transaction buffers an update of record 1, an update of record 2 to `y`, a
delete of record 3 and an update of record 4 to `z`.  Then, outside the
transaction, record 1 is deleted, record 2 is set to `y` and record 3 is
deleted: the buffered update of 1 and the buffered delete of 3 have lost their
targets and the buffered update of 2 changes nothing. -/
def toleratedAllInput : List Call :=
  [Call.CreateTable "test" nameField,
   Call.Insert "test" [Value.str "a"],
   Call.Insert "test" [Value.str "b"],
   Call.Insert "test" [Value.str "c"],
   Call.Insert "test" [Value.str "d"],
   Call.StartTransaction,
   Call.UpdateByIDTx 0 "test" [("name", Value.str "x")] 1,
   Call.UpdateByIDTx 0 "test" [("name", Value.str "y")] 2,
   Call.DeleteByIDTx 0 "test" 3,
   Call.UpdateByIDTx 0 "test" [("name", Value.str "z")] 4,
   Call.DeleteByID "test" 1,
   Call.UpdateByID "test" [("name", Value.str "y")] 2,
   Call.DeleteByID "test" 3]

/-- Keys 1, 2, 3 are inserted, keys 2 and 3 are deleted and key 5 is
inserted. -/
def smallSeparatorInput : List TreeCall :=
  threeKeys ++ [TreeCall.Delete 2, TreeCall.Delete 3,
    TreeCall.Insert { Key := 5, Value := [] }]

/-- Eighteen calls: keys 13, 12, 11, 6, 2 are inserted, key 2 is deleted, keys
2, 3, 1 are inserted, key 6 is deleted, and keys 11, 0, 10, 9, 7, 8, 4, 5 are
inserted. -/
def unorderedNodeInput : List TreeCall :=
  ([13, 12, 11, 6, 2].map fun k => TreeCall.Insert { Key := k, Value := [] }) ++
  [TreeCall.Delete 2] ++
  ([2, 3, 1].map fun k => TreeCall.Insert { Key := k, Value := [] }) ++
  [TreeCall.Delete 6] ++
  ([11, 0, 10, 9, 7, 8, 4, 5].map fun k => TreeCall.Insert { Key := k, Value := [] })

/-- Tables `a` and `b`; two transactions start; the first inserts a record
into `a` and commits, and then, used again, buffers an insert into `b`. -/
def partialCommitInput : List Call :=
  [Call.CreateTable "a" nameField,
   Call.CreateTable "b" nameField,
   Call.StartTransaction,
   Call.StartTransaction,
   Call.InsertTx 0 "a" [Value.str "x"],
   Call.Commit 0,
   Call.InsertTx 0 "b" [Value.str "y"]]

/-- A table `test` holding record 1 with field `"hello"`, written outside any
transaction, and one transaction: nothing was ever committed to the table. -/
def unloggedInput : List Call :=
  [Call.CreateTable "test" nameField,
   Call.Insert "test" [Value.str "hello"],
   Call.StartTransaction]

/-- The copy of a record that the inspector captures: its key and its
values. -/
def Record.copy (record : Record) : Record := { Key := record.Key, Value := record.Value }

theorem andThen_eq_bind {α β : Type} (x : Option α) (f : α → Option β) :
    andThen x f = x.bind f := by
  cases x <;> rfl

theorem andThen_eq_some {α β : Type} {x : Option α} {f : α → Option β} {b : β} :
    andThen x f = some b ↔ ∃ a, x = some a ∧ f a = some b := by
  cases x <;> simp [andThen]

theorem wr_eq_some {α : Type} {xs : List α} {i : Nat} {v : α} {ys : List α}
    (h : wr xs i v = some ys) : i < xs.length ∧ ys = xs.set i v := by
  unfold wr at h
  split at h
  · simp at h; exact ⟨by assumption, h.symm⟩
  · simp at h

theorem wr_of_lt {α : Type} {xs : List α} {i : Nat} (v : α) (h : i < xs.length) :
    wr xs i v = some (xs.set i v) := by
  simp [wr, h]

theorem mapGet_mapSet {κ ν : Type} [DecidableEq κ] (m : List (κ × ν)) (k j : κ) (v : ν) :
    mapGet (mapSet m k v) j = if j = k then some v else mapGet m j := by
  induction m with
  | nil =>
    by_cases h : j = k
    · subst h; simp [mapSet, mapGet]
    · have h' : ¬ k = j := fun e => h e.symm
      simp [mapSet, mapGet, h, h']
  | cons x rest ih =>
    obtain ⟨k1, v1⟩ := x
    by_cases h1 : k1 = k
    · subst h1
      by_cases h : j = k1
      · subst h; simp [mapSet, mapGet]
      · have h' : ¬ k1 = j := fun e => h e.symm
        simp [mapSet, mapGet, h, h']
    · by_cases h : j = k
      · subst h
        simp [mapSet, mapGet, h1, ih]
      · by_cases h2 : k1 = j
        · subst h2; simp [mapSet, mapGet, h1, h]
        · simp [mapSet, mapGet, h1, h2, ih, h]

theorem mapGet_mapDel {κ ν : Type} [DecidableEq κ] (m : List (κ × ν)) (k j : κ) :
    mapGet (mapDel m k) j = if j = k then none else mapGet m j := by
  induction m with
  | nil => simp [mapDel, mapGet]
  | cons x rest ih =>
    obtain ⟨k1, v1⟩ := x
    by_cases h1 : k1 = k
    · subst h1
      by_cases h : j = k1
      · subst h; simp [mapDel, ih]
      · have h' : ¬ k1 = j := fun e => h e.symm
        simp [mapDel, mapGet, ih, h, h']
    · by_cases h : j = k
      · subst h
        simp [mapDel, mapGet, h1, ih]
      · by_cases h2 : k1 = j
        · subst h2; simp [mapDel, mapGet, h1]
        · simp [mapDel, mapGet, h1, h2, ih, h]

theorem mapDel_eq_self {κ ν : Type} [DecidableEq κ] (m : List (κ × ν)) (k : κ)
    (h : mapGet m k = none) : mapDel m k = m := by
  induction m with
  | nil => rfl
  | cons x rest ih =>
    obtain ⟨k1, v1⟩ := x
    by_cases h1 : k1 = k
    · subst h1; simp [mapGet] at h
    · simp [mapGet, h1] at h
      simp [mapDel, h1, ih h]

theorem mapDel_mapDel {κ ν : Type} [DecidableEq κ] (m : List (κ × ν)) (k : κ) :
    mapDel (mapDel m k) k = mapDel m k :=
  mapDel_eq_self _ _ (by simp [mapGet_mapDel])

theorem TxSet.has_mapSet (m : TxSet) (k j : Int) :
    TxSet.has (mapSet m k true) j = (decide (j = k) || TxSet.has m j) := by
  unfold TxSet.has
  rw [mapGet_mapSet]
  by_cases h : j = k <;> simp [h]

theorem TxSet.has_mapDel (m : TxSet) (k j : Int) :
    TxSet.has (mapDel m k) j = (!decide (j = k) && TxSet.has m j) := by
  unfold TxSet.has
  rw [mapGet_mapDel]
  by_cases h : j = k <;> simp [h]

/-! ## Evaluation of the code at concrete inputs -/

/-- C2, the code at the failing input: with keys 1, 2, 3 inserted into an empty
tree `Find(3)` returns the third record; `Delete(1)` then returns nil; and
afterwards `Find(3)` returns `ErrKeyNotFound`: deleting key 1 lost key 3. -/
theorem Delete_loses_other_key :
    ((TreeState.run {} threeKeys).map fun s => s.t.Find 3) = some (some (.ok 2)) ∧
    ((TreeState.run {} threeKeys).bind fun s =>
      (s.step (TreeCall.Delete 1)).map fun r => r.2) = some none ∧
    ((TreeState.run {} (threeKeys ++ [TreeCall.Delete 1])).map fun s => s.t.Find 3)
      = some (some (.error .ErrKeyNotFound)) :=
  ⟨rfl, rfl, rfl⟩

/-- C12, the code at the failing input: after the five inserts of
`TestFindByValue` the record with key 4 is stored and satisfies the predicate,
yet `FineByValue` returns `ErrValueNotFound`: the scan follows
`Pointers[order-1]`, which is nil, and never leaves the leftmost leaf. -/
theorem FineByValue_misses_later_leaves :
    ((TreeState.run {} findByValueInput).map fun s =>
      (s.t.Find 4, (s.recs[3]?).map isWorld3)) = some (some (.ok 3), some true) ∧
    ((TreeState.run {} findByValueInput).map fun s => s.t.FineByValue s.recs isWorld3)
      = some (some (.error .ErrValueNotFound)) :=
  ⟨rfl, rfl⟩

/-- C11, the code at the failing input: after `rollbackInput` the undo log of
table `test` holds one item, committed by transaction 1 and waiting on
transaction 2 alone; after `Rollback` of transaction 2 the active set is empty
but the item is still in the log and `FindRecordInUndoLog` still returns its
pre-image. -/
theorem Rollback_keeps_undo_item :
    (((Session.new true true).run rollbackInput).map fun s =>
      (s.w.active, (s.undoLog "test").map fun l =>
        l.items.map fun item => (item.commitTxID, s.w.maps[item.mayAffectedTxIDs]?)))
      = some (some [(2, true)], some [(1, some [(2, true)])]) ∧
    (((Session.new true true).run (rollbackInput ++ [Call.Rollback 1])).map fun s =>
      (s.w.active, (s.undoLog "test").map fun l => l.items.map fun item => item.commitTxID,
       (s.w.FindRecordInUndoLog "test" 1 [(1, true)]).map fun r =>
         match r with
         | .ok (some record) => some record.Value
         | _ => none))
      = some (some [], some [1], some (some ["hello"])) :=
  ⟨rfl, rfl⟩

/-! ## Frame lemmas: what the storage layer leaves alone -/

theorem World.setTree_frame {w w1 : World} {a : Nat} {data : Tree}
    (h : w.setTree a data = some w1) :
    w1.maps = w.maps ∧ w1.tm = w.tm ∧ w1.recs = w.recs ∧ w1.ui = w.ui ∧
      w1.tables = w.tables := by
  unfold World.setTree at h
  split at h
  · simp at h
  · simp only [Option.map_eq_some'] at h
    obtain ⟨heap1, _, rfl⟩ := h
    simp

theorem commit.apply_frame {w w1 : World} {a : Nat} {key : Int} {rc : OpRecord}
    {e : Option Error} (h : commit.apply w a key rc = some (w1, e)) :
    w1.maps = w.maps ∧ w1.tm = w.tm := by
  unfold commit.apply at h
  repeat' (first | split at h | (dsimp only at h))
  all_goals (try (simp at h; done))
  all_goals (simp only [Option.some.injEq, Prod.mk.injEq] at h; obtain ⟨rfl, -⟩ := h)
  all_goals (first | (constructor <;> rfl) | skip)
  all_goals (have hfr := World.setTree_frame (by assumption); simp_all)

theorem commit.table_frame {a : Nat} {c : List (Int × OpRecord)} {w w1 : World}
    {e : Option Error} (h : commit.table a c w = some (w1, e)) :
    w1.maps = w.maps ∧ w1.tm = w.tm := by
  induction c generalizing w with
  | nil => simp [commit.table] at h; obtain ⟨rfl, _⟩ := h; simp
  | cons x rest ih =>
    obtain ⟨key, rc⟩ := x
    unfold commit.table at h
    split at h
    · simp at h
    · rename_i w2 e2 h2
      simp at h
      obtain ⟨rfl, _⟩ := h
      exact commit.apply_frame h2
    · rename_i w2 h2
      have h3 := ih h
      have h4 := commit.apply_frame h2
      exact ⟨h3.1.trans h4.1, h3.2.trans h4.2⟩

theorem World.commit_frame {c : List (String × txCache)} {w w1 : World} {e : Option Error}
    (h : w.commit c = some (w1, e)) :
    w1.maps = w.maps ∧ w1.tm = w.tm := by
  induction c generalizing w with
  | nil => simp [World.commit] at h; obtain ⟨rfl, _⟩ := h; simp
  | cons x rest ih =>
    obtain ⟨name, c⟩ := x
    unfold World.commit at h
    split at h
    · simp at h
    · rename_i w2 e2 h2
      simp at h
      obtain ⟨rfl, _⟩ := h
      exact commit.table_frame h2
    · rename_i w2 h2
      have h3 := ih h
      have h4 := commit.table_frame h2
      exact ⟨h3.1.trans h4.1, h3.2.trans h4.2⟩

theorem World.CreateTable_frame (w : World) (tableName : String) (fieldMetas : List FieldMeta) :
    (w.CreateTable tableName fieldMetas).maps = w.maps ∧
      (w.CreateTable tableName fieldMetas).tm = w.tm := by
  simp [World.CreateTable]

theorem World.Insert_frame {w w1 : World} {tableName : String} {data : List Value}
    {e : Option Error} (h : w.Insert tableName data = some (w1, e)) :
    w1.maps = w.maps ∧ w1.tm = w.tm := by
  unfold World.Insert at h
  repeat' (first | split at h | (dsimp only at h))
  all_goals (try (simp at h; done))
  all_goals (simp only [Option.some.injEq, Prod.mk.injEq] at h; obtain ⟨rfl, -⟩ := h)
  all_goals (constructor <;> rfl)

theorem World.UpdateByID_frame {w w1 : World} {tableName : String}
    {values : List (String × Value)} {id : Int}
    {e : Option Error} (h : w.UpdateByID tableName values id = some (w1, e)) :
    w1.maps = w.maps ∧ w1.tm = w.tm := by
  unfold World.UpdateByID at h
  repeat' (first | split at h | (dsimp only at h))
  all_goals (try (simp at h; done))
  all_goals (simp only [Option.some.injEq, Prod.mk.injEq] at h; obtain ⟨rfl, -⟩ := h)
  all_goals (constructor <;> rfl)

theorem World.DeleteByID_frame {w w1 : World} {tableName : String} {id : Int}
    {e : Option Error} (h : w.DeleteByID tableName id = some (w1, e)) :
    w1.maps = w.maps ∧ w1.tm = w.tm := by
  unfold World.DeleteByID at h
  repeat' (first | split at h | (dsimp only at h))
  all_goals (try (simp at h; done))
  all_goals (first
    | (simp only [Option.some.injEq, Prod.mk.injEq] at h; obtain ⟨rfl, -⟩ := h
       constructor <;> rfl)
    | (simp only [Option.map_eq_some', Prod.mk.injEq] at h
       obtain ⟨w2, hs, rfl, -⟩ := h
       have := World.setTree_frame hs
       simp_all))

theorem World.findTableTxCache_frame {w : World} {tx tx1 : Tx} {tableName : String}
    {r : Except Error txCache} (h : w.findTableTxCache tx tableName = some (tx1, r)) :
    tx1.id = tx.id ∧ tx1.rv = tx.rv := by
  unfold World.findTableTxCache at h
  repeat' (first | split at h | (dsimp only at h))
  all_goals (simp only [Option.some.injEq, Prod.mk.injEq] at h; obtain ⟨rfl, -⟩ := h)
  all_goals (constructor <;> rfl)

theorem World.InsertTx_frame {w w1 : World} {tx tx1 : Tx} {tableName : String}
    {data : List Value} {e : Option Error}
    (h : w.InsertTx tx tableName data = some (w1, tx1, e)) :
    w1.maps = w.maps ∧ w1.tm = w.tm ∧ tx1.id = tx.id ∧ tx1.rv = tx.rv := by
  unfold World.InsertTx at h
  repeat' (first | split at h | (dsimp only at h))
  all_goals (try (simp at h; done))
  all_goals (simp only [Option.some.injEq, Prod.mk.injEq] at h; obtain ⟨rfl, rfl, -⟩ := h)
  all_goals (have hfr := World.findTableTxCache_frame (by assumption))
  all_goals (simp_all [Tx.setOp])

theorem World.UpdateByIDTx_frame {w : World} {tx tx1 : Tx} {tableName : String}
    {values : List (String × Value)} {id : Int} {e : Option Error}
    (h : w.UpdateByIDTx tx tableName values id = some (tx1, e)) :
    tx1.id = tx.id ∧ tx1.rv = tx.rv := by
  unfold World.UpdateByIDTx at h
  repeat' (first | split at h | (dsimp only at h))
  all_goals (try (simp at h; done))
  all_goals (simp only [Option.some.injEq, Prod.mk.injEq] at h; obtain ⟨rfl, -⟩ := h)
  all_goals (have hfr := World.findTableTxCache_frame (by assumption))
  all_goals (simp_all [Tx.setOp])

theorem World.DeleteByIDTx_frame {w : World} {tx tx1 : Tx} {tableName : String}
    {id : Int} {e : Option Error}
    (h : w.DeleteByIDTx tx tableName id = some (tx1, e)) :
    tx1.id = tx.id ∧ tx1.rv = tx.rv := by
  unfold World.DeleteByIDTx at h
  repeat' (first | split at h | (dsimp only at h))
  all_goals (try (simp at h; done))
  all_goals (simp only [Option.some.injEq, Prod.mk.injEq] at h; obtain ⟨rfl, -⟩ := h)
  all_goals (have hfr := World.findTableTxCache_frame (by assumption))
  all_goals (simp_all [Tx.setOp])

theorem World.trySelectFromCache_frame {w : World} {tx tx1 : Tx} {tableName : String}
    {id : Int} {r : Except Error (Option Record)}
    (h : w.trySelectFromCache tx tableName id = some (tx1, r)) :
    tx1.id = tx.id ∧ tx1.rv = tx.rv := by
  unfold World.trySelectFromCache at h
  repeat' (first | split at h | (dsimp only at h))
  all_goals (try (simp at h; done))
  all_goals (simp only [Option.some.injEq, Prod.mk.injEq] at h; obtain ⟨rfl, -⟩ := h)
  all_goals (constructor <;> rfl)

theorem World.SelectByIDTx_frame {w : World} {tx tx1 : Tx} {tableName : String}
    {id : Int} {r : Except Error Record}
    (h : w.SelectByIDTx tx tableName id = some (tx1, r)) :
    tx1.id = tx.id ∧ tx1.rv = tx.rv := by
  unfold World.SelectByIDTx at h
  repeat' (first | split at h | (dsimp only at h))
  all_goals (try (simp at h; done))
  all_goals (simp only [Option.some.injEq, Prod.mk.injEq] at h; obtain ⟨rfl, -⟩ := h)
  all_goals (exact World.trySelectFromCache_frame (by assumption))

/-! ## The manager's maps under `Append`, `AfterCommit` and `AfterRollback` -/

theorem List.set_self_of_getElem? {α : Type} (xs : List α) (i : Nat) (v : α)
    (h : xs[i]? = some v) : xs.set i v = xs := by
  apply List.ext_getElem?
  intro j
  by_cases hj : i = j
  · subst hj
    rw [List.getElem?_set]
    simp only [if_true]
    split
    · exact h.symm
    · rename_i hlt
      simp [List.getElem?_eq_none (Nat.le_of_not_lt hlt)]
  · rw [List.getElem?_set_ne hj]

theorem Append.release_maps (txID : Int) (items : List UndoLogItem) (maps maps1 : List TxSet)
    (l l1 : UndoLog) (hfix : ∀ (a : Nat) (m : TxSet), maps[a]? = some m → mapDel m txID = m)
    (h : Append.release txID items maps l = some (maps1, l1)) : maps1 = maps := by
  induction items generalizing l with
  | nil => simp [Append.release] at h; exact h.1.symm
  | cons item rest ih =>
    unfold Append.release at h
    split at h
    · simp at h
    · rename_i m hm
      have hm1 : mapDel m txID = m := hfix _ _ hm
      dsimp only at h
      rw [hm1] at h
      split at h
      · simp at h
      · rename_i maps2 hw
        have hmaps : maps2 = maps := by
          rw [(wr_eq_some hw).2]
          exact List.set_self_of_getElem? _ _ _ hm
        subst hmaps
        split at h
        · split at h
          · simp at h
          · exact ih _ h
        · exact ih _ h

theorem UndoLog.Append_maps {l l1 : UndoLog} {maps maps1 : List TxSet} {txID : Int}
    {a : Option Nat} {recs : List UndoRecord}
    (hfix : ∀ (a : Nat) (m : TxSet), maps[a]? = some m → mapDel m txID = m)
    (h : l.Append maps txID a recs = some (maps1, l1)) : maps1 = maps := by
  unfold UndoLog.Append at h
  dsimp only at h
  split at h
  · simp at h
  · rename_i maps2 l2 hrel
    have hmaps : maps2 = maps := by
      split at hrel
      · simp at hrel; exact hrel.1.symm
      · split at hrel
        · simp at hrel
        · rename_i hr
          simp at hrel
          rw [← hrel.1]
          exact Append.release_maps _ _ _ _ _ _ hfix hr
    subst hmaps
    repeat' (first | split at h | (dsimp only at h))
    all_goals (try (simp at h; done))
    all_goals (simp only [Option.some.injEq, Prod.mk.injEq] at h; exact h.1.symm)

theorem AfterCommit_loop_frame (txID : Int) (c : List (String × txCache)) (w w1 : World)
    (hfix : ∀ (a : Nat) (m : TxSet), w.maps[a]? = some m → mapDel m txID = m)
    (h : AfterCommit.loop txID c w = some w1) :
    w1.maps = w.maps ∧ w1.tm.txIDCounter = w.tm.txIDCounter ∧
      w1.tm.activeTxIDs = w.tm.activeTxIDs := by
  induction c generalizing w with
  | nil => simp [AfterCommit.loop] at h; subst h; simp
  | cons x rest ih =>
    obtain ⟨name, tc⟩ := x
    unfold AfterCommit.loop at h
    dsimp only at h
    split at h
    · simp at h
    · split at h
      · simp at h
      · rename_i maps1 log1 happ
        have hm := UndoLog.Append_maps hfix happ
        subst hm
        have := (fun hf => ih _ hf h) hfix
        simpa using this

theorem AfterRollback_loop_frame (txID : Int) (c : List (String × txCache)) (w w1 : World)
    (hfix : ∀ (a : Nat) (m : TxSet), w.maps[a]? = some m → mapDel m txID = m)
    (h : AfterRollback.loop txID c w = some w1) :
    w1.maps = w.maps ∧ w1.tm.txIDCounter = w.tm.txIDCounter ∧
      w1.tm.activeTxIDs = w.tm.activeTxIDs := by
  induction c generalizing w with
  | nil => simp [AfterRollback.loop] at h; subst h; simp
  | cons x rest ih =>
    obtain ⟨name, tc⟩ := x
    unfold AfterRollback.loop at h
    split at h
    · exact ih _ hfix h
    · split at h
      · have := (fun hf => ih _ hf h) hfix
        simpa using this
      · split at h
        · simp at h
        · rename_i maps1 log1 happ
          have hm := UndoLog.Append_maps hfix happ
          subst hm
          have := (fun hf => ih _ hf h) hfix
          simpa using this

/-! ## The manager invariant -/

theorem World.AfterCommit_mgr {w w1 : World} {tx : Tx} {active : TxSet}
    (hmaps : w.maps = [active]) (ha : w.tm.activeTxIDs = 0)
    (h : w.AfterCommit tx = some w1) :
    w1.maps = [mapDel active tx.id] ∧ w1.tm.txIDCounter = w.tm.txIDCounter ∧
      w1.tm.activeTxIDs = 0 := by
  unfold World.AfterCommit World.DeactivateTx at h
  simp only [hmaps, ha, List.getElem?_cons_zero] at h
  simp only [wr, List.length_singleton, Nat.lt_one_iff, if_true, List.set_cons_zero,
    Option.map_some'] at h
  have hfix : ∀ (a : Nat) (m : TxSet),
      ({ w with maps := [mapDel active tx.id] } : World).maps[a]? = some m →
        mapDel m tx.id = m := by
    intro a m hm
    cases a with
    | zero => simp at hm; subst hm; exact mapDel_mapDel _ _
    | succ a => simp at hm
  have := AfterCommit_loop_frame _ _ _ _ hfix h
  simpa [ha] using this

theorem World.AfterRollback_mgr {w w1 : World} {tx : Tx} {active : TxSet}
    (hmaps : w.maps = [active]) (ha : w.tm.activeTxIDs = 0)
    (h : w.AfterRollback tx = some w1) :
    w1.maps = [mapDel active tx.id] ∧ w1.tm.txIDCounter = w.tm.txIDCounter ∧
      w1.tm.activeTxIDs = 0 := by
  unfold World.AfterRollback World.DeactivateTx at h
  simp only [hmaps, ha, List.getElem?_cons_zero] at h
  simp only [wr, List.length_singleton, Nat.lt_one_iff, if_true, List.set_cons_zero,
    Option.map_some'] at h
  have hfix : ∀ (a : Nat) (m : TxSet),
      ({ w with maps := [mapDel active tx.id] } : World).maps[a]? = some m →
        mapDel m tx.id = m := by
    intro a m hm
    cases a with
    | zero => simp at hm; subst hm; exact mapDel_mapDel _ _
    | succ a => simp at hm
  have := AfterRollback_loop_frame _ _ _ _ hfix h
  simpa [ha] using this

theorem World.Rollback_mgr {w w1 : World} {tx tx1 : Tx} {e : Option Error} {active : TxSet}
    (hmaps : w.maps = [active]) (ha : w.tm.activeTxIDs = 0)
    (h : w.Rollback tx = some (w1, tx1, e)) :
    w1.maps = [mapDel active tx.id] ∧ w1.tm.txIDCounter = w.tm.txIDCounter ∧
      w1.tm.activeTxIDs = 0 ∧ tx1.id = tx.id ∧ tx1.rv = tx.rv ∧ tx1.cache = [] ∧ e = none := by
  unfold World.Rollback at h
  simp only [Option.map_eq_some', Prod.mk.injEq] at h
  obtain ⟨w2, h2, rfl, rfl, rfl⟩ := h
  have := @World.AfterRollback_mgr w w2 { tx with cache := [] } active hmaps ha h2
  simpa using this

theorem World.Commit_mgr {w w1 : World} {tx tx1 : Tx} {e : Option Error} {active : TxSet}
    (hmaps : w.maps = [active]) (ha : w.tm.activeTxIDs = 0)
    (h : w.Commit tx = some (w1, tx1, e)) :
    w1.maps = [mapDel active tx.id] ∧ w1.tm.txIDCounter = w.tm.txIDCounter ∧
      w1.tm.activeTxIDs = 0 ∧ tx1.id = tx.id ∧ tx1.rv = tx.rv := by
  unfold World.Commit at h
  split at h
  · simp at h
  · rename_i w2 e2 hc
    have hf := World.commit_frame hc
    have := World.Rollback_mgr (hf.1.trans hmaps) (by rw [hf.2]; exact ha) h
    simp only [hf.2] at this
    exact ⟨this.1, this.2.1, this.2.2.1, this.2.2.2.1, this.2.2.2.2.1⟩
  · rename_i w2 hc
    have hf := World.commit_frame hc
    simp only [Option.map_eq_some', Prod.mk.injEq] at h
    obtain ⟨w3, h3, rfl, rfl, rfl⟩ := h
    have := World.AfterCommit_mgr (hf.1.trans hmaps) (by rw [hf.2]; exact ha) h3
    simp only [hf.2] at this
    exact ⟨this.1, this.2.1, this.2.2, rfl, rfl⟩

theorem ids_set {txs : List Tx} {i : Nat} {tx0 tx1 : Tx}
    (hids : ∀ (n : Nat) (tx : Tx), txs[n]? = some tx → tx.id = (n : Int) + 1)
    (h0 : txs[i]? = some tx0) (h1 : tx1.id = tx0.id) :
    ∀ (n : Nat) (tx : Tx), (txs.set i tx1)[n]? = some tx → tx.id = (n : Int) + 1 := by
  intro n tx hn
  rw [List.getElem?_set] at hn
  split at hn
  · rename_i hin
    subst hin
    split at hn
    · simp at hn; subst hn; rw [h1]; exact hids _ _ h0
    · simp at hn
  · exact hids _ _ hn

theorem Session.Inv_of_frame {s : Session} {w1 : World} {txs1 : List Tx} (hinv : s.Inv)
    (hm : w1.maps = s.w.maps) (ht : w1.tm = s.w.tm) (hl : txs1.length = s.txs.length)
    (hid : ∀ (n : Nat) (tx : Tx), txs1[n]? = some tx → tx.id = (n : Int) + 1) :
    Session.Inv { w := w1, txs := txs1, finished := s.finished } := by
  obtain ⟨h1, h2, h3, _, active, h5, h6⟩ := hinv
  refine ⟨by simpa [ht] using h1, by simpa [ht, hl] using h2, by simpa [hl] using h3, hid,
    active, by simpa [hm] using h5, h6⟩

theorem Session.Inv_new (inspector collector : Bool) : (Session.new inspector collector).Inv := by
  refine ⟨rfl, rfl, rfl, ?_, [], rfl, ?_⟩
  · intro n tx h; simp [Session.new] at h
  · intro k; simp [Session.new, TxSet.has, mapGet]

theorem Session.Inv_start {s : Session} {w1 : World} {tx : Tx} (hinv : s.Inv)
    (h : s.w.StartTransaction = some (w1, tx)) :
    Session.Inv { w := w1, txs := s.txs ++ [tx], finished := s.finished ++ [false] } := by
  obtain ⟨h1, h2, h3, h4, active, h5, h6⟩ := hinv
  unfold World.StartTransaction at h
  simp only [h1, h5, List.getElem?_cons_zero] at h
  simp only [wr, List.length_singleton, Nat.lt_one_iff, if_true, List.set_cons_zero,
    Option.some.injEq, Prod.mk.injEq] at h
  obtain ⟨rfl, rfl⟩ := h
  refine ⟨rfl, by simp [h2], by simp [h3], ?_, mapSet active (s.w.tm.txIDCounter + 1) true,
    rfl, ?_⟩
  · intro n tx hn
    rw [List.getElem?_append] at hn
    split at hn
    · exact h4 _ _ hn
    · rename_i hge
      have hlen : n - s.txs.length = 0 := by
        cases hk : n - s.txs.length with
        | zero => rfl
        | succ k => rw [hk] at hn; simp at hn
      rw [hlen] at hn
      simp at hn
      subst hn
      simp only [h2]
      have : n = s.txs.length := by omega
      rw [this]
  · intro k
    rw [TxSet.has_mapSet, h2]
    simp only [Bool.or_eq_true, decide_eq_true_eq, h6]
    constructor
    · rintro (hk | ⟨n, hk, hn⟩)
      · refine ⟨s.txs.length, hk, ?_⟩
        rw [List.getElem?_append_right (by omega)]
        simp [h3]
      · refine ⟨n, hk, ?_⟩
        have hlt : n < s.finished.length := by
          rcases Nat.lt_or_ge n s.finished.length with h | h
          · exact h
          · rw [List.getElem?_eq_none h] at hn; simp at hn
        rw [List.getElem?_append_left hlt]
        exact hn
    · rintro ⟨n, hk, hn⟩
      rw [List.getElem?_append] at hn
      split at hn
      · exact Or.inr ⟨n, hk, hn⟩
      · rename_i hge
        left
        have hlen : n - s.finished.length = 0 := by
          cases hq : n - s.finished.length with
          | zero => rfl
          | succ q => rw [hq] at hn; simp at hn
        have : n = s.txs.length := by omega
        rw [hk, this]

theorem Session.Inv_finish {s : Session} {w1 : World} {tx tx1 : Tx} {i : Nat} (hinv : s.Inv)
    (hi : s.txs[i]? = some tx) (active : TxSet) (hact : s.w.maps = [active])
    (hm : w1.maps = [mapDel active tx.id]) (hc : w1.tm.txIDCounter = s.w.tm.txIDCounter)
    (ha : w1.tm.activeTxIDs = 0) (hid : tx1.id = tx.id) :
    Session.Inv { w := w1, txs := s.txs.set i tx1, finished := s.finished.set i true } := by
  obtain ⟨h1, h2, h3, h4, active', h5, h6⟩ := hinv
  have hEq : active' = active := by rw [h5] at hact; simpa using hact
  subst hEq
  have htx : tx.id = (i : Int) + 1 := h4 _ _ hi
  refine ⟨ha, by simp [hc, h2], by simp [h3], ids_set h4 hi hid, mapDel active' tx.id, hm, ?_⟩
  intro k
  rw [TxSet.has_mapDel]
  simp only [Bool.and_eq_true, Bool.not_eq_true', decide_eq_false_iff_not, h6, htx]
  constructor
  · rintro ⟨hne, n, hk, hn⟩
    refine ⟨n, hk, ?_⟩
    have hni : i ≠ n := by
      intro e; subst e; exact hne hk
    rw [List.getElem?_set_ne hni]
    exact hn
  · rintro ⟨n, hk, hn⟩
    rw [List.getElem?_set] at hn
    split at hn
    · split at hn <;> simp at hn
    · rename_i hni
      refine ⟨?_, n, hk, hn⟩
      intro e
      apply hni
      rw [hk] at e
      omega

theorem Session.step_inv {s s1 : Session} {c : Call} (hinv : s.Inv) (h : s.step c = some s1) :
    s1.Inv := by
  have hinv' := hinv
  obtain ⟨h1, h2, h3, h4, active, h5, h6⟩ := hinv'
  cases c with
  | CreateTable tableName fieldMetas =>
    simp only [Session.step, Option.some.injEq] at h
    subst h
    exact Session.Inv_of_frame hinv (World.CreateTable_frame _ _ _).1
      (World.CreateTable_frame _ _ _).2 rfl h4
  | Insert tableName data =>
    simp only [Session.step, Option.map_eq_some'] at h
    obtain ⟨⟨w1, e⟩, hr, rfl⟩ := h
    have hf := World.Insert_frame hr
    exact Session.Inv_of_frame hinv hf.1 hf.2 rfl h4
  | UpdateByID tableName values id =>
    simp only [Session.step, Option.map_eq_some'] at h
    obtain ⟨⟨w1, e⟩, hr, rfl⟩ := h
    have hf := World.UpdateByID_frame hr
    exact Session.Inv_of_frame hinv hf.1 hf.2 rfl h4
  | DeleteByID tableName id =>
    simp only [Session.step, Option.map_eq_some'] at h
    obtain ⟨⟨w1, e⟩, hr, rfl⟩ := h
    have hf := World.DeleteByID_frame hr
    exact Session.Inv_of_frame hinv hf.1 hf.2 rfl h4
  | StartTransaction =>
    simp only [Session.step, Option.map_eq_some'] at h
    obtain ⟨⟨w1, tx⟩, hr, rfl⟩ := h
    exact Session.Inv_start hinv hr
  | InsertTx i tableName data =>
    simp only [Session.step] at h
    split at h
    · simp at h
    · rename_i tx hi
      simp only [Option.map_eq_some'] at h
      obtain ⟨⟨w1, tx1, e⟩, hr, rfl⟩ := h
      have hf := World.InsertTx_frame hr
      exact Session.Inv_of_frame hinv hf.1 hf.2.1 (by simp) (ids_set h4 hi hf.2.2.1)
  | UpdateByIDTx i tableName values id =>
    simp only [Session.step] at h
    split at h
    · simp at h
    · rename_i tx hi
      simp only [Option.map_eq_some'] at h
      obtain ⟨⟨tx1, e⟩, hr, rfl⟩ := h
      have hf := World.UpdateByIDTx_frame hr
      exact Session.Inv_of_frame hinv rfl rfl (by simp) (ids_set h4 hi hf.1)
  | DeleteByIDTx i tableName id =>
    simp only [Session.step] at h
    split at h
    · simp at h
    · rename_i tx hi
      simp only [Option.map_eq_some'] at h
      obtain ⟨⟨tx1, e⟩, hr, rfl⟩ := h
      have hf := World.DeleteByIDTx_frame hr
      exact Session.Inv_of_frame hinv rfl rfl (by simp) (ids_set h4 hi hf.1)
  | SelectByIDTx i tableName id =>
    simp only [Session.step] at h
    split at h
    · simp at h
    · rename_i tx hi
      simp only [Option.map_eq_some'] at h
      obtain ⟨⟨tx1, e⟩, hr, rfl⟩ := h
      have hf := World.SelectByIDTx_frame hr
      exact Session.Inv_of_frame hinv rfl rfl (by simp) (ids_set h4 hi hf.1)
  | Commit i =>
    simp only [Session.step] at h
    split at h
    · simp at h
    · rename_i tx hi
      simp only [Option.map_eq_some'] at h
      obtain ⟨⟨w1, tx1, e⟩, hr, rfl⟩ := h
      have hf := World.Commit_mgr h5 h1 hr
      exact Session.Inv_finish hinv hi active h5 hf.1 hf.2.1 hf.2.2.1 hf.2.2.2.1
  | Rollback i =>
    simp only [Session.step] at h
    split at h
    · simp at h
    · rename_i tx hi
      simp only [Option.map_eq_some'] at h
      obtain ⟨⟨w1, tx1, e⟩, hr, rfl⟩ := h
      have hf := World.Rollback_mgr h5 h1 hr
      exact Session.Inv_finish hinv hi active h5 hf.1 hf.2.1 hf.2.2.1 hf.2.2.2.1

theorem Session.run_inv {s s1 : Session} {cs : List Call} (hinv : s.Inv)
    (h : s.run cs = some s1) : s1.Inv := by
  induction cs generalizing s with
  | nil => simp [Session.run] at h; subst h; exact hinv
  | cons c rest ih =>
    unfold Session.run at h
    split at h
    · simp at h
    · rename_i s2 hs
      exact ih (Session.step_inv hinv hs) h

/-! ## Transaction ids and read views (C15, C16, C17) -/

theorem mapSet_of_not_mem {κ ν : Type} [DecidableEq κ] (m : List (κ × ν)) (k : κ) (v : ν)
    (h : k ∉ m.map Prod.fst) : mapSet m k v = m ++ [(k, v)] := by
  induction m with
  | nil => rfl
  | cons x rest ih =>
    obtain ⟨k1, v1⟩ := x
    simp only [List.map_cons, List.mem_cons, not_or] at h
    have h1 : ¬ k1 = k := fun e => h.1 e.symm
    simp [mapSet, h1, ih h.2]

theorem copyMap_fold (acc m : TxSet) (hm : (m.map Prod.fst).Nodup)
    (hd : ∀ k ∈ m.map Prod.fst, k ∉ acc.map Prod.fst) :
    m.foldl (fun r kb => mapSet r kb.1 kb.2) acc = acc ++ m := by
  induction m generalizing acc with
  | nil => simp
  | cons x rest ih =>
    obtain ⟨k1, v1⟩ := x
    simp only [List.map_cons, List.nodup_cons] at hm
    simp only [List.foldl_cons]
    rw [mapSet_of_not_mem _ _ _ (hd k1 (by simp))]
    rw [ih _ hm.2]
    · simp
    · intro k hk
      simp only [List.map_append, List.map_cons, List.map_nil, List.mem_append,
        List.mem_singleton, not_or]
      refine ⟨hd k (by simp [hk]), ?_⟩
      intro e
      subst e
      exact hm.1 hk

theorem copyMap_eq_self (m : TxSet) (hm : (m.map Prod.fst).Nodup) : copyMap m = m := by
  unfold copyMap
  rw [copyMap_fold [] m hm (by simp)]
  simp

theorem minInt_fold_le (m : TxSet) (init : Int) :
    m.foldl (fun a kb => minInt a kb.1) init ≤ init ∧
    (∀ k ∈ m.map Prod.fst, m.foldl (fun a kb => minInt a kb.1) init ≤ k) ∧
    (m.foldl (fun a kb => minInt a kb.1) init = init ∨
      m.foldl (fun a kb => minInt a kb.1) init ∈ m.map Prod.fst) := by
  induction m generalizing init with
  | nil => simp
  | cons x rest ih =>
    obtain ⟨k1, v1⟩ := x
    simp only [List.foldl_cons, List.map_cons, List.mem_cons, forall_eq_or_imp]
    have h := ih (minInt init k1)
    have hmin1 : minInt init k1 ≤ init := by unfold minInt; split <;> omega
    have hmin2 : minInt init k1 ≤ k1 := by unfold minInt; split <;> omega
    have hmin3 : minInt init k1 = init ∨ minInt init k1 = k1 := by
      unfold minInt; split <;> simp
    refine ⟨le_trans h.1 hmin1, ⟨le_trans h.1 hmin2, h.2.1⟩, ?_⟩
    rcases h.2.2 with h3 | h3
    · rcases hmin3 with h4 | h4
      · left; rw [h3, h4]
      · right; left; rw [h3, h4]
    · right; right; exact h3

theorem World.StartTransaction_eq {w : World} {active : TxSet}
    (hlive : w.maps[w.tm.activeTxIDs]? = some active) :
    w.StartTransaction = some
      ({ w with maps := w.maps.set w.tm.activeTxIDs (mapSet active (w.tm.txIDCounter + 1) true)
                tm := { w.tm with txIDCounter := w.tm.txIDCounter + 1 } },
       { id := w.tm.txIDCounter + 1, cache := []
         rv := { activeTxIDs := copyMap active
                 minActiveID := active.foldl (fun m kb => minInt m kb.1) InvalidTxID
                 nextTxID := w.tm.txIDCounter + 1 + 1 } }) := by
  have hlt : w.tm.activeTxIDs < w.maps.length := by
    rcases Nat.lt_or_ge w.tm.activeTxIDs w.maps.length with h | h
    · exact h
    · rw [List.getElem?_eq_none h] at hlive; simp at hlive
  unfold World.StartTransaction
  simp only [hlive, wr_of_lt _ hlt]

/-- C16: in a manager state whose live active set is `active` (a Go map: no
key twice; Go ints: no key above `math.MaxInt`), `StartTransaction` returns a
transaction with the next id whose read view holds `active` itself as
`activeTxIDs`, the sentinel `InvalidTxID` as `minActiveID` when `active` is
empty and the minimum of its ids otherwise, and `id + 1` as `nextTxID`; the
live active set afterwards is `active` with the new id set.  When no id of
`active` exceeds the id counter, as in every state the manager reaches, the
read view does not contain the new id. -/
theorem StartTransaction_readView (w : World) (active : TxSet)
    (hlive : w.active = some active)
    (hkeys : (active.map Prod.fst).Nodup)
    (hrange : ∀ k ∈ active.map Prod.fst, k ≤ InvalidTxID) :
    ∃ w1 tx, w.StartTransaction = some (w1, tx) ∧
      tx.id = w.tm.txIDCounter + 1 ∧
      tx.rv.activeTxIDs = active ∧
      (active = [] → tx.rv.minActiveID = InvalidTxID) ∧
      (active ≠ [] → tx.rv.minActiveID ∈ active.map Prod.fst ∧
        ∀ k ∈ active.map Prod.fst, tx.rv.minActiveID ≤ k) ∧
      tx.rv.nextTxID = tx.id + 1 ∧
      w1.active = some (mapSet active tx.id true) ∧
      ((∀ k ∈ active.map Prod.fst, k ≤ w.tm.txIDCounter) →
        tx.id ∉ tx.rv.activeTxIDs.map Prod.fst) := by
  unfold World.active at hlive
  have hlt : w.tm.activeTxIDs < w.maps.length := by
    rcases Nat.lt_or_ge w.tm.activeTxIDs w.maps.length with h | h
    · exact h
    · rw [List.getElem?_eq_none h] at hlive; simp at hlive
  have hmin := minInt_fold_le active InvalidTxID
  refine ⟨_, _, World.StartTransaction_eq hlive, rfl, copyMap_eq_self active hkeys, ?_, ?_,
    rfl, ?_, ?_⟩
  · intro h; subst h; rfl
  · intro hne
    refine ⟨?_, hmin.2.1⟩
    rcases hmin.2.2 with h | h
    · obtain ⟨⟨k, v⟩, rest⟩ : ∃ x rest, active = x :: rest := by
        cases active with
        | nil => exact absurd rfl hne
        | cons x rest => exact ⟨x, rest, rfl⟩
      obtain ⟨rest, hrest⟩ := rest
      have hk : k ∈ active.map Prod.fst := by simp [hrest]
      have h1 := hmin.2.1 k hk
      have h2 := hrange k hk
      have : k = List.foldl (fun a kb => minInt a kb.1) InvalidTxID active := by
        rw [h] at h1 ⊢; omega
      show List.foldl (fun a kb => minInt a kb.1) InvalidTxID active ∈ active.map Prod.fst
      rw [← this]; exact hk
    · exact h
  · simp [World.active, hlt]
  · intro hissued hmem
    rw [copyMap_eq_self active hkeys] at hmem
    have h9 : w.tm.txIDCounter + 1 ≤ w.tm.txIDCounter := hissued _ hmem
    omega

/-- C16, at a concrete state: two transactions are active (ids 1 and 2) when
the third one starts. -/
theorem StartTransaction_readView_witness :
    ∃ w1 tx, (NewWorld true true |>.StartTransaction.bind fun r =>
        r.1.StartTransaction.bind fun r => r.1.StartTransaction) = some (w1, tx) ∧
      tx.id = 3 ∧ tx.rv.activeTxIDs = [(1, true), (2, true)] ∧ tx.rv.minActiveID = 1 ∧
      tx.rv.nextTxID = 4 ∧ w1.active = some [(1, true), (2, true), (3, true)] := by
  have h := StartTransaction_readView
    { NewWorld true true with
      maps := [[(1, true), (2, true)]]
      tm := { txIDCounter := 2, activeTxIDs := 0, undoCollector := true } }
    [(1, true), (2, true)] rfl (by decide) (by decide)
  obtain ⟨w1, tx, h1, h2, h3, _, h5, h6, h7, _⟩ := h
  refine ⟨w1, tx, ?_, h2, h3, ?_, by rw [h6, h2]; rfl, by rw [h7, h2]; rfl⟩
  · rw [← h1]; rfl
  · have := h5 (by simp)
    rw [← h3] at this
    have h8 := this.2 1 (by rw [h3]; simp)
    have h9 := this.1
    rw [h3] at h9
    simp at h9
    omega

/-- C15: in every session on a fresh manager the `n`-th transaction started
has id `n` (position `n-1` of the list of started transactions), so ids of
different transactions differ, a transaction started later has a larger id,
and the next `StartTransaction` returns the id after the last one. -/
theorem StartTransaction_ids (inspector collector : Bool) (calls : List Call) (s : Session)
    (h : (Session.new inspector collector).run calls = some s) :
    (∀ (n : Nat) (tx : Tx), s.txs[n]? = some tx → tx.id = (n : Int) + 1) ∧
    (∀ (m n : Nat) (txm txn : Tx), s.txs[m]? = some txm → s.txs[n]? = some txn → m < n →
      txm.id < txn.id) ∧
    ∃ w1 tx, s.w.StartTransaction = some (w1, tx) ∧ tx.id = (s.txs.length : Int) + 1 := by
  obtain ⟨h1, h2, h3, h4, active, h5, h6⟩ := Session.run_inv (Session.Inv_new _ _) h
  refine ⟨h4, ?_, ?_⟩
  · intro m n txm txn hm hn hlt
    rw [h4 _ _ hm, h4 _ _ hn]
    omega
  · have hlive : s.w.maps[s.w.tm.activeTxIDs]? = some active := by simp [h1, h5]
    exact ⟨_, _, World.StartTransaction_eq hlive, by simp [h2]⟩

/-- C15, on a concrete session: three transactions started with a commit and
a rollback in between get ids 1, 2, 3. -/
theorem StartTransaction_ids_witness :
    ∃ s, (Session.new true true).run
        [Call.StartTransaction, Call.Commit 0, Call.StartTransaction, Call.Rollback 1,
         Call.StartTransaction] = some s ∧
      (∀ (n : Nat) (tx : Tx), s.txs[n]? = some tx → tx.id = (n : Int) + 1) ∧
      s.txs.map (fun tx => tx.id) = [1, 2, 3] := by
  have hs : ((Session.new true true).run
      [Call.StartTransaction, Call.Commit 0, Call.StartTransaction, Call.Rollback 1,
       Call.StartTransaction]).isSome = true := rfl
  exact ⟨Option.get _ hs, (Option.some_get hs).symm,
    (StartTransaction_ids true true _ _ (Option.some_get hs).symm).1, rfl⟩

/-- C17: in every session on a fresh manager the live active set holds
exactly the ids of the transactions that were started and on which no `Commit`
or `Rollback` call has returned. -/
theorem active_set_is_unfinished (inspector collector : Bool) (calls : List Call)
    (s : Session) (h : (Session.new inspector collector).run calls = some s) :
    ∃ active, s.w.active = some active ∧
      ∀ k : Int, active.has k = true ↔
        ∃ (n : Nat) (tx : Tx), s.txs[n]? = some tx ∧ tx.id = k ∧ s.finished[n]? = some false := by
  obtain ⟨h1, h2, h3, h4, active, h5, h6⟩ := Session.run_inv (Session.Inv_new _ _) h
  refine ⟨active, by simp [World.active, h1, h5], ?_⟩
  intro k
  rw [h6]
  constructor
  · rintro ⟨n, hk, hn⟩
    have hlt : n < s.txs.length := by
      rcases Nat.lt_or_ge n s.finished.length with h | h
      · omega
      · rw [List.getElem?_eq_none h] at hn; simp at hn
    refine ⟨n, s.txs[n], by simp [hlt], ?_, hn⟩
    rw [hk]
    exact h4 n _ (by simp [hlt])
  · rintro ⟨n, tx, hn, hk, hf⟩
    exact ⟨n, by rw [← hk]; exact h4 _ _ hn, hf⟩

/-- C17, on a concrete session: of three transactions the first committed and
the second rolled back; the live active set holds id 3 only. -/
theorem active_set_is_unfinished_witness :
    ∃ s, (Session.new true true).run
        [Call.StartTransaction, Call.StartTransaction, Call.Commit 0, Call.StartTransaction,
         Call.Rollback 1] = some s ∧
      s.w.active = some [(3, true)] ∧
      ∃ active, s.w.active = some active ∧
        ∀ k : Int, active.has k = true ↔
          ∃ (n : Nat) (tx : Tx), s.txs[n]? = some tx ∧ tx.id = k ∧
            s.finished[n]? = some false := by
  have hs : ((Session.new true true).run
      [Call.StartTransaction, Call.StartTransaction, Call.Commit 0, Call.StartTransaction,
       Call.Rollback 1]).isSome = true := rfl
  exact ⟨Option.get _ hs, (Option.some_get hs).symm, rfl,
    active_set_is_unfinished true true _ _ (Option.some_get hs).symm⟩

/-! ## Duplicate insert (C13) and failed commit (C19) -/

/-- C13: when the key of the record handed to `Insert` is present in the tree
(`Find` returns a record for it), `Insert` returns `ErrKeyExists` and the tree
it leaves is the tree it was given: same nodes, same key counts, same result
of every `Find`. -/
theorem Insert_existing_key (t : Tree) (recs : List Record) (record : Nat) (rc : Record)
    (a : Nat) (hr : recs[record]? = some rc) (hf : t.Find rc.Key = some (.ok a)) :
    t.Insert recs record = some (t, some .ErrKeyExists) := by
  unfold Tree.Insert
  simp only [hr, hf]

/-- C13, on the tree of `TestInsertSameKeyTwice`: the record with key 1 is
inserted a second time. -/
theorem Insert_existing_key_witness :
    ∃ t, (NewTree.Insert [{ Key := 1, Value := ["test"] }] 0) = some (t, none) ∧
      t.Find 1 = some (.ok 0) ∧
      t.Insert [{ Key := 1, Value := ["test"] }] 0 = some (t, some .ErrKeyExists) := by
  have hs : (NewTree.Insert [{ Key := 1, Value := ["test"] }] 0).isSome = true := rfl
  exact ⟨(Option.get _ hs).1, rfl, rfl,
    Insert_existing_key _ [{ Key := 1, Value := ["test"] }] 0 { Key := 1, Value := ["test"] } 0
      rfl rfl⟩

/-- C19: when the commit applier fails on the write set of `tx`, `Tx.Commit`
returns nil after a rollback: the transaction is left with an empty write set,
its id is deleted from the live active set, and the undo logs of the manager
are what they were before the call. -/
theorem Commit_failure_rolls_back (w w1 : World) (tx : Tx) (e : Error) (active : TxSet)
    (hc : w.commit tx.cache = some (w1, some e)) (hlive : w.active = some active) :
    ∃ w2, w.Commit tx = some (w2, { tx with cache := [] }, none) ∧
      w2.active = some (mapDel active tx.id) ∧ w2.tm.undoLogs = w.tm.undoLogs := by
  have hf := World.commit_frame hc
  unfold World.active at hlive
  have hlt : w.tm.activeTxIDs < w.maps.length := by
    rcases Nat.lt_or_ge w.tm.activeTxIDs w.maps.length with h | h
    · exact h
    · rw [List.getElem?_eq_none h] at hlive; simp at hlive
  refine ⟨{ w1 with maps := w.maps.set w.tm.activeTxIDs (mapDel active tx.id) }, ?_, ?_, ?_⟩
  · unfold World.Commit
    simp only [hc]
    unfold World.Rollback World.AfterRollback World.DeactivateTx
    simp only [hf.1, hf.2, hlive, wr_of_lt _ hlt, Option.map_some', AfterRollback.loop]
  · simp [World.active, hf.2, hlt]
  · simp [hf.2]

/-- C19, on `clashInput`: the applier fails with `ErrKeyExists`, `Commit`
returns nil, the write set is empty, the active set is empty and no undo log
exists. -/
theorem Commit_failure_rolls_back_witness :
    ∃ w tx w1, clashInput = some (w, tx) ∧
      w.commit tx.cache = some (w1, some .ErrKeyExists) ∧
      w.active = some [(1, true)] ∧
      ∃ w2, w.Commit tx = some (w2, { tx with cache := [] }, none) ∧
        w2.active = some (mapDel [(1, true)] tx.id) ∧ w2.tm.undoLogs = w.tm.undoLogs := by
  have hs : clashInput.isSome = true := rfl
  have hc : ((Option.get _ hs).1.commit (Option.get _ hs).2.cache).isSome = true := rfl
  exact ⟨(Option.get _ hs).1, (Option.get _ hs).2, (Option.get _ hc).1, rfl, rfl, rfl,
    Commit_failure_rolls_back _ (Option.get _ hc).1 _ .ErrKeyExists [(1, true)] rfl rfl⟩

/-! ## The undo log: `Find` against the items of the log (C20) -/

/-- The first triple of a history whose committing transaction is active. -/
theorem Find_scan_history (active : TxSet) (pre h : List (Nat × Int × UndoRecord)) :
    UndoLog.Find.scan active ((pre ++ h).map fun x => x.2.2) (h.map fun x => x.2.1) pre.length
      = some (match h.find? fun x => active.has x.2.1 with
              | none => .error .ErrRecordNotCommit
              | some x => .ok (transferToRecord x.2.2)) := by
  induction h generalizing pre with
  | nil => simp [UndoLog.Find.scan]
  | cons x rest ih =>
    have hget : ((pre ++ x :: rest).map fun x => x.2.2)[pre.length]? = some x.2.2 := by
      rw [List.map_append, List.getElem?_append_right (by simp)]
      simp
    simp only [List.map_cons, UndoLog.Find.scan, List.find?_cons]
    by_cases hx : active.has x.2.1 = true
    · simp only [hx, if_true, hget]
    · simp only [hx, Bool.false_eq_true, if_false]
      have := ih (pre ++ [x])
      simp only [List.append_assoc, List.singleton_append, List.length_append,
        List.length_singleton] at this
      rw [this]

theorem findSpec_history (active : TxSet) (recordID : Int) (items : List UndoLogItem) :
    findSpec active recordID items
      = (match (history recordID items).find? fun x => active.has x.2.1 with
         | none => .error .ErrRecordNotCommit
         | some x => .ok (transferToRecord x.2.2)) := by
  induction items with
  | nil => rfl
  | cons item rest ih =>
    unfold findSpec history
    cases hg : mapGet item.records recordID with
    | none => simpa using ih
    | some rc =>
      simp only [List.find?_cons]
      cases hb : active.has item.commitTxID with
      | true => simp
      | false => simpa using ih

theorem Find_of_Consistent (l : UndoLog) (hc : l.Consistent) (active : TxSet) (recordID : Int) :
    l.Find active recordID = some (findSpec active recordID l.items) := by
  have hag := hc.2.2.2 recordID
  unfold UndoLog.Find
  rw [findSpec_history]
  cases hg : mapGet l.recordsCache recordID with
  | none =>
    rw [hg] at hag
    simp only [agrees] at hag
    simp [hag]
  | some rc =>
    rw [hg] at hag
    simp only [agrees] at hag
    obtain ⟨_, _, h3, h4⟩ := hag
    have := Find_scan_history active [] (history recordID l.items)
    simp only [List.nil_append, List.length_nil] at this
    simp only [h3, h4]
    exact this

theorem Consistent_new : NewUndoLog.Consistent := by
  refine ⟨by simp [NewUndoLog], by simp [NewUndoLog], ?_, ?_⟩
  · intro tid items h; simp [NewUndoLog, mapGet] at h
  · intro recordID; simp [NewUndoLog, mapGet, agrees, history]

theorem eraseIdx_append_cons {α : Type} (l1 : List α) (x : α) (l2 : List α) :
    (l1 ++ x :: l2).eraseIdx l1.length = l1 ++ l2 := by
  induction l1 with
  | nil => rfl
  | cons y rest ih => simp [List.eraseIdx, ih]

theorem eraseIdx_map_append_cons {α β : Type} (f : α → β) (l1 : List α) (x : α) (l2 : List α) :
    ((l1 ++ x :: l2).map f).eraseIdx l1.length = (l1 ++ l2).map f := by
  have := eraseIdx_append_cons (l1.map f) (f x) (l2.map f)
  simpa using this

theorem getElem?_map_append_cons {α β : Type} (f : α → β) (l1 : List α) (x : α)
    (l2 : List α) : ((l1 ++ x :: l2).map f)[l1.length]? = some (f x) := by
  rw [List.map_append, List.getElem?_append_right (by simp)]
  simp

/-- The pruning loop of `removeItem` on an entry that lists a history: the
triples of the item are filtered out from position `pre.length` on. -/
theorem prune_history (itemID : Nat) (fuel : Nat) (pre suf : List (Nat × Int × UndoRecord))
    (rc : undoRecord)
    (hid : rc.id = (pre ++ suf).map fun x => x.1)
    (hc : rc.commitTxIDs = (pre ++ suf).map fun x => x.2.1)
    (hr : rc.records = (pre ++ suf).map fun x => x.2.2)
    (hfuel : suf.length ≤ fuel) :
    ∃ rc1, removeItem.prune itemID fuel pre.length rc = some rc1 ∧
      rc1.id = (pre ++ suf.filter fun x => decide (x.1 ≠ itemID)).map (fun x => x.1) ∧
      rc1.commitTxIDs = (pre ++ suf.filter fun x => decide (x.1 ≠ itemID)).map (fun x => x.2.1) ∧
      rc1.records = (pre ++ suf.filter fun x => decide (x.1 ≠ itemID)).map (fun x => x.2.2) := by
  induction fuel generalizing pre suf rc with
  | zero =>
    have : suf = [] := List.length_eq_zero.mp (Nat.le_zero.mp hfuel)
    subst this
    exact ⟨rc, rfl, by simpa using hid, by simpa using hc, by simpa using hr⟩
  | succ fuel ih =>
    cases suf with
    | nil =>
      refine ⟨rc, ?_, by simpa using hid, by simpa using hc, by simpa using hr⟩
      unfold removeItem.prune
      simp [hid]
    | cons x suf1 =>
      have hlen : pre.length < rc.id.length := by simp [hid]
      have hget : rc.id[pre.length]? = some x.1 := by
        rw [hid]; exact getElem?_map_append_cons _ _ _ _
      unfold removeItem.prune
      simp only [hlen, if_true, hget]
      by_cases hx : x.1 = itemID
      · have hl2 : pre.length + 1 ≤ rc.records.length ∧
            pre.length + 1 ≤ rc.commitTxIDs.length := by
          simp [hr, hc]
        simp only [hx, if_true, hl2, and_self]
        have := ih pre suf1
          { id := rc.id.eraseIdx pre.length, records := rc.records.eraseIdx pre.length,
            commitTxIDs := rc.commitTxIDs.eraseIdx pre.length }
          (by simp only [hid]; exact eraseIdx_map_append_cons _ _ _ _)
          (by simp only [hc]; exact eraseIdx_map_append_cons _ _ _ _)
          (by simp only [hr]; exact eraseIdx_map_append_cons _ _ _ _)
          (by simp at hfuel; omega)
        obtain ⟨rc1, h1, h2, h3, h4⟩ := this
        refine ⟨rc1, h1, ?_, ?_, ?_⟩ <;> simp [List.filter_cons, hx, h2, h3, h4]
      · simp only [hx, if_false]
        have := ih (pre ++ [x]) suf1 rc (by simpa using hid) (by simpa using hc)
          (by simpa using hr) (by simp at hfuel; omega)
        obtain ⟨rc1, h1, h2, h3, h4⟩ := this
        simp only [List.length_append, List.length_singleton] at h1
        refine ⟨rc1, h1, ?_, ?_, ?_⟩ <;> simp [List.filter_cons, hx, h2, h3, h4]

theorem mapGet_eq_none_of_not_mem {κ ν : Type} [DecidableEq κ] (m : List (κ × ν)) (k : κ)
    (h : k ∉ m.map Prod.fst) : mapGet m k = none := by
  induction m with
  | nil => rfl
  | cons x rest ih =>
    obtain ⟨k1, v1⟩ := x
    simp only [List.map_cons, List.mem_cons, not_or] at h
    have h1 : ¬ k1 = k := fun e => h.1 e.symm
    simp [mapGet, h1, ih h.2]

theorem mapGet_isSome_of_mem {κ ν : Type} [DecidableEq κ] (m : List (κ × ν)) (k : κ)
    (h : k ∈ m.map Prod.fst) : ∃ v, mapGet m k = some v := by
  induction m with
  | nil => simp at h
  | cons x rest ih =>
    obtain ⟨k1, v1⟩ := x
    by_cases h1 : k1 = k
    · exact ⟨v1, by simp [mapGet, h1]⟩
    · simp only [List.map_cons, List.mem_cons] at h
      rcases h with h | h
      · exact absurd h.symm h1
      · obtain ⟨v, hv⟩ := ih h
        exact ⟨v, by simp [mapGet, h1, hv]⟩

/-- One round of the first loop of `removeItem` keeps the cache in agreement
with the histories, filtered at the record id of the round. -/
theorem removeItem_records_agrees (itemID : Nat) (rids : List Int)
    (cache : List (Int × undoRecord)) (H : Int → List (Nat × Int × UndoRecord))
    (hag : ∀ rid, agrees (mapGet cache rid) (H rid)) :
    ∃ cache1, removeItem.records itemID rids cache = some cache1 ∧
      ∀ rid, agrees (mapGet cache1 rid)
        (if rid ∈ rids then (H rid).filter (fun x => decide (x.1 ≠ itemID)) else H rid) := by
  induction rids generalizing cache H with
  | nil => exact ⟨cache, rfl, by simpa using hag⟩
  | cons rid0 rest ih =>
    unfold removeItem.records
    have h0 := hag rid0
    cases hg : mapGet cache rid0 with
    | none =>
      rw [hg] at h0
      simp only [agrees] at h0
      obtain ⟨cache1, h1, h2⟩ := ih cache H hag
      refine ⟨cache1, by simpa using h1, ?_⟩
      intro rid
      have := h2 rid
      by_cases hr : rid = rid0
      · subst hr
        simp only [List.mem_cons, true_or, if_true]
        rw [h0] at this ⊢
        simpa using this
      · simpa [List.mem_cons, hr] using this
    | some rc =>
      rw [hg] at h0
      simp only [agrees] at h0
      obtain ⟨hne, hid, hc, hr⟩ := h0
      obtain ⟨rc1, hp, hp1, hp2, hp3⟩ := prune_history itemID rc.id.length [] (H rid0) rc
        (by simpa using hid) (by simpa using hc) (by simpa using hr) (by simp [hid])
      simp only [List.length_nil, List.nil_append] at hp hp1 hp2 hp3
      simp only [hp]
      let H1 : Int → List (Nat × Int × UndoRecord) := fun rid =>
        if rid = rid0 then (H rid).filter (fun x => decide (x.1 ≠ itemID)) else H rid
      have hfinal : ∀ (cache2 : List (Int × undoRecord)),
          (∀ rid, agrees (mapGet cache2 rid) (H1 rid)) →
          ∃ cache1, removeItem.records itemID rest cache2 = some cache1 ∧
            ∀ rid, agrees (mapGet cache1 rid)
              (if rid ∈ rid0 :: rest then (H rid).filter (fun x => decide (x.1 ≠ itemID))
               else H rid) := by
        intro cache2 hag2
        obtain ⟨cache1, h1, h2⟩ := ih cache2 H1 hag2
        refine ⟨cache1, h1, ?_⟩
        intro rid
        have := h2 rid
        by_cases hr0 : rid = rid0
        · subst hr0
          simp only [List.mem_cons, true_or, if_true]
          simp only [H1, if_true, List.filter_filter, Bool.and_self, ite_self] at this
          exact this
        · simpa [H1, List.mem_cons, hr0] using this
      by_cases hz : rc1.id.length = 0
      · simp only [hz, if_true]
        apply hfinal
        intro rid
        rw [mapGet_mapDel]
        by_cases hr0 : rid = rid0
        · subst hr0
          simp only [if_true, H1, agrees]
          have : rc1.id = [] := List.length_eq_zero.mp hz
          rw [hp1] at this
          simpa using this
        · simp only [hr0, if_false, H1]
          exact hag rid
      · simp only [hz, if_false]
        apply hfinal
        intro rid
        rw [mapGet_mapSet]
        by_cases hr0 : rid = rid0
        · subst hr0
          simp only [if_true, H1, agrees]
          refine ⟨?_, hp1, hp2, hp3⟩
          intro he
          apply hz
          rw [hp1, he]
          rfl
        · simp only [hr0, if_false, H1]
          exact hag rid

theorem history_filter_of_ne (recordID : Int) (k : Nat) (items : List UndoLogItem)
    (h : ∀ item ∈ items, item.id ≠ k) :
    (history recordID items).filter (fun x => decide (x.1 ≠ k)) = history recordID items := by
  induction items with
  | nil => rfl
  | cons a rest ih =>
    have ha : a.id ≠ k := h a (by simp)
    have hr := ih (fun item hm => h item (by simp [hm]))
    unfold history
    cases hg : mapGet a.records recordID with
    | none => simpa only using hr
    | some rc =>
      show List.filter _ (_ :: history recordID rest) = _
      rw [List.filter_cons_of_pos (by simpa using ha), hr]

theorem history_filter_of_no_record (recordID : Int) (item : UndoLogItem)
    (items : List UndoLogItem)
    (heq : ∀ item1 ∈ items, item1.id = item.id → item1 = item)
    (hno : mapGet item.records recordID = none) :
    (history recordID items).filter (fun x => decide (x.1 ≠ item.id))
      = history recordID items := by
  induction items with
  | nil => rfl
  | cons a rest ih =>
    have hr := ih (fun item1 hm => heq item1 (by simp [hm]))
    unfold history
    cases hg : mapGet a.records recordID with
    | none => simpa only using hr
    | some rc =>
      have ha : a.id ≠ item.id := by
        intro e
        have := heq a (by simp) e
        rw [this, hno] at hg
        simp at hg
      show List.filter _ (_ :: history recordID rest) = _
      rw [List.filter_cons_of_pos (by simpa using ha), hr]

theorem removeItem_index_ge (k : Nat) (items : List UndoLogItem) (j : Nat) :
    j ≤ removeItem.index k items j := by
  induction items generalizing j with
  | nil => simp [removeItem.index]
  | cons a rest ih =>
    unfold removeItem.index
    split
    · exact Nat.le_refl _
    · exact Nat.le_trans (Nat.le_succ j) (ih (j + 1))

/-- Erasing the first item of a given id from a list of items with distinct
ids filters the triples of that id out of every history. -/
theorem history_eraseIdx (recordID : Int) (k : Nat) (items : List UndoLogItem) (j : Nat)
    (hnd : (items.map fun item => item.id).Nodup)
    (hlt : removeItem.index k items j < j + items.length) :
    history recordID (items.eraseIdx (removeItem.index k items j - j))
      = (history recordID items).filter (fun x => decide (x.1 ≠ k)) := by
  induction items generalizing j with
  | nil => simp [removeItem.index] at hlt
  | cons a rest ih =>
    simp only [List.map_cons, List.nodup_cons] at hnd
    unfold removeItem.index at hlt ⊢
    by_cases ha : k = a.id
    · simp only [ha, if_true, Nat.sub_self, List.eraseIdx_cons_zero]
      have hrest : ∀ item ∈ rest, item.id ≠ a.id := by
        intro item hm e
        apply hnd.1
        rw [← e]
        exact List.mem_map_of_mem _ hm
      have hf := history_filter_of_ne recordID a.id rest hrest
      conv => rhs; unfold history
      cases hg : mapGet a.records recordID with
      | none => simpa only using hf.symm
      | some rc =>
        show _ = List.filter _ (_ :: history recordID rest)
        rw [List.filter_cons_of_neg (by simp), hf]
    · simp only [ha, if_false] at hlt ⊢
      have hge := removeItem_index_ge k rest (j + 1)
      have hsub : removeItem.index k rest (j + 1) - j
          = (removeItem.index k rest (j + 1) - (j + 1)) + 1 := by omega
      rw [hsub, List.eraseIdx_cons_succ]
      have hih := ih (j + 1) hnd.2 (by simp at hlt; omega)
      have hne : a.id ≠ k := fun e => ha e.symm
      unfold history
      cases hg : mapGet a.records recordID with
      | none => simpa only using hih
      | some rc =>
        show _ :: history recordID _ = List.filter _ (_ :: history recordID rest)
        rw [List.filter_cons_of_pos (by simpa using hne), hih]

theorem removeItem_index_get (k : Nat) (items : List UndoLogItem) (j : Nat)
    (hlt : removeItem.index k items j < j + items.length) :
    ∃ item, items[removeItem.index k items j - j]? = some item ∧ item.id = k := by
  induction items generalizing j with
  | nil => simp [removeItem.index] at hlt
  | cons a rest ih =>
    unfold removeItem.index at hlt ⊢
    by_cases ha : k = a.id
    · simp only [ha, if_true, Nat.sub_self]
      exact ⟨a, by simp, rfl⟩
    · simp only [ha, if_false] at hlt ⊢
      have hge := removeItem_index_ge k rest (j + 1)
      have hsub : removeItem.index k rest (j + 1) - j
          = (removeItem.index k rest (j + 1) - (j + 1)) + 1 := by omega
      rw [hsub, List.getElem?_cons_succ]
      exact ih (j + 1) (by simp at hlt; omega)

/-- `removeItem` keeps a log consistent when the item handed to it is the item
of its id in the log. -/
theorem removeItem_Consistent (l l1 : UndoLog) (item : UndoLogItem) (hc : l.Consistent)
    (heq : ∀ item1 ∈ l.items, item1.id = item.id → item1 = item)
    (h : l.removeItem item = some l1) :
    l1.Consistent ∧ l1.idCounter = l.idCounter ∧ l1.affectTxItems = l.affectTxItems ∧
      (∀ item1 ∈ l1.items, item1 ∈ l.items) := by
  obtain ⟨hnd, hb, hreg, hag⟩ := hc
  unfold UndoLog.removeItem at h
  obtain ⟨cache1, hr1, hr2⟩ := removeItem_records_agrees item.id (item.records.map Prod.fst)
    l.recordsCache (fun rid => history rid l.items) hag
  simp only [hr1] at h
  split at h
  · rename_i hlt
    simp only [Option.some.injEq] at h
    subst h
    have hlt' : removeItem.index item.id l.items 0 < 0 + l.items.length := by omega
    have hmem : ∀ item1 ∈ l.items.eraseIdx (removeItem.index item.id l.items 0),
        item1 ∈ l.items := fun item1 hm => (List.eraseIdx_sublist _ _).subset hm
    refine ⟨⟨?_, ?_, ?_, ?_⟩, rfl, rfl, hmem⟩
    · exact hnd.sublist ((List.eraseIdx_sublist _ _).map _)
    · intro item1 hm
      exact hb item1 (hmem item1 hm)
    · intro tid items hg item1 hm
      refine ⟨(hreg tid items hg item1 hm).1, ?_⟩
      intro item2 hm2 he
      exact (hreg tid items hg item1 hm).2 item2 (hmem item2 hm2) he
    · intro rid
      have h1 := hr2 rid
      have h2 := history_eraseIdx rid item.id l.items 0 hnd hlt'
      simp only [Nat.sub_zero] at h2
      show agrees (mapGet cache1 rid)
        (history rid (l.items.eraseIdx (removeItem.index item.id l.items 0)))
      rw [h2]
      by_cases hr : rid ∈ item.records.map Prod.fst
      · simpa [hr] using h1
      · simp only [hr, if_false] at h1
        rw [history_filter_of_no_record rid item l.items heq
          (mapGet_eq_none_of_not_mem _ _ hr)]
        exact h1
  · simp at h

theorem release_Consistent (txID : Int) (logItems : List UndoLogItem) (maps maps1 : List TxSet)
    (l l1 : UndoLog) (hc : l.Consistent)
    (heq : ∀ item ∈ logItems, ∀ item1 ∈ l.items, item1.id = item.id → item1 = item)
    (h : Append.release txID logItems maps l = some (maps1, l1)) :
    l1.Consistent ∧ l1.idCounter = l.idCounter ∧ l1.affectTxItems = l.affectTxItems ∧
      (∀ item1 ∈ l1.items, item1 ∈ l.items) := by
  induction logItems generalizing maps l with
  | nil =>
    simp only [Append.release, Option.some.injEq, Prod.mk.injEq] at h
    obtain ⟨-, rfl⟩ := h
    exact ⟨hc, rfl, rfl, fun _ hm => hm⟩
  | cons item rest ih =>
    unfold Append.release at h
    split at h
    · simp at h
    · dsimp only at h
      split at h
      · simp at h
      · split at h
        · split at h
          · simp at h
          · rename_i l2 hrem
            have h2 := removeItem_Consistent l l2 item hc (heq item (by simp)) hrem
            have h3 := ih _ l2 h2.1
              (fun it hm it1 hm1 he => heq it (by simp [hm]) it1 (h2.2.2.2 it1 hm1) he) h
            exact ⟨h3.1, h3.2.1.trans h2.2.1, h3.2.2.1.trans h2.2.2.1,
              fun it hm => h2.2.2.2 it (h3.2.2.2 it hm)⟩
        · exact ih _ l hc (fun it hm => heq it (by simp [hm])) h

theorem mapSet_keys_nodup {κ ν : Type} [DecidableEq κ] (m : List (κ × ν)) (k : κ) (v : ν)
    (h : (m.map Prod.fst).Nodup) : ((mapSet m k v).map Prod.fst).Nodup := by
  induction m with
  | nil => simp [mapSet]
  | cons x rest ih =>
    obtain ⟨k1, v1⟩ := x
    simp only [List.map_cons, List.nodup_cons] at h
    by_cases h1 : k1 = k
    · subst h1
      simpa [mapSet] using h
    · simp only [mapSet, h1, if_false, List.map_cons, List.nodup_cons]
      refine ⟨?_, ih h.2⟩
      intro hm
      obtain ⟨v, hv⟩ := mapGet_isSome_of_mem _ _ hm
      rw [mapGet_mapSet] at hv
      have h1' : ¬ k1 = k := h1
      simp only [h1', if_false] at hv
      apply h.1
      by_contra hn
      rw [mapGet_eq_none_of_not_mem _ _ hn] at hv
      simp at hv

theorem convRecordCacheSliceToMap_nodup (records : List UndoRecord) :
    ((convRecordCacheSliceToMap records).map Prod.fst).Nodup := by
  unfold convRecordCacheSliceToMap
  suffices h : ∀ (acc : List (Int × UndoRecord)), (acc.map Prod.fst).Nodup →
      ((records.foldl (fun rcm record => mapSet rcm record.record.Key record) acc).map
        Prod.fst).Nodup from h [] (by simp)
  induction records with
  | nil => intro acc h; simpa using h
  | cons r rest ih =>
    intro acc h
    simp only [List.foldl_cons]
    exact ih _ (mapSet_keys_nodup _ _ _ h)

/-- The last loop of `Append` extends each history by the triple of the new
item. -/
theorem Append_cache_agrees (id : Nat) (txID : Int) (records : List (Int × UndoRecord))
    (cache : List (Int × undoRecord)) (H : Int → List (Nat × Int × UndoRecord))
    (hnd : (records.map Prod.fst).Nodup)
    (hag : ∀ rid, agrees (mapGet cache rid) (H rid)) :
    ∀ rid, agrees (mapGet (Append.cache id txID records cache) rid)
      (H rid ++ match mapGet records rid with
                | none => []
                | some rc => [(id, txID, rc)]) := by
  induction records generalizing cache H with
  | nil => intro rid; simpa [Append.cache, mapGet] using hag rid
  | cons x rest ih =>
    obtain ⟨rid0, rc0⟩ := x
    simp only [List.map_cons, List.nodup_cons] at hnd
    let H1 : Int → List (Nat × Int × UndoRecord) := fun rid =>
      if rid = rid0 then H rid ++ [(id, txID, rc0)] else H rid
    have hstep : ∀ (cache1 : List (Int × undoRecord)),
        (∀ rid, agrees (mapGet cache1 rid) (H1 rid)) →
        ∀ rid, agrees (mapGet (Append.cache id txID rest cache1) rid)
          (H rid ++ match mapGet ((rid0, rc0) :: rest) rid with
                    | none => []
                    | some rc => [(id, txID, rc)]) := by
      intro cache1 hag1 rid
      have := ih cache1 H1 hnd.2 hag1 rid
      by_cases hr : rid = rid0
      · subst hr
        have hno : mapGet rest rid = none := mapGet_eq_none_of_not_mem _ _ hnd.1
        simpa [H1, mapGet, hno] using this
      · have hr' : ¬ rid0 = rid := fun e => hr e.symm
        simpa [H1, mapGet, hr, hr'] using this
    unfold Append.cache
    have h0 := hag rid0
    cases hg : mapGet cache rid0 with
    | none =>
      rw [hg] at h0
      simp only [agrees] at h0
      apply hstep
      intro rid
      rw [mapGet_mapSet]
      by_cases hr : rid = rid0
      · subst hr
        simp [H1, agrees, h0]
      · simp only [hr, if_false, H1]
        exact hag rid
    | some rc =>
      rw [hg] at h0
      simp only [agrees] at h0
      obtain ⟨hne, hid, hc, hr⟩ := h0
      apply hstep
      intro rid
      rw [mapGet_mapSet]
      by_cases hr0 : rid = rid0
      · subst hr0
        simp [H1, agrees, hid, hc, hr]
      · simp only [hr0, if_false, H1]
        exact hag rid

theorem history_append (recordID : Int) (items : List UndoLogItem) (item : UndoLogItem) :
    history recordID (items ++ [item])
      = history recordID items ++ match mapGet item.records recordID with
                                  | none => []
                                  | some rc => [(item.id, item.commitTxID, rc)] := by
  induction items with
  | nil =>
    simp only [List.nil_append, history]
  | cons a rest ih =>
    simp only [List.cons_append, history]
    cases mapGet a.records recordID with
    | none => simpa using ih
    | some rc => simpa using ih

theorem register_mem (item : UndoLogItem) (tids : List Int)
    (affect : List (Int × List UndoLogItem)) (tid : Int) (items : List UndoLogItem)
    (h : mapGet (Append.register item tids affect) tid = some items) :
    ∀ it ∈ items, it = item ∨ ∃ items0, mapGet affect tid = some items0 ∧ it ∈ items0 := by
  induction tids generalizing affect with
  | nil =>
    intro it hm
    exact Or.inr ⟨items, by simpa [Append.register] using h, hm⟩
  | cons t rest ih =>
    intro it hm
    unfold Append.register at h
    cases hg : mapGet affect t with
    | none =>
      rw [hg] at h
      rcases ih _ h it hm with h1 | ⟨items0, h2, h3⟩
      · exact Or.inl h1
      · rw [mapGet_mapSet] at h2
        by_cases ht : tid = t
        · subst ht
          simp at h2
          subst h2
          simp at h3
          exact Or.inl h3
        · simp only [ht, if_false] at h2
          exact Or.inr ⟨items0, h2, h3⟩
    | some its =>
      rw [hg] at h
      rcases ih _ h it hm with h1 | ⟨items0, h2, h3⟩
      · exact Or.inl h1
      · rw [mapGet_mapSet] at h2
        by_cases ht : tid = t
        · subst ht
          simp at h2
          subst h2
          simp only [List.mem_append, List.mem_singleton] at h3
          rcases h3 with h3 | h3
          · exact Or.inr ⟨its, hg, h3⟩
          · exact Or.inl h3
        · simp only [ht, if_false] at h2
          exact Or.inr ⟨items0, h2, h3⟩

/-- `Append` keeps a log consistent, whatever the heap of maps holds. -/
theorem Append_Consistent (l l1 : UndoLog) (maps maps1 : List TxSet) (txID : Int)
    (a : Option Nat) (undoRecords : List UndoRecord) (hc : l.Consistent)
    (h : l.Append maps txID a undoRecords = some (maps1, l1)) : l1.Consistent := by
  unfold UndoLog.Append at h
  dsimp only at h
  split at h
  · simp at h
  · rename_i maps2 l2 hrel
    have hc2 : l2.Consistent := by
      split at hrel
      · simp only [Option.some.injEq, Prod.mk.injEq] at hrel
        obtain ⟨-, rfl⟩ := hrel
        exact hc
      · rename_i logItems hg
        split at hrel
        · simp at hrel
        · rename_i maps3 l3 hr
          simp only [Option.some.injEq, Prod.mk.injEq] at hrel
          obtain ⟨-, rfl⟩ := hrel
          have h3 := release_Consistent txID logItems maps maps3 l l3 hc
            (fun item hm => (hc.2.2.1 txID logItems hg item hm).2) hr
          obtain ⟨hnd, hb, hreg, hag⟩ := h3.1
          refine ⟨hnd, hb, ?_, hag⟩
          intro tid items hgt item hm
          rw [mapGet_mapDel] at hgt
          split at hgt
          · simp at hgt
          · exact hreg tid items hgt item hm
    clear hrel
    split at h
    · simp only [Option.some.injEq, Prod.mk.injEq] at h
      obtain ⟨-, rfl⟩ := h
      exact hc2
    · split at h
      · simp at h
      · split at h
        · simp only [Option.some.injEq, Prod.mk.injEq] at h
          obtain ⟨-, rfl⟩ := h
          exact hc2
        · rename_i m hm hlen
          simp only [Option.some.injEq, Prod.mk.injEq] at h
          obtain ⟨-, rfl⟩ := h
          obtain ⟨hnd, hb, hreg, hag⟩ := hc2
          refine ⟨?_, ?_, ?_, ?_⟩
          · simp only [List.map_append, List.map_cons, List.map_nil]
            rw [List.nodup_append]
            refine ⟨hnd, by simp, ?_⟩
            intro x hx1 hx2
            simp only [List.mem_singleton] at hx2
            obtain ⟨item, hmem, hid⟩ := List.mem_map.mp hx1
            have := (hb item hmem).1
            omega
          · intro item hmem
            simp only [List.mem_append, List.mem_singleton] at hmem
            rcases hmem with hmem | hmem
            · exact ⟨Nat.lt_succ_of_lt (hb item hmem).1, (hb item hmem).2⟩
            · subst hmem
              exact ⟨Nat.lt_succ_self _, convRecordCacheSliceToMap_nodup _⟩
          · intro tid items hgt item hmem
            rcases register_mem _ _ _ _ _ hgt item hmem with h1 | ⟨items0, h2, h3⟩
            · subst h1
              refine ⟨Nat.lt_succ_self _, ?_⟩
              intro item1 hm1 he
              simp only [List.mem_append, List.mem_singleton] at hm1
              rcases hm1 with hm1 | hm1
              · have := (hb item1 hm1).1
                simp only at he
                omega
              · exact hm1
            · have h4 := hreg tid items0 h2 item h3
              refine ⟨Nat.lt_succ_of_lt h4.1, ?_⟩
              intro item1 hm1 he
              simp only [List.mem_append, List.mem_singleton] at hm1
              rcases hm1 with hm1 | hm1
              · exact h4.2 item1 hm1 he
              · subst hm1
                simp only at he
                have := h4.1
                omega
          · intro rid
            show agrees (mapGet (Append.cache _ _ _ _) rid) (history rid (l2.items ++ [_]))
            rw [history_append]
            exact Append_cache_agrees _ _ _ _ (fun rid => history rid l2.items)
              (convRecordCacheSliceToMap_nodup _) hag rid

theorem runAppends_Consistent (l l1 : UndoLog) (calls : List AppendCall) (hc : l.Consistent)
    (h : l.runAppends calls = some l1) : l1.Consistent := by
  induction calls generalizing l with
  | nil => simp only [UndoLog.runAppends, Option.some.injEq] at h; subst h; exact hc
  | cons c rest ih =>
    unfold UndoLog.runAppends at h
    split at h
    · simp at h
    · rename_i maps1 l2 happ
      exact ih l2 (Append_Consistent _ _ _ _ _ _ _ hc happ) h

/-- `removeItem` cuts one item out of `items` and leaves the counter alone. -/
theorem removeItem_items {l l1 : UndoLog} {item : UndoLogItem}
    (h : l.removeItem item = some l1) :
    l1.items.Sublist l.items ∧ l1.idCounter = l.idCounter := by
  unfold UndoLog.removeItem at h
  split at h
  · simp at h
  · dsimp only at h
    split at h
    · simp only [Option.some.injEq] at h
      subst h
      exact ⟨List.eraseIdx_sublist _ _, rfl⟩
    · simp at h

/-- The release loop of `Append` keeps the order of the items it leaves. -/
theorem release_sublist (txID : Int) :
    ∀ (its : List UndoLogItem) (maps : List TxSet) (l : UndoLog) (maps1 : List TxSet)
      (l1 : UndoLog), Append.release txID its maps l = some (maps1, l1) →
      l1.items.Sublist l.items ∧ l1.idCounter = l.idCounter := by
  intro its
  induction its with
  | nil =>
    intro maps l maps1 l1 h
    simp only [Append.release, Option.some.injEq, Prod.mk.injEq] at h
    obtain ⟨-, rfl⟩ := h
    exact ⟨List.Sublist.refl _, rfl⟩
  | cons X rest ih =>
    intro maps l maps1 l1 h
    unfold Append.release at h
    split at h
    · simp at h
    · dsimp only at h
      split at h
      · simp at h
      · split at h
        · split at h
          · simp at h
          · rename_i l2 hrem
            obtain ⟨h1, h2⟩ := removeItem_items hrem
            obtain ⟨h3, h4⟩ := ih _ _ _ _ h
            exact ⟨h3.trans h1, h4.trans h2⟩
        · exact ih _ _ _ _ h

/-- What a call of `Append` does to `items`: it cuts items out, keeping the
order of the others, and then either leaves the list and the counter alone or
puts one item at the end, which carries the arguments of the call and the old
counter as its id. -/
theorem Append_items {l l1 : UndoLog} {maps maps1 : List TxSet} {txID : Int} {a : Option Nat}
    {recs : List UndoRecord} (h : l.Append maps txID a recs = some (maps1, l1)) :
    ∃ kept : List UndoLogItem, kept.Sublist l.items ∧
      ((l1.items = kept ∧ l1.idCounter = l.idCounter) ∨
       ∃ x, a = some x ∧ l1.idCounter = l.idCounter + 1 ∧
         l1.items = kept ++ [UndoLogItem.mk txID (convRecordCacheSliceToMap recs) x l.idCounter]) := by
  unfold UndoLog.Append at h
  dsimp only at h
  split at h
  · simp at h
  · rename_i maps2 l2 hrel
    have hl2 : l2.items.Sublist l.items ∧ l2.idCounter = l.idCounter := by
      split at hrel
      · simp only [Option.some.injEq, Prod.mk.injEq] at hrel
        obtain ⟨-, rfl⟩ := hrel
        exact ⟨List.Sublist.refl _, rfl⟩
      · split at hrel
        · simp at hrel
        · rename_i maps3 l3 hr
          simp only [Option.some.injEq, Prod.mk.injEq] at hrel
          obtain ⟨-, rfl⟩ := hrel
          exact release_sublist _ _ _ _ maps3 l3 hr
    refine ⟨l2.items, hl2.1, ?_⟩
    split at h
    · simp only [Option.some.injEq, Prod.mk.injEq] at h
      obtain ⟨-, rfl⟩ := h
      exact Or.inl ⟨rfl, hl2.2⟩
    · rename_i x
      split at h
      · simp at h
      · split at h
        · simp only [Option.some.injEq, Prod.mk.injEq] at h
          obtain ⟨-, rfl⟩ := h
          exact Or.inl ⟨rfl, hl2.2⟩
        · simp only [Option.some.injEq, Prod.mk.injEq] at h
          obtain ⟨-, rfl⟩ := h
          refine Or.inr ⟨x, rfl, by simp [hl2.2], ?_⟩
          simp [hl2.2]

/-- A sublist of a list without repetition (under `f`) is the list filtered by
membership in the sublist. -/
theorem sublist_eq_filter {α β : Type} [DecidableEq β] (f : α → β) {xs ys : List α}
    (h : xs.Sublist ys) (hnd : (ys.map f).Nodup) :
    xs = ys.filter (fun y => decide (f y ∈ xs.map f)) := by
  induction h with
  | slnil => rfl
  | cons y hs ih =>
    rename_i xs ys
    simp only [List.map_cons, List.nodup_cons] at hnd
    have hy : f y ∉ xs.map f := fun hm => hnd.1 ((hs.map f).subset hm)
    rw [List.filter_cons]
    simp only [hy, decide_False, Bool.false_eq_true, if_false]
    exact ih hnd.2
  | cons₂ y hs ih =>
    rename_i xs ys
    simp only [List.map_cons, List.nodup_cons] at hnd
    rw [List.filter_cons]
    simp only [List.map_cons, List.mem_cons, true_or, decide_True, if_true]
    congr 1
    conv_lhs => rw [ih hnd.2]
    apply List.filter_congr
    intro z hz
    have hne : f z ≠ f y := fun e => hnd.1 (e ▸ List.mem_map_of_mem f hz)
    simp [hne]

/-- The entries of a sequence of `Append` calls that returns: they are listed
in the order of the calls, each carries the arguments of its call, their ids
count up from the counter, and the items left in the log are among the old
items and the entries, in this order. -/
theorem appendLog_run : ∀ (calls : List AppendCall) (l0 : UndoLog) (j0 : Nat) (l : UndoLog),
    l0.runAppends calls = some l →
    l.idCounter = l0.idCounter + (l0.appendLog j0 calls).length ∧
    (l0.appendLog j0 calls).map (fun e => e.2.id)
      = List.range' l0.idCounter (l0.appendLog j0 calls).length ∧
    ((l0.appendLog j0 calls).map Prod.fst).Pairwise (fun i j => i < j) ∧
    (∀ e ∈ l0.appendLog j0 calls, j0 ≤ e.1) ∧
    (∀ e ∈ l0.appendLog j0 calls, ∃ c, calls[e.1 - j0]? = some c ∧ e.2.commitTxID = c.txID ∧
      e.2.records = convRecordCacheSliceToMap c.undoRecords ∧
      c.mayAffectedTxIDs = some e.2.mayAffectedTxIDs) ∧
    l.items.Sublist (l0.items ++ (l0.appendLog j0 calls).map Prod.snd) := by
  intro calls
  induction calls with
  | nil =>
    intro l0 j0 l h
    simp only [UndoLog.runAppends, Option.some.injEq] at h
    subst h
    simp [UndoLog.appendLog]
  | cons c rest ih =>
    intro l0 j0 l h
    unfold UndoLog.runAppends at h
    split at h
    · simp at h
    · rename_i maps1 l1 happ
      obtain ⟨h1, h2, h3, h4, h5, h6⟩ := ih l1 (j0 + 1) l h
      obtain ⟨kept, hk, hcase⟩ := Append_items happ
      have hlog : l0.appendLog j0 (c :: rest)
          = (if l1.idCounter = l0.idCounter then []
              else l1.items.getLast?.toList.map fun item => (j0, item))
            ++ l1.appendLog (j0 + 1) rest := by
        conv_lhs => unfold UndoLog.appendLog
        simp only [happ]
      have hrest : ∀ e ∈ l1.appendLog (j0 + 1) rest, ∃ c1, (c :: rest)[e.1 - j0]? = some c1 ∧
          e.2.commitTxID = c1.txID ∧
          e.2.records = convRecordCacheSliceToMap c1.undoRecords ∧
          c1.mayAffectedTxIDs = some e.2.mayAffectedTxIDs := by
        intro e he
        obtain ⟨c1, hc1, hr⟩ := h5 e he
        have hle := h4 e he
        refine ⟨c1, ?_, hr⟩
        have : e.1 - j0 = (e.1 - (j0 + 1)) + 1 := by omega
        rw [this, List.getElem?_cons_succ]
        exact hc1
      rcases hcase with ⟨hit, hid⟩ | ⟨x, hx, hid, hit⟩
      · rw [hlog]
        simp only [hid, if_true, List.nil_append]
        rw [hid] at h1 h2
        refine ⟨h1, h2, h3, fun e he => Nat.le_of_succ_le (h4 e he), hrest, ?_⟩
        rw [hit] at h6
        exact h6.trans (List.Sublist.append_right hk _)
      · have hne : ¬ l1.idCounter = l0.idCounter := by omega
        have hlast : l1.items.getLast? = some
            (UndoLogItem.mk c.txID (convRecordCacheSliceToMap c.undoRecords) x l0.idCounter) := by
          rw [hit]
          simp
        rw [hlog]
        simp only [hne, if_false, hlast, Option.toList_some, List.map_cons, List.map_nil,
          List.singleton_append, List.length_cons, List.pairwise_cons, List.mem_cons,
          forall_eq_or_imp, List.mem_map]
        rw [hid] at h1 h2
        refine ⟨by omega, ?_, ⟨?_, h3⟩, ⟨Nat.le_refl _, fun e he => Nat.le_of_succ_le (h4 e he)⟩,
          ⟨⟨c, by simp, rfl, rfl, hx⟩, hrest⟩, ?_⟩
        · rw [h2, List.range'_succ]
        · rintro j ⟨e, he, rfl⟩
          exact h4 e he
        · rw [hit] at h6
          refine h6.trans ?_
          rw [List.append_assoc]
          exact List.Sublist.append_right hk _

/-- The reading of `findSpec` at the first item that matches. -/
theorem findSpec_at (active : TxSet) (recordID : Int) (pre : List UndoLogItem) (X : UndoLogItem)
    (post : List UndoLogItem) (rc : UndoRecord)
    (hpre : ∀ Y ∈ pre, mapGet Y.records recordID = none ∨ active.has Y.commitTxID = false)
    (hrc : mapGet X.records recordID = some rc) (hact : active.has X.commitTxID = true) :
    findSpec active recordID (pre ++ X :: post) = .ok (transferToRecord rc) := by
  induction pre with
  | nil => simp [findSpec, hrc, hact]
  | cons Y rest ih =>
    have hY := hpre Y (List.mem_cons_self _ _)
    have hr := ih (fun Z hZ => hpre Z (List.mem_cons_of_mem _ hZ))
    simp only [List.cons_append, findSpec]
    rcases hY with h | h
    · simp only [h]
      exact hr
    · cases hg : mapGet Y.records recordID with
      | none => simp only []; exact hr
      | some rcY => simp only [h, Bool.false_eq_true, if_false]; exact hr

/-- The reading of `findSpec` when no item matches. -/
theorem findSpec_none (active : TxSet) (recordID : Int) (items : List UndoLogItem)
    (h : ∀ Y ∈ items, mapGet Y.records recordID = none ∨ active.has Y.commitTxID = false) :
    findSpec active recordID items = .error .ErrRecordNotCommit := by
  induction items with
  | nil => rfl
  | cons Y rest ih =>
    have hY := h Y (List.mem_cons_self _ _)
    have hr := ih (fun Z hZ => h Z (List.mem_cons_of_mem _ hZ))
    simp only [findSpec]
    rcases hY with h1 | h1
    · simp only [h1]
      exact hr
    · cases hg : mapGet Y.records recordID with
      | none => simp only []; exact hr
      | some rcY => simp only [h1, Bool.false_eq_true, if_false]; exact hr

/-- C20: for every undo log `l` left by a sequence of `Append` calls on a fresh
log.  The entries the calls appended are listed in the order of the calls, each
carries the transaction id and the undo records of its call, and their ids
number them; the items of `l` are the entries not yet evicted, in this order.
`Find` returns the pre-image recorded by the first of them that has an undo
record for `recordID` and whose committing transaction is in `activeTxIDs`,
and `ErrRecordNotCommit` when none of them has: in particular on a fresh
log. -/
theorem Find_earliest_appended (calls : List AppendCall) (l : UndoLog)
    (h : NewUndoLog.runAppends calls = some l) (activeTxIDs : TxSet) (recordID : Int) :
    ((NewUndoLog.appendLog 0 calls).map Prod.fst).Pairwise (fun i j => i < j) ∧
    (∀ e ∈ NewUndoLog.appendLog 0 calls, ∃ c, calls[e.1]? = some c ∧ e.2.commitTxID = c.txID ∧
      e.2.records = convRecordCacheSliceToMap c.undoRecords ∧
      c.mayAffectedTxIDs = some e.2.mayAffectedTxIDs) ∧
    (NewUndoLog.appendLog 0 calls).map (fun e => e.2.id)
      = List.range (NewUndoLog.appendLog 0 calls).length ∧
    l.items = ((NewUndoLog.appendLog 0 calls).map Prod.snd).filter
      (fun X => decide (X.id ∈ l.items.map fun Y => Y.id)) ∧
    (∀ (pre : List UndoLogItem) (X : UndoLogItem) (post : List UndoLogItem) (rc : UndoRecord),
      l.items = pre ++ X :: post →
      (∀ Y ∈ pre, mapGet Y.records recordID = none ∨ activeTxIDs.has Y.commitTxID = false) →
      mapGet X.records recordID = some rc → activeTxIDs.has X.commitTxID = true →
      l.Find activeTxIDs recordID = some (.ok (transferToRecord rc))) ∧
    ((∀ Y ∈ l.items, mapGet Y.records recordID = none ∨ activeTxIDs.has Y.commitTxID = false) →
      l.Find activeTxIDs recordID = some (.error .ErrRecordNotCommit)) ∧
    NewUndoLog.Find activeTxIDs recordID = some (.error .ErrRecordNotCommit) := by
  obtain ⟨-, h2, h3, -, h5, h6⟩ := appendLog_run calls NewUndoLog 0 l h
  have hc := runAppends_Consistent _ _ _ Consistent_new h
  have hfind := Find_of_Consistent l hc activeTxIDs recordID
  have hids : (NewUndoLog.appendLog 0 calls).map (fun e => e.2.id)
      = List.range (NewUndoLog.appendLog 0 calls).length := by
    rw [h2, List.range_eq_range']
    rfl
  refine ⟨h3, ?_, hids, ?_, ?_, ?_, rfl⟩
  · intro e he
    obtain ⟨c, hc1, hr⟩ := h5 e he
    exact ⟨c, by simpa using hc1, hr⟩
  · have hsub : l.items.Sublist ((NewUndoLog.appendLog 0 calls).map Prod.snd) := by
      simpa [NewUndoLog] using h6
    apply sublist_eq_filter (fun X : UndoLogItem => X.id) hsub
    rw [List.map_map]
    have : ((fun X : UndoLogItem => X.id) ∘ Prod.snd)
        = fun e : Nat × UndoLogItem => e.2.id := rfl
    rw [this, hids]
    exact List.nodup_range _
  · intro pre X post rc hit hpre hrc hact
    rw [hfind, hit, findSpec_at activeTxIDs recordID pre X post rc hpre hrc hact]
  · intro hall
    rw [hfind, findSpec_none activeTxIDs recordID l.items hall]

/-- C20, on `evictedFirstCalls`: of the three entries for record 1 the first
has been evicted; a reader with active set `{1, 2, 3}` gets the pre-image `b`
of the second call, a reader with active set `{1, 3}` the pre-image `c` of the
third, and a reader with active set `{1}` gets `ErrRecordNotCommit`.  On the
log of `TestUndoLogBasicPath` a reader with active set `{1, 3}` gets the
pre-image `hello` of record 1 and a reader with active set `{2, 3}` gets
`ErrRecordNotCommit`. -/
theorem Find_earliest_appended_witness :
    ∃ l, NewUndoLog.runAppends evictedFirstCalls = some l ∧
      (NewUndoLog.appendLog 0 evictedFirstCalls).map (fun e => (e.1, e.2.id, e.2.commitTxID))
        = [(0, 0, 1), (1, 1, 2), (2, 2, 3)] ∧
      l.items.map (fun X => (X.id, X.commitTxID)) = [(1, 2), (2, 3)] ∧
      l.items = ((NewUndoLog.appendLog 0 evictedFirstCalls).map Prod.snd).filter
        (fun X => decide (X.id ∈ l.items.map fun Y => Y.id)) ∧
      l.Find [(1, true), (2, true), (3, true)] 1
        = some (.ok (some { Key := 1, Value := ["b"] })) ∧
      l.Find [(1, true), (3, true)] 1 = some (.ok (some { Key := 1, Value := ["c"] })) ∧
      l.Find [(1, true)] 1 = some (.error .ErrRecordNotCommit) ∧
      (NewUndoLog.runAppends basicPathCalls).map (fun l0 =>
          ((l0.Find [(1, true), (3, true)] 1).map Except.toOption,
           (l0.Find [(2, true), (3, true)] 1).map Except.toOption))
        = some (some (some (some { Key := 1, Value := ["hello"] })), some none) := by
  have hs : (NewUndoLog.runAppends evictedFirstCalls).isSome = true := rfl
  have hl := (Option.some_get hs).symm
  have h1 := Find_earliest_appended evictedFirstCalls _ hl [(1, true), (2, true), (3, true)] 1
  have h2 := Find_earliest_appended evictedFirstCalls _ hl [(1, true), (3, true)] 1
  have h3 := Find_earliest_appended evictedFirstCalls _ hl [(1, true)] 1
  refine ⟨Option.get _ hs, hl, rfl, rfl, h1.2.2.2.1, ?_, ?_, ?_, rfl⟩
  · exact h1.2.2.2.2.1 [] (UndoLogItem.mk 2 [(1, UndoRecord.mk (Record.mk 1 ["b"] none false) opType.UPDATE)] 1 1) [UndoLogItem.mk 3 [(1, UndoRecord.mk (Record.mk 1 ["c"] none false) opType.UPDATE)] 2 2] _ rfl (fun _ hY => by simp at hY) rfl rfl
  · exact h2.2.2.2.2.1 [UndoLogItem.mk 2 [(1, UndoRecord.mk (Record.mk 1 ["b"] none false) opType.UPDATE)] 1 1] (UndoLogItem.mk 3 [(1, UndoRecord.mk (Record.mk 1 ["c"] none false) opType.UPDATE)] 2 2) [] _ rfl (fun Y hY => by
        simp only [List.mem_singleton] at hY
        subst hY
        exact Or.inr rfl) rfl rfl
  · refine h3.2.2.2.2.2.1 ?_
    have hit : (Option.get _ hs).items = [UndoLogItem.mk 2 [(1, UndoRecord.mk (Record.mk 1 ["b"] none false) opType.UPDATE)] 1 1, UndoLogItem.mk 3 [(1, UndoRecord.mk (Record.mk 1 ["c"] none false) opType.UPDATE)] 2 2] := rfl
    intro Y hY
    rw [hit] at hY
    simp only [List.mem_cons, List.mem_singleton, List.not_mem_nil, or_false] at hY
    rcases hY with rfl | rfl
    · exact Or.inr rfl
    · exact Or.inr rfl

/-! ## The cut rule (C30) -/

/-- C30: `cut n` is the ceiling of `n / 2`: it is `n / 2` for even `n` and
`n / 2 + 1` for odd `n`, so twice `cut n` is `n` or `n + 1`. -/
theorem cut_is_ceiling_half (n : Nat) :
    (n % 2 = 0 → cut n = n / 2) ∧ (n % 2 = 1 → cut n = n / 2 + 1) ∧
    cut n = (n + 1) / 2 ∧ (2 * cut n = n ∨ 2 * cut n = n + 1) ∧
    (2 * cut n = n ↔ n % 2 = 0) := by
  unfold cut
  refine ⟨?_, ?_, ?_, ?_, ?_⟩
  · intro h; simp [h]
  · intro h; simp [h]
  · split <;> omega
  · split <;> omega
  · split <;> omega

/-! ## The leaf chain after a merge (C28) -/

/-- C28, the code at the failing input: with keys 1, 2, 3 inserted into an
empty tree the leaf chain yields 1, 2, 3; `Delete(1)` then returns nil; and
afterwards the leaf chain yields key 2 alone, while keys 2 and 3 are both
inserted and not deleted. -/
theorem leafChain_misses_live_key :
    ((TreeState.run {} threeKeys).bind fun s => s.t.leafChain) = some [1, 2, 3] ∧
    ((TreeState.run {} threeKeys).bind fun s =>
      (s.step (TreeCall.Delete 1)).map fun r => r.2) = some none ∧
    ((TreeState.run {} (threeKeys ++ [TreeCall.Delete 1])).bind fun s => s.t.leafChain)
      = some [2] :=
  ⟨rfl, rfl, rfl⟩

/-! ## The read invariant of a session -/

theorem mem_mapSet {κ ν : Type} [DecidableEq κ] (m : List (κ × ν)) (k : κ) (v : ν)
    (x : κ × ν) (h : x ∈ mapSet m k v) : x ∈ m ∨ x = (k, v) := by
  induction m with
  | nil => simp [mapSet] at h; exact Or.inr h
  | cons y rest ih =>
    obtain ⟨k1, v1⟩ := y
    unfold mapSet at h
    split at h
    · simp only [List.mem_cons] at h ⊢
      rcases h with h | h
      · exact Or.inr h
      · exact Or.inl (Or.inr h)
    · simp only [List.mem_cons] at h ⊢
      rcases h with h | h
      · exact Or.inl (Or.inl h)
      · rcases ih h with h | h
        · exact Or.inl (Or.inr h)
        · exact Or.inr h

theorem mem_mapDel {κ ν : Type} [DecidableEq κ] (m : List (κ × ν)) (k : κ)
    (x : κ × ν) (h : x ∈ mapDel m k) : x ∈ m := by
  induction m with
  | nil => simp [mapDel] at h
  | cons y rest ih =>
    obtain ⟨k1, v1⟩ := y
    unfold mapDel at h
    split at h
    · exact List.mem_cons_of_mem _ (ih h)
    · simp only [List.mem_cons] at h ⊢
      rcases h with h | h
      · exact Or.inl h
      · exact Or.inr (ih h)

theorem AfterCommit_loop_logs (txID : Int) (c : List (String × txCache)) (w w1 : World)
    (hc : w.LogsConsistent) (h : AfterCommit.loop txID c w = some w1) : w1.LogsConsistent := by
  induction c generalizing w with
  | nil => simp [AfterCommit.loop] at h; subst h; exact hc
  | cons x rest ih =>
    obtain ⟨name, tc⟩ := x
    unfold AfterCommit.loop at h
    dsimp only at h
    split at h
    · simp at h
    · split at h
      · simp at h
      · rename_i maps1 log1 happ
        refine ih _ ?_ h
        have hlog : ((mapGet w.tm.undoLogs name).getD NewUndoLog).Consistent := by
          cases hg : mapGet w.tm.undoLogs name with
          | none => exact Consistent_new
          | some l => exact hc _ _ hg
        have h1 := Append_Consistent _ _ _ _ _ _ _ hlog happ
        intro name2 l hl
        simp only [mapGet_mapSet] at hl
        split at hl
        · simp only [Option.some.injEq] at hl; subst hl; exact h1
        · exact hc _ _ hl

theorem AfterRollback_loop_logs (txID : Int) (c : List (String × txCache)) (w w1 : World)
    (hc : w.LogsConsistent) (h : AfterRollback.loop txID c w = some w1) : w1.LogsConsistent := by
  induction c generalizing w with
  | nil => simp [AfterRollback.loop] at h; subst h; exact hc
  | cons x rest ih =>
    obtain ⟨name, tc⟩ := x
    unfold AfterRollback.loop at h
    split at h
    · exact ih _ hc h
    · rename_i log hg
      split at h
      · refine ih _ ?_ h
        intro name2 l hl
        simp only [mapGet_mapDel] at hl
        split at hl
        · simp at hl
        · exact hc _ _ hl
      · split at h
        · simp at h
        · rename_i maps1 log1 happ
          refine ih _ ?_ h
          have h1 := Append_Consistent _ _ _ _ _ _ _ (hc _ _ hg) happ
          intro name2 l hl
          simp only [mapGet_mapSet] at hl
          split at hl
          · simp only [Option.some.injEq] at hl; subst hl; exact h1
          · exact hc _ _ hl

theorem World.Rollback_logs {w w1 : World} {tx tx1 : Tx} {e : Option Error}
    (hc : w.LogsConsistent) (h : w.Rollback tx = some (w1, tx1, e)) : w1.LogsConsistent := by
  unfold World.Rollback at h
  simp only [Option.map_eq_some', Prod.mk.injEq] at h
  obtain ⟨w2, h2, rfl, -⟩ := h
  unfold World.AfterRollback World.DeactivateTx at h2
  split at h2
  · simp at h2
  · rename_i w3 h3
    split at h3
    · simp at h3
    · simp only [Option.map_eq_some'] at h3
      obtain ⟨maps1, -, rfl⟩ := h3
      refine AfterRollback_loop_logs _ _ _ _ ?_ h2
      exact hc

theorem World.Commit_logs {w w1 : World} {tx tx1 : Tx} {e : Option Error}
    (hc : w.LogsConsistent) (h : w.Commit tx = some (w1, tx1, e)) : w1.LogsConsistent := by
  unfold World.Commit at h
  split at h
  · simp at h
  · rename_i w2 e2 hcm
    have hf := World.commit_frame hcm
    refine World.Rollback_logs ?_ h
    intro name l hl
    rw [hf.2] at hl
    exact hc _ _ hl
  · rename_i w2 hcm
    have hf := World.commit_frame hcm
    simp only [Option.map_eq_some', Prod.mk.injEq] at h
    obtain ⟨w3, h3, rfl, -⟩ := h
    unfold World.AfterCommit World.DeactivateTx at h3
    split at h3
    · simp at h3
    · rename_i w4 h4
      split at h4
      · simp at h4
      · simp only [Option.map_eq_some'] at h4
        obtain ⟨maps1, -, rfl⟩ := h4
        refine AfterCommit_loop_logs _ _ _ _ ?_ h3
        intro name l hl
        simp only [hf.2] at hl
        exact hc _ _ hl

theorem Session.Sound_new (inspector collector : Bool) :
    (Session.new inspector collector).Sound := by
  refine ⟨?_, ?_, ?_⟩
  · intro active ha kb hkb
    simp [Session.new, NewWorld] at ha
    subst ha
    simp at hkb
  · intro tx htx; simp [Session.new] at htx
  · intro name l hl; simp [Session.new, NewWorld, mapGet] at hl

theorem Session.Sound_of_frame {s : Session} {w1 : World} {txs1 : List Tx} {fin : List Bool}
    (hs : s.Sound) (hm : w1.maps = s.w.maps) (ht : w1.tm = s.w.tm)
    (hrv : ∀ tx ∈ txs1, 0 < tx.rv.minActiveID) :
    Session.Sound { w := w1, txs := txs1, finished := fin } := by
  refine ⟨?_, hrv, ?_⟩
  · intro active ha; exact hs.1 active (by simpa [hm] using ha)
  · intro name l hl
    exact hs.2.2 name l (by simpa [ht] using hl)

theorem rv_set {txs : List Tx} {i : Nat} {tx0 tx1 : Tx}
    (hrv : ∀ tx ∈ txs, 0 < tx.rv.minActiveID) (h0 : txs[i]? = some tx0)
    (h1 : tx1.rv = tx0.rv) : ∀ tx ∈ txs.set i tx1, 0 < tx.rv.minActiveID := by
  intro tx htx
  rcases List.mem_or_eq_of_mem_set htx with h | h
  · exact hrv tx h
  · subst h
    rw [h1]
    exact hrv tx0 (by obtain ⟨hlt, hget⟩ := List.getElem?_eq_some.mp h0; exact hget ▸ List.getElem_mem hlt)

theorem Session.Sound_finish {s : Session} {w1 : World} {tx tx1 : Tx} {i : Nat}
    {active : TxSet} {fin : List Bool}
    (hs : s.Sound) (hi : s.txs[i]? = some tx) (hact : s.w.maps = [active])
    (hm : w1.maps = [mapDel active tx.id]) (hrv : tx1.rv = tx.rv)
    (hlogs : w1.LogsConsistent) :
    Session.Sound { w := w1, txs := s.txs.set i tx1, finished := fin } := by
  refine ⟨?_, rv_set hs.2.1 hi hrv, hlogs⟩
  intro a ha kb hkb
  simp only [hm, List.mem_singleton] at ha
  subst ha
  exact hs.1 active (by simp [hact]) kb (mem_mapDel _ _ _ hkb)

theorem Session.step_sound {s s1 : Session} {c : Call} (hinv : s.Inv) (hs : s.Sound)
    (h : s.step c = some s1) : s1.Sound := by
  have hinv' := hinv
  obtain ⟨h1, h2, h3, h4, active, h5, h6⟩ := hinv'
  cases c with
  | CreateTable tableName fieldMetas =>
    simp only [Session.step, Option.some.injEq] at h
    subst h
    exact Session.Sound_of_frame hs (World.CreateTable_frame _ _ _).1
      (World.CreateTable_frame _ _ _).2 hs.2.1
  | Insert tableName data =>
    simp only [Session.step, Option.map_eq_some'] at h
    obtain ⟨⟨w1, e⟩, hr, rfl⟩ := h
    have hf := World.Insert_frame hr
    exact Session.Sound_of_frame hs hf.1 hf.2 hs.2.1
  | UpdateByID tableName values id =>
    simp only [Session.step, Option.map_eq_some'] at h
    obtain ⟨⟨w1, e⟩, hr, rfl⟩ := h
    have hf := World.UpdateByID_frame hr
    exact Session.Sound_of_frame hs hf.1 hf.2 hs.2.1
  | DeleteByID tableName id =>
    simp only [Session.step, Option.map_eq_some'] at h
    obtain ⟨⟨w1, e⟩, hr, rfl⟩ := h
    have hf := World.DeleteByID_frame hr
    exact Session.Sound_of_frame hs hf.1 hf.2 hs.2.1
  | StartTransaction =>
    simp only [Session.step, Option.map_eq_some'] at h
    obtain ⟨⟨w1, tx⟩, hr, rfl⟩ := h
    have hlive : s.w.maps[s.w.tm.activeTxIDs]? = some active := by simp [h1, h5]
    rw [World.StartTransaction_eq hlive] at hr
    simp only [Option.some.injEq, Prod.mk.injEq] at hr
    obtain ⟨rfl, rfl⟩ := hr
    have hpos : ∀ kb ∈ active, (0 : Int) < kb.1 := hs.1 active (by simp [h5])
    refine ⟨?_, ?_, ?_⟩
    · intro a ha kb hkb
      simp only [h5, h1, List.set_cons_zero, List.mem_singleton] at ha
      subst ha
      rcases mem_mapSet _ _ _ _ hkb with hm | hm
      · exact hpos kb hm
      · subst hm
        simp only [h2]
        omega
    · intro tx htx
      simp only [List.mem_append, List.mem_singleton] at htx
      rcases htx with htx | htx
      · exact hs.2.1 tx htx
      · subst htx
        have hmin := minInt_fold_le active InvalidTxID
        show 0 < List.foldl (fun m kb => minInt m kb.1) InvalidTxID active
        rcases hmin.2.2 with he | he
        · rw [he]; decide
        · simp only [List.mem_map] at he
          obtain ⟨kb, hkb, hk⟩ := he
          rw [← hk]
          exact hpos kb hkb
    · intro name l hl
      exact hs.2.2 name l hl
  | InsertTx i tableName data =>
    simp only [Session.step] at h
    split at h
    · simp at h
    · rename_i tx hi
      simp only [Option.map_eq_some'] at h
      obtain ⟨⟨w1, tx1, e⟩, hr, rfl⟩ := h
      have hf := World.InsertTx_frame hr
      exact Session.Sound_of_frame hs hf.1 hf.2.1 (rv_set hs.2.1 hi hf.2.2.2)
  | UpdateByIDTx i tableName values id =>
    simp only [Session.step] at h
    split at h
    · simp at h
    · rename_i tx hi
      simp only [Option.map_eq_some'] at h
      obtain ⟨⟨tx1, e⟩, hr, rfl⟩ := h
      have hf := World.UpdateByIDTx_frame hr
      exact Session.Sound_of_frame hs rfl rfl (rv_set hs.2.1 hi hf.2)
  | DeleteByIDTx i tableName id =>
    simp only [Session.step] at h
    split at h
    · simp at h
    · rename_i tx hi
      simp only [Option.map_eq_some'] at h
      obtain ⟨⟨tx1, e⟩, hr, rfl⟩ := h
      have hf := World.DeleteByIDTx_frame hr
      exact Session.Sound_of_frame hs rfl rfl (rv_set hs.2.1 hi hf.2)
  | SelectByIDTx i tableName id =>
    simp only [Session.step] at h
    split at h
    · simp at h
    · rename_i tx hi
      simp only [Option.map_eq_some'] at h
      obtain ⟨⟨tx1, e⟩, hr, rfl⟩ := h
      have hf := World.SelectByIDTx_frame hr
      exact Session.Sound_of_frame hs rfl rfl (rv_set hs.2.1 hi hf.2)
  | Commit i =>
    simp only [Session.step] at h
    split at h
    · simp at h
    · rename_i tx hi
      simp only [Option.map_eq_some'] at h
      obtain ⟨⟨w1, tx1, e⟩, hr, rfl⟩ := h
      have hf := World.Commit_mgr h5 h1 hr
      exact Session.Sound_finish hs hi h5 hf.1 hf.2.2.2.2 (World.Commit_logs hs.2.2 hr)
  | Rollback i =>
    simp only [Session.step] at h
    split at h
    · simp at h
    · rename_i tx hi
      simp only [Option.map_eq_some'] at h
      obtain ⟨⟨w1, tx1, e⟩, hr, rfl⟩ := h
      have hf := World.Rollback_mgr h5 h1 hr
      exact Session.Sound_finish hs hi h5 hf.1 hf.2.2.2.2.1 (World.Rollback_logs hs.2.2 hr)

theorem Session.run_sound {s s1 : Session} {cs : List Call} (hinv : s.Inv) (hs : s.Sound)
    (h : s.run cs = some s1) : s1.Sound := by
  induction cs generalizing s with
  | nil => simp [Session.run] at h; subst h; exact hs
  | cons c rest ih =>
    unfold Session.run at h
    split at h
    · simp at h
    · rename_i s2 hst
      exact ih (Session.step_inv hinv hst) (Session.step_sound hinv hs hst) h

/-! ## Visibility of the index record (C24, C25) -/

theorem trySelectFromCache_of_not_buffered (w : World) (tx : Tx) (tableName : String) (id : Int)
    (hbuf : tx.buffered tableName id = none) :
    w.trySelectFromCache tx tableName id = some (tx, .ok none) := by
  unfold Tx.buffered at hbuf
  unfold World.trySelectFromCache
  split at hbuf
  · rename_i hg; simp [hg]
  · rename_i c hg; simp [hg, hbuf]

theorem SelectByIDTx_of_index (w : World) (tx : Tx) (tableName : String) (id : Int)
    (hbuf : tx.buffered tableName id = none)
    (a : Nat) (record : Record) (m : RecordMeta)
    (hidx : w.SelectByID tableName id = some (.ok a))
    (hrec : w.recs[a]? = some record) (hmeta : record.Meta = some m) :
    ((m.LastTxID < tx.rv.minActiveID ∨
        (tx.rv.activeTxIDs.has m.LastTxID = false ∧ m.LastTxID < tx.rv.nextTxID)) →
      w.SelectByIDTx tx tableName id = some (tx, .ok record)) ∧
    (¬ (m.LastTxID < tx.rv.minActiveID ∨
        (tx.rv.activeTxIDs.has m.LastTxID = false ∧ m.LastTxID < tx.rv.nextTxID)) →
      tx.rv.minActiveID ≠ InvalidLastTxID →
      (∀ ur, w.FindRecordInUndoLog tableName id tx.rv.activeTxIDs = some (.ok (some ur)) →
        w.SelectByIDTx tx tableName id = some (tx, .ok ur)) ∧
      (w.FindRecordInUndoLog tableName id tx.rv.activeTxIDs = some (.error .ErrRecordNotCommit) →
        w.SelectByIDTx tx tableName id = some (tx, .ok record))) := by
  have htry := trySelectFromCache_of_not_buffered w tx tableName id hbuf
  refine ⟨?_, ?_⟩
  · intro hrule
    unfold World.SelectByIDTx
    simp only [htry, hidx, hrec, hmeta]
    rw [if_pos]
    rcases hrule with h | ⟨h1, h2⟩
    · exact Or.inr (Or.inl h)
    · exact Or.inr (Or.inr ⟨by simp [h1], h2⟩)
  · intro hrule hmin
    have hcond : ¬ (tx.rv.minActiveID = InvalidLastTxID ∨ m.LastTxID < tx.rv.minActiveID ∨
        ((!tx.rv.activeTxIDs.has m.LastTxID) = true ∧ m.LastTxID < tx.rv.nextTxID)) := by
      rintro (h | h | ⟨h1, h2⟩)
      · exact hmin h
      · exact hrule (Or.inl h)
      · exact hrule (Or.inr ⟨by simpa using h1, h2⟩)
    refine ⟨?_, ?_⟩
    · intro ur hfind
      unfold World.SelectByIDTx
      simp only [htry, hidx, hrec, hmeta]
      rw [if_neg hcond, hfind]
    · intro hfind
      unfold World.SelectByIDTx
      simp only [htry, hidx, hrec, hmeta]
      rw [if_neg hcond, hfind]
      simp

theorem FindRecordInUndoLog_of_Consistent (w : World) (hc : w.LogsConsistent)
    (tableName : String) (l : UndoLog) (hl : mapGet w.tm.undoLogs tableName = some l)
    (active : TxSet) (id : Int) :
    w.FindRecordInUndoLog tableName id active = some (findSpec active id l.items) := by
  unfold World.FindRecordInUndoLog
  simp only [hl]
  exact Find_of_Consistent l (hc _ _ hl) active id

/-- C24: in every state a session reaches, for a transaction that has buffered
no operation for `id` and an index record for `id` whose `Meta` names `T` as
the last committing transaction: `SelectByIDTx` returns the index record
whenever `T < minActiveID`, or `T` is not in the read view's active set and
`T < nextTxID`; and when that rule fails and the undo log of the table holds a
pre-image `ur` for `id` committed by a transaction of the read view's active
set (the first such item in the log, as `findSpec` reads it), `SelectByIDTx`
returns `ur` instead.  The transaction is returned unchanged. -/
theorem SelectByIDTx_visibility (inspector collector : Bool) (calls : List Call) (s : Session)
    (hrun : (Session.new inspector collector).run calls = some s)
    (i : Nat) (tx : Tx) (htx : s.txs[i]? = some tx) (tableName : String) (id : Int)
    (hbuf : tx.buffered tableName id = none)
    (a : Nat) (record : Record) (m : RecordMeta)
    (hidx : s.w.SelectByID tableName id = some (.ok a))
    (hrec : s.w.recs[a]? = some record) (hmeta : record.Meta = some m) :
    ((m.LastTxID < tx.rv.minActiveID ∨
        (tx.rv.activeTxIDs.has m.LastTxID = false ∧ m.LastTxID < tx.rv.nextTxID)) →
      s.w.SelectByIDTx tx tableName id = some (tx, .ok record)) ∧
    (¬ (m.LastTxID < tx.rv.minActiveID ∨
        (tx.rv.activeTxIDs.has m.LastTxID = false ∧ m.LastTxID < tx.rv.nextTxID)) →
      ∀ (l : UndoLog) (ur : Record), s.undoLog tableName = some l →
        findSpec tx.rv.activeTxIDs id l.items = .ok (some ur) →
        s.w.SelectByIDTx tx tableName id = some (tx, .ok ur)) := by
  have hsound := Session.run_sound (Session.Inv_new inspector collector)
    (Session.Sound_new inspector collector) hrun
  have hmem : tx ∈ s.txs := by
    obtain ⟨hlt, hget⟩ := List.getElem?_eq_some.mp htx
    exact hget ▸ List.getElem_mem hlt
  have hpos := hsound.2.1 tx hmem
  have hne : tx.rv.minActiveID ≠ InvalidLastTxID := by
    intro h; rw [h] at hpos; exact absurd hpos (by decide)
  have hst := SelectByIDTx_of_index s.w tx tableName id hbuf a record m hidx hrec hmeta
  refine ⟨hst.1, ?_⟩
  intro hrule l ur hl hfind
  refine (hst.2 hrule hne).1 ur ?_
  rw [FindRecordInUndoLog_of_Consistent s.w hsound.2.2 tableName l hl, hfind]

/-- C24, in the state after `visibilityInput`: the second transaction was
active while the first committed its update of record 1, so the rule fails for
it and it reads the pre-image `hello` from the undo log; the third transaction
started after the commit and reads the index record `world`. -/
theorem SelectByIDTx_visibility_witness :
    ∃ s tx, (Session.new true true).run visibilityInput = some s ∧
      s.txs[1]? = some tx ∧ tx.buffered "test" 1 = none ∧
      s.w.SelectByID "test" 1 = some (.ok 0) ∧
      s.w.recs[0]? = some { Key := 1, Value := ["world"], Meta := some { LastTxID := 1 } } ∧
      (((1 : Int) < tx.rv.minActiveID ∨
          (tx.rv.activeTxIDs.has 1 = false ∧ (1 : Int) < tx.rv.nextTxID)) →
        s.w.SelectByIDTx tx "test" 1
          = some (tx, .ok { Key := 1, Value := ["world"], Meta := some { LastTxID := 1 } })) ∧
      (¬ ((1 : Int) < tx.rv.minActiveID ∨
          (tx.rv.activeTxIDs.has 1 = false ∧ (1 : Int) < tx.rv.nextTxID)) →
        ∀ (l : UndoLog) (ur : Record), s.undoLog "test" = some l →
          findSpec tx.rv.activeTxIDs 1 l.items = .ok (some ur) →
          s.w.SelectByIDTx tx "test" 1 = some (tx, .ok ur)) ∧
      s.read 1 "test" 1 = some (.ok ["hello"]) ∧
      s.read 2 "test" 1 = some (.ok ["world"]) := by
  have hs : ((Session.new true true).run visibilityInput).isSome = true := rfl
  have ht : ((Option.get _ hs).txs[1]?).isSome = true := rfl
  have h := SelectByIDTx_visibility true true visibilityInput (Option.get _ hs)
    (Option.some_get hs).symm 1 (Option.get _ ht) (Option.some_get ht).symm "test" 1 rfl 0
    { Key := 1, Value := ["world"], Meta := some { LastTxID := 1 } } { LastTxID := 1 }
    rfl rfl rfl
  exact ⟨Option.get _ hs, Option.get _ ht, (Option.some_get hs).symm, (Option.some_get ht).symm,
    rfl, rfl, rfl, h.1, h.2, rfl, rfl⟩

theorem SelectByIDTx_of_absent (w : World) (tx : Tx) (tableName : String) (id : Int)
    (hbuf : tx.buffered tableName id = none)
    (hidx : w.SelectByID tableName id = some (.error .ErrKeyNotFound)) :
    (w.FindRecordInUndoLog tableName id tx.rv.activeTxIDs = some (.error .ErrRecordNotCommit) →
      w.SelectByIDTx tx tableName id = some (tx, .error .ErrKeyNotFound)) ∧
    (mapGet w.tm.undoLogs tableName = none →
      w.SelectByIDTx tx tableName id = some (tx, .error .ErrNoSuchATableInTxMgr)) := by
  have htry := trySelectFromCache_of_not_buffered w tx tableName id hbuf
  refine ⟨?_, ?_⟩
  · intro hfind
    unfold World.SelectByIDTx
    simp only [htry, hidx, hfind]
    simp
  · intro hlog
    have hfind : w.FindRecordInUndoLog tableName id tx.rv.activeTxIDs
        = some (.error .ErrNoSuchATableInTxMgr) := by
      unfold World.FindRecordInUndoLog
      simp [hlog]
    unfold World.SelectByIDTx
    simp only [htry, hidx, hfind]
    simp

/-- `SelectByIDTx` on a table without an undo log, for an id the transaction
has not buffered and the index holds: the index record is returned when its
`LastTxID` passes the rule of the read view, and `ErrNoSuchATableInTxMgr`
otherwise. -/
theorem SelectByIDTx_of_unlogged (w : World) (tx : Tx) (tableName : String) (id : Int)
    (hbuf : tx.buffered tableName id = none)
    (a : Nat) (record : Record) (m : RecordMeta)
    (hidx : w.SelectByID tableName id = some (.ok a))
    (hrec : w.recs[a]? = some record) (hmeta : record.Meta = some m)
    (hlog : mapGet w.tm.undoLogs tableName = none)
    (hrule : ¬ (m.LastTxID < tx.rv.minActiveID ∨
        (tx.rv.activeTxIDs.has m.LastTxID = false ∧ m.LastTxID < tx.rv.nextTxID)))
    (hmin : tx.rv.minActiveID ≠ InvalidLastTxID) :
    w.SelectByIDTx tx tableName id = some (tx, .error .ErrNoSuchATableInTxMgr) := by
  have htry := trySelectFromCache_of_not_buffered w tx tableName id hbuf
  have hcond : ¬ (tx.rv.minActiveID = InvalidLastTxID ∨ m.LastTxID < tx.rv.minActiveID ∨
      ((!tx.rv.activeTxIDs.has m.LastTxID) = true ∧ m.LastTxID < tx.rv.nextTxID)) := by
    rintro (h | h | ⟨h1, h2⟩)
    · exact hmin h
    · exact hrule (Or.inl h)
    · exact hrule (Or.inr ⟨by simpa using h1, h2⟩)
  have hfind : w.FindRecordInUndoLog tableName id tx.rv.activeTxIDs
      = some (.error .ErrNoSuchATableInTxMgr) := by
    unfold World.FindRecordInUndoLog
    simp [hlog]
  unfold World.SelectByIDTx
  simp only [htry, hidx, hrec, hmeta]
  rw [if_neg hcond, hfind]
  simp

/-- C25, the counterexample, in two states.  (1) On a fresh table to which no
transaction has ever committed, a transaction that has buffered nothing reads
an id the index does not hold, and `SelectByIDTx` returns
`ErrNoSuchATableInTxMgr`, not `ErrKeyNotFound`.  (2) After
`partialCommitInput` the first transaction holds a write set for the tables
`a` and `b`, whose insert into `a` is in the index already.  `Commit` applies
the write set in the order of Go's map iteration, which is unspecified; taken
in the order `b`, `a` it inserts the record into `b`, fails on `a` and rolls
back, so that no undo log is made for `b`: nothing has been committed to `b`,
its index holds record 1 with `LastTxID` 1, and the second transaction, which
has buffered nothing and has 1 in the active set of its read view, gets
`ErrNoSuchATableInTxMgr` from `SelectByIDTx`, not the index record. -/
theorem SelectByIDTx_without_log :
    (((Session.new true true).run freshTableInput).map fun s =>
      (s.txs.map fun tx => tx.buffered "test" 1, s.w.SelectByID "test" 1,
       (s.undoLog "test").isSome, s.read 0 "test" 1))
      = some ([none], some (.error .ErrKeyNotFound), false,
          some (.error .ErrNoSuchATableInTxMgr)) ∧
    (((Session.new true true).run partialCommitInput).bind fun s =>
      (s.txs[0]?).bind fun tx0 => (s.txs[1]?).bind fun tx1 =>
        (s.w.Commit { tx0 with cache := tx0.cache.reverse }).map fun r =>
          (tx0.cache.map (fun c => (c.1, c.2.cache.map fun op => (op.1, op.2.op))),
           r.2.2, (mapGet r.1.tm.undoLogs "b").isSome, tx1.buffered "b" 1, tx1.rv,
           (r.1.SelectByID "b" 1).map (fun x => x.toOption.bind fun a => r.1.recs[a]?),
           (r.1.SelectByIDTx tx1 "b" 1).map (fun x => x.2)))
      = some ([("a", [(1, opType.INSERT)]), ("b", [(1, opType.INSERT)])],
          none, false, none, { activeTxIDs := [(1, true)], minActiveID := 1, nextTxID := 3 },
          some (some { Key := 1, Value := ["y"], Meta := some { LastTxID := 1 } }),
          some (.error .ErrNoSuchATableInTxMgr)) :=
  ⟨rfl, rfl⟩

/-- C25, amended: in every state a session reaches, for a transaction that has
buffered no operation for `id`.  When the manager holds an undo log for the
table and that log holds no pre-image for `id` committed by a transaction of
the read view's active set, `SelectByIDTx` returns `ErrKeyNotFound` if the
index holds no record for `id`, and the index record if it holds one.  When
the manager holds no undo log for the table, `SelectByIDTx` returns
`ErrNoSuchATableInTxMgr` if the index holds no record for `id`; if it holds
one, it returns the index record when the record's `LastTxID` passes the rule
of the read view (it is below `minActiveID`, or it is not in the active set
and below `nextTxID`) and `ErrNoSuchATableInTxMgr` otherwise. -/
theorem SelectByIDTx_without_preimage (inspector collector : Bool) (calls : List Call)
    (s : Session) (hrun : (Session.new inspector collector).run calls = some s)
    (i : Nat) (tx : Tx) (htx : s.txs[i]? = some tx) (tableName : String) (id : Int)
    (hbuf : tx.buffered tableName id = none) :
    (∀ l : UndoLog, s.undoLog tableName = some l →
      findSpec tx.rv.activeTxIDs id l.items = .error .ErrRecordNotCommit →
      (s.w.SelectByID tableName id = some (.error .ErrKeyNotFound) →
        s.w.SelectByIDTx tx tableName id = some (tx, .error .ErrKeyNotFound)) ∧
      (∀ (a : Nat) (record : Record) (m : RecordMeta),
        s.w.SelectByID tableName id = some (.ok a) → s.w.recs[a]? = some record →
        record.Meta = some m →
        s.w.SelectByIDTx tx tableName id = some (tx, .ok record))) ∧
    (s.undoLog tableName = none →
      (s.w.SelectByID tableName id = some (.error .ErrKeyNotFound) →
        s.w.SelectByIDTx tx tableName id = some (tx, .error .ErrNoSuchATableInTxMgr)) ∧
      (∀ (a : Nat) (record : Record) (m : RecordMeta),
        s.w.SelectByID tableName id = some (.ok a) → s.w.recs[a]? = some record →
        record.Meta = some m →
        ((m.LastTxID < tx.rv.minActiveID ∨
            (tx.rv.activeTxIDs.has m.LastTxID = false ∧ m.LastTxID < tx.rv.nextTxID)) →
          s.w.SelectByIDTx tx tableName id = some (tx, .ok record)) ∧
        (¬ (m.LastTxID < tx.rv.minActiveID ∨
            (tx.rv.activeTxIDs.has m.LastTxID = false ∧ m.LastTxID < tx.rv.nextTxID)) →
          s.w.SelectByIDTx tx tableName id
            = some (tx, .error .ErrNoSuchATableInTxMgr)))) := by
  have hsound := Session.run_sound (Session.Inv_new inspector collector)
    (Session.Sound_new inspector collector) hrun
  have hmem : tx ∈ s.txs := by
    obtain ⟨hlt, hget⟩ := List.getElem?_eq_some.mp htx
    exact hget ▸ List.getElem_mem hlt
  have hpos := hsound.2.1 tx hmem
  have hne : tx.rv.minActiveID ≠ InvalidLastTxID := by
    intro h; rw [h] at hpos; exact absurd hpos (by decide)
  refine ⟨?_, ?_⟩
  · intro l hl hfind
    have hf : s.w.FindRecordInUndoLog tableName id tx.rv.activeTxIDs
        = some (.error .ErrRecordNotCommit) := by
      rw [FindRecordInUndoLog_of_Consistent s.w hsound.2.2 tableName l hl, hfind]
    refine ⟨?_, ?_⟩
    · intro hidx
      exact (SelectByIDTx_of_absent s.w tx tableName id hbuf hidx).1 hf
    · intro a record m hidx hrec hmeta
      have hst := SelectByIDTx_of_index s.w tx tableName id hbuf a record m hidx hrec hmeta
      by_cases hrule : (m.LastTxID < tx.rv.minActiveID ∨
          (tx.rv.activeTxIDs.has m.LastTxID = false ∧ m.LastTxID < tx.rv.nextTxID))
      · exact hst.1 hrule
      · exact (hst.2 hrule hne).2 hf
  · intro hl
    refine ⟨?_, ?_⟩
    · intro hidx
      exact (SelectByIDTx_of_absent s.w tx tableName id hbuf hidx).2 hl
    · intro a record m hidx hrec hmeta
      exact ⟨(SelectByIDTx_of_index s.w tx tableName id hbuf a record m hidx hrec hmeta).1,
        fun hrule => SelectByIDTx_of_unlogged s.w tx tableName id hbuf a record m hidx hrec
          hmeta hl hrule hne⟩

/-- C25, amended, in the state after `visibilityInput`: the third transaction
started when the first had committed, so the undo log of `test` holds no
pre-image for it; it gets `ErrKeyNotFound` for id 2, which the index does not
hold, and the index record `world` for id 1.  And in the state after
`unloggedInput`, where the manager holds no undo log for `test`: the
transaction gets `ErrNoSuchATableInTxMgr` for id 2, which the index does not
hold, and the index record `hello` for id 1. -/
theorem SelectByIDTx_without_preimage_witness :
    (∃ s tx l, (Session.new true true).run visibilityInput = some s ∧
      s.txs[2]? = some tx ∧ s.undoLog "test" = some l ∧
      findSpec tx.rv.activeTxIDs 2 l.items = .error .ErrRecordNotCommit ∧
      findSpec tx.rv.activeTxIDs 1 l.items = .error .ErrRecordNotCommit ∧
      s.w.SelectByIDTx tx "test" 2 = some (tx, .error .ErrKeyNotFound) ∧
      s.w.SelectByIDTx tx "test" 1
        = some (tx, .ok { Key := 1, Value := ["world"], Meta := some { LastTxID := 1 } })) ∧
    (∃ s tx, (Session.new true true).run unloggedInput = some s ∧
      s.txs[0]? = some tx ∧ s.undoLog "test" = none ∧
      s.w.SelectByIDTx tx "test" 2 = some (tx, .error .ErrNoSuchATableInTxMgr) ∧
      s.w.SelectByIDTx tx "test" 1
        = some (tx, .ok { Key := 1, Value := ["hello"], Meta := some { LastTxID := 0 } })) := by
  have hs : ((Session.new true true).run visibilityInput).isSome = true := rfl
  have ht : ((Option.get _ hs).txs[2]?).isSome = true := rfl
  have hl : ((Option.get _ hs).undoLog "test").isSome = true := rfl
  have h2 := SelectByIDTx_without_preimage true true visibilityInput (Option.get _ hs)
    (Option.some_get hs).symm 2 (Option.get _ ht) (Option.some_get ht).symm "test" 2 rfl
  have h1 := SelectByIDTx_without_preimage true true visibilityInput (Option.get _ hs)
    (Option.some_get hs).symm 2 (Option.get _ ht) (Option.some_get ht).symm "test" 1 rfl
  have hs0 : ((Session.new true true).run unloggedInput).isSome = true := rfl
  have ht0 : ((Option.get _ hs0).txs[0]?).isSome = true := rfl
  have g2 := SelectByIDTx_without_preimage true true unloggedInput (Option.get _ hs0)
    (Option.some_get hs0).symm 0 (Option.get _ ht0) (Option.some_get ht0).symm "test" 2 rfl
  have g1 := SelectByIDTx_without_preimage true true unloggedInput (Option.get _ hs0)
    (Option.some_get hs0).symm 0 (Option.get _ ht0) (Option.some_get ht0).symm "test" 1 rfl
  exact ⟨⟨Option.get _ hs, Option.get _ ht, Option.get _ hl, (Option.some_get hs).symm,
    (Option.some_get ht).symm, (Option.some_get hl).symm, rfl, rfl,
    (h2.1 _ (Option.some_get hl).symm rfl).1 rfl,
    (h1.1 _ (Option.some_get hl).symm rfl).2 0 _ { LastTxID := 1 } rfl rfl rfl⟩,
    ⟨Option.get _ hs0, Option.get _ ht0, (Option.some_get hs0).symm, (Option.some_get ht0).symm,
      rfl, (g2.2 rfl).1 rfl,
      ((g1.2 rfl).2 0 _ { LastTxID := 0 } rfl rfl rfl).1 
        (Or.inl (show (0 : Int) < 9223372036854775807 by decide))⟩⟩

/-! ## A buffered delete shadows the key (C23) -/

theorem buffered_eq_some {tx : Tx} {tableName : String} {id : Int} {r : OpRecord}
    (h : tx.buffered tableName id = some r) :
    ∃ c, mapGet tx.cache tableName = some c ∧ mapGet c.cache id = some r := by
  unfold Tx.buffered at h
  split at h
  · simp at h
  · rename_i c hc; exact ⟨c, hc, h⟩

theorem buffered_setOp (tx : Tx) (table1 : String) (c : txCache) (id1 : Int) (r : OpRecord)
    (tableName : String) (id : Int) :
    (tx.setOp table1 c id1 r).buffered tableName id =
      if tableName = table1 then (if id = id1 then some r else mapGet c.cache id)
      else tx.buffered tableName id := by
  unfold Tx.buffered Tx.setOp
  simp only [mapGet_mapSet]
  by_cases h : tableName = table1
  · simp [h, mapGet_mapSet]
  · simp [h]

theorem shadowed_calls_fail (w : World) (tx : Tx) (tableName : String) (id : Int)
    (hsh : (tx.buffered tableName id).map (fun r => r.op) = some opType.DELETE)
    (hvalid : ∀ c, mapGet tx.cache tableName = some c → c.t < w.tableHeap.length) :
    (∀ values, w.UpdateByIDTx tx tableName values id = some (tx, some .ErrKeyNotFound)) ∧
    w.DeleteByIDTx tx tableName id = some (tx, some .ErrKeyNotFound) ∧
    w.SelectByIDTx tx tableName id = some (tx, .error .ErrKeyNotFound) := by
  simp only [Option.map_eq_some'] at hsh
  obtain ⟨r, hr, hop⟩ := hsh
  obtain ⟨c, hc, hcr⟩ := buffered_eq_some hr
  have hlt := hvalid c hc
  have ht : w.tableHeap[c.t]? = some (w.tableHeap[c.t]) := List.getElem?_eq_getElem hlt
  refine ⟨?_, ?_, ?_⟩
  · intro values
    unfold World.UpdateByIDTx World.findTableTxCache
    simp [hc, ht, hcr, hop]
  · unfold World.DeleteByIDTx World.findTableTxCache
    simp [hc, ht, hcr, hop]
  · unfold World.SelectByIDTx World.trySelectFromCache
    simp [hc, hcr, hop]

theorem findTableTxCache_buffered {w : World} {tx tx1 : Tx} {tableName : String}
    {r : Except Error txCache} (h : w.findTableTxCache tx tableName = some (tx1, r)) :
    (∀ (table2 : String) (id2 : Int), tx1.buffered table2 id2 = tx.buffered table2 id2) ∧
    ∀ c, r = .ok c → mapGet tx1.cache tableName = some c ∧
      ∀ id2, mapGet c.cache id2 = tx.buffered tableName id2 := by
  unfold World.findTableTxCache at h
  split at h
  · rename_i c hc
    simp only [Option.some.injEq, Prod.mk.injEq] at h
    obtain ⟨rfl, rfl⟩ := h
    refine ⟨fun _ _ => rfl, ?_⟩
    intro c1 hc1
    simp only [Except.ok.injEq] at hc1
    subst hc1
    refine ⟨hc, ?_⟩
    intro id2
    simp [Tx.buffered, hc]
  · rename_i hc
    split at h
    · simp only [Option.some.injEq, Prod.mk.injEq] at h
      obtain ⟨rfl, rfl⟩ := h
      exact ⟨fun _ _ => rfl, fun c hc1 => by simp at hc1⟩
    · rename_i a ha
      simp only [Option.some.injEq, Prod.mk.injEq] at h
      obtain ⟨rfl, rfl⟩ := h
      refine ⟨?_, ?_⟩
      · intro table2 id2
        unfold Tx.buffered
        simp only [mapGet_mapSet]
        by_cases ht : table2 = tableName
        · subst ht; simp [hc, mapGet]
        · simp [ht]
      · intro c1 hc1
        simp only [Except.ok.injEq] at hc1
        subst hc1
        refine ⟨by simp [mapGet_mapSet], ?_⟩
        intro id2
        simp [Tx.buffered, hc, mapGet]

theorem buffered_setCache (tx : Tx) (table1 : String) (c : txCache)
    (tableName : String) (id : Int) :
    Tx.buffered { tx with cache := mapSet tx.cache table1 c } tableName id =
      if tableName = table1 then mapGet c.cache id else tx.buffered tableName id := by
  unfold Tx.buffered
  simp only [mapGet_mapSet]
  by_cases h : tableName = table1
  · simp [h]
  · simp [h]

/-- `DeleteByIDTx` on one key leaves the operations buffered for other keys
alone. -/
theorem DeleteByIDTx_other {w : World} {tx tx1 : Tx} {table1 : String} {id1 : Int}
    {e : Option Error} (h : w.DeleteByIDTx tx table1 id1 = some (tx1, e))
    (tableName : String) (id : Int) (hne : ¬ (tableName = table1 ∧ id = id1)) :
    tx1.buffered tableName id = tx.buffered tableName id := by
  unfold World.DeleteByIDTx at h
  split at h
  · simp at h
  · rename_i tx2 e2 hf
    simp only [Option.some.injEq, Prod.mk.injEq] at h
    obtain ⟨rfl, -⟩ := h
    exact (findTableTxCache_buffered hf).1 _ _
  · rename_i tx2 c hf
    have hb := findTableTxCache_buffered hf
    have hc := hb.2 c rfl
    split at h
    · simp at h
    · dsimp only at h
      split at h
      · simp only [Option.some.injEq, Prod.mk.injEq] at h
        obtain ⟨rfl, -⟩ := h
        exact hb.1 _ _
      · split at h
        · simp only [Option.some.injEq, Prod.mk.injEq] at h
          obtain ⟨rfl, -⟩ := h
          rw [buffered_setCache]
          split
          · rename_i ht
            have hid : ¬ id = id1 := fun hi => hne ⟨ht, hi⟩
            simp only [mapGet_mapDel, hid, if_false, hc.2, ht]
          · exact hb.1 _ _
        · split at h
          · simp at h
          · simp only [Option.some.injEq, Prod.mk.injEq] at h
            obtain ⟨rfl, -⟩ := h
            exact hb.1 _ _
          · split at h
            · simp at h
            · simp only [Option.some.injEq, Prod.mk.injEq] at h
              obtain ⟨rfl, -⟩ := h
              rw [buffered_setOp]
              split
              · rename_i ht
                have hid : ¬ id = id1 := fun hi => hne ⟨ht, hi⟩
                simp only [hid, if_false, hc.2, ht]
              · exact hb.1 _ _

/-- `UpdateByIDTx` on one key leaves the operations buffered for other keys
alone. -/
theorem UpdateByIDTx_other {w : World} {tx tx1 : Tx} {table1 : String} {id1 : Int}
    {values : List (String × Value)}
    {e : Option Error} (h : w.UpdateByIDTx tx table1 values id1 = some (tx1, e))
    (tableName : String) (id : Int) (hne : ¬ (tableName = table1 ∧ id = id1)) :
    tx1.buffered tableName id = tx.buffered tableName id := by
  unfold World.UpdateByIDTx at h
  split at h
  · simp at h
  · rename_i tx2 e2 hf
    simp only [Option.some.injEq, Prod.mk.injEq] at h
    obtain ⟨rfl, -⟩ := h
    exact (findTableTxCache_buffered hf).1 _ _
  · rename_i tx2 c hf
    have hb := findTableTxCache_buffered hf
    have hc := hb.2 c rfl
    have hset : ∀ (c3 : txCache) (r : OpRecord),
        (∀ id2, ¬ id2 = id1 → mapGet c3.cache id2 = tx.buffered table1 id2) →
        (tx2.setOp table1 c3 id1 r).buffered tableName id = tx.buffered tableName id := by
      intro c3 r h3
      rw [buffered_setOp]
      split
      · rename_i ht
        have hid : ¬ id = id1 := fun hi => hne ⟨ht, hi⟩
        simp only [hid, if_false, h3 id hid, ht]
      · exact hb.1 _ _
    split at h
    · simp at h
    · rename_i t ht
      dsimp only at h
      split at h
      · simp at h
      · rename_i e3 hfound
        simp only [Option.some.injEq, Prod.mk.injEq] at h
        obtain ⟨rfl, -⟩ := h
        exact hb.1 _ _
      · rename_i tx3 opRecord hfound
        have h3 : (∀ (table2 : String) (id2 : Int), ¬ (table2 = table1 ∧ id2 = id1) →
              tx3.buffered table2 id2 = tx.buffered table2 id2) ∧
            ∀ c2, mapGet tx3.cache table1 = some c2 →
              ∀ id2, ¬ id2 = id1 → mapGet c2.cache id2 = tx.buffered table1 id2 := by
          split at hfound
          · split at hfound
            · simp at hfound
            · simp only [Option.some.injEq, Except.ok.injEq, Prod.mk.injEq] at hfound
              obtain ⟨rfl, -⟩ := hfound
              refine ⟨fun _ _ _ => hb.1 _ _, ?_⟩
              intro c2 hc2 id2 _
              rw [hc.1] at hc2
              simp only [Option.some.injEq] at hc2
              subst hc2
              exact hc.2 id2
          · split at hfound
            · simp at hfound
            · simp at hfound
            · simp only [Option.some.injEq, Except.ok.injEq, Prod.mk.injEq] at hfound
              obtain ⟨rfl, -⟩ := hfound
              refine ⟨?_, ?_⟩
              · intro table2 id2 hne2
                rw [buffered_setOp]
                split
                · rename_i ht2
                  have hid : ¬ id2 = id1 := fun hi => hne2 ⟨ht2, hi⟩
                  simp only [hid, if_false, hc.2, ht2]
                · exact hb.1 _ _
              · intro c2 hc2 id2 hid
                simp only [Tx.setOp, mapGet_mapSet, if_true, Option.some.injEq] at hc2
                subst hc2
                simp only [mapGet_mapSet, hid, if_false]
                exact hc.2 id2
        split at h
        · simp at h
        · simp only [Option.some.injEq, Prod.mk.injEq] at h
          obtain ⟨rfl, -⟩ := h
          exact h3.1 _ _ hne
        · split at h
          · simp at h
          · rename_i c2 hc2
            simp only [Option.some.injEq, Prod.mk.injEq] at h
            obtain ⟨rfl, -⟩ := h
            rw [buffered_setOp]
            split
            · rename_i ht2
              have hid : ¬ id = id1 := fun hi => hne ⟨ht2, hi⟩
              simp only [hid, if_false, ht2]
              exact h3.2 c2 hc2 id hid
            · exact h3.1 _ _ hne

/-- `SelectByIDTx` on one key leaves the operations buffered for other keys
alone. -/
theorem SelectByIDTx_other {w : World} {tx tx1 : Tx} {table1 : String} {id1 : Int}
    {r : Except Error Record} (h : w.SelectByIDTx tx table1 id1 = some (tx1, r))
    (tableName : String) (id : Int) (hne : ¬ (tableName = table1 ∧ id = id1)) :
    tx1.buffered tableName id = tx.buffered tableName id := by
  have htry : ∀ (tx2 : Tx) (r2 : Except Error (Option Record)),
      w.trySelectFromCache tx table1 id1 = some (tx2, r2) →
      tx2.buffered tableName id = tx.buffered tableName id := by
    intro tx2 r2 h2
    unfold World.trySelectFromCache at h2
    repeat' (first | split at h2 | (dsimp only at h2))
    all_goals (try (simp at h2; done))
    all_goals (simp only [Option.some.injEq, Prod.mk.injEq] at h2; obtain ⟨rfl, -⟩ := h2)
    all_goals (try rfl)
    rw [buffered_setCache]
    split
    · rename_i ht
      have hid : ¬ id = id1 := fun hi => hne ⟨ht, hi⟩
      have hcc : ∃ c, mapGet tx.cache table1 = some c := ⟨_, by assumption⟩
      obtain ⟨c, hcc⟩ := hcc
      simp_all [mapGet_mapSet, Tx.buffered]
    · rfl
  unfold World.SelectByIDTx at h
  repeat' (first | split at h | (dsimp only at h))
  all_goals (try (simp at h; done))
  all_goals (simp only [Option.some.injEq, Prod.mk.injEq] at h; obtain ⟨rfl, -⟩ := h)
  all_goals (exact htry _ _ (by assumption))

/-- `InsertTx` buffers its operation under the id it issues,
`t.meta.idCount + 1`, and leaves the operations buffered for other keys
alone. -/
theorem InsertTx_other {w w1 : World} {tx tx1 : Tx} {table1 : String} {data : List Value}
    {e : Option Error} (h : w.InsertTx tx table1 data = some (w1, tx1, e))
    (tableName : String) (id : Int)
    (hne : ∀ (a : Nat) (t : table), mapGet w.tables table1 = some a → w.tableHeap[a]? = some t →
      (∀ c, mapGet tx.cache table1 = some c → c.t = a) →
      ¬ (tableName = table1 ∧ id = t.meta.idCount + 1)) :
    tx1.buffered tableName id = tx.buffered tableName id ∨
      (mapGet tx.cache table1).isSome = true ∧ tableName = table1 ∧
        ∃ c t, mapGet tx.cache table1 = some c ∧ w.tableHeap[c.t]? = some t ∧
          id = t.meta.idCount + 1 := by
  unfold World.InsertTx at h
  split at h
  · simp at h
  · rename_i tx2 e2 hf
    simp only [Option.some.injEq, Prod.mk.injEq] at h
    obtain ⟨-, rfl, -⟩ := h
    exact Or.inl ((findTableTxCache_buffered hf).1 _ _)
  · rename_i tx2 c hf
    have hb := findTableTxCache_buffered hf
    have hc := hb.2 c rfl
    split at h
    · simp at h
    · rename_i t ht
      dsimp only at h
      split at h
      · simp at h
      · split at h
        · simp only [Option.some.injEq, Prod.mk.injEq] at h
          obtain ⟨-, rfl, -⟩ := h
          exact Or.inl (hb.1 _ _)
        · simp only [Option.some.injEq, Prod.mk.injEq] at h
          obtain ⟨-, rfl, -⟩ := h
          rw [buffered_setOp]
          split
          · rename_i ht2
            by_cases hid : id = t.meta.idCount + 1
            · right
              subst ht2
              unfold World.findTableTxCache at hf
              split at hf
              · rename_i c0 hc0
                simp only [Option.some.injEq, Prod.mk.injEq, Except.ok.injEq] at hf
                obtain ⟨rfl, rfl⟩ := hf
                exact ⟨by simp [hc0], rfl, c0, t, hc0, ht, hid⟩
              · rename_i hc0
                split at hf
                · simp at hf
                · rename_i a ha
                  simp only [Option.some.injEq, Prod.mk.injEq, Except.ok.injEq] at hf
                  obtain ⟨rfl, rfl⟩ := hf
                  exact absurd ⟨rfl, hid⟩ (hne a t ha ht (by simp [hc0]))
            · left
              simp only [hid, if_false, hc.2, ht2]
          · exact Or.inl (hb.1 _ _)

theorem DeleteByIDTx_buffers {w : World} {tx tx1 : Tx} {tableName : String} {id : Int}
    (hnot : (tx.buffered tableName id).map (fun r => r.op) ≠ some opType.INSERT)
    (hdel : w.DeleteByIDTx tx tableName id = some (tx1, none)) :
    (tx1.buffered tableName id).map (fun r => r.op) = some opType.DELETE ∧
    ∃ c t a, mapGet tx1.cache tableName = some c ∧ w.tableHeap[c.t]? = some t ∧
      t.data.Find id = some (.ok a) := by
  unfold World.DeleteByIDTx at hdel
  split at hdel
  · simp at hdel
  · simp at hdel
  · rename_i tx2 c hf
    have hb := findTableTxCache_buffered hf
    have hc := hb.2 c rfl
    split at hdel
    · simp at hdel
    · rename_i t ht
      dsimp only at hdel
      rw [hc.2 id] at hdel
      repeat' (first | split at hdel | (dsimp only at hdel))
      all_goals (try (simp at hdel; done))
      · rename_i a hfind _ _ _
        simp only [Option.some.injEq, Prod.mk.injEq, and_true] at hdel
        subst hdel
        refine ⟨by simp [buffered_setOp], ?_⟩
        simp only [Tx.setOp, mapGet_mapSet, if_true]
        exact ⟨_, t, a, rfl, ht, hfind⟩

/-- C23: a buffered delete shadows the key.  When `DeleteByIDTx(tx, id)`
returns nil and the operation buffered for `id` before the call, if any, was
not an Insert (nothing was buffered, or an Update was), the record is in the
index of the table and the transaction now holds a buffered Delete for `id`.
In every later state in which the transaction `tx2` holds that buffered Delete
(`w2` is the server's state then): `SelectByIDTx(tx2, id)`, `UpdateByIDTx(tx2,
id)` and `DeleteByIDTx(tx2, id)` return `ErrKeyNotFound` and leave the
transaction as it is; and `UpdateByIDTx`, `DeleteByIDTx` and `SelectByIDTx` on
any other key, and `InsertTx` when the id it issues is not `id`, leave the
buffered Delete in place.  (`hvalid`: the table pointer of the write set
points into the heap of tables, as every Go pointer does.) -/
theorem buffered_delete_shadows (w : World) (tx tx1 : Tx) (tableName : String) (id : Int)
    (hnot : (tx.buffered tableName id).map (fun r => r.op) ≠ some opType.INSERT)
    (hdel : w.DeleteByIDTx tx tableName id = some (tx1, none)) :
    (tx1.buffered tableName id).map (fun r => r.op) = some opType.DELETE ∧
    (∃ c t a, mapGet tx1.cache tableName = some c ∧ w.tableHeap[c.t]? = some t ∧
      t.data.Find id = some (.ok a)) ∧
    ∀ (w2 : World) (tx2 : Tx),
      (tx2.buffered tableName id).map (fun r => r.op) = some opType.DELETE →
      w2.SelectByIDTx tx2 tableName id = some (tx2, .error .ErrKeyNotFound) ∧
      ((hvalid : ∀ c, mapGet tx2.cache tableName = some c → c.t < w2.tableHeap.length) →
        (∀ values, w2.UpdateByIDTx tx2 tableName values id = some (tx2, some .ErrKeyNotFound)) ∧
        w2.DeleteByIDTx tx2 tableName id = some (tx2, some .ErrKeyNotFound)) ∧
      (∀ (table1 : String) (id1 : Int), ¬ (tableName = table1 ∧ id = id1) →
        (∀ values tx3 e, w2.UpdateByIDTx tx2 table1 values id1 = some (tx3, e) →
          (tx3.buffered tableName id).map (fun r => r.op) = some opType.DELETE) ∧
        (∀ tx3 e, w2.DeleteByIDTx tx2 table1 id1 = some (tx3, e) →
          (tx3.buffered tableName id).map (fun r => r.op) = some opType.DELETE) ∧
        (∀ tx3 r, w2.SelectByIDTx tx2 table1 id1 = some (tx3, r) →
          (tx3.buffered tableName id).map (fun r => r.op) = some opType.DELETE)) ∧
      (∀ (table1 : String) (data : List Value) (w3 : World) (tx3 : Tx) (e : Option Error),
        w2.InsertTx tx2 table1 data = some (w3, tx3, e) →
        (∀ c t, mapGet tx2.cache tableName = some c → w2.tableHeap[c.t]? = some t →
          id ≠ t.meta.idCount + 1) →
        (tx3.buffered tableName id).map (fun r => r.op) = some opType.DELETE) := by
  have hA := DeleteByIDTx_buffers hnot hdel
  refine ⟨hA.1, hA.2, ?_⟩
  intro w2 tx2 hsh
  refine ⟨?_, ?_, ?_, ?_⟩
  · have hsh2 := hsh
    simp only [Option.map_eq_some'] at hsh2
    obtain ⟨r, hr, hop⟩ := hsh2
    obtain ⟨c, hc, hcr⟩ := buffered_eq_some hr
    unfold World.SelectByIDTx World.trySelectFromCache
    simp [hc, hcr, hop]
  · intro hvalid
    have h := shadowed_calls_fail w2 tx2 tableName id hsh hvalid
    exact ⟨h.1, h.2.1⟩
  · intro table1 id1 hne
    refine ⟨?_, ?_, ?_⟩
    · intro values tx3 e h; rw [UpdateByIDTx_other h tableName id hne]; exact hsh
    · intro tx3 e h; rw [DeleteByIDTx_other h tableName id hne]; exact hsh
    · intro tx3 r h; rw [SelectByIDTx_other h tableName id hne]; exact hsh
  · intro table1 data w3 tx3 e h hfresh
    have hsh2 := hsh
    simp only [Option.map_eq_some'] at hsh2
    obtain ⟨r, hr, hop⟩ := hsh2
    obtain ⟨c, hc, hcr⟩ := buffered_eq_some hr
    have h1 := InsertTx_other h tableName id (by
      intro a t ha ht hca hcontra
      obtain ⟨rfl, hid⟩ := hcontra
      have := hca c hc
      subst this
      exact hfresh c t hc ht hid)
    rcases h1 with h1 | ⟨-, rfl, c2, t, hc2, ht, hid⟩
    · rw [h1]; exact hsh
    · rw [hc] at hc2
      simp only [Option.some.injEq] at hc2
      subst hc2
      exact absurd hid (hfresh c t hc ht)

/-- C23, in the state after `shadowInput`: the transaction has buffered an
Update of record 1; `DeleteByIDTx` then returns nil and buffers a Delete, after
which update, delete and select of record 1 in the transaction return
`ErrKeyNotFound`. -/
theorem buffered_delete_shadows_witness :
    ∃ s tx tx1, (Session.new true true).run shadowInput = some s ∧ s.txs[0]? = some tx ∧
      (tx.buffered "test" 1).map (fun r => r.op) = some opType.UPDATE ∧
      s.w.DeleteByIDTx tx "test" 1 = some (tx1, none) ∧
      (tx1.buffered "test" 1).map (fun r => r.op) = some opType.DELETE ∧
      s.w.SelectByIDTx tx1 "test" 1 = some (tx1, .error .ErrKeyNotFound) ∧
      s.w.UpdateByIDTx tx1 "test" [("name", Value.str "y")] 1
        = some (tx1, some .ErrKeyNotFound) ∧
      s.w.DeleteByIDTx tx1 "test" 1 = some (tx1, some .ErrKeyNotFound) := by
  have hs : ((Session.new true true).run shadowInput).isSome = true := rfl
  have ht : ((Option.get _ hs).txs[0]?).isSome = true := rfl
  have hd : ((Option.get _ hs).w.DeleteByIDTx (Option.get _ ht) "test" 1).isSome = true := rfl
  have hd2 : (Option.get _ hs).w.DeleteByIDTx (Option.get _ ht) "test" 1
      = some ((Option.get _ hd).1, none) := rfl
  have hb : ((Option.get _ ht).buffered "test" 1).map (fun r => r.op) = some opType.UPDATE := rfl
  have hlen : (Option.get _ hs).w.tableHeap.length = 1 := rfl
  have h := buffered_delete_shadows (Option.get _ hs).w (Option.get _ ht) (Option.get _ hd).1
    "test" 1 (by rw [hb]; decide) hd2
  have h2 := h.2.2 (Option.get _ hs).w (Option.get _ hd).1 h.1
  have hv := h2.2.1 (by
    intro c hc
    have hc0 : c = { t := 0, cache := [(1,
        { opChange := OpChange.DeleteOpChange 1, op := opType.DELETE })] } :=
      Option.some.inj (hc.symm.trans rfl)
    subst hc0
    exact Nat.lt_of_lt_of_eq (by decide : 0 < 1) hlen.symm)
  exact ⟨Option.get _ hs, Option.get _ ht, (Option.get _ hd).1, (Option.some_get hs).symm,
    (Option.some_get ht).symm, hb, hd2, h.1, h2.1, hv.1 _, hv.2⟩

/-! ## The split of a full leaf (C29) -/

theorem list4 {α : Type} {xs : List α} (h : xs.length = 4) :
    ∃ a b c d, xs = [a, b, c, d] := by
  match xs, h with
  | [a, b, c, d], _ => exact ⟨a, b, c, d, rfl⟩

/-- C29, the counterexample: after the inserts of keys 1 and 2 the only leaf
holds `order-1 = 2` entries; the insert of key 3 splits it, and afterwards the
original leaf (address 0) holds the single key 1 and the new leaf (address 1)
holds 2 and 3: the left leaf keeps one entry, not `ceil(order/2) = 2`. -/
theorem Insert_split_left_keeps_one :
    ((TreeState.run {} (threeKeys.take 2)).map fun s =>
      s.t.nodes.map fun n => (n.IsLeaf, n.liveKeys)) = some [(true, [1, 2])] ∧
    ((TreeState.run {} threeKeys).map fun s =>
      s.t.nodes.map fun n => (n.IsLeaf, n.liveKeys))
      = some [(true, [1]), (true, [2, 3]), (false, [1, 3])] ∧
    (order + 1) / 2 = 2 :=
  ⟨rfl, rfl, rfl⟩

/-- The split step of `insertIntoLeafAfterSplitting` on a full leaf, run
symbolically: the two leaves it leaves behind and the key it hands on. -/
theorem split_run (nodes : List Node) (leaf : Nat) (l : Node) (key : Int) (r : Nat)
    (hl : nodes[leaf]? = some l) (hloc : NodeLocal l) (hleaf : l.IsLeaf = true)
    (hnum : l.NumKeys = order - 1) (hkey : key ∉ l.liveKeys) :
    ∃ l1 nn k, insertIntoLeafAfterSplitting.split nodes leaf key r
        = some (nodes.set leaf l1 ++ [nn], k) ∧
      l1.IsLeaf = true ∧ l1.Parent = l.Parent ∧ NodeLocal l1 ∧
      nn.IsLeaf = true ∧ nn.Parent = l.Parent ∧ NodeLocal nn ∧
      l1.NumKeys = cut (order - 1) ∧ nn.NumKeys = order - cut (order - 1) ∧
      (l1.liveKeys ++ nn.liveKeys).Pairwise (fun x y => x < y) ∧
      (∀ x, x ∈ l1.liveKeys ++ nn.liveKeys ↔ x = key ∨ x ∈ l.liveKeys) ∧
      l1.Pointers[order]? = some (Ptr.node nodes.length) ∧
      nn.Pointers[order]? = l.Pointers[order]? ∧
      lastKey nn = some k := by
  obtain ⟨hk, hp, hn, hs⟩ := hloc
  obtain ⟨k0, k1, k2, k3, hK⟩ := list4 hk
  obtain ⟨p0, p1, p2, p3, hP⟩ := list4 hp
  obtain ⟨P, K, par, isl, num, nxt⟩ := l
  simp only at hK hP hleaf hnum hkey hs
  subst hK hP hleaf hnum
  simp [Node.liveKeys, order] at hkey hs
  have hlt : leaf < nodes.length := (List.getElem?_eq_some.mp hl).1
  by_cases h0 : k0 < key
  · by_cases h1 : k1 < key
    · refine ⟨(Node.mk [p0, Ptr.nil, Ptr.nil, Ptr.node nodes.length] [k0, k1, k2, k3] par true 1
          nxt),
        (Node.mk [p1, Ptr.record r, Ptr.nil, p3] [k1, key, 0, 0] par true 2 none), key, ?_, rfl, rfl,
        ⟨rfl, rfl, Nat.le_of_ble_eq_true rfl, ?_⟩, rfl, rfl,
        ⟨rfl, rfl, Nat.le_of_ble_eq_true rfl, ?_⟩, rfl, rfl, ?_, ?_, rfl, rfl, rfl⟩
      · simp [insertIntoLeafAfterSplitting.split, andThen, hl, insertIntoLeafAfterSplitting.point,
          copySkip, copyRange, clearFrom, wr, setNode, order, cut, makeLeaf, makeNode, lastKey, hlt,
          h0, h1]
      · simp [Node.liveKeys, cut, order]
      · simp [Node.liveKeys, cut, order, h1]
      · simp [Node.liveKeys, cut, order, h0, h1, hs]
      · intro x; simp [Node.liveKeys, cut, order]; tauto
    · have h1' : key < k1 := by omega
      refine ⟨(Node.mk [p0, Ptr.nil, Ptr.nil, Ptr.node nodes.length] [k0, k1, k2, k3] par true 1
          nxt),
        (Node.mk [Ptr.record r, p1, Ptr.nil, p3] [key, k1, 0, 0] par true 2 none), k1, ?_, rfl, rfl,
        ⟨rfl, rfl, Nat.le_of_ble_eq_true rfl, ?_⟩, rfl, rfl,
        ⟨rfl, rfl, Nat.le_of_ble_eq_true rfl, ?_⟩, rfl, rfl, ?_, ?_, rfl, rfl, rfl⟩
      · simp [insertIntoLeafAfterSplitting.split, andThen, hl, insertIntoLeafAfterSplitting.point,
          copySkip, copyRange, clearFrom, wr, setNode, order, cut, makeLeaf, makeNode, lastKey, hlt,
          h0, h1]
      · simp [Node.liveKeys, cut, order]
      · simp [Node.liveKeys, cut, order, h1']
      · simp [Node.liveKeys, cut, order, h0, h1', hs]
      · intro x; simp [Node.liveKeys, cut, order]; tauto
  · have h0' : key < k0 := by omega
    refine ⟨(Node.mk [Ptr.record r, Ptr.nil, Ptr.nil, Ptr.node nodes.length] [key, k1, k2, k3] par
        true 1 nxt),
        (Node.mk [p0, p1, Ptr.nil, p3] [k0, k1, 0, 0] par true 2 none), k1, ?_, rfl, rfl,
        ⟨rfl, rfl, Nat.le_of_ble_eq_true rfl, ?_⟩, rfl, rfl,
      ⟨rfl, rfl, Nat.le_of_ble_eq_true rfl, ?_⟩, rfl, rfl, ?_, ?_, rfl, rfl, rfl⟩
    · simp [insertIntoLeafAfterSplitting.split, andThen, hl, insertIntoLeafAfterSplitting.point,
        copySkip, copyRange, clearFrom, wr, setNode, order, cut, makeLeaf, makeNode, lastKey, hlt,
        h0]
    · simp [Node.liveKeys, cut, order]
    · simp [Node.liveKeys, cut, order, hs]
    · simp [Node.liveKeys, cut, order, h0', hs]; omega
    · intro x; simp [Node.liveKeys, cut, order]

/-- C29, amended: the split step of `insertIntoLeafAfterSplitting` on a leaf
that holds `order-1` strictly increasing keys, for a key that is not among
them (`Insert` has looked it up in vain), returns; afterwards the original
leaf holds `cut(order-1)` entries and the new leaf, allocated at the end of the
heap, the other `order - cut(order-1)`; read left leaf first the two hold the
old keys and the new key in strictly increasing order, so the left leaf has the
lowest; the original leaf's `Pointers[order]` is the new leaf and the new
leaf's `Pointers[order]` is what the original leaf's was; and the key handed to
`insertIntoParent` is the last key of the new leaf. -/
theorem leaf_split_halves (nodes : List Node) (leaf : Nat) (l : Node) (key : Int) (r : Nat)
    (hl : nodes[leaf]? = some l) (hloc : NodeLocal l) (hleaf : l.IsLeaf = true)
    (hnum : l.NumKeys = order - 1) (hkey : key ∉ l.liveKeys) :
    ∃ l1 nn k, insertIntoLeafAfterSplitting.split nodes leaf key r
        = some (nodes.set leaf l1 ++ [nn], k) ∧
      l1.IsLeaf = true ∧ l1.Parent = l.Parent ∧ NodeLocal l1 ∧
      nn.IsLeaf = true ∧ nn.Parent = l.Parent ∧ NodeLocal nn ∧
      l1.NumKeys = cut (order - 1) ∧ nn.NumKeys = order - cut (order - 1) ∧
      (l1.liveKeys ++ nn.liveKeys).Pairwise (fun x y => x < y) ∧
      (∀ x, x ∈ l1.liveKeys ++ nn.liveKeys ↔ x = key ∨ x ∈ l.liveKeys) ∧
      l1.Pointers[order]? = some (Ptr.node nodes.length) ∧
      nn.Pointers[order]? = l.Pointers[order]? ∧
      lastKey nn = some k :=
  split_run nodes leaf l key r hl hloc hleaf hnum hkey

/-- C29, amended, on the leaf that holds keys 1 and 2 when key 3 arrives. -/
theorem leaf_split_halves_witness :
    ∃ s l, TreeState.run {} (threeKeys.take 2) = some s ∧ s.t.nodes[0]? = some l ∧
      l.liveKeys = [1, 2] ∧
      ∃ l1 nn k, insertIntoLeafAfterSplitting.split s.t.nodes 0 3 2
          = some (s.t.nodes.set 0 l1 ++ [nn], k) ∧
        l1.IsLeaf = true ∧ l1.Parent = l.Parent ∧ NodeLocal l1 ∧
        nn.IsLeaf = true ∧ nn.Parent = l.Parent ∧ NodeLocal nn ∧
        l1.NumKeys = cut (order - 1) ∧ nn.NumKeys = order - cut (order - 1) ∧
        (l1.liveKeys ++ nn.liveKeys).Pairwise (fun x y => x < y) ∧
        (∀ x, x ∈ l1.liveKeys ++ nn.liveKeys ↔ x = 3 ∨ x ∈ l.liveKeys) ∧
        l1.Pointers[order]? = some (Ptr.node s.t.nodes.length) ∧
        nn.Pointers[order]? = l.Pointers[order]? ∧
        lastKey nn = some k := by
  have hs : (TreeState.run {} (threeKeys.take 2)).isSome = true := rfl
  have hl : ((Option.get _ hs).t.nodes[0]?).isSome = true := rfl
  exact ⟨Option.get _ hs, Option.get _ hl, (Option.some_get hs).symm, (Option.some_get hl).symm,
    rfl,
    leaf_split_halves (Option.get _ hs).t.nodes 0 (Option.get _ hl) 3 2 (Option.some_get hl).symm
      ⟨rfl, rfl, Nat.le_of_ble_eq_true rfl,
        fun _ => (by decide : List.Pairwise (fun x y : Int => x < y) [1, 2])⟩
      rfl rfl (by decide : (3 : Int) ∉ [1, 2])⟩

/-! ## The structural invariant: preservation -/

theorem Skel.get {nodes nodes1 : List Node} (h : Skel nodes nodes1) {a : Nat} {n1 : Node}
    (h1 : nodes1[a]? = some n1) : ∃ n, nodes[a]? = some n ∧
      n1.IsLeaf = n.IsLeaf ∧ n1.Parent = n.Parent ∧
      (n.IsLeaf = false → n1.liveChildren = n.liveChildren ∧ n1.NumKeys = n.NumKeys) := by
  have hlt : a < nodes.length := by
    rw [← h.1]
    exact (List.getElem?_eq_some.mp h1).1
  exact ⟨nodes[a], List.getElem?_eq_getElem hlt, h.2 a _ n1 (List.getElem?_eq_getElem hlt) h1⟩

theorem Skel.get' {nodes nodes1 : List Node} (h : Skel nodes nodes1) {a : Nat} {n : Node}
    (h0 : nodes[a]? = some n) : ∃ n1, nodes1[a]? = some n1 ∧
      n1.IsLeaf = n.IsLeaf ∧ n1.Parent = n.Parent ∧
      (n.IsLeaf = false → n1.liveChildren = n.liveChildren ∧ n1.NumKeys = n.NumKeys) := by
  have hlt : a < nodes1.length := by
    rw [h.1]
    exact (List.getElem?_eq_some.mp h0).1
  exact ⟨nodes1[a], List.getElem?_eq_getElem hlt, h.2 a n _ h0 (List.getElem?_eq_getElem hlt)⟩

theorem Skel.refl (nodes : List Node) : Skel nodes nodes := by
  refine ⟨rfl, ?_⟩
  intro a n n1 h h1
  rw [h] at h1
  simp only [Option.some.injEq] at h1
  subst h1
  exact ⟨rfl, rfl, fun _ => ⟨rfl, rfl⟩⟩

theorem Skel.trans {n0 n1 n2 : List Node} (h01 : Skel n0 n1) (h12 : Skel n1 n2) : Skel n0 n2 := by
  refine ⟨h12.1.trans h01.1, ?_⟩
  intro a n m h hm
  obtain ⟨k, hk, e1, e2, e3⟩ := h01.get' h
  have := h12.2 a k m hk hm
  refine ⟨this.1.trans e1, this.2.1.trans e2, ?_⟩
  intro hl
  have hkl : k.IsLeaf = false := by rw [e1]; exact hl
  exact ⟨(this.2.2 hkl).1.trans (e3 hl).1, (this.2.2 hkl).2.trans (e3 hl).2⟩

/-- Replacing one node by a node with the same skeleton. -/
theorem Skel.set {nodes : List Node} {a : Nat} {n n1 : Node} (h : nodes[a]? = some n)
    (hleaf : n1.IsLeaf = n.IsLeaf) (hpar : n1.Parent = n.Parent)
    (hch : n.IsLeaf = false → n1.liveChildren = n.liveChildren ∧ n1.NumKeys = n.NumKeys) :
    Skel nodes (nodes.set a n1) := by
  refine ⟨by simp, ?_⟩
  intro b m m1 hm hm1
  rw [List.getElem?_set] at hm1
  split at hm1
  · rename_i hab
    subst hab
    rw [h] at hm
    simp only [Option.some.injEq] at hm
    subst hm
    split at hm1
    · simp only [Option.some.injEq] at hm1
      subst hm1
      exact ⟨hleaf, hpar, hch⟩
    · simp at hm1
  · rw [hm] at hm1
    simp only [Option.some.injEq] at hm1
    subst hm1
    exact ⟨rfl, rfl, fun _ => ⟨rfl, rfl⟩⟩

/-- The invariant carries over to a heap with the same skeleton whose nodes
are locally well formed. -/
theorem WFx_of_Skel {t : Tree} {x : Option Nat} {nodes1 : List Node} (h : t.WFx x)
    (hs : Skel t.nodes nodes1)
    (hloc : ∀ (a : Nat) (n1 : Node), nodes1[a]? = some n1 → NodeLocal n1)
    (hroot : ∀ (r : Nat) (rn1 : Node), t.Root = some r → nodes1[r]? = some rn1 →
      1 ≤ rn1.NumKeys) :
    Tree.WFx { t with nodes := nodes1 } x := by
  refine ⟨?_, ?_⟩
  · intro a n1 hn1
    obtain ⟨n, hn, e1, e2, e3⟩ := hs.get hn1
    have hw := h.1 a n hn
    have hl := hloc a n1 hn1
    refine ⟨?_, ?_⟩
    · refine ⟨hl, by rw [e2]; exact hw.1.notSelf, ?_, ?_, ?_, ?_⟩
      · intro p hp
        rw [e2] at hp
        obtain ⟨pn, hpn, hpl⟩ := hw.1.parentInternal p hp
        obtain ⟨pn1, hpn1, f1, -, -⟩ := hs.get' hpn
        exact ⟨pn1, hpn1, by rw [f1]; exact hpl⟩
      · intro hleaf
        rw [e1] at hleaf
        rw [(e3 hleaf).2]
        exact hw.1.numPos hleaf
      · intro hleaf
        rw [e1] at hleaf
        obtain ⟨k, hk⟩ := hw.1.children hleaf
        refine ⟨k, ?_⟩
        intro q hq
        rw [(e3 hleaf).1] at hq
        obtain ⟨c, cn, hc, hcn, hcp, hck⟩ := hk q hq
        obtain ⟨cn1, hcn1, f1, f2, -⟩ := hs.get' hcn
        exact ⟨c, cn1, hc, hcn1, by rw [f2]; exact hcp, by rw [f1]; exact hck⟩
      · intro hleaf
        rw [e1] at hleaf
        rw [(e3 hleaf).1]
        exact hw.1.childrenNodup hleaf
    · intro hleaf hx
      rw [e1] at hleaf
      have hlk := hw.2 hleaf hx
      refine ⟨?_, ?_⟩
      · intro p hp
        rw [e2] at hp
        obtain ⟨pn, hpn, hmem⟩ := hlk.1 p hp
        obtain ⟨pn1, hpn1, -, -, f3⟩ := hs.get' hpn
        obtain ⟨pn2, hpn2, hpl⟩ := hw.1.parentInternal p hp
        rw [hpn] at hpn2
        simp only [Option.some.injEq] at hpn2
        subst hpn2
        exact ⟨pn1, hpn1, by rw [(f3 hpl).1]; exact hmem⟩
      · intro hp
        rw [e2] at hp
        exact hlk.2 hp
  · intro r hr
    obtain ⟨rn, hrn, hp, hnum⟩ := h.2 r hr
    obtain ⟨rn1, hrn1, f1, f2, f3⟩ := hs.get' hrn
    exact ⟨rn1, hrn1, by rw [f2]; exact hp, hroot r rn1 hr hrn1⟩

theorem insertIntoLeaf_effect {nodes nodes1 : List Node} {leaf : Nat} {l : Node} {key : Int}
    {r : Nat} (hl : nodes[leaf]? = some l) (hloc : NodeLocal l) (hleaf : l.IsLeaf = true)
    (hnum : l.NumKeys < order - 1) (hkey : key ∉ l.liveKeys)
    (h : insertIntoLeaf nodes leaf key r = some nodes1) :
    ∃ l1, nodes1 = nodes.set leaf l1 ∧ l1.IsLeaf = true ∧ l1.Parent = l.Parent ∧
      NodeLocal l1 ∧ l1.NumKeys = l.NumKeys + 1 ∧
      ∀ k, k ∈ l1.liveKeys ↔ k = key ∨ k ∈ l.liveKeys := by
  obtain ⟨hk, hp, hn, hs⟩ := hloc
  obtain ⟨k0, k1, k2, k3, hK⟩ := list4 hk
  obtain ⟨p0, p1, p2, p3, hP⟩ := list4 hp
  obtain ⟨P, K, par, isl, num, nxt⟩ := l
  simp only at hK hP hleaf hnum hkey hs
  subst hK hP hleaf
  have hcases : num = 0 ∨ num = 1 := by simp [order] at hnum; omega
  rcases hcases with rfl | rfl
  · simp [insertIntoLeaf, andThen, hl, insertIntoLeaf.point, shiftRight, wr, setNode] at h
    obtain ⟨-, rfl⟩ := h
    refine ⟨_, rfl, rfl, rfl, ⟨rfl, rfl, Nat.le_of_ble_eq_true rfl, by simp [Node.liveKeys]⟩, rfl, ?_⟩
    intro k; simp [Node.liveKeys]
  · simp [Node.liveKeys] at hkey
    by_cases hlt : k0 < key
    · simp [insertIntoLeaf, andThen, hl, insertIntoLeaf.point, shiftRight, wr, setNode, hlt] at h
      obtain ⟨-, rfl⟩ := h
      refine ⟨_, rfl, rfl, rfl, ⟨rfl, rfl, Nat.le_of_ble_eq_true rfl, by simp [Node.liveKeys, hlt]⟩,
        rfl, ?_⟩
      intro k; simp [Node.liveKeys]; tauto
    · have hgt : key < k0 := by omega
      simp [insertIntoLeaf, andThen, hl, insertIntoLeaf.point, shiftRight, wr, setNode, hlt] at h
      obtain ⟨-, rfl⟩ := h
      refine ⟨_, rfl, rfl, rfl, ⟨rfl, rfl, Nat.le_of_ble_eq_true rfl, by simp [Node.liveKeys, hgt]⟩,
        rfl, ?_⟩
      intro k; simp [Node.liveKeys]

theorem mem_take_of_getElem? {α : Type} {xs : List α} {i k : Nat} {q : α}
    (h : xs[i]? = some q) (hi : i < k) : q ∈ xs.take k := by
  have hlt : i < xs.length := (List.getElem?_eq_some.mp h).1
  have : (xs.take k)[i]? = some q := by
    rw [List.getElem?_take_of_lt hi]; exact h
  obtain ⟨hlt2, hget⟩ := List.getElem?_eq_some.mp this
  exact hget ▸ List.getElem_mem hlt2

theorem findLeaf_child_lt {n : Node} (key : Int) (hk : n.Keys.length = order + 1)
    (hn : n.NumKeys ≤ order - 1) (hpos : 1 ≤ n.NumKeys) {i : Nat}
    (h : findLeaf.child n key n.NumKeys 0 = some i) : i < n.NumKeys := by
  obtain ⟨k0, k1, k2, k3, hK⟩ := list4 hk
  obtain ⟨P, K, par, isl, num, nxt⟩ := n
  simp only at hK hn hpos h ⊢
  subst hK
  have hcases : num = 1 ∨ num = 2 := by simp [order] at hn; omega
  rcases hcases with rfl | rfl
  · simp [findLeaf.child] at h
    omega
  · simp [findLeaf.child] at h
    split at h <;> simp at h <;> omega

theorem Linked_child {t : Tree} {a c : Nat} {n cn : Node} (hn : t.nodes[a]? = some n)
    (hmem : Ptr.node c ∈ n.liveChildren) (hpar : cn.Parent = some a) : Linked t c cn := by
  refine ⟨?_, ?_⟩
  · intro p hp
    rw [hpar] at hp
    simp only [Option.some.injEq] at hp
    subst hp
    exact ⟨n, hn, hmem⟩
  · intro hp; rw [hpar] at hp; simp at hp

theorem findLeaf_descend_spec {t : Tree} (hwf : t.WF) (key : Int) :
    ∀ (fuel a : Nat) (n : Node) (leaf : Nat), t.nodes[a]? = some n → Linked t a n →
      findLeaf.descend t.nodes key fuel a = some leaf →
      ∃ l, t.nodes[leaf]? = some l ∧ l.IsLeaf = true ∧ Linked t leaf l := by
  intro fuel
  induction fuel with
  | zero => intro a n leaf _ _ h; simp [findLeaf.descend] at h
  | succ fuel ih =>
    intro a n leaf hn hlk h
    unfold findLeaf.descend at h
    simp only [hn] at h
    split at h
    · rename_i hleaf
      simp only [Option.some.injEq] at h
      subst h
      exact ⟨n, hn, hleaf, hlk⟩
    · rename_i hleaf
      have hleaf : n.IsLeaf = false := by simpa using hleaf
      have hw := (hwf.1 a n hn).1
      split at h
      · simp at h
      · rename_i i hi
        have hlt := findLeaf_child_lt key hw.loc.1 hw.loc.2.2.1 (hw.numPos hleaf) hi
        split at h
        · rename_i c hc
          have hmem : Ptr.node c ∈ n.liveChildren := mem_take_of_getElem? hc hlt
          obtain ⟨kd, hkd⟩ := hw.children hleaf
          obtain ⟨c1, cn, hc1, hcn, hcp, -⟩ := hkd _ hmem
          simp only [Ptr.node.injEq] at hc1
          subst hc1
          exact ih c cn leaf hcn (Linked_child hn hmem hcp) h
        · simp at h

theorem Tree.findLeaf_spec {t : Tree} (hwf : t.WF) {key : Int} {leaf : Nat}
    (h : t.findLeaf key = some (some leaf)) :
    ∃ l, t.nodes[leaf]? = some l ∧ l.IsLeaf = true ∧ Linked t leaf l := by
  unfold Tree.findLeaf at h
  split at h
  · simp at h
  · rename_i r hr
    simp only [Option.map_eq_some', Option.some.injEq] at h
    obtain ⟨leaf1, h1, rfl⟩ := h
    obtain ⟨rn, hrn, hp, -⟩ := hwf.2 r hr
    refine findLeaf_descend_spec hwf key _ r rn _ hrn ⟨?_, fun _ => hr⟩ h1
    intro p hpp; rw [hp] at hpp; simp at hpp

theorem Find_scan_not_mem {l : Node} {key : Int} (hloc : NodeLocal l)
    (h : Find.scan l key l.NumKeys 0 = some l.NumKeys) : key ∉ l.liveKeys := by
  obtain ⟨hk, hp, hn, -⟩ := hloc
  obtain ⟨k0, k1, k2, k3, hK⟩ := list4 hk
  obtain ⟨P, K, par, isl, num, nxt⟩ := l
  simp only at hK hn h ⊢
  subst hK
  have hcases : num = 0 ∨ num = 1 ∨ num = 2 := by simp [order] at hn; omega
  rcases hcases with rfl | rfl | rfl
  · simp [Node.liveKeys]
  · simp [Find.scan] at h
    simp [Node.liveKeys]
    intro e; exact h e.symm
  · simp [Find.scan] at h
    simp [Node.liveKeys]
    split at h
    · simp at h
    · rename_i h0
      split at h
      · simp at h
      · rename_i h1
        exact ⟨fun e => h0 e.symm, fun e => h1 e.symm⟩

theorem Find_error_not_mem {t : Tree} {key : Int} {leaf : Nat} {l : Node} {e : Error}
    (hf : t.findLeaf key = some (some leaf)) (hl : t.nodes[leaf]? = some l) (hloc : NodeLocal l)
    (h : t.Find key = some (.error e)) : key ∉ l.liveKeys := by
  unfold Tree.Find at h
  simp only [hf, hl] at h
  split at h
  · simp at h
  · rename_i i hi
    split at h
    · rename_i hin
      subst hin
      exact Find_scan_not_mem hloc hi
    · split at h <;> simp at h

theorem Find_scan_mem {l : Node} {key : Int} {i : Nat} (hloc : NodeLocal l)
    (h : Find.scan l key l.NumKeys 0 = some i) (hi : i ≠ l.NumKeys) : key ∈ l.liveKeys := by
  obtain ⟨hk, hp, hn, -⟩ := hloc
  obtain ⟨k0, k1, k2, k3, hK⟩ := list4 hk
  obtain ⟨P, K, par, isl, num, nxt⟩ := l
  simp only at hK hn h hi ⊢
  subst hK
  have hcases : num = 0 ∨ num = 1 ∨ num = 2 := by simp [order] at hn; omega
  rcases hcases with rfl | rfl | rfl
  · simp [Find.scan] at h; omega
  · simp [Find.scan] at h
    simp [Node.liveKeys]
    split at h
    · rename_i h0; exact h0.symm
    · simp at h; omega
  · simp [Find.scan] at h
    simp [Node.liveKeys]
    split at h
    · rename_i h0; exact Or.inl h0.symm
    · split at h
      · rename_i h1; exact Or.inr h1.symm
      · simp at h; omega

theorem Find_ok_mem {t : Tree} {key : Int} {leaf : Nat} {l : Node} {r : Nat}
    (hf : t.findLeaf key = some (some leaf)) (hl : t.nodes[leaf]? = some l) (hloc : NodeLocal l)
    (h : t.Find key = some (.ok r)) : key ∈ l.liveKeys := by
  unfold Tree.Find at h
  simp only [hf, hl] at h
  split at h
  · simp at h
  · rename_i i hi
    split at h
    · simp at h
    · rename_i hin
      exact Find_scan_mem hloc hi hin
theorem set_append_length {α : Type} (xs : List α) (x y : α) :
    (xs ++ [x]).set xs.length y = xs ++ [y] := by
  induction xs with
  | nil => rfl
  | cons a rest ih => simp [ih]

theorem insertIntoNewRoot_effect {t t1 : Tree} {left right : Nat} {l r : Node}
    (hl : t.nodes[left]? = some l) (hr : t.nodes[right]? = some r) (hne : left ≠ right)
    (h : t.insertIntoNewRoot left right = some t1) :
    ∃ rt, t1 = { t with Root := some t.nodes.length
                        nodes := ((t.nodes ++ [rt]).set left
                          { l with Parent := some t.nodes.length }).set right
                          { r with Parent := some t.nodes.length } } ∧
      rt.IsLeaf = false ∧ rt.Parent = none ∧ rt.NumKeys = 2 ∧
      rt.liveChildren = [Ptr.node left, Ptr.node right] ∧ NodeLocal rt := by
  have hll : left < t.nodes.length := (List.getElem?_eq_some.mp hl).1
  have hrl : right < t.nodes.length := (List.getElem?_eq_some.mp hr).1
  have hl2 : (t.nodes ++ [makeNode])[left]? = some l := by
    rw [List.getElem?_append_left hll]; exact hl
  have hr2 : (t.nodes ++ [makeNode])[right]? = some r := by
    rw [List.getElem?_append_left hrl]; exact hr
  unfold Tree.insertIntoNewRoot at h
  simp only [andThen_eq_some, hl2, hr2, Option.some.injEq, exists_eq_left'] at h
  simp [makeNode, order, wr, setNode, set_append_length] at h
  obtain ⟨kl, -, kr, -, l2, hl3, nodes2, ⟨-, rfl⟩, r2, hr3, nodes3, ⟨-, rfl⟩, rfl⟩ := h
  rw [List.getElem?_append_left hll, hl] at hl3
  rw [List.getElem?_set_ne hne, List.getElem?_append_left hrl, hr] at hr3
  simp only [Option.some.injEq] at hl3 hr3
  subst hl3 hr3
  exact ⟨_, rfl, rfl, rfl, rfl, rfl, ⟨rfl, rfl, Nat.le_of_ble_eq_true rfl, by simp⟩⟩
/-- A node whose kind, children and count are kept stays well formed in a new
heap, when its parent is internal there and its children keep parent and kind. -/
theorem NodeWF_frame {nodes nodes1 : List Node} {b : Nat} {n n1 : Node} (h : NodeWF nodes b n)
    (hleaf : n1.IsLeaf = n.IsLeaf)
    (hch : n.IsLeaf = false → n1.liveChildren = n.liveChildren ∧ n1.NumKeys = n.NumKeys)
    (hloc : NodeLocal n1) (hself : n1.Parent ≠ some b)
    (hup : ∀ p : Nat, n1.Parent = some p → ∃ pn, nodes1[p]? = some pn ∧ pn.IsLeaf = false)
    (hdown : n.IsLeaf = false → ∀ (c : Nat) (cn : Node), Ptr.node c ∈ n.liveChildren →
      nodes[c]? = some cn →
      ∃ cn1, nodes1[c]? = some cn1 ∧ cn1.Parent = cn.Parent ∧ cn1.IsLeaf = cn.IsLeaf) :
    NodeWF nodes1 b n1 := by
  refine ⟨hloc, hself, hup, ?_, ?_, ?_⟩
  · intro hl
    rw [hleaf] at hl
    rw [(hch hl).2]
    exact h.numPos hl
  · intro hl
    rw [hleaf] at hl
    obtain ⟨k, hk⟩ := h.children hl
    refine ⟨k, ?_⟩
    intro q hq
    rw [(hch hl).1] at hq
    obtain ⟨c, cn, hc, hcn, hcp, hck⟩ := hk q hq
    subst hc
    obtain ⟨cn1, hcn1, f1, f2⟩ := hdown hl c cn hq hcn
    exact ⟨c, cn1, rfl, hcn1, by rw [f1]; exact hcp, by rw [f2]; exact hck⟩
  · intro hl
    rw [hleaf] at hl
    rw [(hch hl).1]
    exact h.childrenNodup hl

theorem newRoot_lookup {nodes : List Node} {left right : Nat} {l1 r1 rt : Node}
    (hll : left < nodes.length) (hrl : right < nodes.length) (hne : left ≠ right) (b : Nat) :
    (((nodes ++ [rt]).set left l1).set right r1)[b]? =
      if b = right then some r1 else if b = left then some l1
      else if b = nodes.length then some rt else nodes[b]? := by
  by_cases h1 : b = right
  · subst h1
    rw [List.getElem?_set_self (by simp; omega)]
    simp
  · by_cases h2 : b = left
    · subst h2
      rw [List.getElem?_set_ne (Ne.symm h1), List.getElem?_set_self (by simp; omega)]
      simp [h1]
    · rw [List.getElem?_set_ne (Ne.symm h1), List.getElem?_set_ne (Ne.symm h2)]
      simp only [h1, h2, if_false]
      by_cases h3 : b = nodes.length
      · subst h3; simp
      · simp only [h3, if_false]
        by_cases h4 : b < nodes.length
        · rw [List.getElem?_append_left h4]
        · rw [List.getElem?_eq_none (by simp; omega), List.getElem?_eq_none (by omega)]

theorem insertIntoNewRoot_WF {t t1 : Tree} {left right : Nat} {l r : Node}
    (hpre : InsPre t left right l r) (hpar : l.Parent = none)
    (h : t.insertIntoNewRoot left right = some t1) : t1.WF := by
  obtain ⟨rt, rfl, hrleaf, hrpar, hrnum, hrch, hrloc⟩ :=
    insertIntoNewRoot_effect hpre.hl hpre.hr hpre.ne h
  have hll : left < t.nodes.length := (List.getElem?_eq_some.mp hpre.hl).1
  have hrl : right < t.nodes.length := (List.getElem?_eq_some.mp hpre.hr).1
  have hlook := fun b => @newRoot_lookup t.nodes left right
    { l with Parent := some t.nodes.length } { r with Parent := some t.nodes.length } rt
    hll hrl hpre.ne b
  have hroot : t.Root = some left := hpre.linked.2 hpar
  have hrp : r.Parent = none := hpre.par.trans hpar
  -- nodes other than left and right keep parent and kind
  have hsame : ∀ (c : Nat) (cn : Node), t.nodes[c]? = some cn → c ≠ left → c ≠ right →
      (((t.nodes ++ [rt]).set left { l with Parent := some t.nodes.length }).set right
        { r with Parent := some t.nodes.length })[c]? = some cn := by
    intro c cn hc h1 h2
    have h3 : c ≠ t.nodes.length := by
      have := (List.getElem?_eq_some.mp hc).1; omega
    rw [hlook]; simp [h1, h2, h3, hc]
  have hkind : ∀ (p : Nat) (pn : Node), t.nodes[p]? = some pn → pn.IsLeaf = false →
      ∃ pn1, (((t.nodes ++ [rt]).set left { l with Parent := some t.nodes.length }).set right
        { r with Parent := some t.nodes.length })[p]? = some pn1 ∧ pn1.IsLeaf = false := by
    intro p pn hp hpl
    rw [hlook]
    by_cases h1 : p = right
    · subst h1
      rw [hpre.hr] at hp; simp only [Option.some.injEq] at hp; subst hp
      exact ⟨{ r with Parent := some t.nodes.length }, by simp, hpl⟩
    · by_cases h2 : p = left
      · subst h2
        rw [hpre.hl] at hp; simp only [Option.some.injEq] at hp; subst hp
        exact ⟨{ l with Parent := some t.nodes.length }, by simp [h1], hpl⟩
      · have h3 : p ≠ t.nodes.length := by
          have := (List.getElem?_eq_some.mp hp).1; omega
        exact ⟨pn, by simp [h1, h2, h3, hp], hpl⟩
  -- the children of a node are neither left nor right
  have hchild : ∀ (b : Nat) (n : Node), t.nodes[b]? = some n → n.IsLeaf = false →
      ∀ (c : Nat) (cn : Node), Ptr.node c ∈ n.liveChildren → t.nodes[c]? = some cn →
      c ≠ left ∧ c ≠ right := by
    intro b n hb hbl c cn hc hcn
    obtain ⟨k, hk⟩ := (hpre.wf.1 b n hb).1.children hbl
    obtain ⟨c1, cn1, e1, hcn1, hcp, -⟩ := hk _ hc
    simp only [Ptr.node.injEq] at e1
    subst e1
    refine ⟨?_, ?_⟩
    · intro e; subst e
      rw [hpre.hl] at hcn1; simp only [Option.some.injEq] at hcn1; subst hcn1
      rw [hpar] at hcp; simp at hcp
    · intro e; subst e
      exact hpre.unheld b n hb hbl hc
  refine ⟨?_, ?_⟩
  · intro b n1 hb
    rw [hlook] at hb
    split at hb
    · -- right
      rename_i hbr
      subst hbr
      simp only [Option.some.injEq] at hb
      subst hb
      have hw := (hpre.wf.1 b r hpre.hr).1
      refine ⟨?_, ?_⟩
      · refine NodeWF_frame hw rfl (fun _ => ⟨rfl, rfl⟩) hw.loc ?_ ?_ ?_
        · simp only [ne_eq, Option.some.injEq]; omega
        · intro p hp
          simp only [Option.some.injEq] at hp
          subst hp
          exact ⟨rt, by rw [hlook]; simp [Nat.ne_of_gt hrl, Nat.ne_of_gt hll], hrleaf⟩
        · intro hbl c cn hc hcn
          have := hchild b r hpre.hr hbl c cn hc hcn
          exact ⟨cn, hsame c cn hcn this.1 this.2, rfl, rfl⟩
      · intro _ _
        refine ⟨?_, by simp⟩
        intro p hp
        simp only [Option.some.injEq] at hp
        subst hp
        exact ⟨rt, by rw [hlook]; simp [Nat.ne_of_gt hrl, Nat.ne_of_gt hll], by simp [hrch]⟩
    · split at hb
      · -- left
        rename_i hbr hbl
        subst hbl
        simp only [Option.some.injEq] at hb
        subst hb
        have hw := (hpre.wf.1 b l hpre.hl).1
        refine ⟨?_, ?_⟩
        · refine NodeWF_frame hw rfl (fun _ => ⟨rfl, rfl⟩) hw.loc ?_ ?_ ?_
          · simp only [ne_eq, Option.some.injEq]; omega
          · intro p hp
            simp only [Option.some.injEq] at hp
            subst hp
            exact ⟨rt, by rw [hlook]; simp [Nat.ne_of_gt hrl, Nat.ne_of_gt hll], hrleaf⟩
          · intro hbl c cn hc hcn
            have := hchild b l hpre.hl hbl c cn hc hcn
            exact ⟨cn, hsame c cn hcn this.1 this.2, rfl, rfl⟩
        · intro _ _
          refine ⟨?_, by simp⟩
          intro p hp
          simp only [Option.some.injEq] at hp
          subst hp
          exact ⟨rt, by rw [hlook]; simp [Nat.ne_of_gt hrl, Nat.ne_of_gt hll], by simp [hrch]⟩
      · split at hb
        · -- the new root
          rename_i hbr hbl hbn
          subst hbn
          simp only [Option.some.injEq] at hb
          subst hb
          refine ⟨⟨hrloc, by rw [hrpar]; simp, ?_, ?_, ?_, ?_⟩, ?_⟩
          · intro p hp; rw [hrpar] at hp; simp at hp
          · intro _; omega
          · intro _
            refine ⟨l.IsLeaf, ?_⟩
            intro q hq
            rw [hrch] at hq
            simp only [List.mem_cons, List.mem_singleton, List.not_mem_nil, or_false] at hq
            rcases hq with rfl | rfl
            · exact ⟨left, { l with Parent := some t.nodes.length }, rfl,
                by rw [hlook]; simp [hpre.ne], rfl, rfl⟩
            · exact ⟨right, { r with Parent := some t.nodes.length }, rfl,
                by rw [hlook]; simp, rfl, hpre.kind⟩
          · intro _
            rw [hrch]
            simp [hpre.ne]
          · intro _ _
            exact ⟨fun p hp => by rw [hrpar] at hp; simp at hp, fun _ => rfl⟩
        · -- an old node
          rename_i hbr hbl hbn
          have hw := hpre.wf.1 b n1 hb
          refine ⟨?_, ?_⟩
          · refine NodeWF_frame hw.1 rfl (fun _ => ⟨rfl, rfl⟩) hw.1.loc hw.1.notSelf ?_ ?_
            · intro p hp
              obtain ⟨pn, hpn, hpl⟩ := hw.1.parentInternal p hp
              exact hkind p pn hpn hpl
            · intro hbl2 c cn hc hcn
              have := hchild b n1 hb hbl2 c cn hc hcn
              exact ⟨cn, hsame c cn hcn this.1 this.2, rfl, rfl⟩
          · intro hbl2 _
            have hlk := hw.2 hbl2 (by intro e; simp only [Option.some.injEq] at e; exact hbr e.symm)
            refine ⟨?_, ?_⟩
            · intro p hp
              obtain ⟨pn, hpn, hmem⟩ := hlk.1 p hp
              rw [hlook]
              by_cases h1 : p = right
              · subst h1
                rw [hpre.hr] at hpn; simp only [Option.some.injEq] at hpn; subst hpn
                exact ⟨{ r with Parent := some t.nodes.length }, by simp, hmem⟩
              · by_cases h2 : p = left
                · subst h2
                  rw [hpre.hl] at hpn; simp only [Option.some.injEq] at hpn; subst hpn
                  exact ⟨{ l with Parent := some t.nodes.length }, by simp [h1], hmem⟩
                · have h3 : p ≠ t.nodes.length := by
                    have := (List.getElem?_eq_some.mp hpn).1; omega
                  exact ⟨pn, by simp [h1, h2, h3, hpn], hmem⟩
            · intro hp
              have := hlk.2 hp
              rw [hroot] at this
              simp only [Option.some.injEq] at this
              exact absurd this.symm hbl
  · intro r0 hr0
    simp only [Option.some.injEq] at hr0
    subst hr0
    exact ⟨rt, by rw [hlook]; simp [Nat.ne_of_gt hrl, Nat.ne_of_gt hll], hrpar, by omega⟩
theorem set_lookup {nodes : List Node} {a : Nat} {n : Node} (v : Node)
    (h : nodes[a]? = some n) (b : Nat) :
    (nodes.set a v)[b]? = if b = a then some v else nodes[b]? := by
  have hlt : a < nodes.length := (List.getElem?_eq_some.mp h).1
  by_cases hb : b = a
  · subst hb; simp [List.getElem?_set_self hlt]
  · rw [List.getElem?_set_ne (Ne.symm hb)]; simp [hb]

/-- Replacing one internal node by an internal node with the same parent and
another list of children: the invariant holds again when the new children have
the node as parent and are of one kind, and every internal node that has the
node as parent is among them. -/
theorem WFx_set_internal {t : Tree} {x x1 : Option Nat} {pa : Nat} {pn pn2 : Node}
    (h : t.WFx x) (hpn : t.nodes[pa]? = some pn) (hint : pn.IsLeaf = false)
    (hleaf : pn2.IsLeaf = false) (hpar : pn2.Parent = pn.Parent) (hloc : NodeLocal pn2)
    (hpos : 1 ≤ pn2.NumKeys) (hnd : pn2.liveChildren.Nodup)
    (hch : ∃ k : Bool, ∀ q ∈ pn2.liveChildren, ∃ (c : Nat) (cn : Node), q = Ptr.node c ∧
      t.nodes[c]? = some cn ∧ cn.Parent = some pa ∧ cn.IsLeaf = k)
    (hlk : ∀ (b : Nat) (bn : Node), t.nodes[b]? = some bn → bn.IsLeaf = false → x1 ≠ some b →
      bn.Parent = some pa → Ptr.node b ∈ pn2.liveChildren)
    (hx : ∀ (b : Nat) (bn : Node), t.nodes[b]? = some bn → bn.IsLeaf = false → x1 ≠ some b →
      bn.Parent ≠ some pa → x ≠ some b) :
    Tree.WFx { t with nodes := t.nodes.set pa pn2 } x1 := by
  have hlook := set_lookup pn2 hpn
  have hwpa := (h.1 pa pn hpn).1
  -- every node keeps parent and kind
  have hsame : ∀ (c : Nat) (cn : Node), t.nodes[c]? = some cn →
      ∃ cn1, (t.nodes.set pa pn2)[c]? = some cn1 ∧ cn1.Parent = cn.Parent ∧
        cn1.IsLeaf = cn.IsLeaf := by
    intro c cn hc
    rw [hlook]
    by_cases hcp : c = pa
    · subst hcp
      rw [hpn] at hc; simp only [Option.some.injEq] at hc; subst hc
      exact ⟨pn2, by simp, hpar, by rw [hleaf, hint]⟩
    · exact ⟨cn, by simp [hcp, hc], rfl, rfl⟩
  have hup : ∀ (n : Node) (p : Nat), (∀ p : Nat, n.Parent = some p →
      ∃ pn, t.nodes[p]? = some pn ∧ pn.IsLeaf = false) → n.Parent = some p →
      ∃ pn1, (t.nodes.set pa pn2)[p]? = some pn1 ∧ pn1.IsLeaf = false := by
    intro n p hn hp
    obtain ⟨pn0, hpn0, hpl⟩ := hn p hp
    obtain ⟨pn1, hpn1, -, e⟩ := hsame p pn0 hpn0
    exact ⟨pn1, hpn1, by rw [e]; exact hpl⟩
  refine ⟨?_, ?_⟩
  · intro b n1 hb
    rw [hlook] at hb
    split at hb
    · rename_i hbp
      subst hbp
      simp only [Option.some.injEq] at hb
      subst hb
      refine ⟨⟨hloc, by rw [hpar]; exact hwpa.notSelf, ?_, fun _ => hpos, ?_, fun _ => hnd⟩, ?_⟩
      · intro p hp
        rw [hpar] at hp
        exact hup pn p hwpa.parentInternal hp
      · intro _
        obtain ⟨k, hk⟩ := hch
        refine ⟨k, ?_⟩
        intro q hq
        obtain ⟨c, cn, hc, hcn, hcp, hck⟩ := hk q hq
        obtain ⟨cn1, hcn1, e1, e2⟩ := hsame c cn hcn
        exact ⟨c, cn1, hc, hcn1, by rw [e1]; exact hcp, by rw [e2]; exact hck⟩
      · intro _ hx1
        have hne : pn.Parent ≠ some b := hwpa.notSelf
        have hlkd := (h.1 b pn hpn).2 hint (hx b pn hpn hint hx1 hne)
        refine ⟨?_, ?_⟩
        · intro p hp
          rw [hpar] at hp
          obtain ⟨pn0, hpn0, hmem⟩ := hlkd.1 p hp
          have hpb : p ≠ b := by
            intro e; subst e; exact hne hp
          exact ⟨pn0, by rw [hlook]; simp [hpb, hpn0], hmem⟩
        · intro hp
          rw [hpar] at hp
          exact hlkd.2 hp
    · rename_i hbp
      have hw := h.1 b n1 hb
      refine ⟨?_, ?_⟩
      · refine NodeWF_frame hw.1 rfl (fun _ => ⟨rfl, rfl⟩) hw.1.loc hw.1.notSelf ?_ ?_
        · intro p hp
          exact hup n1 p hw.1.parentInternal hp
        · intro _ c cn _ hcn
          exact hsame c cn hcn
      · intro hbl hx1
        by_cases hbpar : n1.Parent = some pa
        · refine ⟨?_, ?_⟩
          · intro p hp
            rw [hbpar] at hp
            simp only [Option.some.injEq] at hp
            subst hp
            exact ⟨pn2, by rw [hlook]; simp, hlk b n1 hb hbl hx1 hbpar⟩
          · intro hp; rw [hbpar] at hp; simp at hp
        · have hlkd := hw.2 hbl (hx b n1 hb hbl hx1 hbpar)
          refine ⟨?_, hlkd.2⟩
          intro p hp
          obtain ⟨pn0, hpn0, hmem⟩ := hlkd.1 p hp
          have hpp : p ≠ pa := by
            intro e; subst e; exact hbpar hp
          exact ⟨pn0, by rw [hlook]; simp [hpp, hpn0], hmem⟩
  · intro r hr
    obtain ⟨rn, hrn, hrp, hrnum⟩ := h.2 r hr
    rw [hlook]
    by_cases hrpa : r = pa
    · subst hrpa
      rw [hpn] at hrn; simp only [Option.some.injEq] at hrn; subst hrn
      exact ⟨pn2, by simp, by rw [hpar]; exact hrp, hpos⟩
    · exact ⟨rn, by simp [hrpa, hrn], hrp, hrnum⟩
theorem set_set_same {α : Type} (xs : List α) (a : Nat) (v w : α) :
    (xs.set a v).set a w = xs.set a w := by
  simp

theorem append_set_lookup {nodes : List Node} {pa c : Nat} {cn : Node} (X nn : Node)
    (hne : c ≠ pa) (hc : nodes[c]? = some cn) : (nodes.set pa X ++ [nn])[c]? = some cn := by
  have hlt : c < nodes.length := (List.getElem?_eq_some.mp hc).1
  rw [List.getElem?_append_left (by simpa using hlt), List.getElem?_set_ne (Ne.symm hne)]
  exact hc

theorem set_append_lookup_len {nodes : List Node} {pa c : Nat} (X nn Y : Node)
    (hlt : c < nodes.length) : ((nodes.set pa X ++ [nn]).set c Y)[nodes.length]? = some nn := by
  rw [List.getElem?_set_ne (by omega)]
  rw [List.getElem?_append_right (by simp)]
  simp

/-- One level of `insertIntoParent` below a parent: either the parent had room
and took `right` as its new last child, or it was full and was split, the new
node taking one child `m`, and `insertIntoParent` goes on one level up. -/
theorem insertIntoParent_cases {fuel : Nat} {t t1 : Tree} {left right pa : Nat} {key : Int}
    {l r p : Node}
    (hl : t.nodes[left]? = some l) (hr : t.nodes[right]? = some r) (hlp : l.Parent = some pa)
    (hp : t.nodes[pa]? = some p) (hploc : NodeLocal p) (hint : p.IsLeaf = false)
    (hpos : 1 ≤ p.NumKeys)
    (hmem : Ptr.node left ∈ p.liveChildren) (hrpa : right ≠ pa)
    (hchildren : ∀ q ∈ p.liveChildren, ∃ (c : Nat) (cn : Node), q = Ptr.node c ∧
      t.nodes[c]? = some cn ∧ c ≠ pa)
    (h : Tree.insertIntoParent (fuel + 1) t left key right = some t1) :
    (∃ p2, t1 = { t with nodes := t.nodes.set pa p2 } ∧ p2.IsLeaf = p.IsLeaf ∧
      p2.Parent = p.Parent ∧ NodeLocal p2 ∧ p2.NumKeys = 2 ∧
      p2.liveChildren = p.liveChildren ++ [Ptr.node right]) ∨
    (∃ (old1 nn mn : Node) (m : Nat) (k1 : Int), t.nodes[m]? = some mn ∧ m ≠ pa ∧
      (Ptr.node m ∈ p.liveChildren ∨ m = right) ∧
      old1.IsLeaf = p.IsLeaf ∧ old1.Parent = p.Parent ∧ NodeLocal old1 ∧ old1.NumKeys = 2 ∧
      nn.IsLeaf = false ∧ nn.Parent = p.Parent ∧ NodeLocal nn ∧ nn.NumKeys = 1 ∧
      nn.liveChildren = [Ptr.node m] ∧
      (old1.liveChildren ++ [Ptr.node m]).Perm (p.liveChildren ++ [Ptr.node right]) ∧
      Tree.insertIntoParent fuel
        { t with nodes := ((t.nodes.set pa old1).set m
          { mn with Parent := some t.nodes.length } ++ [nn]) } pa k1 t.nodes.length = some t1) := by
  obtain ⟨hk, hpl, hn, -⟩ := hploc
  obtain ⟨s0, s1, s2, s3, hK⟩ := list4 hk
  obtain ⟨q0, q1, q2, q3, hP⟩ := list4 hpl
  obtain ⟨P, K, par, isl, num, nxt⟩ := p
  simp only at hK hP hn hpos hmem hchildren hint
  subst hK hP hint
  have hpalt : pa < t.nodes.length := (List.getElem?_eq_some.mp hp).1
  have hcases : num = 1 ∨ num = 2 := by simp [order] at hn; omega
  unfold Tree.insertIntoParent at h
  simp only [hl, hlp, hp] at h
  rcases hcases with rfl | rfl
  · -- the parent has room
    left
    simp [Node.liveChildren] at hmem
    subst hmem
    simp [getNodeIndex, wr, setNode, hpalt, order] at h
    cases hlk : lastKey l with
    | none => simp [hlk] at h
    | some kl =>
      simp [hlk, insertIntoNode, andThen, shiftRight, wr, setNode, hpalt] at h
      subst h
      exact ⟨_, rfl, rfl, rfl, ⟨rfl, rfl, Nat.le_of_ble_eq_true rfl, by simp⟩, rfl,
        by simp [Node.liveChildren]⟩
  · -- the parent is full
    right
    simp [Node.liveChildren] at hmem hchildren
    obtain ⟨⟨c0, hq0, ⟨cn0, hcn0⟩, hc0pa⟩, ⟨c1, hq1, ⟨cn1, hcn1⟩, hc1pa⟩⟩ := hchildren
    subst hq0 hq1
    have hc0lt : c0 < t.nodes.length := (List.getElem?_eq_some.mp hcn0).1
    have hc1lt : c1 < t.nodes.length := (List.getElem?_eq_some.mp hcn1).1
    have hrlt : right < t.nodes.length := (List.getElem?_eq_some.mp hr).1
    cases hlk : lastKey l with
    | none => simp [hlk, getNodeIndex] at h; split at h <;> simp at h
    | some kl =>
      by_cases hA : c0 = left
      · subst hA
        simp only [hlk] at h
        simp [getNodeIndex, wr, setNode, hpalt, order, Tree.splitNode, andThen, copySkip,
          copyRange, cut, makeNode, setParents, append_set_lookup _ _ hc1pa hcn1,
          set_append_lookup_len _ _ _ hc1lt, hc1lt, Nat.lt_succ_of_lt hc1lt, lastKey] at h
        refine ⟨Node.mk [Ptr.node c0, Ptr.node right, q2, q3] [kl, key, s2, s3] par false 2 nxt,
          Node.mk [Ptr.node c1, Ptr.nil, Ptr.nil, Ptr.nil] [s1, 0, 0, 0] par false 1 none,
          cn1, c1, s1, hcn1, hc1pa, Or.inl (by simp [Node.liveChildren]), rfl, rfl,
          ⟨rfl, rfl, Nat.le_of_ble_eq_true rfl, by simp⟩, rfl, rfl, rfl,
          ⟨rfl, rfl, Nat.le_of_ble_eq_true rfl, by simp⟩, rfl, rfl, ?_, h⟩
        simp only [Node.liveChildren, List.take, List.cons_append, List.nil_append]
        exact List.Perm.cons _ (List.Perm.swap _ _ _)
      · have hB : c1 = left := by
          rcases hmem with e | e
          · simp only [Ptr.node.injEq] at e; exact absurd e.symm hA
          · simp only [Ptr.node.injEq] at e; exact e.symm
        subst hB
        have hA2 : ¬ Ptr.node c0 = Ptr.node c1 := by simpa using hA
        simp only [hlk] at h
        simp [getNodeIndex, wr, setNode, hpalt, order, Tree.splitNode, andThen, copySkip,
          copyRange, cut, makeNode, setParents, append_set_lookup _ _ hrpa hr,
          set_append_lookup_len _ _ _ hrlt, hrlt, Nat.lt_succ_of_lt hrlt, lastKey, hA2, hA] at h
        refine ⟨Node.mk [Ptr.node c0, Ptr.node c1, q2, q3] [s0, kl, s2, s3] par false 2 nxt,
          Node.mk [Ptr.node right, Ptr.nil, Ptr.nil, Ptr.nil] [key, 0, 0, 0] par false 1 none,
          r, right, key, hr, hrpa, Or.inr rfl, rfl, rfl,
          ⟨rfl, rfl, Nat.le_of_ble_eq_true rfl, by simp⟩, rfl, rfl, rfl,
          ⟨rfl, rfl, Nat.le_of_ble_eq_true rfl, by simp⟩, rfl, rfl, ?_, h⟩
        simp only [Node.liveChildren, List.take, List.cons_append, List.nil_append]
        exact List.Perm.refl _

theorem split_lookup {nodes : List Node} {pa m : Nat} {p mn : Node} (old1 m1 nn : Node)
    (hp : nodes[pa]? = some p) (hm : nodes[m]? = some mn) (hne : m ≠ pa) (b : Nat) :
    ((nodes.set pa old1).set m m1 ++ [nn])[b]? =
      if b = nodes.length then some nn else if b = m then some m1
      else if b = pa then some old1 else nodes[b]? := by
  have hpl : pa < nodes.length := (List.getElem?_eq_some.mp hp).1
  have hml : m < nodes.length := (List.getElem?_eq_some.mp hm).1
  by_cases h1 : b = nodes.length
  · subst h1
    rw [List.getElem?_append_right (by simp)]
    simp
  · by_cases h4 : b < nodes.length
    · rw [List.getElem?_append_left (by simpa using h4)]
      simp only [h1, if_false]
      by_cases h2 : b = m
      · subst h2
        rw [List.getElem?_set_self (by simpa using hml)]
        simp
      · rw [List.getElem?_set_ne (Ne.symm h2)]
        simp only [h2, if_false]
        by_cases h3 : b = pa
        · subst h3
          rw [List.getElem?_set_self hpl]
          simp
        · rw [List.getElem?_set_ne (Ne.symm h3)]
          simp [h3]
    · have h2 : b ≠ m := by omega
      have h3 : b ≠ pa := by omega
      rw [List.getElem?_eq_none (by simp; omega), List.getElem?_eq_none (by omega)]
      simp [h1, h2, h3]

/-- After the split of a full parent the call one level up meets the
precondition again. -/
theorem split_InsPre {t : Tree} {left right pa m : Nat} {l r p old1 nn mn : Node}
    (hpre : InsPre t left right l r) (hlp : l.Parent = some pa) (hp : t.nodes[pa]? = some p)
    (hm : t.nodes[m]? = some mn) (hmpa : m ≠ pa)
    (hmem : Ptr.node m ∈ p.liveChildren ∨ m = right)
    (ho1 : old1.IsLeaf = p.IsLeaf) (ho2 : old1.Parent = p.Parent) (ho3 : NodeLocal old1)
    (ho4 : old1.NumKeys = 2)
    (hn1 : nn.IsLeaf = false) (hn2 : nn.Parent = p.Parent) (hn3 : NodeLocal nn)
    (hn4 : nn.NumKeys = 1) (hn5 : nn.liveChildren = [Ptr.node m])
    (hperm : (old1.liveChildren ++ [Ptr.node m]).Perm (p.liveChildren ++ [Ptr.node right])) :
    InsPre { t with nodes := ((t.nodes.set pa old1).set m
      { mn with Parent := some t.nodes.length } ++ [nn]) } pa t.nodes.length old1 nn := by
  have hlook := fun b => split_lookup old1 { mn with Parent := some t.nodes.length } nn hp hm
    hmpa b
  have hpl : pa < t.nodes.length := (List.getElem?_eq_some.mp hp).1
  have hml : m < t.nodes.length := (List.getElem?_eq_some.mp hm).1
  have hwl := (hpre.wf.1 left l hpre.hl).1
  have hwr := (hpre.wf.1 right r hpre.hr).1
  have hrp : r.Parent = some pa := hpre.par.trans hlp
  have hpar : right ≠ pa := by
    intro e; subst e; exact hwr.notSelf hrp
  obtain ⟨p0, hp0, hpint⟩ := hwl.parentInternal pa hlp
  rw [hp] at hp0; simp only [Option.some.injEq] at hp0; subst hp0
  have hwp := (hpre.wf.1 pa p hp).1
  obtain ⟨k, hk⟩ := hwp.children hpint
  have hleft : Ptr.node left ∈ p.liveChildren := by
    obtain ⟨p0, hp0, hmem0⟩ := hpre.linked.1 pa hlp
    rw [hp] at hp0; simp only [Option.some.injEq] at hp0; subst hp0
    exact hmem0
  have hlk : l.IsLeaf = k := by
    obtain ⟨c, cn, hc, hcn, -, hck⟩ := hk _ hleft
    simp only [Ptr.node.injEq] at hc; subst hc
    rw [hpre.hl] at hcn; simp only [Option.some.injEq] at hcn; subst hcn
    exact hck
  have hrk : r.IsLeaf = k := hpre.kind.trans hlk
  have hrun : Ptr.node right ∉ p.liveChildren := hpre.unheld pa p hp hpint
  -- facts about the moved child
  have hmn : mn.Parent = some pa ∧ mn.IsLeaf = k := by
    rcases hmem with hmem | hmem
    · obtain ⟨c, cn, hc, hcn, hcp, hck⟩ := hk _ hmem
      simp only [Ptr.node.injEq] at hc; subst hc
      rw [hm] at hcn; simp only [Option.some.injEq] at hcn; subst hcn
      exact ⟨hcp, hck⟩
    · subst hmem
      rw [hpre.hr] at hm; simp only [Option.some.injEq] at hm; subst hm
      exact ⟨hrp, hrk⟩
  -- the children after the split
  have hnd : (old1.liveChildren ++ [Ptr.node m]).Nodup := by
    rw [hperm.nodup_iff]
    rw [List.nodup_append]
    refine ⟨hwp.childrenNodup hpint, by simp, ?_⟩
    intro a ha hb
    simp only [List.mem_singleton] at hb
    subst hb
    exact hrun ha
  have hnd1 : old1.liveChildren.Nodup := (List.nodup_append.mp hnd).1
  have hmnot : Ptr.node m ∉ old1.liveChildren := by
    intro hin
    exact (List.nodup_append.mp hnd).2.2 hin (by simp)
  have hold : ∀ q ∈ old1.liveChildren, (q ∈ p.liveChildren ∨ q = Ptr.node right) ∧
      q ≠ Ptr.node m := by
    intro q hq
    have : q ∈ p.liveChildren ++ [Ptr.node right] :=
      hperm.subset (List.mem_append_left _ hq)
    simp only [List.mem_append, List.mem_singleton] at this
    exact ⟨this, fun e => hmnot (e ▸ hq)⟩
  have hback : ∀ q, q ∈ p.liveChildren ∨ q = Ptr.node right → q ≠ Ptr.node m →
      q ∈ old1.liveChildren := by
    intro q hq hne
    have : q ∈ old1.liveChildren ++ [Ptr.node m] :=
      hperm.symm.subset (by simpa using hq)
    simp only [List.mem_append, List.mem_singleton] at this
    rcases this with h1 | h1
    · exact h1
    · exact absurd h1 hne
  -- every child of the old parent, and `right`, is a node with parent `pa` of kind `k`
  have hkid : ∀ q, q ∈ p.liveChildren ∨ q = Ptr.node right →
      ∃ (c : Nat) (cn : Node), q = Ptr.node c ∧ t.nodes[c]? = some cn ∧ cn.Parent = some pa ∧
        cn.IsLeaf = k := by
    intro q hq
    rcases hq with hq | hq
    · exact hk q hq
    · exact ⟨right, r, hq, hpre.hr, hrp, hrk⟩
  -- nodes other than `m` keep parent and kind
  have hsame : ∀ (c : Nat) (cn : Node), t.nodes[c]? = some cn → c ≠ m →
      ∃ cn1, ((t.nodes.set pa old1).set m { mn with Parent := some t.nodes.length }
        ++ [nn])[c]? = some cn1 ∧ cn1.Parent = cn.Parent ∧ cn1.IsLeaf = cn.IsLeaf ∧
        (c ≠ pa → cn1 = cn) := by
    intro c cn hc hcm
    have hcl : c ≠ t.nodes.length := by
      have := (List.getElem?_eq_some.mp hc).1; omega
    rw [hlook]
    by_cases hcp : c = pa
    · subst hcp
      rw [hp] at hc; simp only [Option.some.injEq] at hc; subst hc
      exact ⟨old1, by simp [hcl, hcm], ho2, ho1, fun e => absurd rfl e⟩
    · exact ⟨cn, by simp [hcl, hcm, hcp, hc], rfl, rfl, fun _ => rfl⟩
  have hkindAll : ∀ (c : Nat) (cn : Node), t.nodes[c]? = some cn →
      ∃ cn1, ((t.nodes.set pa old1).set m { mn with Parent := some t.nodes.length }
        ++ [nn])[c]? = some cn1 ∧ cn1.IsLeaf = cn.IsLeaf ∧
        (cn.IsLeaf = false → c ≠ pa → cn1.liveChildren = cn.liveChildren) := by
    intro c cn hc
    by_cases hcm : c = m
    · subst hcm
      rw [hm] at hc; simp only [Option.some.injEq] at hc; subst hc
      exact ⟨{ mn with Parent := some t.nodes.length }, by rw [hlook]; simp [Nat.ne_of_lt hml],
        rfl, fun _ _ => rfl⟩
    · obtain ⟨cn1, h1, -, h3, h4⟩ := hsame c cn hc hcm
      exact ⟨cn1, h1, h3, fun _ hcp => by rw [h4 hcp]⟩
  have hup : ∀ (n : Node) (q : Nat), (∀ q : Nat, n.Parent = some q →
      ∃ pn, t.nodes[q]? = some pn ∧ pn.IsLeaf = false) → n.Parent = some q →
      ∃ pn1, ((t.nodes.set pa old1).set m { mn with Parent := some t.nodes.length }
        ++ [nn])[q]? = some pn1 ∧ pn1.IsLeaf = false := by
    intro n q hn hq
    obtain ⟨pn0, hpn0, hpl0⟩ := hn q hq
    obtain ⟨pn1, hpn1, e, -⟩ := hkindAll q pn0 hpn0
    exact ⟨pn1, hpn1, by rw [e]; exact hpl0⟩
  -- children of old nodes are valid addresses
  have hvalid : ∀ (a : Nat) (n : Node), t.nodes[a]? = some n → n.IsLeaf = false →
      Ptr.node t.nodes.length ∉ n.liveChildren := by
    intro a n ha hal hin
    obtain ⟨k2, hk2⟩ := (hpre.wf.1 a n ha).1.children hal
    obtain ⟨c, cn, hc, hcn, -, -⟩ := hk2 _ hin
    simp only [Ptr.node.injEq] at hc
    subst hc
    have := (List.getElem?_eq_some.mp hcn).1
    omega
  have hlinkedOld : ∀ (b : Nat) (n : Node), t.nodes[b]? = some n → b ≠ m →
      Linked t b n → (∀ q : Nat, n.Parent = some q → q = pa → Ptr.node b ∈ old1.liveChildren) →
      ∀ n1 : Node, n1.Parent = n.Parent →
      Linked { t with nodes := ((t.nodes.set pa old1).set m
        { mn with Parent := some t.nodes.length } ++ [nn]) } b n1 := by
    intro b n hb hbm hlkd hpa n1 hn1
    refine ⟨?_, ?_⟩
    · intro q hq
      rw [hn1] at hq
      obtain ⟨pn0, hpn0, hmem0⟩ := hlkd.1 q hq
      by_cases hqpa : q = pa
      · subst hqpa
        exact ⟨old1, by
          show ((t.nodes.set q old1).set m _ ++ [nn])[q]? = some old1
          rw [hlook]; simp [Nat.ne_of_lt hpl, Ne.symm hmpa], hpa q hq rfl⟩
      · have hpn0int : pn0.IsLeaf = false := by
          obtain ⟨pn9, h9, h10⟩ := (hpre.wf.1 b n hb).1.parentInternal q hq
          rw [hpn0] at h9; simp only [Option.some.injEq] at h9; subst h9; exact h10
        obtain ⟨pn1, hpn1, -, e⟩ := hkindAll q pn0 hpn0
        exact ⟨pn1, hpn1, by rw [e hpn0int hqpa]; exact hmem0⟩
    · intro hq
      rw [hn1] at hq
      exact hlkd.2 hq
  refine ⟨⟨?_, ?_⟩, ?_, ?_, ?_, ?_, ?_, ?_, ?_⟩
  · -- every node is well formed
    intro b n1 hb
    rw [hlook] at hb
    split at hb
    · -- the new node
      rename_i hbN
      subst hbN
      simp only [Option.some.injEq] at hb
      subst hb
      refine ⟨⟨hn3, ?_, ?_, fun _ => by omega, ?_, fun _ => by rw [hn5]; simp⟩, ?_⟩
      · rw [hn2]
        intro e
        obtain ⟨pn0, hpn0, -⟩ := hwp.parentInternal _ e
        have := (List.getElem?_eq_some.mp hpn0).1
        omega
      · intro q hq
        rw [hn2] at hq
        exact hup p q hwp.parentInternal hq
      · intro _
        refine ⟨k, ?_⟩
        intro q hq
        rw [hn5] at hq
        simp only [List.mem_singleton] at hq
        subst hq
        exact ⟨m, { mn with Parent := some t.nodes.length }, rfl,
          by rw [hlook]; simp [Nat.ne_of_lt hml], rfl, hmn.2⟩
      · intro _ hx; exact absurd rfl hx
    · split at hb
      · -- the moved child
        rename_i hbN hbm
        subst hbm
        simp only [Option.some.injEq] at hb
        subst hb
        have hwm := (hpre.wf.1 b mn hm).1
        refine ⟨?_, ?_⟩
        · refine NodeWF_frame hwm rfl (fun _ => ⟨rfl, rfl⟩) hwm.loc ?_ ?_ ?_
          · simp only [ne_eq, Option.some.injEq]; omega
          · intro q hq
            simp only [Option.some.injEq] at hq
            subst hq
            exact ⟨nn, by rw [hlook]; simp, hn1⟩
          · intro hbl c cn hc hcn
            obtain ⟨k2, hk2⟩ := hwm.children hbl
            obtain ⟨c2, cn2, e2, hcn2, hcp2, -⟩ := hk2 _ hc
            simp only [Ptr.node.injEq] at e2; subst e2
            rw [hcn] at hcn2; simp only [Option.some.injEq] at hcn2; subst hcn2
            have hcb : c ≠ b := by
              intro e; subst e
              rw [hm] at hcn; simp only [Option.some.injEq] at hcn; subst hcn
              exact hwm.notSelf hcp2
            obtain ⟨cn1, h1, h2, h3, -⟩ := hsame c cn hcn hcb
            exact ⟨cn1, h1, h2, h3⟩
        · intro _ _
          refine ⟨?_, by simp⟩
          intro q hq
          simp only [Option.some.injEq] at hq
          subst hq
          exact ⟨nn, by rw [hlook]; simp, by rw [hn5]; simp⟩
      · split at hb
        · -- the old parent
          rename_i hbN hbm hbp
          subst hbp
          simp only [Option.some.injEq] at hb
          subst hb
          refine ⟨⟨ho3, by rw [ho2]; exact hwp.notSelf, ?_, fun _ => by omega, ?_,
            fun _ => hnd1⟩, ?_⟩
          · intro q hq
            rw [ho2] at hq
            exact hup p q hwp.parentInternal hq
          · intro _
            refine ⟨k, ?_⟩
            intro q hq
            obtain ⟨hq1, hq2⟩ := hold q hq
            obtain ⟨c, cn, hc, hcn, hcp, hck⟩ := hkid q hq1
            subst hc
            have hcm : c ≠ m := by
              intro e; subst e; exact hq2 rfl
            obtain ⟨cn1, h1, h2, h3, -⟩ := hsame c cn hcn hcm
            exact ⟨c, cn1, rfl, h1, by rw [h2]; exact hcp, by rw [h3]; exact hck⟩
          · intro _ _
            have hlkd := (hpre.wf.1 b p hp).2 hpint
              (by intro e; simp only [Option.some.injEq] at e; exact hpar e)
            exact hlinkedOld b p hp (Ne.symm hmpa) hlkd
              (fun q hq hqb => absurd (hqb ▸ hq) hwp.notSelf) old1 ho2
        · -- an old node
          rename_i hbN hbm hbp
          have hw := hpre.wf.1 b n1 hb
          refine ⟨?_, ?_⟩
          · refine NodeWF_frame hw.1 rfl (fun _ => ⟨rfl, rfl⟩) hw.1.loc hw.1.notSelf ?_ ?_
            · intro q hq
              exact hup n1 q hw.1.parentInternal hq
            · intro hbl c cn hc hcn
              obtain ⟨k2, hk2⟩ := hw.1.children hbl
              obtain ⟨c2, cn2, e2, hcn2, hcp2, -⟩ := hk2 _ hc
              simp only [Ptr.node.injEq] at e2; subst e2
              rw [hcn] at hcn2; simp only [Option.some.injEq] at hcn2; subst hcn2
              have hcm : c ≠ m := by
                intro e; subst e
                rw [hm] at hcn; simp only [Option.some.injEq] at hcn; subst hcn
                rw [hmn.1] at hcp2
                simp only [Option.some.injEq] at hcp2
                exact hbp hcp2.symm
              obtain ⟨cn1, h1, h2, h3, -⟩ := hsame c cn hcn hcm
              exact ⟨cn1, h1, h2, h3⟩
          · intro hbl _
            by_cases hbr : b = right
            · subst hbr
              rw [hpre.hr] at hb; simp only [Option.some.injEq] at hb; subst hb
              refine ⟨?_, fun e => by rw [hrp] at e; simp at e⟩
              intro q hq
              rw [hrp] at hq
              simp only [Option.some.injEq] at hq
              subst hq
              refine ⟨old1, by rw [hlook]; simp [Nat.ne_of_lt hpl, Ne.symm hmpa], ?_⟩
              exact hback _ (Or.inr rfl) (by simpa using hbm)
            · have hlkd := hw.2 hbl
                (by intro e; simp only [Option.some.injEq] at e; exact hbr e.symm)
              refine hlinkedOld b n1 hb hbm hlkd ?_ n1 rfl
              intro q hq hqpa
              subst hqpa
              obtain ⟨pn0, hpn0, hmem0⟩ := hlkd.1 q hq
              rw [hp] at hpn0; simp only [Option.some.injEq] at hpn0; subst hpn0
              exact hback _ (Or.inl hmem0) (by simpa using hbm)
  · -- the root
    intro r0 hr0
    obtain ⟨rn, hrn, hrp0, hrnum⟩ := hpre.wf.2 r0 hr0
    have hr0m : r0 ≠ m := by
      intro e; subst e
      rw [hm] at hrn; simp only [Option.some.injEq] at hrn; subst hrn
      rw [hmn.1] at hrp0; simp at hrp0
    have hr0N : r0 ≠ t.nodes.length := by
      have := (List.getElem?_eq_some.mp hrn).1; omega
    by_cases hr0p : r0 = pa
    · subst hr0p
      rw [hp] at hrn; simp only [Option.some.injEq] at hrn; subst hrn
      exact ⟨old1, by
        show ((t.nodes.set r0 old1).set m _ ++ [nn])[r0]? = some old1
        rw [hlook]; simp [hr0N, hr0m], by rw [ho2]; exact hrp0, by omega⟩
    · exact ⟨rn, by
        show ((t.nodes.set pa old1).set m _ ++ [nn])[r0]? = some rn
        rw [hlook]; simp [hr0N, hr0m, hr0p, hrn], hrp0, hrnum⟩
  · show ((t.nodes.set pa old1).set m _ ++ [nn])[pa]? = some old1
    rw [hlook]; simp [Nat.ne_of_lt hpl, Ne.symm hmpa]
  · show ((t.nodes.set pa old1).set m _ ++ [nn])[t.nodes.length]? = some nn
    rw [hlook]; simp
  · rw [hn2, ho2]
  · rw [hn1, ho1, hpint]
  · have hlkd := (hpre.wf.1 pa p hp).2 hpint
      (by intro e; simp only [Option.some.injEq] at e; exact hpar e)
    exact hlinkedOld pa p hp (Ne.symm hmpa) hlkd
      (fun q hq hqb => absurd (hqb ▸ hq) hwp.notSelf) old1 ho2
  · -- no node holds the new node yet
    intro a n ha hal
    rw [hlook] at ha
    split at ha
    · simp only [Option.some.injEq] at ha
      subst ha
      rw [hn5]
      simp only [List.mem_singleton, Ptr.node.injEq]
      omega
    · split at ha
      · simp only [Option.some.injEq] at ha
        subst ha
        exact hvalid m mn hm hal
      · split at ha
        · simp only [Option.some.injEq] at ha
          subst ha
          intro hin
          rcases (hold _ hin).1 with h1 | h1
          · exact hvalid pa p hp hpint h1
          · simp only [Ptr.node.injEq] at h1
            have := (List.getElem?_eq_some.mp hpre.hr).1
            omega
        · exact hvalid a n ha hal
  · exact Nat.ne_of_lt hpl
/-- `insertIntoParent` re-establishes the invariant. -/
theorem insertIntoParent_WF : ∀ (fuel : Nat) (t : Tree) (left right : Nat) (l r : Node)
    (key : Int) (t1 : Tree), InsPre t left right l r →
    Tree.insertIntoParent fuel t left key right = some t1 → t1.WF := by
  intro fuel
  induction fuel with
  | zero => intro t left right l r key t1 _ h; simp [Tree.insertIntoParent] at h
  | succ fuel ih =>
    intro t left right l r key t1 hpre h
    cases hlp : l.Parent with
    | none =>
      unfold Tree.insertIntoParent at h
      simp only [hpre.hl, hlp] at h
      exact insertIntoNewRoot_WF hpre hlp h
    | some pa =>
      have hwl := (hpre.wf.1 left l hpre.hl).1
      have hwr := (hpre.wf.1 right r hpre.hr).1
      have hrp : r.Parent = some pa := hpre.par.trans hlp
      have hpar : right ≠ pa := by
        intro e; subst e; exact hwr.notSelf hrp
      obtain ⟨p, hp, hpint⟩ := hwl.parentInternal pa hlp
      have hwp := (hpre.wf.1 pa p hp).1
      obtain ⟨k, hk⟩ := hwp.children hpint
      have hleft : Ptr.node left ∈ p.liveChildren := by
        obtain ⟨p0, hp0, hmem0⟩ := hpre.linked.1 pa hlp
        rw [hp] at hp0; simp only [Option.some.injEq] at hp0; subst hp0
        exact hmem0
      have hlk : l.IsLeaf = k := by
        obtain ⟨c, cn, hc, hcn, -, hck⟩ := hk _ hleft
        simp only [Ptr.node.injEq] at hc; subst hc
        rw [hpre.hl] at hcn; simp only [Option.some.injEq] at hcn; subst hcn
        exact hck
      have hchildren : ∀ q ∈ p.liveChildren, ∃ (c : Nat) (cn : Node), q = Ptr.node c ∧
          t.nodes[c]? = some cn ∧ c ≠ pa := by
        intro q hq
        obtain ⟨c, cn, hc, hcn, hcp, -⟩ := hk q hq
        refine ⟨c, cn, hc, hcn, ?_⟩
        intro e; subst e
        rw [hp] at hcn; simp only [Option.some.injEq] at hcn; subst hcn
        exact hwp.notSelf hcp
      rcases insertIntoParent_cases hpre.hl hpre.hr hlp hp hwp.loc hpint (hwp.numPos hpint)
        hleft hpar hchildren h with
        ⟨p2, rfl, e1, e2, e3, e4, e5⟩ |
        ⟨old1, nn, mn, m, k1, hm, hmpa, hmem, o1, o2, o3, o4, n1, n2, n3, n4, n5, hperm, hrec⟩
      · refine WFx_set_internal hpre.wf hp hpint (by rw [e1, hpint]) e2 e3 (by omega) ?_ ?_ ?_ ?_
        · rw [e5, List.nodup_append]
          refine ⟨hwp.childrenNodup hpint, by simp, ?_⟩
          intro a ha hb
          simp only [List.mem_singleton] at hb
          subst hb
          exact hpre.unheld pa p hp hpint ha
        · refine ⟨k, ?_⟩
          intro q hq
          rw [e5] at hq
          simp only [List.mem_append, List.mem_singleton] at hq
          rcases hq with hq | hq
          · exact hk q hq
          · exact ⟨right, r, hq, hpre.hr, hrp, hpre.kind.trans hlk⟩
        · intro b bn hb hbl _ hbp
          rw [e5]
          by_cases hbr : b = right
          · subst hbr; simp
          · have hlkd := (hpre.wf.1 b bn hb).2 hbl
              (by intro e; simp only [Option.some.injEq] at e; exact hbr e.symm)
            obtain ⟨p0, hp0, hmem0⟩ := hlkd.1 pa hbp
            rw [hp] at hp0; simp only [Option.some.injEq] at hp0; subst hp0
            exact List.mem_append_left _ hmem0
        · intro b bn hb _ _ hbp e
          simp only [Option.some.injEq] at e
          subst e
          rw [hpre.hr] at hb; simp only [Option.some.injEq] at hb; subst hb
          exact hbp hrp
      · exact ih _ pa t.nodes.length old1 nn k1 t1
          (split_InsPre hpre hlp hp hm hmpa hmem o1 o2 o3 o4 n1 n2 n3 n4 n5 hperm) hrec
theorem append_lookup_old {nodes : List Node} {a : Nat} {n : Node} (nn : Node)
    (h : nodes[a]? = some n) : (nodes ++ [nn])[a]? = some n := by
  rw [List.getElem?_append_left (List.getElem?_eq_some.mp h).1]; exact h

theorem append_lookup {nodes : List Node} (nn : Node) (b : Nat) :
    (nodes ++ [nn])[b]? = if b = nodes.length then some nn else nodes[b]? := by
  by_cases h1 : b = nodes.length
  · subst h1; simp
  · by_cases h2 : b < nodes.length
    · rw [List.getElem?_append_left h2]; simp [h1]
    · rw [List.getElem?_eq_none (by simp; omega), List.getElem?_eq_none (by omega)]; simp [h1]

/-- Allocating a new leaf keeps the invariant. -/
theorem WFx_append_leaf {t : Tree} {x : Option Nat} {nn : Node} (h : t.WFx x)
    (hleaf : nn.IsLeaf = true) (hloc : NodeLocal nn)
    (hup : ∀ p : Nat, nn.Parent = some p → ∃ pn, t.nodes[p]? = some pn ∧ pn.IsLeaf = false) :
    Tree.WFx { t with nodes := t.nodes ++ [nn] } x := by
  refine ⟨?_, ?_⟩
  · intro b n1 hb
    rw [append_lookup] at hb
    split at hb
    · rename_i hbN
      subst hbN
      simp only [Option.some.injEq] at hb
      subst hb
      refine ⟨⟨hloc, ?_, ?_, ?_, ?_, ?_⟩, ?_⟩
      · intro e
        obtain ⟨pn, hpn, -⟩ := hup _ e
        have := (List.getElem?_eq_some.mp hpn).1
        omega
      · intro p hp
        obtain ⟨pn, hpn, hpl⟩ := hup p hp
        exact ⟨pn, append_lookup_old _ hpn, hpl⟩
      · intro e; rw [hleaf] at e; simp at e
      · intro e; rw [hleaf] at e; simp at e
      · intro e; rw [hleaf] at e; simp at e
      · intro e; rw [hleaf] at e; simp at e
    · have hw := h.1 b n1 hb
      refine ⟨?_, ?_⟩
      · refine NodeWF_frame hw.1 rfl (fun _ => ⟨rfl, rfl⟩) hw.1.loc hw.1.notSelf ?_ ?_
        · intro p hp
          obtain ⟨pn, hpn, hpl⟩ := hw.1.parentInternal p hp
          exact ⟨pn, append_lookup_old _ hpn, hpl⟩
        · intro _ c cn _ hcn
          exact ⟨cn, append_lookup_old _ hcn, rfl, rfl⟩
      · intro hbl hx
        have hlkd := hw.2 hbl hx
        refine ⟨?_, hlkd.2⟩
        intro p hp
        obtain ⟨pn, hpn, hmem⟩ := hlkd.1 p hp
        exact ⟨pn, append_lookup_old _ hpn, hmem⟩
  · intro r hr
    obtain ⟨rn, hrn, h1, h2⟩ := h.2 r hr
    exact ⟨rn, append_lookup_old _ hrn, h1, h2⟩

theorem WFx_weaken {t : Tree} {x : Option Nat} (h : t.WF) : t.WFx x :=
  ⟨fun a n ha => ⟨(h.1 a n ha).1, fun hl _ => (h.1 a n ha).2 hl (by simp)⟩, h.2⟩

theorem createNewTree_WF {t t1 : Tree} {key : Int} {r : Nat} (h : t.WF) (hroot : t.Root = none)
    (hc : t.createNewTree key r = some t1) : t1.WF := by
  simp [Tree.createNewTree, andThen, makeLeaf, makeNode, order, wr] at hc
  subst hc
  have h1 := @WFx_append_leaf t none
    (Node.mk [Ptr.record r, Ptr.nil, Ptr.nil, Ptr.nil] [key, 0, 0, 0] none true 1 none) h rfl
    ⟨rfl, rfl, Nat.le_of_ble_eq_true rfl, by simp [Node.liveKeys]⟩ (by simp)
  refine ⟨?_, ?_⟩
  · intro a n ha
    have hw := h1.1 a n ha
    refine ⟨hw.1, ?_⟩
    intro hl hx
    have hlkd := hw.2 hl hx
    refine ⟨hlkd.1, ?_⟩
    intro hp
    have := hlkd.2 hp
    simp only at this
    rw [hroot] at this
    simp at this
  · intro r0 hr0
    simp only [Option.some.injEq] at hr0
    subst hr0
    exact ⟨Node.mk [Ptr.record r, Ptr.nil, Ptr.nil, Ptr.nil] [key, 0, 0, 0] none true 1 none,
      by simp, rfl, by simp⟩

/-- After the split of a full leaf `insertIntoParent` is called as it
expects. -/
theorem leafSplit_InsPre {t : Tree} {leaf : Nat} {l l1 nn : Node} (h : t.WF)
    (hl : t.nodes[leaf]? = some l) (hlleaf : l.IsLeaf = true) (hlinked : Linked t leaf l)
    (a1 : l1.IsLeaf = true) (a2 : l1.Parent = l.Parent) (a3 : NodeLocal l1)
    (a4 : 1 ≤ l1.NumKeys)
    (b1 : nn.IsLeaf = true) (b2 : nn.Parent = l.Parent) (b3 : NodeLocal nn) :
    InsPre { t with nodes := t.nodes.set leaf l1 ++ [nn] } leaf t.nodes.length l1 nn := by
  have hwl := (h.1 leaf l hl).1
  have hll : leaf < t.nodes.length := (List.getElem?_eq_some.mp hl).1
  have hw1 : Tree.WFx { t with nodes := t.nodes.set leaf l1 } none := by
    refine WFx_of_Skel h (Skel.set hl (by rw [a1, hlleaf]) a2
      (fun e => by rw [hlleaf] at e; simp at e)) ?_ ?_
    · intro a n1 ha
      rw [set_lookup l1 hl] at ha
      split at ha
      · simp only [Option.some.injEq] at ha; subst ha; exact a3
      · exact (h.1 a n1 ha).1.loc
    · intro r0 rn1 hr0 hrn1
      rw [set_lookup l1 hl] at hrn1
      split at hrn1
      · simp only [Option.some.injEq] at hrn1; subst hrn1; exact a4
      · obtain ⟨rn, hrn, -, hnum0⟩ := h.2 r0 hr0
        rw [hrn] at hrn1; simp only [Option.some.injEq] at hrn1; subst hrn1
        exact hnum0
  have hw2 := @WFx_append_leaf _ none nn hw1 b1 b3 (by
    intro p hp
    rw [b2] at hp
    obtain ⟨pn, hpn, hpl⟩ := hwl.parentInternal p hp
    have hpne : p ≠ leaf := by
      intro e; subst e
      rw [hl] at hpn; simp only [Option.some.injEq] at hpn; subst hpn
      rw [hlleaf] at hpl; simp at hpl
    exact ⟨pn, by
      show (t.nodes.set leaf l1)[p]? = some pn
      rw [set_lookup l1 hl]; simp [hpne, hpn], hpl⟩)
  have hlen : (t.nodes.set leaf l1).length = t.nodes.length := by simp
  refine ⟨WFx_weaken hw2, ?_, ?_, by rw [b2, a2], by rw [b1, a1], ?_, ?_, Nat.ne_of_lt hll⟩
  · show (t.nodes.set leaf l1 ++ [nn])[leaf]? = some l1
    rw [List.getElem?_append_left (by simpa using hll), List.getElem?_set_self hll]
  · show (t.nodes.set leaf l1 ++ [nn])[t.nodes.length]? = some nn
    rw [append_lookup]; simp
  · refine ⟨?_, ?_⟩
    · intro p hp
      rw [a2] at hp
      obtain ⟨pn, hpn, hmem⟩ := hlinked.1 p hp
      obtain ⟨pn2, hpn2, hpl⟩ := hwl.parentInternal p hp
      rw [hpn] at hpn2; simp only [Option.some.injEq] at hpn2; subst hpn2
      have hpne : p ≠ leaf := by
        intro e; subst e
        rw [hl] at hpn; simp only [Option.some.injEq] at hpn; subst hpn
        rw [hlleaf] at hpl; simp at hpl
      refine ⟨pn, ?_, hmem⟩
      show (t.nodes.set leaf l1 ++ [nn])[p]? = some pn
      rw [List.getElem?_append_left (by
        have := (List.getElem?_eq_some.mp hpn).1; simpa using this), set_lookup l1 hl]
      simp [hpne, hpn]
    · intro hp
      rw [a2] at hp
      exact hlinked.2 hp
  · intro a n ha hal hin
    obtain ⟨k2, hk2⟩ := (hw2.1 a n ha).1.children hal
    obtain ⟨c, cn, hc, hcn, hcp, -⟩ := hk2 _ hin
    simp only [Ptr.node.injEq] at hc
    subst hc
    have hcn2 : (t.nodes.set leaf l1 ++ [nn])[t.nodes.length]? = some cn := hcn
    rw [append_lookup] at hcn2
    simp only [hlen, if_true, Option.some.injEq] at hcn2
    subst hcn2
    rw [b2] at hcp
    obtain ⟨pn, hpn, hpl⟩ := hwl.parentInternal a hcp
    have ha2 : (t.nodes.set leaf l1 ++ [nn])[a]? = some n := ha
    have halt : a < t.nodes.length := (List.getElem?_eq_some.mp hpn).1
    rw [List.getElem?_append_left (by simpa using halt), set_lookup l1 hl] at ha2
    split at ha2
    · simp only [Option.some.injEq] at ha2; subst ha2
      rw [a1] at hal; simp at hal
    · obtain ⟨k3, hk3⟩ := (h.1 a n ha2).1.children hal
      obtain ⟨c3, cn3, hc3, hcn3, -, -⟩ := hk3 _ hin
      simp only [Ptr.node.injEq] at hc3
      subst hc3
      have := (List.getElem?_eq_some.mp hcn3).1
      omega

/-- `Tree.Insert` keeps the invariant. -/
theorem Insert_WF {t t1 : Tree} {recs : List Record} {record : Nat} {e : Option Error}
    (h : t.WF) (hi : t.Insert recs record = some (t1, e)) : t1.WF := by
  unfold Tree.Insert at hi
  split at hi
  · simp at hi
  · rename_i rc hrc
    dsimp only at hi
    split at hi
    · simp at hi
    · simp only [Option.some.injEq, Prod.mk.injEq] at hi
      obtain ⟨rfl, -⟩ := hi
      exact h
    · rename_i err hfind
      split at hi
      · rename_i hroot
        simp only [Option.map_eq_some', Prod.mk.injEq] at hi
        obtain ⟨t2, hc, rfl, -⟩ := hi
        exact createNewTree_WF h hroot hc
      · rename_i root hroot
        split at hi
        · rename_i leaf hleaf
          obtain ⟨l, hl, hlleaf, hlinked⟩ := Tree.findLeaf_spec h hleaf
          simp only [hl] at hi
          have hwl := (h.1 leaf l hl).1
          have hkey : rc.Key ∉ l.liveKeys := Find_error_not_mem hleaf hl hwl.loc hfind
          split at hi
          · rename_i hnum
            simp only [Option.map_eq_some', Prod.mk.injEq] at hi
            obtain ⟨nodes1, hins, rfl, -⟩ := hi
            obtain ⟨l1, rfl, hl1leaf, hl1par, hl1loc, hl1num, -⟩ :=
              insertIntoLeaf_effect hl hwl.loc hlleaf hnum hkey hins
            refine WFx_of_Skel h (Skel.set hl (by rw [hl1leaf, hlleaf]) hl1par
              (fun e => by rw [hlleaf] at e; simp at e)) ?_ ?_
            · intro a n1 ha
              rw [set_lookup l1 hl] at ha
              split at ha
              · simp only [Option.some.injEq] at ha; subst ha; exact hl1loc
              · exact (h.1 a n1 ha).1.loc
            · intro r0 rn1 hr0 hrn1
              rw [set_lookup l1 hl] at hrn1
              split at hrn1
              · simp only [Option.some.injEq] at hrn1; subst hrn1; omega
              · obtain ⟨rn, hrn, -, hnum0⟩ := h.2 r0 hr0
                rw [hrn] at hrn1; simp only [Option.some.injEq] at hrn1; subst hrn1
                exact hnum0
          · rename_i hnum
            have hnum2 : l.NumKeys = order - 1 := by
              have := hwl.loc.2.2.1; omega
            simp only [Option.map_eq_some', Prod.mk.injEq] at hi
            obtain ⟨t2, hins, rfl, -⟩ := hi
            unfold Tree.insertIntoLeafAfterSplitting at hins
            rw [andThen_eq_some] at hins
            obtain ⟨⟨nodes1, k⟩, hsp, hpar⟩ := hins
            obtain ⟨l1, nn, k2, hsp2, a1, a2, a3, b1, b2, b3, c1, c2, -, -, -, -, -⟩ :=
              split_run t.nodes leaf l rc.Key record hl hwl.loc hlleaf hnum2 hkey
            rw [hsp2] at hsp
            simp only [Option.some.injEq, Prod.mk.injEq] at hsp
            obtain ⟨rfl, rfl⟩ := hsp
            refine insertIntoParent_WF _ _ leaf t.nodes.length l1 nn k2 t2 ?_ hpar
            exact leafSplit_InsPre h hl hlleaf hlinked a1 a2 a3
              (by rw [c1]; decide) b1 b2 b3
        · simp at hi

/-! ## Pre-image capture by the inspector (C40) -/

/-- C40: pre-image capture round-trips exactly once.  After
`HandleDataBeforeUpdate(old, meta)` the call
`GetRecordBeforeUpdate(meta.LastTxID, old.Key)` returns a record with the key
and the field values of `old`, and the same call made again returns
`ErrNoSuchRecordInUndoInspector`; with a nil `meta` the inspector's data is
unchanged.  In the same way `GetRecordBeforeDelete(record.Key)` after
`HandleDataBeforeDelete(record)` returns the key and the field values of
`record`, and a second call returns `ErrNoSuchRecordInUndoInspector`. -/
theorem capture_round_trip (ui : sharedData) (old : Record) (m : RecordMeta) :
    (GetRecordBeforeUpdate (HandleDataBeforeUpdate ui old (some m)) m.LastTxID old.Key).2
        = .ok { Key := old.Key, Value := old.Value } ∧
      (GetRecordBeforeUpdate
          (GetRecordBeforeUpdate (HandleDataBeforeUpdate ui old (some m)) m.LastTxID old.Key).1
          m.LastTxID old.Key).2 = .error .ErrNoSuchRecordInUndoInspector ∧
      HandleDataBeforeUpdate ui old none = ui ∧
      (GetRecordBeforeDelete (HandleDataBeforeDelete ui old) old.Key).2
        = .ok { Key := old.Key, Value := old.Value } ∧
      (GetRecordBeforeDelete (GetRecordBeforeDelete (HandleDataBeforeDelete ui old) old.Key).1
          old.Key).2 = .error .ErrNoSuchRecordInUndoInspector := by
  refine ⟨?_, ?_, rfl, ?_, ?_⟩
  · simp [GetRecordBeforeUpdate, HandleDataBeforeUpdate, mapGet_mapSet]
    split <;> rfl
  · by_cases hlen : (mapDel (mapSet ((mapGet ui.upData m.LastTxID).getD []) old.Key
        ({ Key := old.Key, Value := old.Value } : Record)) old.Key).length = 0
    · simp [GetRecordBeforeUpdate, HandleDataBeforeUpdate, mapGet_mapSet, mapGet_mapDel, hlen]
    · simp [GetRecordBeforeUpdate, HandleDataBeforeUpdate, mapGet_mapSet, mapGet_mapDel, hlen]
  · simp [GetRecordBeforeDelete, HandleDataBeforeDelete, mapGet_mapSet]
  · simp [GetRecordBeforeDelete, HandleDataBeforeDelete, mapGet_mapSet, mapGet_mapDel]

/-! ## In-place update of a record (C32) -/

/-- The update loop of `UpdateRecord` on a map with distinct valid indices:
it ends, counts the entries whose value was already there, leaves the length and
every field that is not in the map alone, and every field in the map ends
with the value of the map. -/
theorem UpdateRecord_loop_spec (ud : List (Nat × String)) :
    ∀ (value : List String) (same : Nat), (ud.map Prod.fst).Nodup →
      (∀ iv ∈ ud, iv.1 < value.length) →
      ∃ (value1 : List String) (k : Nat),
        UpdateRecord.loop ud value same = some (value1, same + k) ∧ k ≤ ud.length ∧
        (k = ud.length ↔ ∀ iv ∈ ud, value[iv.1]? = some iv.2) ∧
        value1.length = value.length ∧
        (∀ iv ∈ ud, value1[iv.1]? = some iv.2) ∧
        ∀ i : Nat, (∀ iv ∈ ud, iv.1 ≠ i) → value1[i]? = value[i]? := by
  induction ud with
  | nil =>
    intro value same _ _
    exact ⟨value, 0, rfl, Nat.le_refl _, by simp, rfl, by simp, fun _ _ => rfl⟩
  | cons x rest ih =>
    obtain ⟨index, v⟩ := x
    intro value same hnd hvalid
    have hnd1 : (rest.map Prod.fst).Nodup := (List.nodup_cons.mp hnd).2
    have hnotin : ∀ iv ∈ rest, iv.1 ≠ index := by
      intro iv hiv e
      have hmem : iv.1 ∈ rest.map Prod.fst := List.mem_map_of_mem Prod.fst hiv
      rw [e] at hmem
      exact (List.nodup_cons.mp hnd).1 hmem
    have hlt : index < value.length := hvalid (index, v) (List.mem_cons_self _ _)
    have hget : value[index]? = some value[index] := List.getElem?_eq_getElem hlt
    by_cases hold : value[index] = v
    · obtain ⟨value1, k, hrun, hk, hiff, hlen, hin, hout⟩ :=
        ih value (same + 1) hnd1 (fun iv hiv => hvalid iv (List.mem_cons_of_mem _ hiv))
      refine ⟨value1, k + 1, ?_, by simp; omega, ?_, hlen, ?_, ?_⟩
      · simp only [UpdateRecord.loop, hget, hold, if_true]
        rw [hrun]; congr 2; omega
      · constructor
        · intro hk1 iv hiv
          rcases List.mem_cons.mp hiv with rfl | hiv
          · simp [hget, hold]
          · exact hiff.mp (by simp at hk1; omega) iv hiv
        · intro hall
          have := hiff.mpr (fun iv hiv => hall iv (List.mem_cons_of_mem _ hiv))
          simp; omega
      · intro iv hiv
        rcases List.mem_cons.mp hiv with rfl | hiv
        · rw [hout index hnotin]; simp [hget, hold]
        · exact hin iv hiv
      · intro i hi
        exact hout i (fun iv hiv => hi iv (List.mem_cons_of_mem _ hiv))
    · have hlen1 : (value.set index v).length = value.length := List.length_set _ _ _
      obtain ⟨value1, k, hrun, hk, -, hlen, hin, hout⟩ :=
        ih (value.set index v) same hnd1
          (fun iv hiv => by rw [hlen1]; exact hvalid iv (List.mem_cons_of_mem _ hiv))
      refine ⟨value1, k, ?_, by simp; omega, ?_, by rw [hlen, hlen1], ?_, ?_⟩
      · simp only [UpdateRecord.loop, hget, hold, if_false, wr, hlt, if_true]
        exact hrun
      · constructor
        · intro hk1; simp at hk1; omega
        · intro hall
          have := hall (index, v) (List.mem_cons_self _ _)
          simp [hget] at this
          exact absurd this hold
      · intro iv hiv
        rcases List.mem_cons.mp hiv with rfl | hiv
        · rw [hout index hnotin]; simp [hlt]
        · exact hin iv hiv
      · intro i hi
        rw [hout i (fun iv hiv => hi iv (List.mem_cons_of_mem _ hiv))]
        have : index ≠ i := hi (index, v) (List.mem_cons_self _ _)
        exact List.getElem?_set_ne this
/-- `UpdateRecord` on a present record, run symbolically: the error it
returns and the fields of the record afterwards. -/
theorem UpdateRecord_run (t : Tree) (recs : List Record) (ui : sharedData)
    (updatedData : List (Nat × String)) (key : Int) (ma : Option Int) (r : Nat) (record : Record)
    (hfind : t.Find key = some (.ok r)) (hrec : recs[r]? = some record)
    (hdel : record.deleted = false)
    (hma : ma.isSome = true → record.Meta.isSome = true)
    (hnd : (updatedData.map Prod.fst).Nodup)
    (hvalid : ∀ iv ∈ updatedData, iv.1 < record.Value.length) :
    ∃ (recs1 : List Record) (ui1 : sharedData) (e : Option Error) (record1 : Record),
      t.UpdateRecord recs ui updatedData key ma = some (recs1, ui1, e) ∧
      recs1 = recs.set r record1 ∧
      (e = some .ErrUpdateSame ∨ e = none) ∧
      (e = some .ErrUpdateSame ↔ ∀ iv ∈ updatedData, record.Value[iv.1]? = some iv.2) ∧
      (e = some .ErrUpdateSame → record1.Value = record.Value) ∧
      (e = none → (∀ iv ∈ updatedData, record1.Value[iv.1]? = some iv.2) ∧
        ∀ i : Nat, (∀ iv ∈ updatedData, iv.1 ≠ i) → record1.Value[i]? = record.Value[i]?) := by
  obtain ⟨value1, k, hrun, hk, hiff, hlen, hin, hout⟩ :=
    UpdateRecord_loop_spec updatedData record.Value 0 hnd hvalid
  have hr : r < recs.length := (List.getElem?_eq_some.mp hrec).1
  have hsame : (∀ iv ∈ updatedData, record.Value[iv.1]? = some iv.2) → value1 = record.Value := by
    intro hall
    apply List.ext_getElem?
    intro i
    by_cases hi : ∃ iv ∈ updatedData, iv.1 = i
    · obtain ⟨iv, hiv, rfl⟩ := hi
      rw [hin iv hiv, hall iv hiv]
    · exact hout i (fun iv hiv e => hi ⟨iv, hiv, e⟩)
  have fin : ∀ (record1 : Record) (ui1 : sharedData), record1.Value = value1 →
      t.UpdateRecord recs ui updatedData key ma =
        some (recs.set r record1, ui1,
          if k = updatedData.length then some Error.ErrUpdateSame else none) →
      ∃ (recs1 : List Record) (ui1 : sharedData) (e : Option Error) (record1 : Record),
        t.UpdateRecord recs ui updatedData key ma = some (recs1, ui1, e) ∧
        recs1 = recs.set r record1 ∧
        (e = some .ErrUpdateSame ∨ e = none) ∧
        (e = some .ErrUpdateSame ↔ ∀ iv ∈ updatedData, record.Value[iv.1]? = some iv.2) ∧
        (e = some .ErrUpdateSame → record1.Value = record.Value) ∧
        (e = none → (∀ iv ∈ updatedData, record1.Value[iv.1]? = some iv.2) ∧
          ∀ i : Nat, (∀ iv ∈ updatedData, iv.1 ≠ i) → record1.Value[i]? = record.Value[i]?) := by
    intro record1 ui1 hv hres
    subst hv
    refine ⟨_, _, _, _, hres, rfl, ?_, ?_, ?_, ?_⟩
    · by_cases hkk : k = updatedData.length <;> simp [hkk]
    · by_cases hkk : k = updatedData.length
      · simp only [hkk, if_true, true_iff]; exact hiff.mp hkk
      · simp only [hkk, if_false, false_iff]
        exact ⟨fun hh => by simp at hh, fun hall => absurd (hiff.mpr hall) hkk⟩
    · by_cases hkk : k = updatedData.length
      · intro _; exact hsame (hiff.mp hkk)
      · simp [hkk]
    · intro _; exact ⟨hin, hout⟩
  rw [Nat.zero_add] at hrun
  cases ma with
  | none =>
    refine fin { record with Value := value1 }
      (if t.inspector then HandleDataBeforeUpdate ui record none else ui) rfl ?_
    simp only [Tree.UpdateRecord, hfind, hrec, hrun, wr, hr, if_true]
    rw [hdel]
    by_cases hkk : k = updatedData.length <;> simp [hkk]
  | some id =>
    have hm := hma rfl
    obtain ⟨m, hm⟩ := Option.isSome_iff_exists.mp hm
    refine fin { record with Meta := some { LastTxID := id }, Value := value1 }
      (if t.inspector then HandleDataBeforeUpdate ui
        { record with Meta := some { LastTxID := id } } (some { LastTxID := id }) else ui) rfl ?_
    simp only [Tree.UpdateRecord, hfind, hrec, hm, hrun, wr, hr, if_true]
    rw [hdel]
    by_cases hkk : k = updatedData.length <;> simp [hkk]
/-- C32: `UpdateRecord` on a record that is present and not deleted, with an
update map of distinct valid field indices (and, when a `metaAlter` is passed,
a record that has a `Meta` for it to write to), returns `ErrUpdateSame` or
nil; it returns `ErrUpdateSame` exactly when every supplied value equals the
current value of its field, and then the fields are unchanged; when it returns
nil every supplied field holds the supplied value and every field that is not
in the map is unchanged.  No other record is touched. -/
theorem UpdateRecord_outcome (t : Tree) (recs : List Record) (ui : sharedData)
    (updatedData : List (Nat × String)) (key : Int) (ma : Option Int) (r : Nat) (record : Record)
    (hfind : t.Find key = some (.ok r)) (hrec : recs[r]? = some record)
    (hdel : record.deleted = false)
    (hma : ma.isSome = true → record.Meta.isSome = true)
    (hnd : (updatedData.map Prod.fst).Nodup)
    (hvalid : ∀ iv ∈ updatedData, iv.1 < record.Value.length) :
    ∃ (recs1 : List Record) (ui1 : sharedData) (e : Option Error) (record1 : Record),
      t.UpdateRecord recs ui updatedData key ma = some (recs1, ui1, e) ∧
      recs1 = recs.set r record1 ∧
      (e = some .ErrUpdateSame ∨ e = none) ∧
      (e = some .ErrUpdateSame ↔ ∀ iv ∈ updatedData, record.Value[iv.1]? = some iv.2) ∧
      (e = some .ErrUpdateSame → record1.Value = record.Value) ∧
      (e = none → (∀ iv ∈ updatedData, record1.Value[iv.1]? = some iv.2) ∧
        ∀ i : Nat, (∀ iv ∈ updatedData, iv.1 ≠ i) → record1.Value[i]? = record.Value[i]?) :=
  UpdateRecord_run t recs ui updatedData key ma r record hfind hrec hdel hma hnd hvalid

/-- C32, on the tree of `TestUpdateRecord`-style input: key 1 with the one
field `test` is updated to `world`. -/
theorem UpdateRecord_outcome_witness :
    ∃ t, NewTree.Insert [{ Key := 1, Value := ["test"] }] 0 = some (t, none) ∧
      ∃ (recs1 : List Record) (ui1 : sharedData) (e : Option Error) (record1 : Record),
        t.UpdateRecord [{ Key := 1, Value := ["test"] }] {} [(0, "world")] 1 none
          = some (recs1, ui1, e) ∧
        recs1 = [({ Key := 1, Value := ["test"] } : Record)].set 0 record1 ∧
        (e = some .ErrUpdateSame ∨ e = none) ∧
        (e = some .ErrUpdateSame ↔
          ∀ iv ∈ [((0 : Nat), "world")],
            ({ Key := 1, Value := ["test"] } : Record).Value[iv.1]? = some iv.2) ∧
        (e = some .ErrUpdateSame →
          record1.Value = ({ Key := 1, Value := ["test"] } : Record).Value) ∧
        (e = none → (∀ iv ∈ [((0 : Nat), "world")], record1.Value[iv.1]? = some iv.2) ∧
          ∀ i : Nat, (∀ iv ∈ [((0 : Nat), "world")], iv.1 ≠ i) →
            record1.Value[i]? = ({ Key := 1, Value := ["test"] } : Record).Value[i]?) := by
  have hs : (NewTree.Insert [{ Key := 1, Value := ["test"] }] 0).isSome = true := rfl
  exact ⟨(Option.get _ hs).1, rfl,
    UpdateRecord_outcome _ [{ Key := 1, Value := ["test"] }] {} [(0, "world")] 1 none 0
      { Key := 1, Value := ["test"] } rfl rfl rfl (by simp) (by simp) (by simp)⟩

/-! ## `ErrNoSuchChild` at the caller of `Delete` (C31) -/

/-- `Find` fails with `ErrKeyNotFound` only. -/
theorem Find_error {t : Tree} {key : Int} {e : Error} (h : t.Find key = some (.error e)) :
    e = .ErrKeyNotFound := by
  unfold Tree.Find at h
  repeat' (first | split at h | (dsimp only at h))
  all_goals (try (simp at h; done))
  all_goals (simp at h; exact h.symm)

/-- `Delete` never returns `ErrNoSuchChild`. -/
theorem Delete_error_ne_NoSuchChild {t t1 : Tree} {recs recs1 : List Record} {ui ui1 : sharedData}
    {key : Int} {e : Option Error} (h : t.Delete recs ui key = some (t1, recs1, ui1, e)) :
    e ≠ some .ErrNoSuchChild := by
  intro he
  subst he
  unfold Tree.Delete at h
  repeat' (first | split at h | (dsimp only at h))
  all_goals (try (simp [Option.map_eq_some'] at h; done))
  · rename_i e1 hf
    have := Find_error hf
    subst this
    simp at h
  all_goals
    rename_i hne
    simp at h
    exact hne h.2.2.2

/-- C31, the code at a tree whose leaf 0 is not held by its `Parent`: the
sibling lookup of `deleteEntry` yields `ErrNoSuchChild`, `Delete(1)` returns
`ErrKeyNotFound`, and the entry has been removed from the leaf all the same
(it holds no key afterwards) although the record is not marked deleted. -/
theorem Delete_translates_NoSuchChild :
    orphanLeafTree.Find 1 = some (.ok 0) ∧
    ∃ t1, Tree.deleteEntry (orphanLeafTree.nodes.length + 1) orphanLeafTree 0 1 (Ptr.record 0)
        = some (t1, some .ErrNoSuchChild) ∧
      orphanLeafTree.Delete orphanLeafRecs {} 1
        = some (t1, orphanLeafRecs, {}, some .ErrKeyNotFound) ∧
      (t1.nodes[0]?.map fun n => n.NumKeys) = some 0 ∧
      t1.Find 1 = some (.error .ErrKeyNotFound) := by
  have hs : (Tree.deleteEntry (orphanLeafTree.nodes.length + 1) orphanLeafTree 0 1
    (Ptr.record 0)).isSome = true := rfl
  exact ⟨rfl, (Option.get _ hs).1, rfl, rfl, rfl, rfl⟩

/-- C31 as the code has it: when `Delete` has found the record of the key,
not marked deleted, and `deleteEntry` on the leaf of the key yields
`ErrNoSuchChild`, then `Delete` returns `ErrKeyNotFound`; the tree is the one
`deleteEntry` left, the record heap is unchanged (the record is not marked
deleted), and the inspector, if installed, has captured the record. -/
theorem Delete_hides_NoSuchChild (t t1 : Tree) (recs : List Record) (ui : sharedData) (key : Int)
    (r leaf : Nat) (record : Record)
    (hfind : t.Find key = some (.ok r)) (hrec : recs[r]? = some record)
    (hdel : record.deleted = false) (hleaf : t.findLeaf key = some (some leaf))
    (hde : Tree.deleteEntry (t.nodes.length + 1) t leaf key (Ptr.record r)
      = some (t1, some .ErrNoSuchChild)) :
    t.Delete recs ui key
      = some (t1, recs, (if t.inspector then HandleDataBeforeDelete ui record else ui),
          some .ErrKeyNotFound) := by
  unfold Tree.Delete
  simp only [hfind, hrec, hleaf, hde]
  rw [hdel]
  simp

/-- C31, at the tree whose leaf 0 is not held by its `Parent`. -/
theorem Delete_hides_NoSuchChild_witness :
    ∃ t1, orphanLeafTree.Delete orphanLeafRecs {} 1
      = some (t1, orphanLeafRecs,
          (if orphanLeafTree.inspector then
            HandleDataBeforeDelete {} { Key := 1, Value := ["a"] } else {}),
          some .ErrKeyNotFound) := by
  have hs : (Tree.deleteEntry (orphanLeafTree.nodes.length + 1) orphanLeafTree 0 1
    (Ptr.record 0)).isSome = true := rfl
  exact ⟨(Option.get _ hs).1,
    Delete_hides_NoSuchChild orphanLeafTree _ orphanLeafRecs {} 1 0 0 { Key := 1, Value := ["a"] }
      rfl rfl rfl rfl rfl⟩

/-! ## Repeatable reads of an updated record (C37) -/

/-- A transaction that holds a buffered Update with a memoized record reads
that record, whatever the state of the server. -/
theorem SelectByIDTx_memoized (w : World) (tx : Tx) (tableName : String) (id : Int)
    (opRecord : OpRecord) (change : List (Nat × String)) (record : Record)
    (hb : tx.buffered tableName id = some opRecord) (hop : opRecord.op = opType.UPDATE)
    (hch : opRecord.opChange = OpChange.UpdateOpChange change (some record)) :
    w.SelectByIDTx tx tableName id = some (tx, .ok record) := by
  obtain ⟨c, hc, hcr⟩ := buffered_eq_some hb
  unfold World.SelectByIDTx World.trySelectFromCache
  simp [hc, hcr, hop, hch]

/-- A successful read of a key with a buffered Update leaves the transaction
with the returned record memoized in that Update. -/
theorem SelectByIDTx_memoizes {w : World} {tx tx1 : Tx} {tableName : String} {id : Int}
    {record : Record}
    (hup : (tx.buffered tableName id).map (fun r => r.op) = some opType.UPDATE)
    (hsel : w.SelectByIDTx tx tableName id = some (tx1, .ok record)) :
    ∃ (opRecord : OpRecord) (change : List (Nat × String)),
      tx1.buffered tableName id = some opRecord ∧ opRecord.op = opType.UPDATE ∧
      opRecord.opChange = OpChange.UpdateOpChange change (some record) := by
  simp only [Option.map_eq_some'] at hup
  obtain ⟨r, hr, hop⟩ := hup
  obtain ⟨c, hc, hcr⟩ := buffered_eq_some hr
  obtain ⟨op, chg, last⟩ := r
  simp only at hop
  subst hop
  unfold World.SelectByIDTx World.trySelectFromCache at hsel
  simp only [hc, hcr] at hsel
  cases chg with
  | DeleteOpChange i => simp at hsel
  | InsertOpChange rc => simp at hsel
  | UpdateOpChange change memo =>
    cases memo with
    | some rc =>
      simp at hsel
      obtain ⟨rfl, rfl⟩ := hsel
      exact ⟨_, change, hr, rfl, rfl⟩
    | none =>
      cases hS : w.SelectByID tableName id with
      | none => simp [hS] at hsel
      | some res =>
        cases res with
        | error e => simp [hS] at hsel
        | ok a =>
          cases hrec : w.recs[a]? with
          | none => simp [hS, hrec] at hsel
          | some rc0 =>
            cases happ : trySelectFromCache.apply change rc0.Value with
            | none => simp [hS, hrec, happ] at hsel
            | some values =>
              simp [hS, hrec, happ] at hsel
              obtain ⟨rfl, rfl⟩ := hsel
              refine ⟨OpRecord.mk opType.UPDATE (OpChange.UpdateOpChange change
                (some (Record.mk id values none false))) last, change, ?_, rfl, rfl⟩
              simp [Tx.buffered, mapGet_mapSet]

/-- C37: reads of an updated record are repeatable inside a transaction.
When `SelectByIDTx(tx, id)` has returned a record for a key with a buffered
Update, then in every later state `w2` of the server (whatever became of the
index's version of the key) a transaction `tx2` that still holds the buffered
operation of `tx1` for the key reads the same record and is left as it is; and
`UpdateByIDTx`, `DeleteByIDTx` and `SelectByIDTx` on any other key, and
`InsertTx` when the id it issues is not `id`, leave that buffered operation in
place. -/
theorem update_read_repeatable (w : World) (tx tx1 : Tx) (tableName : String) (id : Int)
    (record : Record)
    (hup : (tx.buffered tableName id).map (fun r => r.op) = some opType.UPDATE)
    (hsel : w.SelectByIDTx tx tableName id = some (tx1, .ok record)) :
    ∀ (w2 : World) (tx2 : Tx), tx2.buffered tableName id = tx1.buffered tableName id →
      w2.SelectByIDTx tx2 tableName id = some (tx2, .ok record) ∧
      (∀ (table1 : String) (id1 : Int), ¬ (tableName = table1 ∧ id = id1) →
        (∀ values tx3 e, w2.UpdateByIDTx tx2 table1 values id1 = some (tx3, e) →
          tx3.buffered tableName id = tx1.buffered tableName id) ∧
        (∀ tx3 e, w2.DeleteByIDTx tx2 table1 id1 = some (tx3, e) →
          tx3.buffered tableName id = tx1.buffered tableName id) ∧
        (∀ tx3 r, w2.SelectByIDTx tx2 table1 id1 = some (tx3, r) →
          tx3.buffered tableName id = tx1.buffered tableName id)) ∧
      (∀ (table1 : String) (data : List Value) (w3 : World) (tx3 : Tx) (e : Option Error),
        w2.InsertTx tx2 table1 data = some (w3, tx3, e) →
        (∀ c t, mapGet tx2.cache tableName = some c → w2.tableHeap[c.t]? = some t →
          id ≠ t.meta.idCount + 1) →
        tx3.buffered tableName id = tx1.buffered tableName id) := by
  obtain ⟨opRecord, change, hb, hop, hch⟩ := SelectByIDTx_memoizes hup hsel
  intro w2 tx2 hsame
  refine ⟨SelectByIDTx_memoized w2 tx2 tableName id opRecord change record
    (hsame.trans hb) hop hch, ?_, ?_⟩
  · intro table1 id1 hne
    refine ⟨?_, ?_, ?_⟩
    · intro values tx3 e h; rw [UpdateByIDTx_other h tableName id hne]; exact hsame
    · intro tx3 e h; rw [DeleteByIDTx_other h tableName id hne]; exact hsame
    · intro tx3 r h; rw [SelectByIDTx_other h tableName id hne]; exact hsame
  · intro table1 data w3 tx3 e h hfresh
    obtain ⟨c, hc, hcr⟩ := buffered_eq_some (hsame.trans hb)
    have h1 := InsertTx_other h tableName id (by
      intro a t ha ht hca hcontra
      obtain ⟨rfl, hid⟩ := hcontra
      have := hca c hc
      subst this
      exact hfresh c t hc ht hid)
    rcases h1 with h1 | ⟨-, rfl, c2, t, hc2, ht, hid⟩
    · rw [h1]; exact hsame
    · rw [hc] at hc2
      simp only [Option.some.injEq] at hc2
      subst hc2
      exact absurd hid (hfresh c t hc ht)
/-- C37, in the state after `shadowInput`: the transaction has buffered an
Update of record 1 to `x` and reads it; the record is then updated to `zzz` in
the index by a non-transactional `UpdateByID`, and the transaction reads `x`
again. -/
theorem update_read_repeatable_witness :
    ∃ s tx tx1 record w2, (Session.new true true).run shadowInput = some s ∧
      s.txs[0]? = some tx ∧
      s.w.SelectByIDTx tx "test" 1 = some (tx1, .ok record) ∧ record.Value = ["x"] ∧
      s.w.UpdateByID "test" [("name", Value.str "zzz")] 1 = some (w2, none) ∧
      w2.SelectByID "test" 1 = some (.ok 0) ∧ (w2.recs[0]?.map fun r => r.Value) = some ["zzz"] ∧
      w2.SelectByIDTx tx1 "test" 1 = some (tx1, .ok record) := by
  have hs : ((Session.new true true).run shadowInput).isSome = true := rfl
  have ht : ((Option.get _ hs).txs[0]?).isSome = true := rfl
  have hd : ((Option.get _ hs).w.SelectByIDTx (Option.get _ ht) "test" 1).isSome = true := rfl
  have hu : ((Option.get _ hs).w.UpdateByID "test" [("name", Value.str "zzz")] 1).isSome
    = true := rfl
  have hd2 : (Option.get _ hs).w.SelectByIDTx (Option.get _ ht) "test" 1
      = some ((Option.get _ hd).1, .ok { Key := 1, Value := ["x"] }) := rfl
  have h := update_read_repeatable (Option.get _ hs).w (Option.get _ ht) (Option.get _ hd).1
    "test" 1 { Key := 1, Value := ["x"] } rfl hd2
  exact ⟨Option.get _ hs, Option.get _ ht, (Option.get _ hd).1, { Key := 1, Value := ["x"] },
    (Option.get _ hu).1, (Option.some_get hs).symm, (Option.some_get ht).symm, hd2, rfl, rfl,
    rfl, rfl, (h (Option.get _ hu).1 (Option.get _ hd).1 rfl).1⟩

/-! ## The commit applier and vanished targets (C33) -/

theorem set_same {α : Type} {xs : List α} {a : Nat} {v : α} (h : xs[a]? = some v) :
    xs.set a v = xs := by
  apply List.ext_getElem?
  intro i
  by_cases hi : i = a
  · subst hi
    rw [List.getElem?_set_self (List.getElem?_eq_some.mp h).1, h]
  · rw [List.getElem?_set_ne (Ne.symm hi)]

/-- One step of `commit` on a vanished or no-op target.  For a buffered
operation `rc` on `key` of the table at address `a` that is (1) an Update whose
key `Find` does not find, or (2) an Update whose map of distinct valid indices
holds for every field the value the record (found, not deleted, with a `Meta`)
already has, or (3) a Delete whose key `Find` does not find: the step returns
no error, the trees of all tables are unchanged, the field values of all
records are unchanged, and the loop over the write set goes on with the
operations after it. -/
theorem commit_apply_tolerated (w : World) (a : Nat) (t : table) (key : Int) (rc : OpRecord)
    (rest : List (Int × OpRecord)) (ht : w.tableHeap[a]? = some t)
    (hcase :
      (rc.op = opType.UPDATE ∧ ∃ change memo, rc.opChange = OpChange.UpdateOpChange change memo ∧
        (t.data.Find key = some (.error .ErrKeyNotFound) ∨
          ∃ r record, t.data.Find key = some (.ok r) ∧ w.recs[r]? = some record ∧
            record.deleted = false ∧ record.Meta.isSome = true ∧
            (change.map Prod.fst).Nodup ∧ (∀ iv ∈ change, iv.1 < record.Value.length) ∧
            ∀ iv ∈ change, record.Value[iv.1]? = some iv.2)) ∨
      (rc.op = opType.DELETE ∧ t.data.Find key = some (.error .ErrKeyNotFound))) :
    ∃ w1, commit.apply w a key rc = some (w1, none) ∧ w1.tableHeap = w.tableHeap ∧
      (∀ i : Nat, (w1.recs[i]?.map fun r => r.Value) = (w.recs[i]?.map fun r => r.Value)) ∧
      commit.table a ((key, rc) :: rest) w = commit.table a rest w1 := by
  have fin : ∀ w1, commit.apply w a key rc = some (w1, none) → w1.tableHeap = w.tableHeap →
      (∀ i : Nat, (w1.recs[i]?.map fun r => r.Value) = (w.recs[i]?.map fun r => r.Value)) →
      ∃ w1, commit.apply w a key rc = some (w1, none) ∧ w1.tableHeap = w.tableHeap ∧
        (∀ i : Nat, (w1.recs[i]?.map fun r => r.Value) = (w.recs[i]?.map fun r => r.Value)) ∧
        commit.table a ((key, rc) :: rest) w = commit.table a rest w1 := by
    intro w1 h1 h2 h3
    refine ⟨w1, h1, h2, h3, ?_⟩
    simp only [commit.table, h1]
  rcases hcase with ⟨hop, change, memo, hch, hfind | ⟨r, record, hfind, hrec, hdel, hmeta, hnd, hvalid, hall⟩⟩ |
    ⟨hop, hfind⟩
  · refine fin w ?_ rfl (fun _ => rfl)
    simp [commit.apply, ht, hop, hch, Tree.UpdateRecord, hfind]
  · obtain ⟨recs1, ui1, e, record1, hrun, hrecs1, -, hiff, hsame, -⟩ :=
      UpdateRecord_run t.data w.recs w.ui change key (some rc.LastTxID) r record hfind hrec
        hdel (fun _ => hmeta) hnd hvalid
    have he : e = some .ErrUpdateSame := hiff.mpr hall
    subst he
    refine fin { w with recs := recs1, ui := ui1 } ?_ rfl ?_
    · simp [commit.apply, ht, hop, hch, hrun]
    · intro i
      subst hrecs1
      simp only
      by_cases hi : i = r
      · subst hi
        rw [List.getElem?_set_self (List.getElem?_eq_some.mp hrec).1, hrec]
        simp [hsame rfl]
      · rw [List.getElem?_set_ne (Ne.symm hi)]
  · refine fin w ?_ rfl (fun _ => rfl)
    simp [commit.apply, ht, hop, Tree.Delete, hfind, World.setTree, wr,
      (List.getElem?_eq_some.mp ht).1, set_same ht]

/-- The loop of `commit` over the write set of a table, on a write set in two
parts: the second part runs on what the first leaves, unless the first
fails. -/
theorem commit_table_append (a : Nat) (ops1 ops2 : List (Int × OpRecord)) (w : World) :
    commit.table a (ops1 ++ ops2) w =
      (match commit.table a ops1 w with
       | none => none
       | some (w1, some e) => some (w1, some e)
       | some (w1, none) => commit.table a ops2 w1) := by
  induction ops1 generalizing w with
  | nil => simp [commit.table]
  | cons op rest ih =>
    obtain ⟨key, rc⟩ := op
    simp only [List.cons_append, commit.table]
    cases h : commit.apply w a key rc with
    | none => rfl
    | some r =>
      obtain ⟨w1, e⟩ := r
      cases e with
      | none => simp only []; exact ih w1
      | some e => rfl

/-- The outer loop of `commit`, on a write set in two parts. -/
theorem World.commit_append (pre post : List (String × txCache)) (w : World) :
    w.commit (pre ++ post) =
      (match w.commit pre with
       | none => none
       | some (w1, some e) => some (w1, some e)
       | some (w1, none) => w1.commit post) := by
  induction pre generalizing w with
  | nil => simp [World.commit]
  | cons tc rest ih =>
    obtain ⟨name, c⟩ := tc
    simp only [List.cons_append, World.commit]
    cases h : commit.table c.t c.cache w with
    | none => rfl
    | some r =>
      obtain ⟨w1, e⟩ := r
      cases e with
      | none => simp only []; exact ih w1
      | some e => rfl

/-- C33: the commit applier tolerates vanished and no-op targets.  Take any
write set and any operation `rc` on `key` in it: the tables before its table
and the operations before it in its table have been applied and have left the
world `w2`.  Let `rc` be (1) an Update whose key `Find` does not find, or (2)
an Update whose map of distinct valid indices holds for every field the value
the record (found, not deleted, with a `Meta`) already has, or (3) a Delete
whose key `Find` does not find.  Then the step of `commit` for `rc` returns no
error and leaves the trees of all tables and the field values of all records
as they are (in cases 1 and 3 it leaves the whole world as it is); `commit` of
the whole write set goes on with the operations after `rc` and with the tables
after its table, applying each of them, and its result is theirs: it returns
nil when they return no error, and in cases 1 and 3 it is what `commit`
returns for the write set without `rc`. -/
theorem commit_tolerates_vanished (w w1 w2 : World) (pre post : List (String × txCache))
    (name : String) (a : Nat) (before after : List (Int × OpRecord)) (key : Int) (rc : OpRecord)
    (t : table) (hpre : w.commit pre = some (w1, none))
    (hbefore : commit.table a before w1 = some (w2, none))
    (ht : w2.tableHeap[a]? = some t)
    (hcase :
      (rc.op = opType.UPDATE ∧ ∃ change memo, rc.opChange = OpChange.UpdateOpChange change memo ∧
        (t.data.Find key = some (.error .ErrKeyNotFound) ∨
          ∃ r record, t.data.Find key = some (.ok r) ∧ w2.recs[r]? = some record ∧
            record.deleted = false ∧ record.Meta.isSome = true ∧
            (change.map Prod.fst).Nodup ∧ (∀ iv ∈ change, iv.1 < record.Value.length) ∧
            ∀ iv ∈ change, record.Value[iv.1]? = some iv.2)) ∨
      (rc.op = opType.DELETE ∧ t.data.Find key = some (.error .ErrKeyNotFound))) :
    ∃ w3, commit.apply w2 a key rc = some (w3, none) ∧ w3.tableHeap = w2.tableHeap ∧
      (∀ i : Nat, (w3.recs[i]?.map fun r => r.Value) = (w2.recs[i]?.map fun r => r.Value)) ∧
      w.commit (pre ++ (name, txCache.mk a (before ++ (key, rc) :: after)) :: post) =
        (match commit.table a after w3 with
         | none => none
         | some (w4, some e) => some (w4, some e)
         | some (w4, none) => w4.commit post) ∧
      (∀ w4 w5, commit.table a after w3 = some (w4, none) → w4.commit post = some (w5, none) →
        w.commit (pre ++ (name, txCache.mk a (before ++ (key, rc) :: after)) :: post)
          = some (w5, none)) ∧
      (t.data.Find key = some (.error .ErrKeyNotFound) → w3 = w2 ∧
        w.commit (pre ++ (name, txCache.mk a (before ++ (key, rc) :: after)) :: post)
          = w.commit (pre ++ (name, txCache.mk a (before ++ after)) :: post)) := by
  obtain ⟨w3, hstep, hheap, hval, htab⟩ :=
    commit_apply_tolerated w2 a t key rc after ht hcase
  have hwhole : w.commit (pre ++ (name, txCache.mk a (before ++ (key, rc) :: after)) :: post) =
      (match commit.table a after w3 with
       | none => none
       | some (w4, some e) => some (w4, some e)
       | some (w4, none) => w4.commit post) := by
    rw [World.commit_append, hpre]
    simp only [World.commit]
    rw [commit_table_append, hbefore]
    simp only [htab]
  refine ⟨w3, hstep, hheap, hval, hwhole, ?_, ?_⟩
  · intro w4 w5 h4 h5
    rw [hwhole, h4]
    exact h5
  · intro habs
    have hw : w3 = w2 := by
      have hst : commit.apply w2 a key rc = some (w2, none) := by
        rcases hcase with ⟨hop, change, memo, hch, -⟩ | ⟨hop, -⟩
        · simp [commit.apply, ht, hop, hch, Tree.UpdateRecord, habs]
        · simp [commit.apply, ht, hop, Tree.Delete, habs, World.setTree, wr,
            (List.getElem?_eq_some.mp ht).1, set_same ht]
      rw [hst] at hstep
      simp only [Option.some.injEq, Prod.mk.injEq, and_true] at hstep
      exact hstep.symm
    refine ⟨hw, ?_⟩
    rw [hwhole, hw, World.commit_append, hpre]
    simp only [World.commit]
    rw [commit_table_append, hbefore]

/-- C33, in the state after `toleratedInput`, at the buffered Update of record
1, which has been deleted from the index; the operation after it is the Update
of record 2.  `commit` of the write set returns nil and so does `Commit`;
afterwards the index holds `z` for record 2 and does not hold record 1.  And
after `toleratedAllInput`, where the write set holds an Update of a deleted
record, an Update that changes nothing, a Delete of a deleted record and an
Update of record 4: `Commit` returns nil, and afterwards the index holds `y`
for record 2 and `z` for record 4 and holds neither record 1 nor record 3. -/
theorem commit_tolerates_vanished_witness :
    (∃ (s : Session) (tx : Tx) (u1 u2 : OpRecord) (t : table) (w5 : World),
      (Session.new true true).run toleratedInput = some s ∧ s.txs[0]? = some tx ∧
      tx.cache = [("test", txCache.mk 0 ([] ++ (1, u1) :: [(2, u2)]))] ∧
      u1.op = opType.UPDATE ∧
      s.w.tableHeap[0]? = some t ∧ t.data.Find 1 = some (.error .ErrKeyNotFound) ∧
      s.w.commit ([] ++ ("test", txCache.mk 0 ([] ++ (1, u1) :: [(2, u2)])) :: [])
        = some (w5, none) ∧
      (s.w.Commit tx).map (fun r => r.2.2) = some none ∧
      ([1, 2].map fun id => (w5.SelectByID "test" id).map fun r =>
          r.toOption.bind fun a => (w5.recs[a]?).map fun rc => rc.Value)
        = [some none, some (some ["z"])]) ∧
    (((Session.new true true).run toleratedAllInput).bind fun s =>
      (s.txs[0]?).bind fun tx => (s.w.Commit tx).map fun r =>
        (tx.cache.map fun c => c.2.cache.map fun op => (op.1, op.2.op), r.2.2,
          [1, 2, 3, 4].map fun id => (r.1.SelectByID "test" id).map fun x =>
            x.toOption.bind fun a => (r.1.recs[a]?).map fun rc => rc.Value))
      = some ([[(1, opType.UPDATE), (2, opType.UPDATE), (3, opType.DELETE), (4, opType.UPDATE)]],
          none, [some none, some (some ["y"]), some none, some (some ["z"])]) := by
  have hs : ((Session.new true true).run toleratedInput).isSome = true := rfl
  have ht : ((Option.get _ hs).txs[0]?).isSome = true := rfl
  have h1 : ((Option.get _ ht).buffered "test" 1).isSome = true := rfl
  have h2 : ((Option.get _ ht).buffered "test" 2).isSome = true := rfl
  have hh : ((Option.get _ hs).w.tableHeap[0]?).isSome = true := rfl
  have ha : (commit.table 0 [(2, Option.get _ h2)] (Option.get _ hs).w).isSome = true := rfl
  obtain ⟨w3, -, -, -, -, hnil, habs⟩ :=
    commit_tolerates_vanished (Option.get _ hs).w (Option.get _ hs).w (Option.get _ hs).w [] []
      "test" 0 [] [(2, Option.get _ h2)] 1
      (Option.get _ h1) (Option.get _ hh) rfl rfl (Option.some_get hh).symm
      (Or.inl ⟨rfl, [(0, "x")], none, rfl, Or.inl rfl⟩)
  have hw3 := (habs rfl).1
  subst hw3
  exact ⟨⟨Option.get _ hs, Option.get _ ht, Option.get _ h1, Option.get _ h2,
    Option.get _ hh, (Option.get _ ha).1,
    (Option.some_get hs).symm, (Option.some_get ht).symm, rfl, rfl,
    (Option.some_get hh).symm, rfl, hnil (Option.get _ ha).1 (Option.get _ ha).1 rfl rfl, rfl,
    rfl⟩, rfl⟩

/-! ## The structural invariant under `Delete` -/

theorem set_set_set {α : Type} (xs : List α) {a b : Nat} (hne : a ≠ b) (A B C : α) :
    ((xs.set a A).set b B).set a C = (xs.set a C).set b B := by
  rw [List.set_comm _ _ _ (Ne.symm hne), List.set_set]

/-- `removeEntryFromLeaf` on a well-formed leaf that holds the key: the entry
is removed, the other entries stay, in order. -/
theorem removeEntryFromLeaf_run {l : Node} {key : Int} (hloc : NodeLocal l)
    (hleaf : l.IsLeaf = true) (hmem : key ∈ l.liveKeys) :
    ∃ l1, removeEntryFromLeaf l key = some (.ok l1) ∧
      l1.IsLeaf = true ∧ l1.Parent = l.Parent ∧ NodeLocal l1 ∧ l1.NumKeys + 1 = l.NumKeys ∧
      l1.Pointers[order]? = l.Pointers[order]? ∧
      ∀ k, k ∈ l1.liveKeys ↔ k ∈ l.liveKeys ∧ k ≠ key := by
  obtain ⟨hk, hp, hn, hs⟩ := hloc
  obtain ⟨k0, k1, k2, k3, hK⟩ := list4 hk
  obtain ⟨p0, p1, p2, p3, hP⟩ := list4 hp
  obtain ⟨P, K, par, isl, num, nxt⟩ := l
  simp only at hK hP hleaf hn hs hmem ⊢
  subst hK hP hleaf
  have hcases : num = 0 ∨ num = 1 ∨ num = 2 := by simp [order] at hn; omega
  rcases hcases with rfl | rfl | rfl
  · simp [Node.liveKeys] at hmem
  · simp [Node.liveKeys] at hmem
    subst hmem
    refine ⟨Node.mk [p0, p1, p2, p3] [key, k1, k2, k3] par true 0 nxt, ?_, rfl, rfl,
      ⟨rfl, rfl, Nat.le_of_ble_eq_true rfl, by simp [Node.liveKeys]⟩, rfl, rfl, ?_⟩
    · simp [removeEntryFromLeaf, removeEntryFromLeaf.point, shiftLeft, wr]
    · intro k; simp [Node.liveKeys]
  · simp [Node.liveKeys] at hmem hs
    rcases hmem with rfl | rfl
    · refine ⟨Node.mk [p1, p1, p2, p3] [k1, k1, k2, k3] par true 1 nxt, ?_, rfl, rfl,
        ⟨rfl, rfl, Nat.le_of_ble_eq_true rfl, by simp [Node.liveKeys]⟩, rfl, rfl, ?_⟩
      · simp [removeEntryFromLeaf, removeEntryFromLeaf.point, shiftLeft, wr]
      · intro k; simp [Node.liveKeys]; constructor
        · rintro rfl; exact ⟨Or.inr rfl, by omega⟩
        · rintro ⟨h1 | h1, h2⟩
          · exact absurd h1 h2
          · exact h1
    · have hne : ¬ k0 = key := by omega
      refine ⟨Node.mk [p0, p1, p2, p3] [k0, key, k2, k3] par true 1 nxt, ?_, rfl, rfl,
        ⟨rfl, rfl, Nat.le_of_ble_eq_true rfl, by simp [Node.liveKeys]⟩, rfl, rfl, ?_⟩
      · simp [removeEntryFromLeaf, removeEntryFromLeaf.point, shiftLeft, wr, hne]
      · intro k; simp [Node.liveKeys]; constructor
        · rintro rfl; exact ⟨Or.inl rfl, hne⟩
        · rintro ⟨h1 | h1, h2⟩
          · exact h1
          · exact absurd h1 h2
/-- The merge step of `coalesceNodes` on an emptied leaf and a sibling leaf
that holds an entry: it returns, changes the two leaves only, leaves both well
formed, and hands the parent and the node to unlink to `deleteEntry`: the
sibling when the emptied leaf is the first child (`neighbourIndex = -1`), the
emptied leaf otherwise. -/
theorem merge_leaf_run {nodes : List Node} {leaf nb pa : Nat} {nd nbn : Node}
    (idx : Int) (k : Int)
    (hl : nodes[leaf]? = some nd) (hnb : nodes[nb]? = some nbn) (hne : leaf ≠ nb)
    (hlloc : NodeLocal nd) (hlleaf : nd.IsLeaf = true) (hlnum : nd.NumKeys = 0)
    (hlpar : nd.Parent = some pa)
    (hnloc : NodeLocal nbn) (hnleaf : nbn.IsLeaf = true) (hnpar : nbn.Parent = some pa)
    (hnpos : 1 ≤ nbn.NumKeys) :
    ∃ res, coalesceNodes.merge nodes leaf nb idx k = some res ∧
      res.2.1 = pa ∧ res.2.2.2 = (if idx = -1 then nb else leaf) ∧
      ∃ nd1 nbn1, res.1 = (nodes.set leaf nd1).set nb nbn1 ∧
        nd1.IsLeaf = true ∧ nd1.Parent = some pa ∧ NodeLocal nd1 ∧
        nbn1.IsLeaf = true ∧ nbn1.Parent = some pa ∧ NodeLocal nbn1 ∧
        (idx = -1 → 1 ≤ nd1.NumKeys) ∧ (idx ≠ -1 → nbn1.NumKeys = nbn.NumKeys) := by
  obtain ⟨hk, hp, hn, hs⟩ := hlloc
  obtain ⟨k0, k1, k2, k3, hK⟩ := list4 hk
  obtain ⟨p0, p1, p2, p3, hP⟩ := list4 hp
  obtain ⟨P, K, par, isl, num, nxt⟩ := nd
  simp only at hK hP hlleaf hlnum hlpar hn hs
  subst hK hP hlleaf hlnum hlpar
  obtain ⟨hk', hp', hn', hs'⟩ := hnloc
  obtain ⟨j0, j1, j2, j3, hK'⟩ := list4 hk'
  obtain ⟨r0, r1, r2, r3, hP'⟩ := list4 hp'
  obtain ⟨P', K', par', isl', num', nxt'⟩ := nbn
  simp only at hK' hP' hnleaf hnpar hn' hs' hnpos
  subst hK' hP' hnleaf hnpar
  have hll : leaf < nodes.length := (List.getElem?_eq_some.mp hl).1
  have hnl : nb < nodes.length := (List.getElem?_eq_some.mp hnb).1
  have hcases : num' = 1 ∨ num' = 2 := by simp [order] at hn'; omega
  unfold coalesceNodes.merge
  by_cases hidx : idx = -1
  · subst hidx
    rcases hcases with rfl | rfl
    · simp [lastKey, coalesceNodes.move, hnb, hl, wr, setNode, hll, hnl,
        List.getElem?_set_ne hne, List.getElem?_set_ne (Ne.symm hne),
        List.getElem?_set_self, order, andThen, set_set_set _ hne]
      exact ⟨_, _, rfl, rfl, rfl, ⟨rfl, rfl, Nat.le_of_ble_eq_true rfl, by simp [Node.liveKeys]⟩,
        rfl, rfl, ⟨rfl, rfl, Nat.le_of_ble_eq_true rfl, by simp [Node.liveKeys]⟩,
        Nat.le_of_ble_eq_true rfl⟩
    · simp [lastKey, coalesceNodes.move, hnb, hl, wr, setNode, hll, hnl,
        List.getElem?_set_ne hne, List.getElem?_set_ne (Ne.symm hne),
        List.getElem?_set_self, order, andThen, set_set_set _ hne]
      exact ⟨_, _, rfl, rfl, rfl, ⟨rfl, rfl, Nat.le_of_ble_eq_true rfl, by simp [Node.liveKeys]⟩,
        rfl, rfl, ⟨rfl, rfl, Nat.le_of_ble_eq_true rfl, by simp [Node.liveKeys]⟩,
        Nat.le_of_ble_eq_true rfl⟩
  · simp [hidx, lastKey, coalesceNodes.move, hnb, hl, wr, setNode, hll, hnl,
      List.getElem?_set_ne hne, List.getElem?_set_ne (Ne.symm hne),
      List.getElem?_set_self, order, andThen]
    refine ⟨Node.mk [p0, p1, p2, p3] [k0, k1, k2, k3] (some pa) true 0 nxt,
      Node.mk [r0, r1, r2, p3] [j0, j1, j2, j3] (some pa) true num' nxt', ?_, rfl, rfl,
      ⟨rfl, rfl, hn, hs⟩, rfl, rfl, ⟨rfl, rfl, hn', hs'⟩, rfl⟩
    rw [set_same hl]
/-- `removeEntryFromNode` on an internal node with two distinct children, for
one of them: the child is removed and the other stays. -/
theorem removeEntryFromNode_run {p : Node} {q : Ptr} (hloc : NodeLocal p)
    (hint : p.IsLeaf = false) (hnum : p.NumKeys = 2) (hnd : p.liveChildren.Nodup)
    (hmem : q ∈ p.liveChildren) :
    ∃ p1, removeEntryFromNode p q = some (.ok p1) ∧
      p1.IsLeaf = false ∧ p1.Parent = p.Parent ∧ NodeLocal p1 ∧ p1.NumKeys = 1 ∧
      ∀ x, x ∈ p1.liveChildren ↔ x ∈ p.liveChildren ∧ x ≠ q := by
  obtain ⟨hk, hp, hn, -⟩ := hloc
  obtain ⟨s0, s1, s2, s3, hK⟩ := list4 hk
  obtain ⟨q0, q1, q2, q3, hP⟩ := list4 hp
  obtain ⟨P, K, par, isl, num, nxt⟩ := p
  simp only at hK hP hint hnum hnd hmem ⊢
  subst hK hP hint hnum
  simp [Node.liveChildren] at hnd hmem
  rcases hmem with rfl | rfl
  · refine ⟨Node.mk [q1, q1, q2, q3] [s1, s1, s2, s3] par false 1 nxt, ?_, rfl, rfl,
      ⟨rfl, rfl, Nat.le_of_ble_eq_true rfl, by simp⟩, rfl, ?_⟩
    · simp [removeEntryFromNode, removeEntryFromNode.point, shiftLeft, wr]
    · intro x; simp [Node.liveChildren]; constructor
      · rintro rfl; exact ⟨Or.inr rfl, fun e => hnd e.symm⟩
      · rintro ⟨h1 | h1, h2⟩
        · exact absurd h1 h2
        · exact h1
  · refine ⟨Node.mk [q0, q, q2, q3] [s0, s1, s2, s3] par false 1 nxt, ?_, rfl, rfl,
      ⟨rfl, rfl, Nat.le_of_ble_eq_true rfl, by simp⟩, rfl, ?_⟩
    · simp [removeEntryFromNode, removeEntryFromNode.point, shiftLeft, wr, hnd]
    · intro x; simp [Node.liveChildren]; constructor
      · rintro rfl; exact ⟨Or.inl rfl, hnd⟩
      · rintro ⟨h1 | h1, h2⟩
        · exact h1
        · exact absurd h1 h2

/-- `deleteEntry` on an internal node with two distinct children, for one of
them: it returns nil after removing the child from the node; nothing else
changes. -/
theorem deleteEntry_internal_run {t : Tree} {pa n1 : Nat} {p : Node} (fuel : Nat) (key : Int)
    (hp : t.nodes[pa]? = some p) (hloc : NodeLocal p)
    (hint : p.IsLeaf = false) (hnum : p.NumKeys = 2) (hnd : p.liveChildren.Nodup)
    (hmem : Ptr.node n1 ∈ p.liveChildren) :
    ∃ p1, Tree.deleteEntry (fuel + 1) t pa key (Ptr.node n1)
        = some ({ t with nodes := t.nodes.set pa p1 }, none) ∧
      p1.IsLeaf = false ∧ p1.Parent = p.Parent ∧ NodeLocal p1 ∧ p1.NumKeys = 1 ∧
      ∀ x, x ∈ p1.liveChildren ↔ x ∈ p.liveChildren ∧ x ≠ Ptr.node n1 := by
  obtain ⟨p1, hrem, e1, e2, e3, e4, e5⟩ := removeEntryFromNode_run hloc hint hnum hnd hmem
  have hpl : pa < t.nodes.length := (List.getElem?_eq_some.mp hp).1
  have hlast : ∃ k, lastKey p = some k := by
    unfold lastKey
    simp only [hnum]
    have h1 : 1 < p.Keys.length := by rw [hloc.1]; simp [order]
    exact ⟨p.Keys[1], by simp [List.getElem?_eq_getElem h1]⟩
  obtain ⟨k, hk⟩ := hlast
  refine ⟨p1, ?_, e1, e2, e3, e4, e5⟩
  unfold Tree.deleteEntry
  simp only [hp, hk, hint, hrem, setNode, wr, hpl, if_true, Bool.false_eq_true, if_false]
  by_cases hroot : some pa = t.Root
  · simp [← hroot, Tree.adjustRoot, List.getElem?_set_self hpl, e4]
  · simp [hroot, e4, cut, order]
/-- `Full` carries over to a heap in which the internal nodes with two
children are those of the old heap, with the same children, and in which a
leaf that has become empty has a parent that does not hold two children. -/
theorem Full_transfer {t : Tree} {nodes1 : List Node} (hwf : t.WF) (hfull : t.Full)
    (hint : ∀ (a : Nat) (n1 : Node), nodes1[a]? = some n1 → n1.IsLeaf = false →
      n1.NumKeys = 2 → ∃ n, t.nodes[a]? = some n ∧ n.IsLeaf = false ∧ n.NumKeys = 2 ∧
        ∀ x ∈ n1.liveChildren, x ∈ n.liveChildren)
    (hleaf : ∀ (c : Nat) (cn1 : Node), nodes1[c]? = some cn1 → cn1.IsLeaf = true →
      cn1.NumKeys = 0 → ∃ cn, t.nodes[c]? = some cn ∧ cn.IsLeaf = true ∧
        (cn.NumKeys = 0 ∨ ∀ (pa : Nat) (p1 : Node), cn.Parent = some pa →
          nodes1[pa]? = some p1 → p1.NumKeys ≠ 2)) :
    Tree.Full { t with nodes := nodes1 } := by
  intro a n1 hn1 hl1 hnum1 c cn1 hmem hcn1 hcl
  obtain ⟨n, hn, hnl, hnnum, hsub⟩ := hint a n1 hn1 hl1 hnum1
  by_contra hzero
  have hz : cn1.NumKeys = 0 := by omega
  obtain ⟨cn, hcn, hcnl, hcase⟩ := hleaf c cn1 hcn1 hcl hz
  have hmem0 := hsub _ hmem
  rcases hcase with h0 | h0
  · have := hfull a n hn hnl hnnum c cn hmem0 hcn hcnl
    omega
  · obtain ⟨k, hk⟩ := (hwf.1 a n hn).1.children hnl
    obtain ⟨c1, cn2, hc1, hcn2, hcp, -⟩ := hk _ hmem0
    simp only [Ptr.node.injEq] at hc1
    subst hc1
    rw [hcn] at hcn2
    simp only [Option.some.injEq] at hcn2
    subst hcn2
    exact h0 a n1 hcp hn1 hnum1

/-- `Ranked` carries over to a heap in which every node keeps its kind and an
internal node holds no child it did not hold before. -/
theorem Ranked_transfer {t : Tree} {nodes1 : List Node} (hr : t.Ranked)
    (h : ∀ (a : Nat) (n1 : Node), nodes1[a]? = some n1 → ∃ n, t.nodes[a]? = some n ∧
      n1.IsLeaf = n.IsLeaf ∧ (n.IsLeaf = false → ∀ x ∈ n1.liveChildren, x ∈ n.liveChildren)) :
    Tree.Ranked { t with nodes := nodes1 } := by
  obtain ⟨ht, hht⟩ := hr
  refine ⟨ht, ?_⟩
  intro a n1 hn1
  obtain ⟨n, hn, e1, e2⟩ := h a n1 hn1
  refine ⟨fun hl => (hht a n hn).1 (e1 ▸ hl), ?_⟩
  intro hl c hc
  have hl0 : n.IsLeaf = false := e1 ▸ hl
  exact (hht a n hn).2 hl0 c (e2 hl0 _ hc)

/-- Clearing the root of a tree whose root is a leaf keeps the structural
invariant. -/
theorem WF_clearRoot {t : Tree} {r : Nat} {rn : Node} (h : t.WF) (hroot : t.Root = some r)
    (hrn : t.nodes[r]? = some rn) (hleaf : rn.IsLeaf = true) :
    Tree.WF { t with Root := none } := by
  refine ⟨?_, ?_⟩
  · intro a n hn
    have hw := h.1 a n hn
    refine ⟨hw.1, ?_⟩
    intro hl hx
    have hlk := hw.2 hl hx
    refine ⟨hlk.1, ?_⟩
    intro hp
    have := hlk.2 hp
    rw [hroot] at this
    simp only [Option.some.injEq] at this
    subst this
    rw [hrn] at hn
    simp only [Option.some.injEq] at hn
    subst hn
    rw [hleaf] at hl
    simp at hl
  · intro r1 hr1
    simp at hr1
/-- Replacing a leaf by a well-formed leaf with the same parent keeps the
structural invariant, when the leaf is not the root or still holds an
entry. -/
theorem WFx_set_leaf {t : Tree} {x : Option Nat} {leaf : Nat} {l l1 : Node} (h : t.WFx x)
    (hl : t.nodes[leaf]? = some l) (hleaf : l.IsLeaf = true) (e1 : l1.IsLeaf = true)
    (e2 : l1.Parent = l.Parent) (e3 : NodeLocal l1)
    (hroot : t.Root = some leaf → 1 ≤ l1.NumKeys) :
    Tree.WFx { t with nodes := t.nodes.set leaf l1 } x := by
  have hlook := set_lookup l1 hl
  refine WFx_of_Skel h (Skel.set hl (by rw [e1, hleaf]) e2 (by rw [hleaf]; simp)) ?_ ?_
  · intro a n1 hn1
    rw [hlook] at hn1
    split at hn1
    · simp only [Option.some.injEq] at hn1; subst hn1; exact e3
    · exact (h.1 a n1 hn1).1.loc
  · intro r rn1 hr hrn1
    rw [hlook] at hrn1
    split at hrn1
    · rename_i hrl
      subst hrl
      simp only [Option.some.injEq] at hrn1; subst hrn1; exact hroot hr
    · obtain ⟨rn, hrn, -, hnum⟩ := h.2 r hr
      rw [hrn] at hrn1
      simp only [Option.some.injEq] at hrn1; subst hrn1; exact hnum

/-- Replacing a leaf by a well-formed leaf with the same parent keeps the
invariant, when the leaf is not the root or still holds an entry, and is not
emptied under a parent of two children. -/
theorem Inv_set_leaf {t : Tree} {leaf : Nat} {l l1 : Node} (h : t.Inv)
    (hl : t.nodes[leaf]? = some l) (hleaf : l.IsLeaf = true) (e1 : l1.IsLeaf = true)
    (e2 : l1.Parent = l.Parent) (e3 : NodeLocal l1)
    (hroot : t.Root = some leaf → 1 ≤ l1.NumKeys)
    (hfull : l1.NumKeys = 0 → l.NumKeys = 0 ∨
      ∀ (pa : Nat) (p : Node), l.Parent = some pa → t.nodes[pa]? = some p → p.NumKeys ≠ 2) :
    Tree.Inv { t with nodes := t.nodes.set leaf l1 } := by
  have hlook := set_lookup l1 hl
  refine ⟨WFx_set_leaf h.1 hl hleaf e1 e2 e3 hroot, ?_, ?_⟩
  · refine Full_transfer h.1 h.2.1 ?_ ?_
    · intro a n1 hn1 hnl hnum
      rw [hlook] at hn1
      split at hn1
      · simp only [Option.some.injEq] at hn1; subst hn1; rw [e1] at hnl; simp at hnl
      · exact ⟨n1, hn1, hnl, hnum, fun _ hx => hx⟩
    · intro c cn1 hcn1 hcl hz
      rw [hlook] at hcn1
      split at hcn1
      · rename_i hcl2
        subst hcl2
        simp only [Option.some.injEq] at hcn1; subst hcn1
        refine ⟨l, hl, hleaf, ?_⟩
        rcases hfull hz with h0 | h0
        · exact Or.inl h0
        · right
          intro pa p1 hpa hp1
          rw [hlook] at hp1
          split at hp1
          · rename_i hpc
            subst hpc
            exact absurd hpa (h.1.1 _ l hl).1.notSelf
          · exact h0 pa p1 hpa hp1
      · exact ⟨cn1, hcn1, hcl, Or.inl hz⟩
  · refine Ranked_transfer h.2.2 ?_
    intro a n1 hn1
    rw [hlook] at hn1
    split at hn1
    · rename_i hal
      subst hal
      simp only [Option.some.injEq] at hn1; subst hn1
      exact ⟨l, hl, by rw [e1, hleaf], by rw [hleaf]; simp⟩
    · exact ⟨n1, hn1, rfl, fun _ _ hx => hx⟩
/-- `getNeighbourIndex` for a child of a node with two distinct children: the
result is `-1` for the first child and `0` for the second, and the slot
`deleteEntry` then reads holds the other child. -/
theorem getNeighbourIndex_run {nodes : List Node} {leaf pa : Nat} {l p : Node}
    (hl : nodes[leaf]? = some l) (hpar : l.Parent = some pa) (hp : nodes[pa]? = some p)
    (hloc : NodeLocal p) (hnum : p.NumKeys = 2) (hnd : p.liveChildren.Nodup)
    (hmem : Ptr.node leaf ∈ p.liveChildren) :
    ∃ (idx : Int) (q : Ptr), getNeighbourIndex nodes leaf = some idx ∧ (idx = -1 ∨ idx = 0) ∧
      p.Pointers[if idx = -1 then 1 else idx.toNat]? = some q ∧ q ∈ p.liveChildren ∧
      q ≠ Ptr.node leaf := by
  obtain ⟨hk, hpl, hn, -⟩ := hloc
  obtain ⟨q0, q1, q2, q3, hP⟩ := list4 hpl
  obtain ⟨P, K, par, isl, num, nxt⟩ := p
  simp only at hP hnum hnd hmem ⊢
  subst hP hnum
  simp [Node.liveChildren] at hnd hmem
  rcases hmem with rfl | rfl
  · refine ⟨-1, q1, ?_, Or.inl rfl, by simp, by simp [Node.liveChildren], fun e => hnd e.symm⟩
    simp [getNeighbourIndex, andThen, hl, hpar, hp, getNeighbourIndex.loop]
  · refine ⟨0, q0, ?_, Or.inr rfl, by simp, by simp [Node.liveChildren], hnd⟩
    simp [getNeighbourIndex, andThen, hl, hpar, hp, getNeighbourIndex.loop, hnd]
theorem set3_lookup {nodes : List Node} {a b c : Nat} {na nb nc : Node} (va vb vc : Node)
    (ha : nodes[a]? = some na) (hb : nodes[b]? = some nb) (hc : nodes[c]? = some nc) (x : Nat) :
    (((nodes.set a va).set b vb).set c vc)[x]? =
      if x = c then some vc else if x = b then some vb else if x = a then some va
      else nodes[x]? := by
  have hal : a < nodes.length := (List.getElem?_eq_some.mp ha).1
  have hbl : b < nodes.length := (List.getElem?_eq_some.mp hb).1
  have hcl : c < nodes.length := (List.getElem?_eq_some.mp hc).1
  by_cases h1 : x = c
  · subst h1; rw [List.getElem?_set_self (by simpa using hcl)]; simp
  · rw [List.getElem?_set_ne (Ne.symm h1)]
    by_cases h2 : x = b
    · subst h2; rw [List.getElem?_set_self (by simpa using hbl)]; simp [h1]
    · rw [List.getElem?_set_ne (Ne.symm h2)]
      by_cases h3 : x = a
      · subst h3; rw [List.getElem?_set_self hal]; simp [h1, h2]
      · rw [List.getElem?_set_ne (Ne.symm h3)]; simp [h1, h2, h3]

/-- The heap after a merge of two sibling leaves and the removal of one of
them from their parent, which held the two: the invariant holds again. -/
theorem Inv_merge {t : Tree} {leaf nb pa : Nat} {l nbn p nd1 nbn1 p1 : Node} (hinv : t.Inv)
    (hl : t.nodes[leaf]? = some l) (hnb : t.nodes[nb]? = some nbn) (hp : t.nodes[pa]? = some p)
    (hleaf : l.IsLeaf = true) (hnleaf : nbn.IsLeaf = true) (hpint : p.IsLeaf = false)
    (hlpar : l.Parent = some pa) (hnpar : nbn.Parent = some pa) (hne : leaf ≠ nb)
    (hmemL : Ptr.node leaf ∈ p.liveChildren)
    (d1 : nd1.IsLeaf = true) (d2 : nd1.Parent = some pa) (d3 : NodeLocal nd1)
    (b1 : nbn1.IsLeaf = true) (b2 : nbn1.Parent = some pa) (b3 : NodeLocal nbn1)
    (c1 : p1.IsLeaf = false) (c2 : p1.Parent = p.Parent) (c3 : NodeLocal p1)
    (c4 : p1.NumKeys = 1) (c5 : ∀ x ∈ p1.liveChildren, x ∈ p.liveChildren) :
    Tree.Inv { t with nodes := ((t.nodes.set leaf nd1).set nb nbn1).set pa p1 } := by
  have hpal : pa ≠ leaf := by
    intro e; subst e
    rw [hl] at hp; simp only [Option.some.injEq] at hp; subst hp
    rw [hleaf] at hpint; simp at hpint
  have hpanb : pa ≠ nb := by
    intro e; subst e
    rw [hnb] at hp; simp only [Option.some.injEq] at hp; subst hp
    rw [hnleaf] at hpint; simp at hpint
  have hlook := fun x => set3_lookup nd1 nbn1 p1 hl hnb hp x
  have hnotroot : ∀ (c : Nat) (cn : Node), t.nodes[c]? = some cn → cn.Parent = some pa →
      t.Root = some c → False := by
    intro c cn hc hcp hr
    obtain ⟨rn, hrn, hrp, -⟩ := hinv.1.2 c hr
    rw [hc] at hrn; simp only [Option.some.injEq] at hrn; subst hrn
    rw [hcp] at hrp; simp at hrp
  refine ⟨?_, ?_, ?_⟩
  · -- the structural invariant
    have hA : Tree.WFx { t with nodes := t.nodes.set leaf nd1 } none :=
      WFx_set_leaf hinv.1 hl hleaf d1 (d2.trans hlpar.symm) d3
        (fun h => (hnotroot leaf l hl hlpar h).elim)
    have hnbA : (t.nodes.set leaf nd1)[nb]? = some nbn := by
      rw [set_lookup nd1 hl]; simp [Ne.symm hne, hnb]
    have hB : Tree.WFx { t with nodes := (t.nodes.set leaf nd1).set nb nbn1 } none :=
      @WFx_set_leaf { t with nodes := t.nodes.set leaf nd1 } none nb nbn nbn1 hA hnbA hnleaf b1
        (b2.trans hnpar.symm) b3 (fun h => (hnotroot nb nbn hnb hnpar h).elim)
    have hlookB : ∀ x, ((t.nodes.set leaf nd1).set nb nbn1)[x]? =
        if x = nb then some nbn1 else if x = leaf then some nd1 else t.nodes[x]? := by
      intro x
      rw [set_lookup nbn1 hnbA, set_lookup nd1 hl]
    have hpB : ((t.nodes.set leaf nd1).set nb nbn1)[pa]? = some p := by
      rw [hlookB]; simp [hpanb, hpal, hp]
    have hleafB : ((t.nodes.set leaf nd1).set nb nbn1)[leaf]? = some nd1 := by
      rw [hlookB]; simp [hne]
    have hwpB := (hB.1 pa p hpB).1
    obtain ⟨k, hk⟩ := hwpB.children hpint
    have hktrue : k = true := by
      obtain ⟨c, cn, hc, hcn, -, hck⟩ := hk _ hmemL
      simp only [Ptr.node.injEq] at hc; subst hc
      rw [hleafB] at hcn; simp only [Option.some.injEq] at hcn; subst hcn
      rw [← hck, d1]
    refine @WFx_set_internal { t with nodes := (t.nodes.set leaf nd1).set nb nbn1 } none none pa p
      p1 hB hpB hpint c1 c2 c3 (by omega) ?_ ⟨k, fun q hq => hk q (c5 q hq)⟩ ?_
      (fun _ _ _ _ _ _ => by simp)
    · have : p1.liveChildren.length ≤ 1 := by simp [Node.liveChildren, c4]
      match hlc : p1.liveChildren, this with
      | [], _ => simp
      | [x], _ => simp
    · intro b bn hb hbl _ hbp
      have hlkd := (hB.1 b bn hb).2 hbl (by simp)
      obtain ⟨p0, hp0, hmem0⟩ := hlkd.1 pa hbp
      rw [hpB] at hp0; simp only [Option.some.injEq] at hp0; subst hp0
      obtain ⟨c, cn, hc, hcn, -, hck⟩ := hk _ hmem0
      simp only [Ptr.node.injEq] at hc; subst hc
      rw [hb] at hcn; simp only [Option.some.injEq] at hcn; subst hcn
      rw [hktrue, hbl] at hck; simp at hck
  · refine Full_transfer hinv.1 hinv.2.1 ?_ ?_
    · intro a n1 hn1 hnl hnum
      rw [hlook] at hn1
      split at hn1
      · simp only [Option.some.injEq] at hn1; subst hn1; omega
      · split at hn1
        · simp only [Option.some.injEq] at hn1; subst hn1; rw [b1] at hnl; simp at hnl
        · split at hn1
          · simp only [Option.some.injEq] at hn1; subst hn1; rw [d1] at hnl; simp at hnl
          · exact ⟨n1, hn1, hnl, hnum, fun _ hx => hx⟩
    · intro c cn1 hcn1 hcl hz
      have hp1 : (((t.nodes.set leaf nd1).set nb nbn1).set pa p1)[pa]? = some p1 := by
        rw [hlook]; simp
      have hpar1 : ∀ (pa1 : Nat) (q1 : Node), some pa = some pa1 →
          (((t.nodes.set leaf nd1).set nb nbn1).set pa p1)[pa1]? = some q1 → q1.NumKeys ≠ 2 := by
        intro pa1 q1 e hq1
        simp only [Option.some.injEq] at e; subst e
        rw [hp1] at hq1; simp only [Option.some.injEq] at hq1; subst hq1; omega
      rw [hlook] at hcn1
      split at hcn1
      · simp only [Option.some.injEq] at hcn1; subst hcn1; rw [c1] at hcl; simp at hcl
      · split at hcn1
        · rename_i _ hcb
          subst hcb
          exact ⟨nbn, hnb, hnleaf, Or.inr (fun pa1 q1 e hq1 => hpar1 pa1 q1 (hnpar ▸ e) hq1)⟩
        · split at hcn1
          · rename_i _ _ hcb
            subst hcb
            exact ⟨l, hl, hleaf, Or.inr (fun pa1 q1 e hq1 => hpar1 pa1 q1 (hlpar ▸ e) hq1)⟩
          · exact ⟨cn1, hcn1, hcl, Or.inl hz⟩
  · refine Ranked_transfer hinv.2.2 ?_
    intro a n1 hn1
    rw [hlook] at hn1
    split at hn1
    · rename_i hap
      subst hap
      simp only [Option.some.injEq] at hn1; subst hn1
      exact ⟨p, hp, by rw [c1, hpint], fun _ => c5⟩
    · split at hn1
      · rename_i _ hab
        subst hab
        simp only [Option.some.injEq] at hn1; subst hn1
        exact ⟨nbn, hnb, by rw [b1, hnleaf], by rw [hnleaf]; simp⟩
      · split at hn1
        · rename_i _ _ hab
          subst hab
          simp only [Option.some.injEq] at hn1; subst hn1
          exact ⟨l, hl, by rw [d1, hleaf], by rw [hleaf]; simp⟩
        · exact ⟨n1, hn1, rfl, fun _ _ hx => hx⟩
/-- `deleteEntry` on the leaf that holds the key, in a tree that satisfies the
invariant: it returns nil and the invariant holds again.  The root is cleared
exactly when the leaf is the root and held the key alone. -/
theorem deleteEntry_leaf_run {t : Tree} {leaf : Nat} {l : Node} (fuel : Nat) (key : Int)
    (ptr : Ptr) (hinv : t.Inv) (hl : t.nodes[leaf]? = some l) (hleaf : l.IsLeaf = true)
    (hlk : Linked t leaf l) (hmem : key ∈ l.liveKeys) :
    ∃ t1, Tree.deleteEntry (fuel + 2) t leaf key ptr = some (t1, none) ∧ t1.Inv ∧
      t1.inspector = t.inspector ∧ t1.nodes.length = t.nodes.length ∧
      (t.Root = some leaf → l.NumKeys = 1 → t1.Root = none) ∧
      (¬ (t.Root = some leaf ∧ l.NumKeys = 1) → t1.Root = t.Root) := by
  have hwl := (hinv.1.1 leaf l hl).1
  obtain ⟨l1, hrem, e1, e2, e3, e4, e5, e6⟩ := removeEntryFromLeaf_run hwl.loc hleaf hmem
  have hll : leaf < t.nodes.length := (List.getElem?_eq_some.mp hl).1
  have hlast : ∃ k, lastKey l = some k := by
    unfold lastKey
    have h0 : l.NumKeys ≠ 0 := by omega
    have h1 : l.NumKeys - 1 < l.Keys.length := by
      rw [hwl.loc.1]; have := hwl.loc.2.2.1; simp [order] at this ⊢; omega
    exact ⟨l.Keys[l.NumKeys - 1], by simp [h0, List.getElem?_eq_getElem h1]⟩
  obtain ⟨k0, hk0⟩ := hlast
  have hlook := set_lookup l1 hl
  unfold Tree.deleteEntry
  simp only [hl, hk0, hleaf, hrem, setNode, wr, hll, if_true]
  by_cases hroot : t.Root = some leaf
  · -- the leaf is the root
    simp only [hroot, if_true, Tree.adjustRoot, List.getElem?_set_self hll]
    by_cases hpos : l1.NumKeys > 0
    · simp only [hpos, if_true, Option.map_some']
      have hA := Inv_set_leaf hinv hl hleaf e1 e2 e3 (fun _ => hpos) (fun h0 => by omega)
      simp only [hroot] at hA
      exact ⟨_, rfl, hA, rfl, by simp, fun _ h1 => by omega, fun _ => rfl⟩
    · simp only [hpos, if_false, Option.map_some']
      have hz : l1.NumKeys = 0 := by omega
      have hnopar : l.Parent = none := by
        obtain ⟨rn, hrn, hrp, -⟩ := hinv.1.2 leaf hroot
        rw [hl] at hrn; simp only [Option.some.injEq] at hrn; subst hrn; exact hrp
      have hB : Tree.Inv { t with Root := none } :=
        ⟨WF_clearRoot hinv.1 hroot hl hleaf, hinv.2.1, hinv.2.2⟩
      have hA := @Inv_set_leaf { t with Root := none } leaf l l1 hB hl hleaf e1 e2 e3
        (fun h => by simp at h) (fun _ => Or.inr (fun pa p hpa _ => by rw [hnopar] at hpa; simp at hpa))
      exact ⟨_, rfl, hA, rfl, by simp, fun _ _ => rfl, fun hc => absurd ⟨trivial, by omega⟩ hc⟩
  · -- the leaf is not the root
    have hr2 : ¬ (some leaf = t.Root) := fun e => hroot e.symm
    simp only [hr2, if_false]
    have hnr : ¬ (t.Root = some leaf ∧ l.NumKeys = 1) := fun h => hroot h.1
    by_cases hpos : l1.NumKeys ≥ cut (order - 1)
    · simp only [hpos, if_true]
      have hA := Inv_set_leaf hinv hl hleaf e1 e2 e3 (fun h => absurd h hroot)
        (fun h0 => by simp [cut, order] at hpos; omega)
      exact ⟨_, rfl, hA, rfl, by simp, fun h => absurd h hroot, fun _ => rfl⟩
    · simp only [hpos, if_false]
      have hz : l1.NumKeys = 0 := by simp [cut, order] at hpos; omega
      cases hpar : l.Parent with
      | none => exact absurd (hlk.2 hpar) hroot
      | some pa =>
        obtain ⟨p, hp, hpint⟩ := hwl.parentInternal pa hpar
        have hpal : pa ≠ leaf := by
          intro e; subst e
          rw [hl] at hp; simp only [Option.some.injEq] at hp; subst hp
          rw [hleaf] at hpint; simp at hpint
        have hwp := (hinv.1.1 pa p hp).1
        simp only [e2, hpar, hlook, hpal, if_false, hp]
        by_cases hpn : p.NumKeys = 1
        · simp only [hpn, if_true]
          have hA := Inv_set_leaf hinv hl hleaf e1 e2 e3 (fun h => absurd h hroot)
            (fun _ => Or.inr (fun pa1 p1 hpa1 hp1 => by
              rw [hpar] at hpa1; simp only [Option.some.injEq] at hpa1; subst hpa1
              rw [hp] at hp1; simp only [Option.some.injEq] at hp1; subst hp1
              omega))
          exact ⟨_, rfl, hA, rfl, by simp, fun h => absurd h hroot, fun _ => rfl⟩
        · simp only [hpn, if_false]
          have hp2 : p.NumKeys = 2 := by
            have h1 := hwp.numPos hpint
            have h2 := hwp.loc.2.2.1
            simp [order] at h2
            omega
          have hlA : (t.nodes.set leaf l1)[leaf]? = some l1 := by rw [hlook]; simp
          have hpA : (t.nodes.set leaf l1)[pa]? = some p := by rw [hlook]; simp [hpal, hp]
          have hmemL : Ptr.node leaf ∈ p.liveChildren := by
            obtain ⟨p0, hp0, hmem0⟩ := hlk.1 pa hpar
            rw [hp] at hp0; simp only [Option.some.injEq] at hp0; subst hp0; exact hmem0
          obtain ⟨idx, q, hgni, hidx, hslot, hq, hqne⟩ :=
            getNeighbourIndex_run hlA (e2.trans hpar) hpA hwp.loc hp2 (hwp.childrenNodup hpint)
              hmemL
          obtain ⟨k, hk⟩ := hwp.children hpint
          have hktrue : k = true := by
            obtain ⟨c, cn, hc, hcn, -, hck⟩ := hk _ hmemL
            simp only [Ptr.node.injEq] at hc; subst hc
            rw [hl] at hcn; simp only [Option.some.injEq] at hcn; subst hcn
            rw [← hck, hleaf]
          obtain ⟨nb, nbn, hqnb, hnb, hnpar, hnk⟩ := hk q hq
          subst hqnb
          rw [hktrue] at hnk
          have hne : leaf ≠ nb := fun e => hqne (by rw [e])
          have hnbA : (t.nodes.set leaf l1)[nb]? = some nbn := by
            rw [hlook]; simp [Ne.symm hne, hnb]
          have hnpos : 1 ≤ nbn.NumKeys := hinv.2.1 pa p hp hpint hp2 nb nbn hq hnb hnk
          have hnloc := (hinv.1.1 nb nbn hnb).1.loc
          obtain ⟨res, hmerge, r1, r2, nd1, nbn1, r3, d1, d2, d3, b1, b2, b3, -, -⟩ :=
            merge_leaf_run idx k0 hlA hnbA hne e3 e1 hz (e2.trans hpar) hnloc hnk hnpar hnpos
          obtain ⟨nodes1, pa1, k1, n1⟩ := res
          simp only at r1 r2 r3
          have r1s := r1.symm
          subst r1s r3
          have hcond : ¬ (idx ≥ (p.NumKeys : Int)) := by
            rw [hp2]; rcases hidx with rfl | rfl <;> decide
          have hsum : nbn.NumKeys + l1.NumKeys < order := by
            have := hnloc.2.2.1
            simp [order] at this ⊢; omega
          have hnl : ¬ nb = leaf := fun e => hne e.symm
          simp only [hgni, hcond, if_false, hslot, hnl, hnb, hsum, if_true, hmerge]
          have hn1mem : Ptr.node n1 ∈ p.liveChildren := by
            rw [r2]; split
            · exact hq
            · exact hmemL
          have hBeq : ((t.nodes.set leaf l1).set leaf nd1).set nb nbn1
              = (t.nodes.set leaf nd1).set nb nbn1 := by rw [List.set_set]
          have hnbA2 : (t.nodes.set leaf nd1)[nb]? = some nbn := by
            rw [set_lookup nd1 hl]; simp [Ne.symm hne, hnb]
          have hpB : (((t.nodes.set leaf l1).set leaf nd1).set nb nbn1)[pa]? = some p := by
            rw [hBeq, set_lookup nbn1 hnbA2, set_lookup nd1 hl]
            have hpanb : pa ≠ nb := by
              intro e; subst e
              rw [hnb] at hp; simp only [Option.some.injEq] at hp; subst hp
              rw [hnk] at hpint; simp at hpint
            simp [hpanb, hpal, hp]
          obtain ⟨p1, hde, c1, c2, c3, c4, c5⟩ :=
            @deleteEntry_internal_run
              { t with nodes := ((t.nodes.set leaf l1).set leaf nd1).set nb nbn1 } pa n1 p fuel k1
              hpB hwp.loc hpint hp2 (hwp.childrenNodup hpint) hn1mem
          have hI := Inv_merge hinv hl hnb hp hleaf hnk hpint hpar hnpar hne hmemL d1 d2 d3 b1 b2
            b3 c1 c2 c3 c4 (fun x hx => ((c5 x).mp hx).1)
          rw [← hBeq] at hI
          exact ⟨_, hde, hI, rfl, by simp, fun h => absurd h hroot, fun _ => rfl⟩
/-- A successful `Find` went through a leaf. -/
theorem Find_ok_leaf {t : Tree} {key : Int} {r : Nat} (h : t.Find key = some (.ok r)) :
    ∃ leaf, t.findLeaf key = some (some leaf) := by
  unfold Tree.Find at h
  split at h
  · simp at h
  · simp at h
  · rename_i a ha; exact ⟨a, ha⟩

/-- `Delete` of a key that `Find` finds, with a record not marked deleted, in a
tree that satisfies the invariant: `deleteEntry` returns nil on the leaf of
the key, `Delete` returns nil, marks the record deleted, lets the inspector (if
any) capture the record, and the invariant holds again.  The root is cleared exactly when it was a leaf holding the key
alone. -/
theorem Delete_run {t : Tree} {recs : List Record} (ui : sharedData) {key : Int} {r : Nat}
    {record : Record} (hinv : t.Inv) (hfind : t.Find key = some (.ok r))
    (hrec : recs[r]? = some record) (hdel : record.deleted = false) :
    ∃ (t1 : Tree) (leaf : Nat) (l : Node), t.findLeaf key = some (some leaf) ∧
      t.nodes[leaf]? = some l ∧
      Tree.deleteEntry (t.nodes.length + 1) t leaf key (Ptr.record r) = some (t1, none) ∧
      t.Delete recs ui key = some (t1, recs.set r { record with deleted := true },
        (if t.inspector then HandleDataBeforeDelete ui record else ui), none) ∧
      t1.Inv ∧ t1.inspector = t.inspector ∧ t1.nodes.length = t.nodes.length ∧
      (t.Root = some leaf → l.NumKeys = 1 → t1.Root = none) ∧
      (¬ (t.Root = some leaf ∧ l.NumKeys = 1) → t1.Root = t.Root) := by
  obtain ⟨leaf, hfl⟩ := Find_ok_leaf hfind
  obtain ⟨l, hl, hleaf, hlk⟩ := Tree.findLeaf_spec hinv.1 hfl
  have hmem := Find_ok_mem hfl hl (hinv.1.1 leaf l hl).1.loc hfind
  have hlen : t.nodes.length + 1 = (t.nodes.length - 1) + 2 := by
    have := (List.getElem?_eq_some.mp hl).1; omega
  obtain ⟨t1, hde, h1, h2, h3, h4, h5⟩ :=
    deleteEntry_leaf_run (t.nodes.length - 1) key (Ptr.record r) hinv hl hleaf hlk hmem
  rw [← hlen] at hde
  refine ⟨t1, leaf, l, hfl, hl, hde, ?_, h1, h2, h3, h4, h5⟩
  unfold Tree.Delete
  simp only [hfind, hrec, hfl, hde, wr, (List.getElem?_eq_some.mp hrec).1, if_true,
    Option.map_some']
  rw [hdel]
  simp

/-- `Delete` keeps the invariant. -/
theorem Delete_Inv {t t1 : Tree} {recs recs1 : List Record} {ui ui1 : sharedData} {key : Int}
    {e : Option Error} (hinv : t.Inv) (h : t.Delete recs ui key = some (t1, recs1, ui1, e)) :
    t1.Inv := by
  cases hfind : t.Find key with
  | none => simp [Tree.Delete, hfind] at h
  | some res =>
    cases res with
    | error e1 =>
      simp [Tree.Delete, hfind] at h
      rw [← h.1]; exact hinv
    | ok r =>
      cases hrec : recs[r]? with
      | none => simp [Tree.Delete, hfind, hrec] at h
      | some record =>
        by_cases hdel : record.deleted = true
        · simp [Tree.Delete, hfind, hrec, hdel] at h
          rw [← h.1]; exact hinv
        · have hdel : record.deleted = false := by simpa using hdel
          obtain ⟨t2, leaf, l, -, -, -, hrun, hI, -⟩ := Delete_run ui hinv hfind hrec hdel
          rw [hrun] at h
          simp only [Option.some.injEq, Prod.mk.injEq] at h
          rw [← h.1]; exact hI

/-! ## The invariant under `Insert` -/

/-- `Full` carries over to a heap in which every empty leaf was an empty leaf
before, and every child of a node with two children either was the child of a
node with two children before or was not an empty leaf. -/
theorem Full_grow {t : Tree} {nodes1 : List Node} (hfull : t.Full)
    (hleaf : ∀ (c : Nat) (cn1 : Node), nodes1[c]? = some cn1 → cn1.IsLeaf = true →
      cn1.NumKeys = 0 → ∃ cn, t.nodes[c]? = some cn ∧ cn.IsLeaf = true ∧ cn.NumKeys = 0)
    (hint : ∀ (a : Nat) (n1 : Node), nodes1[a]? = some n1 → n1.IsLeaf = false →
      n1.NumKeys = 2 → ∀ c : Nat, Ptr.node c ∈ n1.liveChildren →
        (∃ (a0 : Nat) (n : Node), t.nodes[a0]? = some n ∧ n.IsLeaf = false ∧ n.NumKeys = 2 ∧
          Ptr.node c ∈ n.liveChildren) ∨
        (∀ cn : Node, t.nodes[c]? = some cn → cn.IsLeaf = true → 1 ≤ cn.NumKeys)) :
    Tree.Full { t with nodes := nodes1 } := by
  intro a n1 hn1 hl1 hnum1 c cn1 hmem hcn1 hcl
  by_contra hzero
  have hz : cn1.NumKeys = 0 := by omega
  obtain ⟨cn, hcn, hcnl, hcz⟩ := hleaf c cn1 hcn1 hcl hz
  rcases hint a n1 hn1 hl1 hnum1 c hmem with ⟨a0, n, hn, hnl, hnnum, hmem0⟩ | h0
  · have := hfull a0 n hn hnl hnnum c cn hmem0 hcn hcnl
    omega
  · have := h0 cn hcn hcnl
    omega

theorem mem_of_perm_split {old1 p : Node} {m right : Nat}
    (hperm : (old1.liveChildren ++ [Ptr.node m]).Perm (p.liveChildren ++ [Ptr.node right]))
    {x : Ptr} (hx : x ∈ old1.liveChildren) : x ∈ p.liveChildren ∨ x = Ptr.node right := by
  have := (hperm.mem_iff (a := x)).mp (List.mem_append_left _ hx)
  simpa using this
/-- The children of an internal node of a well-formed heap are addresses of
the heap. -/
theorem child_lt {t : Tree} {x : Option Nat} (h : t.WFx x) {a c : Nat} {n : Node}
    (ha : t.nodes[a]? = some n) (hl : n.IsLeaf = false) (hc : Ptr.node c ∈ n.liveChildren) :
    c < t.nodes.length := by
  obtain ⟨k, hk⟩ := (h.1 a n ha).1.children hl
  obtain ⟨c1, cn, hc1, hcn, -, -⟩ := hk _ hc
  simp only [Ptr.node.injEq] at hc1
  subst hc1
  exact (List.getElem?_eq_some.mp hcn).1

/-- `insertIntoNewRoot` keeps `Full` and gives the new root a height. -/
theorem insertIntoNewRoot_extra {t t1 : Tree} {left right : Nat} {l r : Node}
    (hpre : InsPre t left right l r) (hfull : t.Full)
    (hln : l.IsLeaf = true → 1 ≤ l.NumKeys) (hrn : r.IsLeaf = true → 1 ≤ r.NumKeys)
    {ht : Nat → Nat} (hht : Heights t.nodes ht) (heq : ht right = ht left)
    (h : t.insertIntoNewRoot left right = some t1) : t1.Full ∧ t1.Ranked := by
  obtain ⟨rt, rfl, hrleaf, hrpar, hrnum, hrch, hrloc⟩ :=
    insertIntoNewRoot_effect hpre.hl hpre.hr hpre.ne h
  have hll : left < t.nodes.length := (List.getElem?_eq_some.mp hpre.hl).1
  have hrl : right < t.nodes.length := (List.getElem?_eq_some.mp hpre.hr).1
  have hlook := fun b => @newRoot_lookup t.nodes left right
    { l with Parent := some t.nodes.length } { r with Parent := some t.nodes.length } rt
    hll hrl hpre.ne b
  -- every node of the new heap but the root is a node of the old heap with
  -- the same kind, count and children
  have hold : ∀ (a : Nat) (n1 : Node),
      (((t.nodes ++ [rt]).set left { l with Parent := some t.nodes.length }).set right
        { r with Parent := some t.nodes.length })[a]? = some n1 → a ≠ t.nodes.length →
      ∃ n, t.nodes[a]? = some n ∧ n1.IsLeaf = n.IsLeaf ∧ n1.NumKeys = n.NumKeys ∧
        n1.liveChildren = n.liveChildren := by
    intro a n1 ha hne
    rw [hlook] at ha
    split at ha
    · rename_i e; subst e
      simp only [Option.some.injEq] at ha; subst ha
      exact ⟨r, hpre.hr, rfl, rfl, rfl⟩
    · split at ha
      · rename_i _ e; subst e
        simp only [Option.some.injEq] at ha; subst ha
        exact ⟨l, hpre.hl, rfl, rfl, rfl⟩
      · exact ⟨n1, ha, rfl, rfl, rfl⟩
  have hnew : (((t.nodes ++ [rt]).set left { l with Parent := some t.nodes.length }).set right
      { r with Parent := some t.nodes.length })[t.nodes.length]? = some rt := by
    rw [hlook]; simp [Nat.ne_of_gt hll, Nat.ne_of_gt hrl]
  refine ⟨?_, ?_⟩
  · have hF := @Full_grow t _ hfull (?_ : ∀ (c : Nat) (cn1 : Node),
        (((t.nodes ++ [rt]).set left (Node.mk l.Pointers l.Keys (some t.nodes.length) l.IsLeaf
          l.NumKeys l.Next)).set right (Node.mk r.Pointers r.Keys (some t.nodes.length) r.IsLeaf
          r.NumKeys r.Next))[c]? = some cn1 → cn1.IsLeaf = true →
        cn1.NumKeys = 0 → ∃ cn, t.nodes[c]? = some cn ∧ cn.IsLeaf = true ∧ cn.NumKeys = 0) ?_
    · exact hF
    · intro c cn1 hc hcl hz
      by_cases hcN : c = t.nodes.length
      · subst hcN
        rw [hnew] at hc; simp only [Option.some.injEq] at hc; subst hc
        rw [hrleaf] at hcl; simp at hcl
      · obtain ⟨cn, hcn, e1, e2, -⟩ := hold c cn1 hc hcN
        exact ⟨cn, hcn, by rw [← e1]; exact hcl, by rw [← e2]; exact hz⟩
    · intro a n1 ha hal hnum c hc
      by_cases haN : a = t.nodes.length
      · subst haN
        rw [hnew] at ha; simp only [Option.some.injEq] at ha; subst ha
        rw [hrch] at hc
        simp only [List.mem_cons, Ptr.node.injEq, List.mem_singleton, List.not_mem_nil,
          or_false] at hc
        right
        intro cn hcn hcl
        rcases hc with rfl | rfl
        · rw [hpre.hl] at hcn; simp only [Option.some.injEq] at hcn; subst hcn; exact hln hcl
        · rw [hpre.hr] at hcn; simp only [Option.some.injEq] at hcn; subst hcn; exact hrn hcl
      · obtain ⟨n, hn, e1, e2, e3⟩ := hold a n1 ha haN
        exact Or.inl ⟨a, n, hn, by rw [← e1]; exact hal, by rw [← e2]; exact hnum,
          by rw [← e3]; exact hc⟩
  · refine ⟨fun a => if a = t.nodes.length then ht left + 1 else ht a, ?_⟩
    intro a n1 ha
    by_cases haN : a = t.nodes.length
    · subst haN
      have ha2 := ha
      simp only at ha2
      rw [hnew] at ha2; simp only [Option.some.injEq] at ha2; subst ha2
      refine ⟨fun e => by rw [hrleaf] at e; simp at e, ?_⟩
      intro _ c hc
      rw [hrch] at hc
      simp only [List.mem_cons, Ptr.node.injEq, List.mem_singleton, List.not_mem_nil,
        or_false] at hc
      rcases hc with rfl | rfl
      · simp [Nat.ne_of_lt hll]
      · simp [Nat.ne_of_lt hrl, heq]
    · obtain ⟨n, hn, e1, e2, e3⟩ := hold a n1 ha haN
      simp only [haN, if_false]
      refine ⟨fun e => (hht a n hn).1 (e1 ▸ e), ?_⟩
      intro e c hc
      have hnl : n.IsLeaf = false := e1 ▸ e
      rw [e3] at hc
      have hclt := child_lt hpre.wf hn hnl hc
      simp only [Nat.ne_of_lt hclt, if_false]
      exact (hht a n hn).2 hnl c hc
theorem liveChildren_length {n : Node} (hloc : NodeLocal n) :
    n.liveChildren.length = n.NumKeys := by
  have h1 := hloc.2.1
  have h2 := hloc.2.2.1
  simp [Node.liveChildren, order] at *
  omega

/-- `insertIntoParent` keeps `Full` and `Ranked`, given that the two nodes it
is called with are not empty leaves and have the same height. -/
theorem insertIntoParent_extra : ∀ (fuel : Nat) (t : Tree) (left right : Nat) (l r : Node)
    (key : Int) (t1 : Tree), InsPre t left right l r → t.Full →
    (l.IsLeaf = true → 1 ≤ l.NumKeys) → (r.IsLeaf = true → 1 ≤ r.NumKeys) →
    (∃ ht : Nat → Nat, Heights t.nodes ht ∧ ht right = ht left) →
    Tree.insertIntoParent fuel t left key right = some t1 → t1.Full ∧ t1.Ranked := by
  intro fuel
  induction fuel with
  | zero => intro t left right l r key t1 _ _ _ _ _ h; simp [Tree.insertIntoParent] at h
  | succ fuel ih =>
    intro t left right l r key t1 hpre hfull hln hrn hrank h
    obtain ⟨ht, hht, heq⟩ := hrank
    cases hlp : l.Parent with
    | none =>
      unfold Tree.insertIntoParent at h
      simp only [hpre.hl, hlp] at h
      exact insertIntoNewRoot_extra hpre hfull hln hrn hht heq h
    | some pa =>
      have hwl := (hpre.wf.1 left l hpre.hl).1
      have hwr := (hpre.wf.1 right r hpre.hr).1
      have hrp : r.Parent = some pa := hpre.par.trans hlp
      have hpar : right ≠ pa := by
        intro e; subst e; exact hwr.notSelf hrp
      obtain ⟨p, hp, hpint⟩ := hwl.parentInternal pa hlp
      have hwp := (hpre.wf.1 pa p hp).1
      obtain ⟨k, hk⟩ := hwp.children hpint
      have hleft : Ptr.node left ∈ p.liveChildren := by
        obtain ⟨p0, hp0, hmem0⟩ := hpre.linked.1 pa hlp
        rw [hp] at hp0; simp only [Option.some.injEq] at hp0; subst hp0
        exact hmem0
      have hchildren : ∀ q ∈ p.liveChildren, ∃ (c : Nat) (cn : Node), q = Ptr.node c ∧
          t.nodes[c]? = some cn ∧ c ≠ pa := by
        intro q hq
        obtain ⟨c, cn, hc, hcn, hcp, -⟩ := hk q hq
        refine ⟨c, cn, hc, hcn, ?_⟩
        intro e; subst e
        rw [hp] at hcn; simp only [Option.some.injEq] at hcn; subst hcn
        exact hwp.notSelf hcp
      have hrl : right < t.nodes.length := (List.getElem?_eq_some.mp hpre.hr).1
      have hpl : pa < t.nodes.length := (List.getElem?_eq_some.mp hp).1
      have hhtpa : ht pa = ht left + 1 := (hht pa p hp).2 hpint left hleft
      rcases insertIntoParent_cases hpre.hl hpre.hr hlp hp hwp.loc hpint (hwp.numPos hpint)
        hleft hpar hchildren h with
        ⟨p2, rfl, e1, e2, e3, e4, e5⟩ |
        ⟨old1, nn, mn, m, k1, hm, hmpa, hmem, o1, o2, o3, o4, n1, n2, n3, n4, n5, hperm, hrec⟩
      · -- the parent had room
        have hlook := set_lookup p2 hp
        have hp2l : p2.IsLeaf = false := by rw [e1, hpint]
        have honly : p.liveChildren = [Ptr.node left] := by
          have h2 := liveChildren_length e3
          rw [e5, e4] at h2
          simp at h2
          match hlc : p.liveChildren, h2 with
          | [x], _ =>
            rw [hlc] at hleft
            simp at hleft
            rw [hleft]
        refine ⟨?_, ⟨ht, ?_⟩⟩
        · refine Full_grow hfull ?_ ?_
          · intro c cn1 hc hcl hz
            rw [hlook] at hc
            split at hc
            · simp only [Option.some.injEq] at hc; subst hc
              rw [hp2l] at hcl; simp at hcl
            · exact ⟨cn1, hc, hcl, hz⟩
          · intro a n1 ha hal hnum c hc
            rw [hlook] at ha
            split at ha
            · simp only [Option.some.injEq] at ha; subst ha
              right
              intro cn hcn hcl
              rw [e5, honly] at hc
              simp at hc
              rcases hc with rfl | rfl
              · rw [hpre.hl] at hcn; simp only [Option.some.injEq] at hcn; subst hcn
                exact hln hcl
              · rw [hpre.hr] at hcn; simp only [Option.some.injEq] at hcn; subst hcn
                exact hrn hcl
            · exact Or.inl ⟨a, n1, ha, hal, hnum, hc⟩
        · intro a n1 ha
          have ha2 : (t.nodes.set pa p2)[a]? = some n1 := ha
          rw [hlook] at ha2
          split at ha2
          · rename_i hap; subst hap
            simp only [Option.some.injEq] at ha2; subst ha2
            refine ⟨fun e => by rw [hp2l] at e; simp at e, ?_⟩
            intro _ c hc
            rw [e5, honly] at hc
            simp at hc
            rcases hc with rfl | rfl
            · exact hhtpa
            · rw [heq]; exact hhtpa
          · exact hht a n1 ha2
      · -- the parent was full and has been split
        have hlook := fun b => split_lookup old1 { mn with Parent := some t.nodes.length } nn hp hm
          hmpa b
        have hml : m < t.nodes.length := (List.getElem?_eq_some.mp hm).1
        have ho1l : old1.IsLeaf = false := by rw [o1, hpint]
        have hp2 : p.NumKeys = 2 := by
          have h1 := hperm.length_eq
          simp only [List.length_append, List.length_singleton] at h1
          rw [liveChildren_length o3, liveChildren_length hwp.loc, o4] at h1
          omega
        have hhtm : ht pa = ht m + 1 := by
          rcases hmem with hmem | rfl
          · exact (hht pa p hp).2 hpint m hmem
          · rw [heq]; exact hhtpa
        have hpre2 := split_InsPre hpre hlp hp hm hmpa hmem o1 o2 o3 o4 n1 n2 n3 n4 n5 hperm
        refine ih _ pa t.nodes.length old1 nn k1 t1 hpre2 ?_
          (fun e => by rw [ho1l] at e; simp at e) (fun e => by rw [n1] at e; simp at e) ?_ hrec
        · refine Full_grow hfull ?_ ?_
          · intro c cn1 hc hcl hz
            rw [hlook] at hc
            split at hc
            · simp only [Option.some.injEq] at hc; subst hc
              rw [n1] at hcl; simp at hcl
            · split at hc
              · rename_i _ hcm; subst hcm
                simp only [Option.some.injEq] at hc; subst hc
                exact ⟨mn, hm, hcl, hz⟩
              · split at hc
                · simp only [Option.some.injEq] at hc; subst hc
                  rw [ho1l] at hcl; simp at hcl
                · exact ⟨cn1, hc, hcl, hz⟩
          · intro a n1' ha hal hnum c hc
            rw [hlook] at ha
            split at ha
            · simp only [Option.some.injEq] at ha; subst ha
              omega
            · split at ha
              · rename_i _ ham; subst ham
                simp only [Option.some.injEq] at ha; subst ha
                exact Or.inl ⟨a, mn, hm, hal, hnum, hc⟩
              · split at ha
                · simp only [Option.some.injEq] at ha; subst ha
                  rcases mem_of_perm_split hperm hc with hc | hc
                  · exact Or.inl ⟨pa, p, hp, hpint, hp2, hc⟩
                  · simp only [Ptr.node.injEq] at hc; subst hc
                    right
                    intro cn hcn hcl
                    rw [hpre.hr] at hcn; simp only [Option.some.injEq] at hcn; subst hcn
                    exact hrn hcl
                · exact Or.inl ⟨a, n1', ha, hal, hnum, hc⟩
        · refine ⟨fun a => if a = t.nodes.length then ht pa else ht a, ?_, ?_⟩
          · intro a n1' ha
            have ha2 : ((t.nodes.set pa old1).set m { mn with Parent := some t.nodes.length }
              ++ [nn])[a]? = some n1' := ha
            rw [hlook] at ha2
            split at ha2
            · rename_i haN; subst haN
              simp only [Option.some.injEq] at ha2; subst ha2
              refine ⟨fun e => by rw [n1] at e; simp at e, ?_⟩
              intro _ c hc
              rw [n5] at hc
              simp at hc
              subst hc
              simp [Nat.ne_of_lt hml, hhtm]
            · rename_i haN
              simp only [haN, if_false]
              split at ha2
              · rename_i ham; subst ham
                simp only [Option.some.injEq] at ha2; subst ha2
                refine ⟨fun e => (hht a mn hm).1 e, ?_⟩
                intro e c hc
                have hclt := child_lt hpre.wf hm e hc
                simp only [Nat.ne_of_lt hclt, if_false]
                exact (hht a mn hm).2 e c hc
              · split at ha2
                · rename_i hap; subst hap
                  simp only [Option.some.injEq] at ha2; subst ha2
                  refine ⟨fun e => by rw [ho1l] at e; simp at e, ?_⟩
                  intro _ c hc
                  rcases mem_of_perm_split hperm hc with hc | hc
                  · have hclt := child_lt hpre.wf hp hpint hc
                    simp only [Nat.ne_of_lt hclt, if_false]
                    exact (hht a p hp).2 hpint c hc
                  · simp only [Ptr.node.injEq] at hc; subst hc
                    simp only [Nat.ne_of_lt hrl, if_false]
                    rw [heq]; exact hhtpa
                · refine ⟨fun e => (hht a n1' ha2).1 e, ?_⟩
                  intro e c hc
                  have hclt := child_lt hpre.wf ha2 e hc
                  simp only [Nat.ne_of_lt hclt, if_false]
                  exact (hht a n1' ha2).2 e c hc
          · simp [Nat.ne_of_lt hpl]
/-- Allocating a new leaf that holds an entry keeps `Full` and extends the
heights by height 0 for the new leaf. -/
theorem append_leaf_extra {t : Tree} {x : Option Nat} {nn : Node} {ht : Nat → Nat}
    (h : t.WFx x) (hfull : t.Full) (hht : Heights t.nodes ht)
    (hleaf : nn.IsLeaf = true) (hpos : 1 ≤ nn.NumKeys) :
    Tree.Full { t with nodes := t.nodes ++ [nn] } ∧
      Heights (t.nodes ++ [nn]) (fun a => if a = t.nodes.length then 0 else ht a) := by
  refine ⟨?_, ?_⟩
  · refine Full_grow hfull ?_ ?_
    · intro c cn1 hc hcl hz
      rw [append_lookup] at hc
      split at hc
      · simp only [Option.some.injEq] at hc; subst hc; omega
      · exact ⟨cn1, hc, hcl, hz⟩
    · intro a n1 ha hal hnum c hc
      rw [append_lookup] at ha
      split at ha
      · simp only [Option.some.injEq] at ha; subst ha
        rw [hleaf] at hal; simp at hal
      · exact Or.inl ⟨a, n1, ha, hal, hnum, hc⟩
  · intro a n1 ha
    rw [append_lookup] at ha
    split at ha
    · rename_i haN
      simp only [Option.some.injEq] at ha; subst ha
      subst haN
      exact ⟨fun _ => by simp, fun e => by rw [hleaf] at e; simp at e⟩
    · rename_i haN
      simp only [haN, if_false]
      refine ⟨fun e => (hht a n1 ha).1 e, ?_⟩
      intro e c hc
      have hclt := child_lt h ha e hc
      simp only [Nat.ne_of_lt hclt, if_false]
      exact (hht a n1 ha).2 e c hc

/-- `Tree.Insert` keeps the invariant. -/
theorem Insert_Inv {t t1 : Tree} {recs : List Record} {record : Nat} {e : Option Error}
    (h : t.Inv) (hi : t.Insert recs record = some (t1, e)) : t1.Inv := by
  have hwf1 := Insert_WF h.1 hi
  obtain ⟨hwf, hfull, ht, hht⟩ := h
  unfold Tree.Insert at hi
  split at hi
  · simp at hi
  · rename_i rc hrc
    dsimp only at hi
    split at hi
    · simp at hi
    · simp only [Option.some.injEq, Prod.mk.injEq] at hi
      obtain ⟨rfl, -⟩ := hi
      exact ⟨hwf, hfull, ht, hht⟩
    · rename_i err hfind
      split at hi
      · rename_i hroot
        simp only [Option.map_eq_some', Prod.mk.injEq] at hi
        obtain ⟨t2, hc, rfl, -⟩ := hi
        simp [Tree.createNewTree, andThen, makeLeaf, makeNode, order, wr] at hc
        subst hc
        have hx := @append_leaf_extra t none
          (Node.mk [Ptr.record record, Ptr.nil, Ptr.nil, Ptr.nil] [rc.Key, 0, 0, 0] none true 1
            none) ht hwf hfull hht rfl (Nat.le_refl 1)
        exact ⟨hwf1, hx.1, _, hx.2⟩
      · rename_i root hroot
        split at hi
        · rename_i leaf hleaf
          obtain ⟨l, hl, hlleaf, hlinked⟩ := Tree.findLeaf_spec hwf hleaf
          simp only [hl] at hi
          have hwl := (hwf.1 leaf l hl).1
          have hkey : rc.Key ∉ l.liveKeys := Find_error_not_mem hleaf hl hwl.loc hfind
          split at hi
          · rename_i hnum
            simp only [Option.map_eq_some', Prod.mk.injEq] at hi
            obtain ⟨nodes1, hins, rfl, -⟩ := hi
            obtain ⟨l1, rfl, hl1leaf, hl1par, hl1loc, hl1num, -⟩ :=
              insertIntoLeaf_effect hl hwl.loc hlleaf hnum hkey hins
            exact Inv_set_leaf ⟨hwf, hfull, ht, hht⟩ hl hlleaf hl1leaf hl1par hl1loc
              (fun _ => by omega) (fun h0 => by omega)
          · rename_i hnum
            have hnum2 : l.NumKeys = order - 1 := by
              have := hwl.loc.2.2.1; omega
            simp only [Option.map_eq_some', Prod.mk.injEq] at hi
            obtain ⟨t2, hins, rfl, -⟩ := hi
            unfold Tree.insertIntoLeafAfterSplitting at hins
            rw [andThen_eq_some] at hins
            obtain ⟨⟨nodes1, k⟩, hsp, hpar⟩ := hins
            obtain ⟨l1, nn, k2, hsp2, a1, a2, a3, b1, b2, b3, c1, c2, -, -, -, -, -⟩ :=
              split_run t.nodes leaf l rc.Key record hl hwl.loc hlleaf hnum2 hkey
            rw [hsp2] at hsp
            simp only [Option.some.injEq, Prod.mk.injEq] at hsp
            obtain ⟨rfl, rfl⟩ := hsp
            have hl1pos : 1 ≤ l1.NumKeys := by rw [c1]; decide
            have hnnpos : 1 ≤ nn.NumKeys := by rw [c2]; decide
            have hA := Inv_set_leaf ⟨hwf, hfull, ht, hht⟩ hl hlleaf a1 a2 a3
              (fun _ => hl1pos) (fun h0 => by omega)
            obtain ⟨hwfA, hfullA, -⟩ := hA
            have hhtA : Heights (t.nodes.set leaf l1) ht := by
              intro a n1 ha
              rw [set_lookup l1 hl] at ha
              split at ha
              · rename_i hal; subst hal
                simp only [Option.some.injEq] at ha; subst ha
                exact ⟨fun _ => (hht a l hl).1 hlleaf, fun e => by rw [a1] at e; simp at e⟩
              · exact hht a n1 ha
            have hx := @append_leaf_extra { t with nodes := t.nodes.set leaf l1 } none nn ht hwfA
              hfullA hhtA b1 hnnpos
            have hlen : (t.nodes.set leaf l1).length = t.nodes.length := by simp
            have hfe := insertIntoParent_extra _ _ leaf t.nodes.length l1 nn k2 t2
              (leafSplit_InsPre hwf hl hlleaf hlinked a1 a2 a3 hl1pos b1 b2 b3) hx.1
              (fun _ => hl1pos) (fun _ => hnnpos)
              ⟨_, hx.2, by
                have hll : leaf < t.nodes.length := (List.getElem?_eq_some.mp hl).1
                simp only [hlen, if_true, Nat.ne_of_lt hll, if_false]
                exact ((hht leaf l hl).1 hlleaf).symm⟩ hpar
            exact ⟨hwf1, hfe.1, hfe.2⟩
        · simp at hi
/-- The empty tree satisfies the invariant. -/
theorem NewTree_Inv : NewTree.Inv := by
  refine ⟨⟨?_, ?_⟩, ?_, ⟨fun _ => 0, ?_⟩⟩
  · intro a n h; simp [NewTree] at h
  · intro r h; simp [NewTree] at h
  · intro a n h; simp [NewTree] at h
  · intro a n h; simp [NewTree] at h

/-- Every call on a tree keeps the invariant. -/
theorem TreeState.step_Inv {s s1 : TreeState} {c : TreeCall} {e : Option Error}
    (h : s.t.Inv) (hs : s.step c = some (s1, e)) : s1.t.Inv := by
  cases c with
  | Insert record =>
    simp only [TreeState.step] at hs
    split at hs
    · simp at hs
    · rename_i t1 err hi
      simp only [Option.some.injEq, Prod.mk.injEq] at hs
      obtain ⟨rfl, -⟩ := hs
      exact Insert_Inv h hi
  | Delete key =>
    simp only [TreeState.step] at hs
    split at hs
    · simp at hs
    · rename_i t1 recs1 ui1 err hd
      simp only [Option.some.injEq, Prod.mk.injEq] at hs
      obtain ⟨rfl, -⟩ := hs
      exact Delete_Inv h hd

/-- Every tree built from the empty tree by `Insert` and `Delete` calls
satisfies the invariant. -/
theorem TreeState.run_Inv : ∀ (calls : List TreeCall) (s s1 : TreeState), s.t.Inv →
    s.run calls = some s1 → s1.t.Inv := by
  intro calls
  induction calls with
  | nil =>
    intro s s1 h hr
    simp only [TreeState.run, Option.some.injEq] at hr
    subst hr; exact h
  | cons c rest ih =>
    intro s s1 h hr
    simp only [TreeState.run] at hr
    split at hr
    · simp at hr
    · rename_i s2 e hs
      exact ih s2 s1 (TreeState.step_Inv h hs) hr

/-- The trees of `TreeState.run` from the empty state. -/
theorem reachable_Inv {calls : List TreeCall} {s : TreeState}
    (h : TreeState.run {} calls = some s) : s.t.Inv :=
  TreeState.run_Inv calls {} s NewTree_Inv h

/-! ## Entry counts of the nodes (C26) -/

/-- C26, the counterexample: after the inserts of keys 1, 2, 3 the root is the
internal node at address 2, and the leaf at address 0, which is not the root,
holds one entry, fewer than `ceil(order/2) = 2`; after the deletes of keys 1
and 2 it holds none and is still the only child of the root. -/
theorem leaf_below_half :
    ((TreeState.run {} threeKeys).map fun s =>
      (s.t.Root, s.t.nodes.map fun n => (n.IsLeaf, n.Parent, n.NumKeys)))
      = some (some 2, [(true, some 2, 1), (true, some 2, 2), (false, none, 2)]) ∧
    ((TreeState.run {} emptiedLeafInput).map fun s =>
      (s.t.Root, (s.t.nodes[0]?).map (fun n => (n.IsLeaf, n.Parent, n.NumKeys)),
        (s.t.nodes[2]?).map (fun n => n.liveChildren)))
      = some (some 2, some (true, some 2, 0), some [Ptr.node 0]) ∧
    (order + 1) / 2 = 2 :=
  ⟨rfl, rfl, rfl⟩

/-- C26, amended: in every tree built from the empty tree by `Insert` and
`Delete` calls, every node holds at most `order-1` entries, every internal
node holds at least one child, the root holds at least one entry, and a leaf
held by a node with two children holds at least one entry. -/
theorem node_entry_bounds (calls : List TreeCall) (s : TreeState)
    (h : TreeState.run {} calls = some s) :
    (∀ (a : Nat) (n : Node), s.t.nodes[a]? = some n →
      n.NumKeys ≤ order - 1 ∧ (n.IsLeaf = false → 1 ≤ n.NumKeys)) ∧
    (∀ r : Nat, s.t.Root = some r → ∃ rn, s.t.nodes[r]? = some rn ∧ 1 ≤ rn.NumKeys) ∧
    (∀ (a : Nat) (n : Node), s.t.nodes[a]? = some n → n.IsLeaf = false → n.NumKeys = 2 →
      ∀ (c : Nat) (cn : Node), Ptr.node c ∈ n.liveChildren → s.t.nodes[c]? = some cn →
        cn.IsLeaf = true → 1 ≤ cn.NumKeys) := by
  have hinv := reachable_Inv h
  refine ⟨?_, ?_, hinv.2.1⟩
  · intro a n ha
    have hw := (hinv.1.1 a n ha).1
    exact ⟨hw.loc.2.2.1, hw.numPos⟩
  · intro r hr
    obtain ⟨rn, hrn, -, hnum⟩ := hinv.1.2 r hr
    exact ⟨rn, hrn, hnum⟩

/-- C26, amended, on the tree with keys 1, 2, 3. -/
theorem node_entry_bounds_witness :
    ∃ s, TreeState.run {} threeKeys = some s ∧
      (∀ (a : Nat) (n : Node), s.t.nodes[a]? = some n →
        n.NumKeys ≤ order - 1 ∧ (n.IsLeaf = false → 1 ≤ n.NumKeys)) ∧
      (∀ r : Nat, s.t.Root = some r → ∃ rn, s.t.nodes[r]? = some rn ∧ 1 ≤ rn.NumKeys) ∧
      (∀ (a : Nat) (n : Node), s.t.nodes[a]? = some n → n.IsLeaf = false → n.NumKeys = 2 →
        ∀ (c : Nat) (cn : Node), Ptr.node c ∈ n.liveChildren → s.t.nodes[c]? = some cn →
          cn.IsLeaf = true → 1 ≤ cn.NumKeys) := by
  have hs : (TreeState.run {} threeKeys).isSome = true := rfl
  exact ⟨Option.get _ hs, (Option.some_get hs).symm,
    node_entry_bounds threeKeys (Option.get _ hs) (Option.some_get hs).symm⟩
/-! ## Key order inside the nodes (C27) -/

/-- C27, the counterexample, in three runs.  After the inserts of keys 1, 2, 3
and the delete of key 3, the leaf at address 1 holds the key 2 alone and the
root (address 2) still stores the separator 3 for it.  After the inserts of
keys 1, 2, 3, the deletes of keys 2 and 3 and the insert of key 5, the leaf at
address 0 holds the keys 1 and 5 and the root stores the separator 1 for it.
After the eighteen calls of `unorderedNodeInput`, every one of which returns
nil, the internal node at address 18, the first child of the root, holds the
keys 11 and 10 in this order. -/
theorem separator_and_node_order_fail :
    (TreeState.run {} staleSeparatorInput).map (fun s =>
      (s.t.Root, (s.t.nodes[1]?).map (fun n => (n.IsLeaf, n.Parent, n.liveKeys)),
        (s.t.nodes[2]?).map (fun n => (n.liveChildren, n.liveKeys))))
      = some (some 2, some (true, some 2, [2]),
          some ([Ptr.node 0, Ptr.node 1], [1, 3])) ∧
    (TreeState.run {} smallSeparatorInput).map (fun s =>
      (s.t.Root, (s.t.nodes[0]?).map (fun n => (n.IsLeaf, n.Parent, n.liveKeys)),
        (s.t.nodes[2]?).map (fun n => (n.liveChildren, n.liveKeys))))
      = some (some 2, some (true, some 2, [1, 5]), some ([Ptr.node 0], [1])) ∧
    TreeState.results {} unorderedNodeInput = some (List.replicate 18 none) ∧
    (TreeState.run {} unorderedNodeInput).map (fun s =>
      (s.t.Root,
        (s.t.nodes[25]?).map (fun n => (n.IsLeaf, n.Parent, n.liveChildren, n.liveKeys)),
        (s.t.nodes[18]?).map (fun n => (n.IsLeaf, n.Parent, n.liveChildren, n.liveKeys))))
      = some (some 25, some (false, none, [Ptr.node 18, Ptr.node 24], [10, 13]),
          some (false, some 25, [Ptr.node 10, Ptr.node 23], [11, 10])) :=
  ⟨rfl, rfl, rfl, rfl⟩

/-- C27, amended: in every tree built from the empty tree by `Insert` and
`Delete` calls, the keys every leaf holds strictly increase. -/
theorem leaf_keys_increase (calls : List TreeCall) (s : TreeState)
    (h : TreeState.run {} calls = some s) :
    ∀ (a : Nat) (n : Node), s.t.nodes[a]? = some n → n.IsLeaf = true →
      n.liveKeys.Pairwise (fun x y => x < y) := by
  intro a n ha hl
  exact ((reachable_Inv h).1.1 a n ha).1.loc.2.2.2 hl

/-- C27, amended, on the tree with keys 1, 2, 3 after the delete of key 3. -/
theorem leaf_keys_increase_witness :
    ∃ s, TreeState.run {} staleSeparatorInput = some s ∧
      ∀ (a : Nat) (n : Node), s.t.nodes[a]? = some n → n.IsLeaf = true →
        n.liveKeys.Pairwise (fun x y => x < y) := by
  have hs : (TreeState.run {} staleSeparatorInput).isSome = true := rfl
  exact ⟨Option.get _ hs, (Option.some_get hs).symm,
    leaf_keys_increase staleSeparatorInput (Option.get _ hs) (Option.some_get hs).symm⟩
/-! ## `ErrNoSuchChild` does not occur (C34) -/

/-- C34: in every tree built from the empty tree by `Insert` and `Delete`
calls, for every key that `Find` finds with a record not marked deleted,
`deleteEntry` on the leaf of the key returns nil (none of its `ErrNoSuchChild`
branches is taken, and it does not panic), and `Delete` returns nil. -/
theorem Delete_present_returns_nil (calls : List TreeCall) (s : TreeState) (key : Int) (r : Nat)
    (record : Record) (h : TreeState.run {} calls = some s)
    (hfind : s.t.Find key = some (.ok r)) (hrec : s.recs[r]? = some record)
    (hdel : record.deleted = false) :
    ∃ (t1 : Tree) (leaf : Nat), s.t.findLeaf key = some (some leaf) ∧
      Tree.deleteEntry (s.t.nodes.length + 1) s.t leaf key (Ptr.record r) = some (t1, none) ∧
      ∃ s1, s.step (TreeCall.Delete key) = some (s1, none) ∧ s1.t = t1 := by
  obtain ⟨t1, leaf, l, hfl, -, hde, hrun, -⟩ :=
    Delete_run s.ui (reachable_Inv h) hfind hrec hdel
  refine ⟨t1, leaf, hfl, hde, ?_⟩
  simp only [TreeState.step, hrun]
  exact ⟨_, rfl, rfl⟩

/-- C34, on the tree with keys 1, 2, 3: `Delete(1)`, which empties the first
leaf and merges it with its sibling, returns nil. -/
theorem Delete_present_returns_nil_witness :
    ∃ s, TreeState.run {} threeKeys = some s ∧ s.t.Find 1 = some (.ok 0) ∧
      ∃ (t1 : Tree) (leaf : Nat), s.t.findLeaf 1 = some (some leaf) ∧
        Tree.deleteEntry (s.t.nodes.length + 1) s.t leaf 1 (Ptr.record 0) = some (t1, none) ∧
        ∃ s1, s.step (TreeCall.Delete 1) = some (s1, none) ∧ s1.t = t1 := by
  have hs : (TreeState.run {} threeKeys).isSome = true := rfl
  exact ⟨Option.get _ hs, (Option.some_get hs).symm, rfl,
    Delete_present_returns_nil threeKeys (Option.get _ hs) 1 0 { Key := 1, Value := ["a"] }
      (Option.some_get hs).symm rfl rfl rfl⟩
/-! ## The root (C35) -/

/-- `Find` on a tree whose root is nil fails for every key. -/
theorem Find_of_no_root {t : Tree} (h : t.Root = none) (key : Int) :
    t.Find key = some (.error .ErrKeyNotFound) := by
  simp [Tree.Find, Tree.findLeaf, h]

/-- C35: in every tree built from the empty tree by `Insert` and `Delete`
calls the root is nil or holds at least one entry; when the root is nil `Find`
fails for every key; and a `Delete` of a key that `Find` finds (record not
marked deleted) sets `Root` to nil when the root is the leaf of the key and
holds this one entry, and leaves `Root` as it is otherwise. -/
theorem root_nil_or_nonempty (calls : List TreeCall) (s : TreeState)
    (h : TreeState.run {} calls = some s) :
    (∀ r : Nat, s.t.Root = some r → ∃ rn, s.t.nodes[r]? = some rn ∧ 1 ≤ rn.NumKeys) ∧
    (s.t.Root = none → ∀ key : Int, s.t.Find key = some (.error .ErrKeyNotFound)) ∧
    ∀ (key : Int) (r : Nat) (record : Record), s.t.Find key = some (.ok r) →
      s.recs[r]? = some record → record.deleted = false →
      ∃ (s1 : TreeState) (leaf : Nat) (l : Node), s.step (TreeCall.Delete key) = some (s1, none) ∧
        s.t.findLeaf key = some (some leaf) ∧ s.t.nodes[leaf]? = some l ∧
        (s.t.Root = some leaf → l.NumKeys = 1 → s1.t.Root = none) ∧
        (¬ (s.t.Root = some leaf ∧ l.NumKeys = 1) → s1.t.Root = s.t.Root) := by
  have hinv := reachable_Inv h
  refine ⟨?_, fun hr key => Find_of_no_root hr key, ?_⟩
  · intro r hr
    obtain ⟨rn, hrn, -, hnum⟩ := hinv.1.2 r hr
    exact ⟨rn, hrn, hnum⟩
  · intro key r record hfind hrec hdel
    obtain ⟨t1, leaf, l, hfl, hl, -, hrun, -, -, -, h4, h5⟩ :=
      Delete_run s.ui hinv hfind hrec hdel
    have hstep : ∃ s1, s.step (TreeCall.Delete key) = some (s1, none) ∧ s1.t = t1 := by
      simp only [TreeState.step, hrun]
      exact ⟨_, rfl, rfl⟩
    obtain ⟨s1, hs1, rfl⟩ := hstep
    exact ⟨s1, leaf, l, hs1, hfl, hl, h4, h5⟩

/-- C35, on the tree with the one key 1: `Delete(1)` sets `Root` to nil, and
`Find` then fails. -/
theorem root_nil_or_nonempty_witness :
    ∃ s s1, TreeState.run {} [TreeCall.Insert { Key := 1, Value := ["a"] }] = some s ∧
      s.t.Root = some 0 ∧ s.step (TreeCall.Delete 1) = some (s1, none) ∧ s1.t.Root = none ∧
      s1.t.Find 1 = some (.error .ErrKeyNotFound) ∧
      (∀ r : Nat, s.t.Root = some r → ∃ rn, s.t.nodes[r]? = some rn ∧ 1 ≤ rn.NumKeys) := by
  have hs : (TreeState.run {} [TreeCall.Insert { Key := 1, Value := ["a"] }]).isSome = true := rfl
  have hd : ((Option.get _ hs).step (TreeCall.Delete 1)).isSome = true := rfl
  exact ⟨Option.get _ hs, (Option.get _ hd).1, (Option.some_get hs).symm, rfl, rfl, rfl, rfl,
    (root_nil_or_nonempty _ (Option.get _ hs) (Option.some_get hs).symm).1⟩
/-! ## Balance and parent pointers (C38) -/

/-- Along a descent the height drops by one at each step. -/
theorem Descends_height {nodes : List Node} {ht : Nat → Nat} (hht : Heights nodes ht)
    {a b d : Nat} (h : Descends nodes a b d) : ht a = ht b + d := by
  induction h with
  | here => rfl
  | step _ hn hl hc ih =>
    have := (hht _ _ hn).2 hl _ hc
    omega

/-- C38: in every tree built from the empty tree by `Insert` and `Delete`
calls, any two leaves reached from the root are reached by the same number of
steps, and every child an internal node holds is a node whose `Parent` is
that internal node. -/
theorem leaves_at_one_depth (calls : List TreeCall) (s : TreeState)
    (h : TreeState.run {} calls = some s) :
    (∀ (r l1 l2 d1 d2 : Nat) (n1 n2 : Node), s.t.Root = some r →
      Descends s.t.nodes r l1 d1 → Descends s.t.nodes r l2 d2 →
      s.t.nodes[l1]? = some n1 → n1.IsLeaf = true →
      s.t.nodes[l2]? = some n2 → n2.IsLeaf = true → d1 = d2) ∧
    (∀ (a c : Nat) (n : Node), s.t.nodes[a]? = some n → n.IsLeaf = false →
      Ptr.node c ∈ n.liveChildren → ∃ cn, s.t.nodes[c]? = some cn ∧ cn.Parent = some a) := by
  have hinv := reachable_Inv h
  refine ⟨?_, ?_⟩
  · intro r l1 l2 d1 d2 n1 n2 _ hd1 hd2 hn1 hl1 hn2 hl2
    obtain ⟨ht, hht⟩ := hinv.2.2
    have e1 := Descends_height hht hd1
    have e2 := Descends_height hht hd2
    have z1 := (hht l1 n1 hn1).1 hl1
    have z2 := (hht l2 n2 hn2).1 hl2
    omega
  · intro a c n ha hl hc
    obtain ⟨k, hk⟩ := (hinv.1.1 a n ha).1.children hl
    obtain ⟨c1, cn, hc1, hcn, hcp, -⟩ := hk _ hc
    simp only [Ptr.node.injEq] at hc1
    subst hc1
    exact ⟨cn, hcn, hcp⟩

/-- C38, on the tree with keys 1, 2, 3: both leaves are one step below the
root. -/
theorem leaves_at_one_depth_witness :
    ∃ s, TreeState.run {} threeKeys = some s ∧ s.t.Root = some 2 ∧
      Descends s.t.nodes 2 0 1 ∧ Descends s.t.nodes 2 1 1 ∧
      (∀ (r l1 l2 d1 d2 : Nat) (n1 n2 : Node), s.t.Root = some r →
        Descends s.t.nodes r l1 d1 → Descends s.t.nodes r l2 d2 →
        s.t.nodes[l1]? = some n1 → n1.IsLeaf = true →
        s.t.nodes[l2]? = some n2 → n2.IsLeaf = true → d1 = d2) ∧
      (∀ (a c : Nat) (n : Node), s.t.nodes[a]? = some n → n.IsLeaf = false →
        Ptr.node c ∈ n.liveChildren → ∃ cn, s.t.nodes[c]? = some cn ∧ cn.Parent = some a) := by
  have hs : (TreeState.run {} threeKeys).isSome = true := rfl
  have hr : ((Option.get _ hs).t.nodes[2]?).isSome = true := rfl
  have hc : (Option.get _ hr).liveChildren = [Ptr.node 0, Ptr.node 1] := rfl
  have h := leaves_at_one_depth threeKeys (Option.get _ hs) (Option.some_get hs).symm
  exact ⟨Option.get _ hs, (Option.some_get hs).symm, rfl,
    Descends.step (Descends.here 2) (Option.some_get hr).symm rfl (by rw [hc]; simp),
    Descends.step (Descends.here 2) (Option.some_get hr).symm rfl (by rw [hc]; simp), h.1, h.2⟩

/-! ## Logs whose maps `Append` alone touches: what a call reclaims and keeps -/

theorem removeItem_index_lt (k : Nat) (items : List UndoLogItem) (j : Nat)
    (h : k ∈ items.map fun item => item.id) :
    removeItem.index k items j < j + items.length := by
  induction items generalizing j with
  | nil => simp at h
  | cons a rest ih =>
    unfold removeItem.index
    by_cases ha : k = a.id
    · simp [ha]
    · simp only [ha, if_false]
      have hm : k ∈ rest.map fun item => item.id := by
        simp only [List.map_cons, List.mem_cons] at h
        rcases h with h | h
        · exact absurd h ha
        · exact h
      have := ih (j + 1) hm
      simp only [List.length_cons]
      omega

/-- Erasing the first item of a given id from a list of items with distinct
ids leaves the items of the other ids. -/
theorem eraseIdx_index_filter (k : Nat) (items : List UndoLogItem) (j : Nat)
    (hnd : (items.map fun item => item.id).Nodup)
    (hlt : removeItem.index k items j < j + items.length) :
    items.eraseIdx (removeItem.index k items j - j)
      = items.filter (fun item => decide (item.id ≠ k)) := by
  induction items generalizing j with
  | nil => simp [removeItem.index] at hlt
  | cons a rest ih =>
    simp only [List.map_cons, List.nodup_cons] at hnd
    unfold removeItem.index at hlt ⊢
    by_cases ha : k = a.id
    · simp only [ha, if_true, Nat.sub_self, List.eraseIdx_cons_zero]
      have hrest : ∀ item ∈ rest, item.id ≠ a.id := by
        intro item hm e
        apply hnd.1
        rw [← e]
        exact List.mem_map_of_mem (fun item => item.id) hm
      rw [List.filter_cons]
      simp only [ne_eq, not_true_eq_false, decide_False, Bool.false_eq_true, if_false]
      symm
      apply List.filter_eq_self.mpr
      intro item hm
      simpa using hrest item hm
    · simp only [ha, if_false] at hlt ⊢
      have hge := removeItem_index_ge k rest (j + 1)
      have hsub : removeItem.index k rest (j + 1) - j
          = (removeItem.index k rest (j + 1) - (j + 1)) + 1 := by omega
      rw [hsub, List.eraseIdx_cons_succ, ih (j + 1) hnd.2 (by simp at hlt; omega)]
      have : decide (a.id ≠ k) = true := by simpa using fun e => ha e.symm
      rw [List.filter_cons, this]
      simp

/-- `removeItem` on an item of a consistent log: it returns, and the log loses
exactly that item. -/
theorem removeItem_run (l : UndoLog) (item : UndoLogItem) (hc : l.Consistent)
    (hmem : item ∈ l.items) :
    ∃ l1, l.removeItem item = some l1 ∧ l1.Consistent ∧ l1.idCounter = l.idCounter ∧
      l1.affectTxItems = l.affectTxItems ∧
      l1.items = l.items.filter (fun it => decide (it.id ≠ item.id)) := by
  have hnd := hc.1
  have hlt := removeItem_index_lt item.id l.items 0 (List.mem_map_of_mem (fun it => it.id) hmem)
  obtain ⟨cache1, hr1, -⟩ := removeItem_records_agrees item.id (item.records.map Prod.fst)
    l.recordsCache (fun rid => history rid l.items) hc.2.2.2
  have hrun : l.removeItem item = some (UndoLog.mk
      (l.items.eraseIdx (removeItem.index item.id l.items 0)) l.idCounter cache1
      l.affectTxItems) := by
    unfold UndoLog.removeItem
    simp only [hr1]
    have : removeItem.index item.id l.items 0 + 1 ≤ l.items.length := by omega
    simp [this]
  have heq : ∀ item1 ∈ l.items, item1.id = item.id → item1 = item := by
    intro item1 hm1 he
    have := List.inj_on_of_nodup_map hnd hm1 hmem he
    exact this
  have hcons := removeItem_Consistent l _ item hc heq hrun
  refine ⟨_, hrun, hcons.1, rfl, rfl, ?_⟩
  have := eraseIdx_index_filter item.id l.items 0 hnd hlt
  simpa using this
theorem set_getElem?_eq {α : Type} (xs : List α) (i a : Nat) (v : α) (hi : i < xs.length) :
    (xs.set i v)[a]? = if a = i then some v else xs[a]? := by
  by_cases h : a = i
  · subst h
    simp [hi]
  · simp only [h, if_false]
    rw [List.getElem?_set_ne (Ne.symm h)]

/-- The first loop of `Append` on items of a consistent log with distinct ids:
it returns, the id is deleted from the map of each of the items, and the log
loses the items whose map became empty. -/
theorem release_run (txID : Int) (its : List UndoLogItem) (maps : List TxSet) (l : UndoLog)
    (hc : l.Consistent) (hmem : ∀ X ∈ its, X ∈ l.items)
    (hnd : (its.map fun X => X.id).Nodup)
    (haddr : ∀ X ∈ its, X.mayAffectedTxIDs < maps.length) :
    ∃ maps1 l1, Append.release txID its maps l = some (maps1, l1) ∧ l1.Consistent ∧
      l1.idCounter = l.idCounter ∧ l1.affectTxItems = l.affectTxItems ∧
      maps1.length = maps.length ∧
      (∀ a, maps1[a]? = if a ∈ its.map (fun X => X.mayAffectedTxIDs)
        then (maps[a]?).map (fun m => mapDel m txID) else maps[a]?) ∧
      l1.items = l.items.filter (fun Y => !(decide (Y.id ∈ its.map (fun X => X.id)) &&
        decide ((mapDel ((maps[Y.mayAffectedTxIDs]?).getD []) txID).length = 0))) := by
  induction its generalizing maps l with
  | nil =>
    refine ⟨maps, l, rfl, hc, rfl, rfl, rfl, fun a => by simp, ?_⟩
    simp
  | cons X rest ih =>
    have hX := haddr X (List.mem_cons_self _ _)
    have hXm := hmem X (List.mem_cons_self _ _)
    simp only [List.map_cons, List.nodup_cons] at hnd
    obtain ⟨hXn, hndr⟩ := hnd
    have hg : maps[X.mayAffectedTxIDs]? = some (maps[X.mayAffectedTxIDs]) :=
      List.getElem?_eq_getElem hX
    generalize hm : maps[X.mayAffectedTxIDs] = m at hg
    have hinj : ∀ Y ∈ l.items, Y.id = X.id → Y = X := fun Y hY he =>
      List.inj_on_of_nodup_map hc.1 hY hXm he
    have hlen : ((maps.set X.mayAffectedTxIDs (mapDel m txID))).length = maps.length := by simp
    have haddr1 : ∀ Y ∈ rest, Y.mayAffectedTxIDs
        < (maps.set X.mayAffectedTxIDs (mapDel m txID)).length := fun Y hY => by
      rw [hlen]; exact haddr Y (List.mem_cons_of_mem _ hY)
    have hget : ∀ a, (maps.set X.mayAffectedTxIDs (mapDel m txID))[a]?
        = if a = X.mayAffectedTxIDs then some (mapDel m txID) else maps[a]? :=
      fun a => set_getElem?_eq maps _ a _ hX
    have hemp : ∀ Y : UndoLogItem,
        mapDel (((maps.set X.mayAffectedTxIDs (mapDel m txID))[Y.mayAffectedTxIDs]?).getD [])
          txID = mapDel ((maps[Y.mayAffectedTxIDs]?).getD []) txID := by
      intro Y
      rw [hget]
      by_cases hY : Y.mayAffectedTxIDs = X.mayAffectedTxIDs
      · simp only [hY, if_true, Option.getD_some, hg]
        exact mapDel_mapDel m txID
      · simp only [hY, if_false]
    have hmaps : ∀ (maps1 : List TxSet),
        (∀ a, maps1[a]? = if a ∈ rest.map (fun X => X.mayAffectedTxIDs)
          then ((maps.set X.mayAffectedTxIDs (mapDel m txID))[a]?).map (fun m => mapDel m txID)
          else (maps.set X.mayAffectedTxIDs (mapDel m txID))[a]?) →
        ∀ a, maps1[a]? = if a ∈ (X :: rest).map (fun X => X.mayAffectedTxIDs)
          then (maps[a]?).map (fun m => mapDel m txID) else maps[a]? := by
      intro maps1 h a
      rw [h a, hget a]
      by_cases ha : a = X.mayAffectedTxIDs
      · subst ha
        simp only [if_true, List.map_cons, List.mem_cons, true_or, hg, Option.map_some']
        split
        · rw [mapDel_mapDel]
        · rfl
      · simp only [ha, if_false, List.map_cons, List.mem_cons, false_or]
    unfold Append.release
    simp only [hg, wr, hX, if_true]
    by_cases h0 : (mapDel m txID).length = 0
    · simp only [h0, if_true]
      obtain ⟨l2, hr, hc2, hid2, haf2, hit2⟩ := removeItem_run l X hc hXm
      simp only [hr]
      have hmem2 : ∀ Y ∈ rest, Y ∈ l2.items := by
        intro Y hY
        rw [hit2, List.mem_filter]
        refine ⟨hmem Y (List.mem_cons_of_mem _ hY), ?_⟩
        simp only [ne_eq, decide_not, Bool.not_eq_true', decide_eq_false_iff_not]
        intro he
        exact hXn (he ▸ List.mem_map_of_mem (fun X => X.id) hY)
      obtain ⟨maps1, l1, hrun, hc1, hid1, haf1, hlen1, hm1, hit1⟩ :=
        ih (maps.set X.mayAffectedTxIDs (mapDel m txID)) l2 hc2 hmem2 hndr haddr1
      refine ⟨maps1, l1, hrun, hc1, hid1.trans hid2, haf1.trans haf2, hlen1.trans hlen,
        hmaps maps1 hm1, ?_⟩
      rw [hit1, hit2, List.filter_filter]
      apply List.filter_congr
      intro Y hY
      rw [hemp Y]
      by_cases he : Y.id = X.id
      · have := hinj Y hY he
        subst this
        simp [hg, h0]
      · simp [he]
    · simp only [h0, if_false]
      obtain ⟨maps1, l1, hrun, hc1, hid1, haf1, hlen1, hm1, hit1⟩ :=
        ih (maps.set X.mayAffectedTxIDs (mapDel m txID)) l hc
          (fun Y hY => hmem Y (List.mem_cons_of_mem _ hY)) hndr haddr1
      refine ⟨maps1, l1, hrun, hc1, hid1, haf1, hlen1.trans hlen, hmaps maps1 hm1, ?_⟩
      rw [hit1]
      apply List.filter_congr
      intro Y hY
      rw [hemp Y]
      by_cases he : Y.id = X.id
      · have := hinj Y hY he
        subst this
        have hn : ¬ Y.id ∈ rest.map (fun X => X.id) := hXn
        simp [hg, h0, hn]
      · simp [he]
theorem mapDel_keys {κ ν : Type} [DecidableEq κ] (m : List (κ × ν)) (k : κ) :
    (mapDel m k).map Prod.fst = (m.map Prod.fst).filter (fun u => decide (u ≠ k)) := by
  induction m with
  | nil => rfl
  | cons x rest ih =>
    obtain ⟨k1, v1⟩ := x
    unfold mapDel
    by_cases h : k1 = k
    · simp [h, ih]
    · simp [h, ih]

theorem map_eq_nil_of_mapGet {κ ν : Type} [DecidableEq κ] (m : List (κ × ν))
    (h : ∀ k, mapGet m k = none) : m = [] := by
  cases m with
  | nil => rfl
  | cons x rest =>
    obtain ⟨k1, v1⟩ := x
    have := h k1
    simp [mapGet] at this

/-- The loop of `Append` that files the new item, on distinct ids: the item is
put at the end of the list of each of the ids. -/
theorem register_get (item : UndoLogItem) (tids : List Int)
    (affect : List (Int × List UndoLogItem)) (tid : Int) (hnd : tids.Nodup) :
    mapGet (Append.register item tids affect) tid
      = if tid ∈ tids then some ((mapGet affect tid).getD [] ++ [item])
        else mapGet affect tid := by
  induction tids generalizing affect with
  | nil => simp [Append.register]
  | cons t rest ih =>
    simp only [List.nodup_cons] at hnd
    unfold Append.register
    cases hg : mapGet affect t with
    | none =>
      simp only []
      rw [ih _ hnd.2, mapGet_mapSet]
      by_cases h : tid = t
      · subst h
        simp [hnd.1, hg]
      · simp [h]
    | some its =>
      simp only []
      rw [ih _ hnd.2, mapGet_mapSet]
      by_cases h : tid = t
      · subst h
        simp [hnd.1, hg]
      · simp [h]

theorem TxSet.ofList_nodup (ids : List Int) : ((TxSet.ofList ids).map Prod.fst).Nodup := by
  unfold TxSet.ofList
  suffices h : ∀ (acc : TxSet), (acc.map Prod.fst).Nodup →
      ((ids.foldl (fun m k => mapSet m k true) acc).map Prod.fst).Nodup from h [] (by simp)
  induction ids with
  | nil => intro acc h; simpa using h
  | cons k rest ih =>
    intro acc h
    simp only [List.foldl_cons]
    exact ih _ (mapSet_keys_nodup acc k true h)

theorem mem_keys_mapSet {κ ν : Type} [DecidableEq κ] (m : List (κ × ν)) (k j : κ) (v : ν) :
    j ∈ (mapSet m k v).map Prod.fst ↔ j = k ∨ j ∈ m.map Prod.fst := by
  induction m with
  | nil => simp [mapSet]
  | cons x rest ih =>
    obtain ⟨k1, v1⟩ := x
    unfold mapSet
    by_cases h : k1 = k
    · subst h
      simp
    · simp only [h, if_false, List.map_cons, List.mem_cons, ih]
      tauto

/-- The keys of the map made from a list are the elements of the list. -/
theorem TxSet.mem_ofList (ids : List Int) (j : Int) :
    j ∈ (TxSet.ofList ids).map Prod.fst ↔ j ∈ ids := by
  unfold TxSet.ofList
  suffices h : ∀ (acc : TxSet),
      j ∈ ((ids.foldl (fun m k => mapSet m k true) acc).map Prod.fst)
        ↔ j ∈ ids ∨ j ∈ acc.map Prod.fst from by simpa using h []
  induction ids with
  | nil => intro acc; simp
  | cons k rest ih =>
    intro acc
    simp only [List.foldl_cons, ih, mem_keys_mapSet, List.mem_cons]
    tauto
theorem pending_ne_nil_iff (maps : List TxSet) (X : UndoLogItem) (txID : Int) :
    (mapDel ((maps[X.mayAffectedTxIDs]?).getD []) txID).length = 0
      ↔ (pending maps X).filter (fun u => decide (u ≠ txID)) = [] := by
  unfold pending
  rw [← mapDel_keys, List.map_eq_nil_iff, List.length_eq_zero]

/-- What the release of `txID` leaves: the invariant again, when the maps lost
`txID` alone, the log the items whose map became empty, and `affectTxItems`
the list of `txID`. -/
theorem LogInv_released (maps maps1 : List TxSet) (l l1 : UndoLog) (txID : Int)
    (hinv : LogInv maps l) (hc1 : l1.Consistent) (hlen : maps1.length = maps.length)
    (hnd1 : ∀ m ∈ maps1, (m.map Prod.fst).Nodup)
    (hpend : ∀ X ∈ l.items,
      pending maps1 X = (pending maps X).filter (fun u => decide (u ≠ txID)))
    (hitems : l1.items = l.items.filter (fun X => decide (pending maps1 X ≠ [])))
    (haff : ∀ tid, mapGet l1.affectTxItems tid
      = if tid = txID then none else mapGet l.affectTxItems tid) :
    LogInv maps1 l1 := by
  obtain ⟨hc, hsort, hnd, hit, hfile, hfiled⟩ := hinv
  have hmem : ∀ X, X ∈ l1.items ↔ X ∈ l.items ∧ pending maps1 X ≠ [] := by
    intro X
    rw [hitems, List.mem_filter]
    simp
  refine ⟨hc1, ?_, hnd1, ?_, ?_, ?_⟩
  · rw [hitems]
    exact hsort.sublist ((List.filter_sublist _).map _)
  · intro X hX
    obtain ⟨hX1, hX2⟩ := (hmem X).mp hX
    exact ⟨hlen ▸ (hit X hX1).1, hX2⟩
  · intro tid its hg
    rw [haff] at hg
    by_cases ht : tid = txID
    · simp [ht] at hg
    · simp only [ht, if_false] at hg
      obtain ⟨h1, h2, h3⟩ := hfile tid its hg
      refine ⟨h1, h2, fun X hX => ?_⟩
      obtain ⟨hX1, hX2⟩ := h3 X hX
      have : tid ∈ pending maps1 X := by
        rw [hpend X hX1, List.mem_filter]
        exact ⟨hX2, by simpa using ht⟩
      exact ⟨(hmem X).mpr ⟨hX1, List.ne_nil_of_mem this⟩, this⟩
  · intro X hX tid ht
    obtain ⟨hX1, -⟩ := (hmem X).mp hX
    rw [hpend X hX1, List.mem_filter] at ht
    obtain ⟨its, h1, h2⟩ := hfiled X hX1 tid ht.1
    refine ⟨its, ?_, h2⟩
    rw [haff]
    have : tid ≠ txID := by simpa using ht.2
    simp [this, h1]

/-- The release of an id under which nothing is filed changes nothing. -/
theorem released_none (maps : List TxSet) (l : UndoLog) (txID : Int) (hinv : LogInv maps l)
    (hg : mapGet l.affectTxItems txID = none) :
    (∀ X ∈ l.items, pending maps X = (pending maps X).filter (fun u => decide (u ≠ txID))) ∧
      l.items = l.items.filter (fun X => decide (pending maps X ≠ [])) := by
  obtain ⟨hc, hsort, hnd, hit, hfile, hfiled⟩ := hinv
  constructor
  · intro X hX
    symm
    apply List.filter_eq_self.mpr
    intro u hu
    have : u ≠ txID := by
      intro e
      subst e
      obtain ⟨its, h1, -⟩ := hfiled X hX u hu
      rw [hg] at h1
      exact Option.noConfusion h1
    simpa using this
  · symm
    apply List.filter_eq_self.mpr
    intro X hX
    simpa using (hit X hX).2

/-- The release of an id under which items are filed: the loop returns, and
leaves the invariant, the maps without the id and the log without the items
whose map became empty. -/
theorem released_some (maps : List TxSet) (l : UndoLog) (txID : Int) (its : List UndoLogItem)
    (hinv : LogInv maps l) (hg : mapGet l.affectTxItems txID = some its) :
    ∃ maps1 l1, Append.release txID its maps l = some (maps1, l1) ∧
      LogInv maps1 (UndoLog.mk l1.items l1.idCounter l1.recordsCache
        (mapDel l1.affectTxItems txID)) ∧
      maps1.length = maps.length ∧ l1.idCounter = l.idCounter ∧
      (∀ b, (∀ X ∈ l.items, X.mayAffectedTxIDs ≠ b) → maps1[b]? = maps[b]?) ∧
      (∀ X ∈ l.items,
        pending maps1 X = (pending maps X).filter (fun u => decide (u ≠ txID))) ∧
      l1.items = l.items.filter (fun X => decide (pending maps1 X ≠ [])) := by
  have hinv0 := hinv
  obtain ⟨hc, hsort, hnd, hit, hfile, hfiled⟩ := hinv
  obtain ⟨hne, hnd2, hin⟩ := hfile txID its hg
  obtain ⟨maps1, l1, hrun, hc1, hid1, haf1, hlen1, hm1, hit1⟩ :=
    release_run txID its maps l hc (fun X hX => (hin X hX).1) hnd2
      (fun X hX => (hit X (hin X hX).1).1)
  have hinj : ∀ X ∈ l.items, ∀ Y ∈ l.items, X.id = Y.id → X = Y := fun X hX Y hY he =>
    List.inj_on_of_nodup_map hc.1 hX hY he
  have hpend : ∀ X ∈ l.items,
      pending maps1 X = (pending maps X).filter (fun u => decide (u ≠ txID)) := by
    intro X hX
    have hlt := (hit X hX).1
    have hgX : maps[X.mayAffectedTxIDs]? = some (maps[X.mayAffectedTxIDs]) :=
      List.getElem?_eq_getElem hlt
    by_cases ha : X.mayAffectedTxIDs ∈ its.map (fun X => X.mayAffectedTxIDs)
    · unfold pending
      rw [hm1, if_pos ha, hgX]
      simp only [Option.map_some', Option.getD_some]
      exact mapDel_keys _ _
    · have hp : pending maps1 X = pending maps X := by
        unfold pending
        rw [hm1, if_neg ha]
      rw [hp]
      symm
      apply List.filter_eq_self.mpr
      intro u hu
      have : u ≠ txID := by
        intro e
        subst e
        obtain ⟨its1, h1, h2⟩ := hfiled X hX u hu
        rw [hg] at h1
        cases h1
        exact ha (List.mem_map_of_mem (fun X => X.mayAffectedTxIDs) h2)
      simpa using this
  have hitems : l1.items = l.items.filter (fun X => decide (pending maps1 X ≠ [])) := by
    rw [hit1]
    apply List.filter_congr
    intro X hX
    have hiff := pending_ne_nil_iff maps X txID
    rw [← hpend X hX] at hiff
    by_cases hid : X.id ∈ its.map (fun X => X.id)
    · simp only [hid, decide_True, Bool.true_and]
      by_cases he : pending maps1 X = []
      · simp [he, hiff.mpr he]
      · have : ¬ (mapDel ((maps[X.mayAffectedTxIDs]?).getD []) txID).length = 0 :=
          fun h => he (hiff.mp h)
        simp [he, this]
    · simp only [hid, decide_False, Bool.false_and, Bool.not_false]
      have hnot : X ∉ its := fun h => hid (List.mem_map_of_mem (fun X => X.id) h)
      have hp : pending maps1 X = pending maps X := by
        rw [hpend X hX]
        apply List.filter_eq_self.mpr
        intro u hu
        have : u ≠ txID := by
          intro e
          subst e
          obtain ⟨its1, h1, h2⟩ := hfiled X hX u hu
          rw [hg] at h1
          cases h1
          exact hnot h2
        simpa using this
      rw [hp]
      simpa using (hit X hX).2
  have hndm : ∀ m ∈ maps1, (m.map Prod.fst).Nodup := by
    intro m hm
    obtain ⟨a, ha⟩ := List.mem_iff_getElem?.mp hm
    rw [hm1] at ha
    split at ha
    · cases hq : maps[a]? with
      | none => rw [hq] at ha; simp at ha
      | some m0 =>
        rw [hq] at ha
        simp only [Option.map_some', Option.some.injEq] at ha
        subst ha
        rw [mapDel_keys]
        exact (hnd m0 (List.mem_iff_getElem?.mpr ⟨a, hq⟩)).filter _
    · exact hnd m (List.mem_iff_getElem?.mpr ⟨a, ha⟩)
  have hcons : (UndoLog.mk l1.items l1.idCounter l1.recordsCache
      (mapDel l1.affectTxItems txID)).Consistent := by
    obtain ⟨c1, c2, c3, c4⟩ := hc1
    refine ⟨c1, c2, ?_, c4⟩
    intro tid its1 h1
    simp only [mapGet_mapDel] at h1
    split at h1
    · exact Option.noConfusion h1
    · exact c3 tid its1 h1
  refine ⟨maps1, l1, hrun, ?_, hlen1, hid1, ?_, hpend, hitems⟩
  · refine LogInv_released maps maps1 l _ txID hinv0 hcons hlen1 hndm hpend hitems ?_
    intro tid
    simp only [mapGet_mapDel, haf1]
  · intro b hb
    rw [hm1]
    have : b ∉ its.map (fun X => X.mayAffectedTxIDs) := by
      intro h
      obtain ⟨X, hX, rfl⟩ := List.mem_map.mp h
      exact hb X (hin X hX).1 rfl
    rw [if_neg this]
/-- Filing a new item, whose map is not empty, keeps the invariant. -/
theorem LogInv_filed (maps : List TxSet) (l l2 : UndoLog) (txID : Int)
    (records : List (Int × UndoRecord)) (x : Nat) (m : TxSet)
    (hinv : LogInv maps l) (hx : maps[x]? = some m) (hm : ¬ m.length = 0)
    (hc2 : l2.Consistent)
    (hitems : l2.items = l.items ++ [UndoLogItem.mk txID records x l.idCounter])
    (haff : l2.affectTxItems = Append.register (UndoLogItem.mk txID records x l.idCounter)
      (m.map Prod.fst) l.affectTxItems) :
    LogInv maps l2 := by
  obtain ⟨hc, hsort, hnd, hit, hfile, hfiled⟩ := hinv
  have hlt : x < maps.length := by
    rcases Nat.lt_or_ge x maps.length with h | h
    · exact h
    · rw [List.getElem?_eq_none h] at hx
      exact Option.noConfusion hx
  have hkeys : (m.map Prod.fst).Nodup := hnd m (List.mem_iff_getElem?.mpr ⟨x, hx⟩)
  have hpn : pending maps (UndoLogItem.mk txID records x l.idCounter) = m.map Prod.fst := by
    simp [pending, hx]
  have hmne : m.map Prod.fst ≠ [] := by
    intro h
    apply hm
    rw [List.map_eq_nil_iff] at h
    simp [h]
  refine ⟨hc2, ?_, hnd, ?_, ?_, ?_⟩
  · rw [hitems, List.map_append, List.pairwise_append]
    refine ⟨hsort, by simp, ?_⟩
    intro a ha b hb
    simp only [List.map_cons, List.map_nil, List.mem_singleton] at hb
    subst hb
    obtain ⟨X, hX, rfl⟩ := List.mem_map.mp ha
    exact (hc.2.1 X hX).1
  · intro X hX
    rw [hitems, List.mem_append, List.mem_singleton] at hX
    rcases hX with hX | rfl
    · exact hit X hX
    · exact ⟨hlt, by rw [hpn]; exact hmne⟩
  · intro tid its hg
    rw [haff, register_get _ _ _ _ hkeys] at hg
    by_cases ht : tid ∈ m.map Prod.fst
    · rw [if_pos ht] at hg
      simp only [Option.some.injEq] at hg
      subst hg
      refine ⟨by simp, ?_, ?_⟩
      · rw [List.map_append, List.nodup_append]
        refine ⟨?_, by simp, ?_⟩
        · cases hq : mapGet l.affectTxItems tid with
          | none => simp
          | some its0 => exact (hfile tid its0 hq).2.1
        · intro a ha hb
          simp only [List.map_cons, List.map_nil, List.mem_singleton] at hb
          subst hb
          obtain ⟨X, hX, he⟩ := List.mem_map.mp ha
          cases hq : mapGet l.affectTxItems tid with
          | none => rw [hq] at hX; simp at hX
          | some its0 =>
            rw [hq] at hX
            have := (hc.2.2.1 tid its0 hq X hX).1
            omega
      · intro X hX
        rw [List.mem_append, List.mem_singleton] at hX
        rcases hX with hX | rfl
        · cases hq : mapGet l.affectTxItems tid with
          | none => rw [hq] at hX; simp at hX
          | some its0 =>
            rw [hq] at hX
            obtain ⟨h1, h2⟩ := (hfile tid its0 hq).2.2 X hX
            exact ⟨by rw [hitems]; exact List.mem_append_left _ h1, h2⟩
        · exact ⟨by rw [hitems]; simp, by rw [hpn]; exact ht⟩
    · rw [if_neg ht] at hg
      obtain ⟨h1, h2, h3⟩ := hfile tid its hg
      refine ⟨h1, h2, fun X hX => ?_⟩
      obtain ⟨h4, h5⟩ := h3 X hX
      exact ⟨by rw [hitems]; exact List.mem_append_left _ h4, h5⟩
  · intro X hX tid ht
    rw [hitems, List.mem_append, List.mem_singleton] at hX
    rw [haff, register_get _ _ _ _ hkeys]
    rcases hX with hX | rfl
    · obtain ⟨its, h1, h2⟩ := hfiled X hX tid ht
      by_cases hk : tid ∈ m.map Prod.fst
      · rw [if_pos hk]
        exact ⟨_, rfl, by rw [h1]; simp [h2]⟩
      · rw [if_neg hk]
        exact ⟨its, h1, h2⟩
    · rw [hpn] at ht
      rw [if_pos ht]
      exact ⟨_, rfl, by simp⟩

/-- `Append` when nothing is filed under `txID`: it returns, the maps are as
they were, and the log gains the new item if the map given is not empty. -/
theorem Append_run_none (maps : List TxSet) (l : UndoLog) (txID : Int) (a : Option Nat)
    (recs : List UndoRecord) (hinv : LogInv maps l)
    (ha : ∀ x, a = some x → x < maps.length)
    (hg : mapGet l.affectTxItems txID = none) :
    ∃ l1, l.Append maps txID a recs = some (maps, l1) ∧ LogInv maps l1 ∧
      l1.items = l.items ++
        (a.toList.filter fun x => decide (¬ ((maps[x]?).getD []).length = 0)).map
          (fun x => UndoLogItem.mk txID (convRecordCacheSliceToMap recs) x l.idCounter) ∧
      l.idCounter ≤ l1.idCounter := by
  cases a with
  | none =>
    refine ⟨l, ?_, hinv, by simp, Nat.le_refl _⟩
    simp [UndoLog.Append, hg]
  | some x =>
    have hx := ha x rfl
    have hgx : maps[x]? = some (maps[x]) := List.getElem?_eq_getElem hx
    generalize maps[x] = m at hgx
    by_cases hm : m.length = 0
    · refine ⟨l, ?_, hinv, by simp [hgx, List.length_eq_zero.mp hm], Nat.le_refl _⟩
      simp [UndoLog.Append, hg, hgx, hm]
    · have hrun : l.Append maps txID (some x) recs = some (maps, UndoLog.mk
          (l.items ++ [UndoLogItem.mk txID (convRecordCacheSliceToMap recs) x l.idCounter])
          (l.idCounter + 1)
          (Append.cache l.idCounter txID (convRecordCacheSliceToMap recs) l.recordsCache)
          (Append.register (UndoLogItem.mk txID (convRecordCacheSliceToMap recs) x l.idCounter)
            (m.map Prod.fst) l.affectTxItems)) := by
        simp [UndoLog.Append, hg, hgx, hm]
      have hc2 := Append_Consistent _ _ _ _ _ _ _ hinv.1 hrun
      refine ⟨_, hrun, LogInv_filed maps l _ txID _ x m hinv hgx hm hc2 rfl rfl, ?_, ?_⟩
      · have hne : m ≠ [] := fun h => hm (by simp [h])
        simp [hgx, hne, List.filter]
      · exact Nat.le_succ _

theorem Append_of_released (maps maps1 : List TxSet) (l l1 : UndoLog) (txID : Int)
    (a : Option Nat) (recs : List UndoRecord) (its : List UndoLogItem)
    (hg : mapGet l.affectTxItems txID = some its)
    (hrel : Append.release txID its maps l = some (maps1, l1)) :
    l.Append maps txID a recs
      = (UndoLog.mk l1.items l1.idCounter l1.recordsCache
          (mapDel l1.affectTxItems txID)).Append maps1 txID a recs := by
  simp only [UndoLog.Append, hg, hrel, mapGet_mapDel, if_true]

/-- `Append` on a log whose maps it alone touches: it returns, keeps the
invariant, deletes `txID` from the maps of the items, drops the items whose
map became empty, and adds the new item if the map given is not empty. -/
theorem Append_run (maps : List TxSet) (l : UndoLog) (txID : Int) (a : Option Nat)
    (recs : List UndoRecord) (hinv : LogInv maps l)
    (ha : ∀ x, a = some x → x < maps.length) :
    ∃ maps1 l1, l.Append maps txID a recs = some (maps1, l1) ∧ LogInv maps1 l1 ∧
      maps1.length = maps.length ∧
      (∀ b, (∀ X ∈ l.items, X.mayAffectedTxIDs ≠ b) → maps1[b]? = maps[b]?) ∧
      (∀ X ∈ l.items,
        pending maps1 X = (pending maps X).filter (fun u => decide (u ≠ txID))) ∧
      l1.items = l.items.filter (fun X => decide (pending maps1 X ≠ [])) ++
        (a.toList.filter fun x => decide (¬ ((maps1[x]?).getD []).length = 0)).map
          (fun x => UndoLogItem.mk txID (convRecordCacheSliceToMap recs) x l.idCounter) ∧
      l.idCounter ≤ l1.idCounter := by
  cases hg : mapGet l.affectTxItems txID with
  | none =>
    obtain ⟨l1, hrun, hinv1, hit1, hid1⟩ := Append_run_none maps l txID a recs hinv ha hg
    obtain ⟨hp, hf⟩ := released_none maps l txID hinv hg
    refine ⟨maps, l1, hrun, hinv1, rfl, fun _ _ => rfl, hp, ?_, hid1⟩
    rw [← hf]
    exact hit1
  | some its =>
    obtain ⟨maps1, l1, hrel, hinv1, hlen1, hid1, hfar, hp, hf⟩ :=
      released_some maps l txID its hinv hg
    rw [Append_of_released maps maps1 l l1 txID a recs its hg hrel]
    obtain ⟨l2, hrun, hinv2, hit2, hid2⟩ := Append_run_none maps1 _ txID a recs hinv1
      (fun x hx => hlen1 ▸ ha x hx) (by simp [mapGet_mapDel])
    refine ⟨maps1, l2, hrun, hinv2, hlen1, hfar, hp, ?_, ?_⟩
    · rw [hit2]
      simp only [hf, hid1]
    · simp only [hid1] at hid2
      exact hid2
theorem LogInv_new : LogInv [] NewUndoLog := by
  refine ⟨Consistent_new, ?_, ?_, ?_, ?_, ?_⟩
  · simp [NewUndoLog]
  · simp
  · simp [NewUndoLog]
  · intro tid its h
    simp [NewUndoLog, mapGet] at h
  · simp [NewUndoLog]

theorem pending_grow (maps : List TxSet) (m : TxSet) (X : UndoLogItem)
    (h : X.mayAffectedTxIDs < maps.length) : pending (maps ++ [m]) X = pending maps X := by
  unfold pending
  rw [List.getElem?_append_left h]

/-- A map made for a call does not disturb the invariant. -/
theorem LogInv_grow (maps : List TxSet) (l : UndoLog) (m : TxSet) (hinv : LogInv maps l)
    (hm : (m.map Prod.fst).Nodup) : LogInv (maps ++ [m]) l := by
  obtain ⟨hc, hsort, hnd, hit, hfile, hfiled⟩ := hinv
  refine ⟨hc, hsort, ?_, ?_, ?_, ?_⟩
  · intro m1 h1
    rw [List.mem_append, List.mem_singleton] at h1
    rcases h1 with h1 | rfl
    · exact hnd m1 h1
    · exact hm
  · intro X hX
    obtain ⟨h1, h2⟩ := hit X hX
    rw [pending_grow maps m X h1]
    exact ⟨by simp; omega, h2⟩
  · intro tid its hg
    obtain ⟨h1, h2, h3⟩ := hfile tid its hg
    refine ⟨h1, h2, fun X hX => ?_⟩
    obtain ⟨h4, h5⟩ := h3 X hX
    rw [pending_grow maps m X (hit X h4).1]
    exact ⟨h4, h5⟩
  · intro X hX tid ht
    rw [pending_grow maps m X (hit X hX).1] at ht
    exact hfiled X hX tid ht

/-- One call on a log whose maps `Append` alone touches: the call returns and
keeps the invariant; every item of the log stops waiting on `txID` and stays
exactly if it still waits on some id; a non-empty map made for the call gives
one new item, which waits on the keys of the map. -/
theorem appendCall_run (maps : List TxSet) (l : UndoLog) (c : LogCall) (rest : List LogCall)
    (hinv : LogInv maps l) (hwa : wellAddressed maps.length (c :: rest) = true) :
    ∃ maps1 l1 N, l.appendCall maps c = some (maps1, l1) ∧ LogInv maps1 l1 ∧
      wellAddressed maps1.length rest = true ∧
      (∀ X ∈ l.items,
        pending maps1 X = (pending maps X).filter (fun u => decide (u ≠ c.txID))) ∧
      l1.items = l.items.filter (fun X => decide (pending maps1 X ≠ [])) ++ N ∧
      (∀ Y ∈ N, Y.id = l.idCounter) ∧ l.idCounter ≤ l1.idCounter ∧
      ∀ ids, c.mayAffectedTxIDs = SetArg.fresh ids → ids ≠ [] →
        N = [UndoLogItem.mk c.txID (convRecordCacheSliceToMap c.undoRecords) maps.length
          l.idCounter] ∧
        pending maps1 (UndoLogItem.mk c.txID (convRecordCacheSliceToMap c.undoRecords)
          maps.length l.idCounter) = (TxSet.ofList ids).map Prod.fst := by
  unfold wellAddressed at hwa
  unfold UndoLog.appendCall
  cases hs : c.mayAffectedTxIDs with
  | absent =>
    rw [hs] at hwa
    simp only at hwa ⊢
    obtain ⟨maps1, l1, hrun, hinv1, hlen, -, hp, hit, hid⟩ :=
      Append_run maps l c.txID none c.undoRecords hinv (fun x hx => Option.noConfusion hx)
    refine ⟨maps1, l1, [], hrun, hinv1, hlen ▸ hwa, hp, ?_, by simp, hid, ?_⟩
    · simpa using hit
    · intro ids h
      exact SetArg.noConfusion h
  | earlier a =>
    rw [hs] at hwa
    simp only [Bool.and_eq_true, decide_eq_true_eq] at hwa ⊢
    obtain ⟨maps1, l1, hrun, hinv1, hlen, -, hp, hit, hid⟩ :=
      Append_run maps l c.txID (some a) c.undoRecords hinv
        (fun x hx => by cases hx; exact hwa.1)
    refine ⟨maps1, l1, _, hrun, hinv1, hlen ▸ hwa.2, hp, hit, ?_, hid, ?_⟩
    · intro Y hY
      simp only [List.mem_map] at hY
      obtain ⟨x, -, rfl⟩ := hY
      rfl
    · intro ids h
      exact SetArg.noConfusion h
  | fresh ids =>
    rw [hs] at hwa
    simp only at hwa ⊢
    have hinv0 := LogInv_grow maps l (TxSet.ofList ids) hinv (TxSet.ofList_nodup ids)
    obtain ⟨maps1, l1, hrun, hinv1, hlen, hfar, hp, hit, hid⟩ :=
      Append_run (maps ++ [TxSet.ofList ids]) l c.txID (some maps.length) c.undoRecords hinv0
        (fun x hx => by cases hx; simp)
    have hget : maps1[maps.length]? = some (TxSet.ofList ids) := by
      rw [hfar maps.length (fun X hX => Nat.ne_of_lt (hinv.2.2.2.1 X hX).1)]
      simp
    refine ⟨maps1, l1, _, hrun, hinv1, ?_, ?_, hit, ?_, hid, ?_⟩
    · rw [hlen]
      simpa using hwa
    · intro X hX
      rw [hp X hX, pending_grow maps _ X (hinv.2.2.2.1 X hX).1]
    · intro Y hY
      simp only [List.mem_map] at hY
      obtain ⟨x, -, rfl⟩ := hY
      rfl
    · intro ids1 h hne
      cases h
      have hne1 : TxSet.ofList ids ≠ [] := by
        intro h
        obtain ⟨k, rest1, rfl⟩ := List.exists_cons_of_ne_nil hne
        have := (TxSet.mem_ofList (k :: rest1) k).mpr (List.mem_cons_self _ _)
        rw [h] at this
        simp at this
      constructor
      · simp [hget, hne1, List.filter]
      · simp [pending, hget]
theorem mem_history_ids (recordID : Int) (items : List UndoLogItem) (i : Nat)
    (h : i ∈ (history recordID items).map fun x => x.1) :
    ∃ Y ∈ items, Y.id = i ∧ ∃ rc, mapGet Y.records recordID = some rc := by
  induction items with
  | nil => simp [history] at h
  | cons a rest ih =>
    unfold history at h
    cases hg : mapGet a.records recordID with
    | none =>
      rw [hg] at h
      obtain ⟨Y, h1, h2⟩ := ih h
      exact ⟨Y, List.mem_cons_of_mem _ h1, h2⟩
    | some rc =>
      rw [hg] at h
      simp only [List.map_cons, List.mem_cons] at h
      rcases h with h | h
      · exact ⟨a, List.mem_cons_self _ _, h.symm, rc, hg⟩
      · obtain ⟨Y, h1, h2⟩ := ih h
        exact ⟨Y, List.mem_cons_of_mem _ h1, h2⟩

/-- What `findSpec` returns on items of increasing ids, for an item that has
an undo record for the record id and whose committer is active, when no item
appended before it is such an item: the pre-image of that item. -/
theorem findSpec_first (active : TxSet) (recordID : Int) (items : List UndoLogItem)
    (X : UndoLogItem) (rc : UndoRecord)
    (hsort : (items.map fun item => item.id).Pairwise (fun a b => a < b))
    (hX : X ∈ items) (hrc : mapGet X.records recordID = some rc)
    (hact : active.has X.commitTxID = true)
    (hfirst : ∀ Y ∈ items, Y.id < X.id →
      mapGet Y.records recordID = none ∨ active.has Y.commitTxID = false) :
    findSpec active recordID items = .ok (transferToRecord rc) := by
  induction items with
  | nil => simp at hX
  | cons a rest ih =>
    simp only [List.map_cons, List.pairwise_cons] at hsort
    rcases List.mem_cons.mp hX with rfl | hXr
    · simp [findSpec, hrc, hact]
    · have hlt : a.id < X.id := hsort.1 _ (List.mem_map_of_mem (fun item => item.id) hXr)
      have hrest := ih hsort.2 hXr (fun Y hY => hfirst Y (List.mem_cons_of_mem _ hY))
      unfold findSpec
      rcases hfirst a (List.mem_cons_self _ _) hlt with h | h
      · simp [h, hrest]
      · cases hg : mapGet a.records recordID with
        | none => simp [hrest]
        | some rc1 => simp [h, hrest]

/-- A sequence of calls on a log whose maps `Append` alone touches: it
returns and keeps the invariant; ids are never reused; an item of the log is
still there at the end exactly if it waits on an id that was the `txID` of
none of the calls. -/
theorem runCalls_run (maps : List TxSet) (l : UndoLog) (calls : List LogCall)
    (hinv : LogInv maps l) (hwa : wellAddressed maps.length calls = true) :
    ∃ maps2 l2, l.runCalls maps calls = some (maps2, l2) ∧ LogInv maps2 l2 ∧
      l.idCounter ≤ l2.idCounter ∧
      (∀ Y ∈ l2.items, Y ∈ l.items ∨ l.idCounter ≤ Y.id) ∧
      ∀ X ∈ l.items,
        (X ∈ l2.items ↔ ∃ u ∈ pending maps X, u ∉ calls.map fun c => c.txID) := by
  induction calls generalizing maps l with
  | nil =>
    refine ⟨maps, l, rfl, hinv, Nat.le_refl _, fun Y hY => Or.inl hY, fun X hX => ?_⟩
    simp only [hX, List.map_nil, List.not_mem_nil, not_false_eq_true, and_true, true_iff]
    exact List.exists_mem_of_ne_nil _ (hinv.2.2.2.1 X hX).2
  | cons c rest ih =>
    obtain ⟨maps1, l1, N, hrun, hinv1, hwa1, hp, hit, hN, hid, -⟩ :=
      appendCall_run maps l c rest hinv hwa
    obtain ⟨maps2, l2, hrun2, hinv2, hid2, hold2, hiff2⟩ := ih maps1 l1 hinv1 hwa1
    have hmem1 : ∀ Y, Y ∈ l1.items ↔ (Y ∈ l.items ∧ pending maps1 Y ≠ []) ∨ Y ∈ N := by
      intro Y
      rw [hit, List.mem_append, List.mem_filter]
      simp
    refine ⟨maps2, l2, ?_, hinv2, Nat.le_trans hid hid2, ?_, ?_⟩
    · unfold UndoLog.runCalls
      simp only [hrun]
      exact hrun2
    · intro Y hY
      rcases hold2 Y hY with h | h
      · rcases (hmem1 Y).mp h with h1 | h1
        · exact Or.inl h1.1
        · exact Or.inr (Nat.le_of_eq (hN Y h1).symm)
      · exact Or.inr (Nat.le_trans hid h)
    · intro X hX
      have hXid : X.id < l.idCounter := (hinv.1.2.1 X hX).1
      by_cases hX1 : X ∈ l1.items
      · rw [hiff2 X hX1, hp X hX]
        constructor
        · rintro ⟨u, hu, hn⟩
          rw [List.mem_filter] at hu
          refine ⟨u, hu.1, ?_⟩
          simp only [List.map_cons, List.mem_cons, not_or]
          exact ⟨by simpa using hu.2, hn⟩
        · rintro ⟨u, hu, hn⟩
          simp only [List.map_cons, List.mem_cons, not_or] at hn
          exact ⟨u, List.mem_filter.mpr ⟨hu, by simpa using hn.1⟩, hn.2⟩
      · have hemp : pending maps1 X = [] := by
          by_contra hne
          exact hX1 ((hmem1 X).mpr (Or.inl ⟨hX, hne⟩))
        constructor
        · intro h2
          rcases hold2 X h2 with h | h
          · exact absurd h hX1
          · omega
        · rintro ⟨u, hu, hn⟩
          simp only [List.map_cons, List.mem_cons, not_or] at hn
          have : u ∈ pending maps1 X := by
            rw [hp X hX]
            exact List.mem_filter.mpr ⟨hu, by simpa using hn.1⟩
          rw [hemp] at this
          simp at this

theorem removeItem_index_absent (k : Nat) (items : List UndoLogItem) (j : Nat)
    (h : k ∉ items.map fun item => item.id) :
    removeItem.index k items j = j + items.length := by
  induction items generalizing j with
  | nil => rfl
  | cons a rest ih =>
    simp only [List.map_cons, List.mem_cons, not_or] at h
    unfold removeItem.index
    rw [if_neg h.1, ih (j + 1) h.2]
    simp only [List.length_cons]
    omega

/-- The slice expression at the end of `removeItem` panics when no item of
the list has the id of the item. -/
theorem removeItem_absent (l : UndoLog) (item : UndoLogItem)
    (h : item.id ∉ l.items.map fun item1 => item1.id) : l.removeItem item = none := by
  unfold UndoLog.removeItem
  split
  · rfl
  · simp [removeItem_index_absent item.id l.items 0 h]

/-- A prefix of a sequence of calls returns, and the rest runs on what it
leaves. -/
theorem runCalls_prefix (maps : List TxSet) (l : UndoLog) (pre post : List LogCall)
    (hinv : LogInv maps l) (hwa : wellAddressed maps.length (pre ++ post) = true) :
    ∃ maps1 l1, l.runCalls maps pre = some (maps1, l1) ∧ LogInv maps1 l1 ∧
      wellAddressed maps1.length post = true ∧
      l.runCalls maps (pre ++ post) = l1.runCalls maps1 post := by
  induction pre generalizing maps l with
  | nil => exact ⟨maps, l, rfl, hinv, hwa, rfl⟩
  | cons c rest ih =>
    obtain ⟨maps1, l1, N, hrun, hinv1, hwa1, -⟩ :=
      appendCall_run maps l c (rest ++ post) hinv hwa
    obtain ⟨maps2, l2, hrun2, hinv2, hwa2, heq⟩ := ih maps1 l1 hinv1 hwa1
    refine ⟨maps2, l2, ?_, hinv2, hwa2, ?_⟩
    · unfold UndoLog.runCalls
      simp only [hrun]
      exact hrun2
    · rw [List.cons_append, ← heq]
      conv_lhs => unfold UndoLog.runCalls
      simp only [hrun]

/-- What `findSpec` returns on items of increasing ids when some item has an
undo record for the record id and an active committer: the pre-image of the
first such item. -/
theorem findSpec_earliest (active : TxSet) (recordID : Int) (items : List UndoLogItem)
    (X : UndoLogItem) (rc : UndoRecord)
    (hsort : (items.map fun item => item.id).Pairwise (fun a b => a < b))
    (hX : X ∈ items) (hrc : mapGet X.records recordID = some rc)
    (hact : active.has X.commitTxID = true) :
    ∃ Y ∈ items, ∃ rcY, Y.id ≤ X.id ∧ mapGet Y.records recordID = some rcY ∧
      active.has Y.commitTxID = true ∧
      findSpec active recordID items = .ok (transferToRecord rcY) ∧
      ∀ Z ∈ items, Z.id < Y.id →
        mapGet Z.records recordID = none ∨ active.has Z.commitTxID = false := by
  induction items with
  | nil => simp at hX
  | cons a rest ih =>
    simp only [List.map_cons, List.pairwise_cons] at hsort
    have hlt : ∀ Z ∈ rest, a.id < Z.id := fun Z hZ =>
      hsort.1 _ (List.mem_map_of_mem (fun item => item.id) hZ)
    cases hg : mapGet a.records recordID with
    | none =>
      have hXr : X ∈ rest := by
        rcases List.mem_cons.mp hX with rfl | h
        · rw [hg] at hrc; exact Option.noConfusion hrc
        · exact h
      obtain ⟨Y, hY, rcY, h1, h2, h3, h4, h5⟩ := ih hsort.2 hXr
      refine ⟨Y, List.mem_cons_of_mem _ hY, rcY, h1, h2, h3, ?_, ?_⟩
      · unfold findSpec
        simp [hg, h4]
      · intro Z hZ hZlt
        rcases List.mem_cons.mp hZ with rfl | h
        · exact Or.inl hg
        · exact h5 Z h hZlt
    | some rca =>
      cases hb : active.has a.commitTxID with
      | true =>
        refine ⟨a, List.mem_cons_self _ _, rca, ?_, hg, hb, ?_, ?_⟩
        · rcases List.mem_cons.mp hX with rfl | h
          · exact Nat.le_refl _
          · exact Nat.le_of_lt (hlt X h)
        · unfold findSpec
          simp [hg, hb]
        · intro Z hZ hZlt
          rcases List.mem_cons.mp hZ with rfl | h
          · omega
          · have := hlt Z h
            omega
      | false =>
        have hXr : X ∈ rest := by
          rcases List.mem_cons.mp hX with rfl | h
          · rw [hb] at hact; exact Bool.noConfusion hact
          · exact h
        obtain ⟨Y, hY, rcY, h1, h2, h3, h4, h5⟩ := ih hsort.2 hXr
        refine ⟨Y, List.mem_cons_of_mem _ hY, rcY, h1, h2, h3, ?_, ?_⟩
        · unfold findSpec
          simp [hg, hb, h4]
        · intro Z hZ hZlt
          rcases List.mem_cons.mp hZ with rfl | h
          · exact Or.inr hb
          · exact h5 Z h hZlt

/-- What consistency says of an entry of `recordsCache`. -/
theorem Consistent_entry (l : UndoLog) (hc : l.Consistent) (rid : Int) (rc : undoRecord)
    (hg : mapGet l.recordsCache rid = some rc) :
    rc.records.length = rc.id.length ∧ rc.commitTxIDs.length = rc.id.length ∧
      0 < rc.id.length ∧
      ∀ i ∈ rc.id, ∃ X ∈ l.items, X.id = i ∧ ∃ ur, mapGet X.records rid = some ur := by
  have hag := hc.2.2.2 rid
  rw [hg] at hag
  simp only [agrees] at hag
  obtain ⟨h0, h1, h2, h3⟩ := hag
  refine ⟨by rw [h3, h1]; simp, by rw [h2, h1]; simp, ?_, ?_⟩
  · rw [h1, List.length_map]
    exact List.length_pos.mpr h0
  · intro i hi
    rw [h1] at hi
    exact mem_history_ids rid l.items i hi
/-! ## The undo log is consistent at all times (C39) -/

/-- C39, amended.  (1) Whatever the caller does to the maps between the calls:
the log `l` left by a sequence of `Append` calls that all return is consistent.
The three lists of every entry of `recordsCache` have the same length, which
is not zero; every item id listed in the entry of a record id is the id of an
item of `items` whose records hold that record id; and the ids of the items of
`items` are distinct.  (2) When the maps passed are touched by `Append` alone
(each is nil, made for the call, or the map of an earlier call): every
sequence of calls returns, the log it leaves is consistent in the same way,
and every item filed in `affectTxItems`, which are the items `removeItem` is
invoked on, is in `items`, once in its list.  `removeItem` on an item whose id
no item of `items` has does not return. -/
theorem reachable_log_consistent (appends : List AppendCall) (l : UndoLog)
    (calls : List LogCall) (hrun : NewUndoLog.runAppends appends = some l)
    (hwa : wellAddressed 0 calls = true) :
    ((∀ rid rc, mapGet l.recordsCache rid = some rc →
        rc.records.length = rc.id.length ∧ rc.commitTxIDs.length = rc.id.length ∧
        0 < rc.id.length ∧
        ∀ i ∈ rc.id, ∃ X ∈ l.items, X.id = i ∧ ∃ ur, mapGet X.records rid = some ur) ∧
      (l.items.map fun X => X.id).Nodup) ∧
    (∃ maps l2, NewUndoLog.runCalls [] calls = some (maps, l2) ∧
      (∀ rid rc, mapGet l2.recordsCache rid = some rc →
        rc.records.length = rc.id.length ∧ rc.commitTxIDs.length = rc.id.length ∧
        0 < rc.id.length ∧
        ∀ i ∈ rc.id, ∃ X ∈ l2.items, X.id = i ∧ ∃ ur, mapGet X.records rid = some ur) ∧
      (l2.items.map fun X => X.id).Nodup ∧
      (∀ tid its, mapGet l2.affectTxItems tid = some its →
        (its.map fun X => X.id).Nodup ∧ ∀ X ∈ its, X ∈ l2.items)) ∧
    ∀ (l0 : UndoLog) (X : UndoLogItem),
      X.id ∉ (l0.items.map fun Y => Y.id) → l0.removeItem X = none := by
  have hc := runAppends_Consistent _ _ _ Consistent_new hrun
  obtain ⟨maps, l2, hrun2, hinv, -⟩ := runCalls_run [] NewUndoLog calls LogInv_new hwa
  refine ⟨⟨Consistent_entry l hc, hc.1⟩,
    ⟨maps, l2, hrun2, Consistent_entry l2 hinv.1, hinv.1.1, ?_⟩, removeItem_absent⟩
  intro tid its hg
  obtain ⟨-, h2, h3⟩ := hinv.2.2.2.2.1 tid its hg
  exact ⟨h2, fun X hX => (h3 X hX).1⟩

/-- C39, amended, on the calls of `evictedFirstCalls`, each with the maps as
the caller holds them, and on the calls of `TestReclaim`. -/
theorem reachable_log_consistent_witness :
    wellAddressed 0 reclaimCalls = true ∧
    ∃ l, NewUndoLog.runAppends evictedFirstCalls = some l ∧
    ((∀ rid rc, mapGet l.recordsCache rid = some rc →
        rc.records.length = rc.id.length ∧ rc.commitTxIDs.length = rc.id.length ∧
        0 < rc.id.length ∧
        ∀ i ∈ rc.id, ∃ X ∈ l.items, X.id = i ∧ ∃ ur, mapGet X.records rid = some ur) ∧
      (l.items.map fun X => X.id).Nodup) ∧
    (∃ maps l2, NewUndoLog.runCalls [] reclaimCalls = some (maps, l2) ∧
      (∀ rid rc, mapGet l2.recordsCache rid = some rc →
        rc.records.length = rc.id.length ∧ rc.commitTxIDs.length = rc.id.length ∧
        0 < rc.id.length ∧
        ∀ i ∈ rc.id, ∃ X ∈ l2.items, X.id = i ∧ ∃ ur, mapGet X.records rid = some ur) ∧
      (l2.items.map fun X => X.id).Nodup ∧
      (∀ tid its, mapGet l2.affectTxItems tid = some its →
        (its.map fun X => X.id).Nodup ∧ ∀ X ∈ its, X ∈ l2.items)) ∧
    ∀ (l0 : UndoLog) (X : UndoLogItem),
      X.id ∉ (l0.items.map fun Y => Y.id) → l0.removeItem X = none := by
  have hs : (NewUndoLog.runAppends evictedFirstCalls).isSome = true := rfl
  exact ⟨rfl, Option.get _ hs, (Option.some_get hs).symm,
    reachable_log_consistent evictedFirstCalls _ reclaimCalls
      (Option.some_get hs).symm rfl⟩

/-- C39, the counterexample.  Transaction 1 commits while 2 and 3 are active,
so that its item is filed under 2 and under 3; the caller then empties the map
it passed.  The release of 2 finds the map of the item empty and removes the
item; the release of 3 finds the item still filed under 3 and invokes
`removeItem` on it again, when it is no longer in `items`: `removeItem` does
not return and neither does `Append`.  The manager reaches this through its
live map: in `reuseAfterRollbackInput` the `Commit` of a transaction used again
after its rollback does not return, the log holding no item while one is still
filed under the transaction. -/
theorem Append_removes_absent_item :
    (NewUndoLog.runAppends (emptiedMapCalls.take 2)).map (fun l =>
        (l.items.map (fun X => X.id),
         (mapGet l.affectTxItems 3).map (fun its => its.map fun X => X.id),
         (mapGet l.affectTxItems 3).map (fun its => its.map fun X => (l.removeItem X).isSome),
         (l.Append [[]] 3 none []).isSome))
      = some ([], some [0], some [false], false) ∧
    (NewUndoLog.runAppends emptiedMapCalls).isSome = false ∧
    (((Session.new true true).run (reuseAfterRollbackInput.take 11)).map fun s =>
        ((s.undoLog "test").map fun l =>
          (l.items.map (fun X => X.id),
           l.affectTxItems.map (fun p => (p.1, p.2.map fun X => X.id))), s.w.active))
      = some (some ([], [(2, [0])]), some []) ∧
    ((Session.new true true).run reuseAfterRollbackInput).isSome = false :=
  ⟨rfl, rfl, rfl, rfl⟩


/-! ## What the undo log reclaims (C21) and what it keeps (C22) -/

/-- C21: in every run of `Append` calls on a fresh undo log, the maps being
touched by `Append` alone, take a call `Append(txID, M, recs)` with a map `M`
of its own, made from the non-empty list `ids`.  The call files a new item,
and once `Append(t, ·, ·)` has been called afterwards for every `t` of `M`,
the item is not in `items`, no entry of `recordsCache` lists its id (and a
record id of which no item is left has no entry), and no list of
`affectTxItems` names it; and if no item at all is left, `recordsCache` and
`affectTxItems` are empty. -/
theorem reclaimed_item_gone (pre post : List LogCall) (txID : Int) (ids : List Int)
    (recs : List UndoRecord)
    (hwa : wellAddressed 0 (pre ++ LogCall.mk txID (SetArg.fresh ids) recs :: post) = true)
    (hne : ids ≠ [])
    (hall : ∀ t ∈ ids, t ∈ post.map fun c => c.txID) :
    ∃ maps0 l0 maps1 l1 maps2 l2,
      NewUndoLog.runCalls [] pre = some (maps0, l0) ∧
      l0.appendCall maps0 (LogCall.mk txID (SetArg.fresh ids) recs) = some (maps1, l1) ∧
      l1.runCalls maps1 post = some (maps2, l2) ∧
      UndoLogItem.mk txID (convRecordCacheSliceToMap recs) maps0.length l0.idCounter
        ∈ l1.items ∧
      UndoLogItem.mk txID (convRecordCacheSliceToMap recs) maps0.length l0.idCounter
        ∉ l2.items ∧
      (∀ rid rc, mapGet l2.recordsCache rid = some rc → l0.idCounter ∉ rc.id) ∧
      (∀ rid, history rid l2.items = [] → mapGet l2.recordsCache rid = none) ∧
      (∀ tid its, mapGet l2.affectTxItems tid = some its →
        UndoLogItem.mk txID (convRecordCacheSliceToMap recs) maps0.length l0.idCounter
          ∉ its) ∧
      (l2.items = [] →
        l2.recordsCache = [] ∧ l2.affectTxItems = [] ∧ l2.IsEmpty = true) := by
  obtain ⟨maps0, l0, hpre, hinv0, hwa0, -⟩ := runCalls_prefix [] NewUndoLog pre
    (LogCall.mk txID (SetArg.fresh ids) recs :: post) LogInv_new hwa
  obtain ⟨maps1, l1, N, hrun, hinv1, hwa1, hp, hit, hN, hid, hfresh⟩ :=
    appendCall_run maps0 l0 _ post hinv0 hwa0
  obtain ⟨hNeq, hpX⟩ := hfresh ids rfl hne
  simp only at hNeq hpX
  obtain ⟨maps2, l2, hrun2, hinv2, hid2, hold, hiff⟩ := runCalls_run maps1 l1 post hinv1 hwa1
  have hX1 : UndoLogItem.mk txID (convRecordCacheSliceToMap recs) maps0.length l0.idCounter
      ∈ l1.items := by
    rw [hit, hNeq]
    simp
  have hX2 : UndoLogItem.mk txID (convRecordCacheSliceToMap recs) maps0.length l0.idCounter
      ∉ l2.items := by
    intro h
    obtain ⟨u, hu, hn⟩ := (hiff _ hX1).mp h
    rw [hpX, TxSet.mem_ofList] at hu
    exact hn (hall u hu)
  refine ⟨maps0, l0, maps1, l1, maps2, l2, hpre, hrun, hrun2, hX1, hX2, ?_, ?_, ?_, ?_⟩
  · intro rid rc hg hmem
    obtain ⟨Y, hY, hYid, -⟩ := (Consistent_entry l2 hinv2.1 rid rc hg).2.2.2 _ hmem
    have hlt := (hinv1.1.2.1 _ hX1).1
    simp only at hlt
    rcases hold Y hY with h | h
    · have := List.inj_on_of_nodup_map hinv1.1.1 h hX1 hYid
      exact hX2 (this ▸ hY)
    · omega
  · intro rid h
    have hag := hinv2.1.2.2.2 rid
    rw [h] at hag
    cases hg : mapGet l2.recordsCache rid with
    | none => rfl
    | some rc =>
      rw [hg] at hag
      exact absurd rfl hag.1
  · intro tid its hg hmem
    exact hX2 ((hinv2.2.2.2.2.1 tid its hg).2.2 _ hmem).1
  · intro hemp
    refine ⟨?_, ?_, by simp [UndoLog.IsEmpty, hemp]⟩
    · apply map_eq_nil_of_mapGet
      intro rid
      have hag := hinv2.1.2.2.2 rid
      rw [hemp] at hag
      cases hg : mapGet l2.recordsCache rid with
      | none => rfl
      | some rc =>
        rw [hg] at hag
        exact absurd rfl hag.1
    · apply map_eq_nil_of_mapGet
      intro tid
      cases hg : mapGet l2.affectTxItems tid with
      | none => rfl
      | some its =>
        obtain ⟨h1, -, h3⟩ := hinv2.2.2.2.2.1 tid its hg
        obtain ⟨X, hX⟩ := List.exists_mem_of_ne_nil _ h1
        have := (h3 X hX).1
        rw [hemp] at this
        simp at this

/-- C21, on the calls of `TestReclaim`: the item of transaction 1, appended
with the map of 2 and 3, is gone after the calls of 2 and 3, and the log is
empty. -/
theorem reclaimed_item_gone_witness :
    wellAddressed 0 reclaimCalls = true ∧
    ∃ maps2 l2, NewUndoLog.runCalls [] reclaimCalls = some (maps2, l2) ∧
      l2.items = [] ∧ l2.recordsCache = [] ∧ l2.affectTxItems = [] ∧
    ∃ maps0 l0 maps1 l1 maps3 l3,
      NewUndoLog.runCalls [] [] = some (maps0, l0) ∧
      l0.appendCall maps0 (LogCall.mk 1 (SetArg.fresh [2, 3])
        [{ record := { Key := 1, Value := ["hello"] } }]) = some (maps1, l1) ∧
      l1.runCalls maps1 (reclaimCalls.drop 1) = some (maps3, l3) ∧
      UndoLogItem.mk 1 (convRecordCacheSliceToMap
        [{ record := { Key := 1, Value := ["hello"] } }]) maps0.length l0.idCounter
        ∈ l1.items ∧
      UndoLogItem.mk 1 (convRecordCacheSliceToMap
        [{ record := { Key := 1, Value := ["hello"] } }]) maps0.length l0.idCounter
        ∉ l3.items ∧
      (∀ rid rc, mapGet l3.recordsCache rid = some rc → l0.idCounter ∉ rc.id) ∧
      (∀ rid, history rid l3.items = [] → mapGet l3.recordsCache rid = none) ∧
      (∀ tid its, mapGet l3.affectTxItems tid = some its →
        UndoLogItem.mk 1 (convRecordCacheSliceToMap
          [{ record := { Key := 1, Value := ["hello"] } }]) maps0.length l0.idCounter
          ∉ its) ∧
      (l3.items = [] →
        l3.recordsCache = [] ∧ l3.affectTxItems = [] ∧ l3.IsEmpty = true) := by
  have hs : (NewUndoLog.runCalls [] reclaimCalls).isSome = true := rfl
  exact ⟨rfl, (Option.get _ hs).1, (Option.get _ hs).2, (Option.some_get hs).symm, rfl, rfl,
    rfl, reclaimed_item_gone [] (reclaimCalls.drop 1) 1 [2, 3]
      [{ record := { Key := 1, Value := ["hello"] } }] rfl (by decide) (by decide)⟩
/-- C22 does not hold as stated: after transactions 1 and 2 have committed an
update of record 1 while 9 is active, the item of transaction 2 is in the log
and still waits on 9, a reader whose active set holds 1, 2 and 9 has the
committer 2 in its set, and `Find` gives it the pre-image `a` of the item of
transaction 1, not the pre-image `b` of the item of transaction 2. -/
theorem Find_gives_earlier_version :
    ∃ maps l X rc, NewUndoLog.runCalls [] twoVersionCalls = some (maps, l) ∧
      l.items[1]? = some X ∧ X.commitTxID = 2 ∧ pending maps X = [9] ∧
      mapGet X.records 1 = some rc ∧ rc.record.Value = ["b"] ∧
      TxSet.has [(1, true), (2, true), (9, true)] X.commitTxID = true ∧
      l.Find [(1, true), (2, true), (9, true)] 1
        = some (.ok (some { Key := 1, Value := ["a"] })) ∧
      transferToRecord rc = some { Key := 1, Value := ["b"] } := by
  have hs : (NewUndoLog.runCalls [] twoVersionCalls).isSome = true := rfl
  have hx : ((Option.get _ hs).2.items[1]?).isSome = true := rfl
  have hr : (mapGet (Option.get _ hx).records 1).isSome = true := rfl
  exact ⟨(Option.get _ hs).1, (Option.get _ hs).2, Option.get _ hx, Option.get _ hr,
    (Option.some_get hs).symm, (Option.some_get hx).symm, rfl, rfl,
    (Option.some_get hr).symm, rfl, rfl, rfl, rfl⟩

/-- C22, amended: in every run of `Append` calls on a fresh undo log, the maps
being touched by `Append` alone, an item appended with a map of its own stays
in the log as long as some `u` of the map has not been the `txID` of a later
call.  For a record id the item holds and a reader whose active set contains
its committer, `Find` then returns the pre-image of the first item of the log,
in the order of the calls, that holds the record id and whose committer is in
the active set: an item appended no later than this one, and this one when no
item before it is such an item. -/
theorem pending_item_kept (pre post : List LogCall) (txID : Int) (ids : List Int)
    (recs : List UndoRecord) (u : Int)
    (hwa : wellAddressed 0 (pre ++ LogCall.mk txID (SetArg.fresh ids) recs :: post) = true)
    (hu : u ∈ ids) (hpost : u ∉ post.map fun c => c.txID) :
    ∃ maps0 l0 maps1 l1 maps2 l2,
      NewUndoLog.runCalls [] pre = some (maps0, l0) ∧
      l0.appendCall maps0 (LogCall.mk txID (SetArg.fresh ids) recs) = some (maps1, l1) ∧
      l1.runCalls maps1 post = some (maps2, l2) ∧
      UndoLogItem.mk txID (convRecordCacheSliceToMap recs) maps0.length l0.idCounter
        ∈ l2.items ∧
      ∀ (active : TxSet) (rid : Int) (rc : UndoRecord),
        mapGet (convRecordCacheSliceToMap recs) rid = some rc → active.has txID = true →
        (∃ Y ∈ l2.items, ∃ rcY, Y.id ≤ l0.idCounter ∧ mapGet Y.records rid = some rcY ∧
          active.has Y.commitTxID = true ∧
          l2.Find active rid = some (.ok (transferToRecord rcY)) ∧
          ∀ Z ∈ l2.items, Z.id < Y.id →
            mapGet Z.records rid = none ∨ active.has Z.commitTxID = false) ∧
        ((∀ Z ∈ l2.items, Z.id < l0.idCounter →
            mapGet Z.records rid = none ∨ active.has Z.commitTxID = false) →
          l2.Find active rid = some (.ok (transferToRecord rc))) := by
  obtain ⟨maps0, l0, hpre, hinv0, hwa0, -⟩ := runCalls_prefix [] NewUndoLog pre
    (LogCall.mk txID (SetArg.fresh ids) recs :: post) LogInv_new hwa
  obtain ⟨maps1, l1, N, hrun, hinv1, hwa1, hp, hit, hN, hid, hfresh⟩ :=
    appendCall_run maps0 l0 _ post hinv0 hwa0
  obtain ⟨hNeq, hpX⟩ := hfresh ids rfl (List.ne_nil_of_mem hu)
  simp only at hNeq hpX
  obtain ⟨maps2, l2, hrun2, hinv2, hid2, hold, hiff⟩ := runCalls_run maps1 l1 post hinv1 hwa1
  have hX1 : UndoLogItem.mk txID (convRecordCacheSliceToMap recs) maps0.length l0.idCounter
      ∈ l1.items := by
    rw [hit, hNeq]
    simp
  have hX2 : UndoLogItem.mk txID (convRecordCacheSliceToMap recs) maps0.length l0.idCounter
      ∈ l2.items := by
    apply (hiff _ hX1).mpr
    exact ⟨u, by rw [hpX, TxSet.mem_ofList]; exact hu, hpost⟩
  refine ⟨maps0, l0, maps1, l1, maps2, l2, hpre, hrun, hrun2, hX2, ?_⟩
  intro active rid rc hrc hact
  constructor
  · obtain ⟨Y, hY, rcY, h1, h2, h3, h4, h5⟩ :=
      findSpec_earliest active rid l2.items _ rc hinv2.2.1 hX2 hrc hact
    exact ⟨Y, hY, rcY, h1, h2, h3, by rw [Find_of_Consistent l2 hinv2.1, h4], h5⟩
  · intro hfirst
    rw [Find_of_Consistent l2 hinv2.1,
      findSpec_first active rid l2.items _ rc hinv2.2.1 hX2 hrc hact hfirst]

/-- C22, amended, on the calls of `TestUndoLogBasicPath` as far as the second
`Append`: the item of transaction 1 waits on 2 and 3, transaction 3 has not
committed, and a reader with active set 1 and 3 reads `hello`. -/
theorem pending_item_kept_witness :
    ∃ maps2 l2,
      NewUndoLog.runCalls []
        [LogCall.mk 1 (SetArg.fresh [2, 3]) [{ record := { Key := 1, Value := ["hello"] } }],
         LogCall.mk 2 (SetArg.fresh [3]) [{ record := { Key := 2, Value := ["world"] } }]]
        = some (maps2, l2) ∧
      UndoLogItem.mk 1 (convRecordCacheSliceToMap
        [{ record := { Key := 1, Value := ["hello"] } }]) 0 0 ∈ l2.items ∧
      l2.Find [(1, true), (3, true)] 1 = some (.ok (some { Key := 1, Value := ["hello"] })) := by
  obtain ⟨maps0, l0, maps1, l1, maps2, l2, h0, h1, h2, h3, h4⟩ :=
    pending_item_kept []
      [LogCall.mk 2 (SetArg.fresh [3]) [{ record := { Key := 2, Value := ["world"] } }]]
      1 [2, 3] [{ record := { Key := 1, Value := ["hello"] } }] 3 rfl (by decide) (by decide)
  have e0 : maps0 = [] ∧ l0 = NewUndoLog := by
    simp only [UndoLog.runCalls, Option.some.injEq, Prod.mk.injEq] at h0
    exact ⟨h0.1.symm, h0.2.symm⟩
  obtain ⟨rfl, rfl⟩ := e0
  refine ⟨maps2, l2, ?_, h3, ?_⟩
  · conv_lhs => unfold UndoLog.runCalls
    simp only [h1]
    exact h2
  · exact (h4 [(1, true), (3, true)] 1 { record := { Key := 1, Value := ["hello"] } }
      rfl rfl).2 (fun Z _ hZ => absurd hZ (Nat.not_lt_zero _))

/-! ## The order invariant: preservation by `Insert` -/

/-- One level of `insertIntoParent` below a parent: with room the parent
takes the new node after `left`; a full parent is split, the last of the three
children moves to a new node, and the call goes on one level up. -/
theorem insertIntoParent_fwd {fuel : Nat} {t : Tree} {left right pa : Nat} {key kl : Int}
    {l r p : Node}
    (hl : t.nodes[left]? = some l) (hr : t.nodes[right]? = some r) (hlp : l.Parent = some pa)
    (hp : t.nodes[pa]? = some p) (hploc : NodeLocal p) (hint : p.IsLeaf = false)
    (hpos : 1 ≤ p.NumKeys) (hlk : lastKey l = some kl)
    (hmem : Ptr.node left ∈ p.liveChildren) (hrpa : right ≠ pa)
    (hchildren : ∀ q ∈ p.liveChildren, ∃ (c : Nat) (cn : Node), q = Ptr.node c ∧
      t.nodes[c]? = some cn ∧ c ≠ pa)
    (hnd : p.liveChildren.Nodup) :
    (p.NumKeys = 1 ∧ p.Pointers[0]? = some (Ptr.node left) ∧
      ∃ p2, Tree.insertIntoParent (fuel + 1) t left key right
          = some { t with nodes := t.nodes.set pa p2 } ∧
        p2.IsLeaf = false ∧ p2.Parent = p.Parent ∧ p2.NumKeys = 2 ∧
        p2.Pointers[0]? = some (Ptr.node left) ∧ p2.Pointers[1]? = some (Ptr.node right) ∧
        p2.Keys[0]? = some kl ∧ p2.Keys[1]? = some key) ∨
    (p.NumKeys = 2 ∧ p.Pointers[0]? = some (Ptr.node left) ∧
      ∃ (old1 nn cn1 : Node) (c1 : Nat) (k1 : Int),
        p.Pointers[1]? = some (Ptr.node c1) ∧ t.nodes[c1]? = some cn1 ∧ c1 ≠ pa ∧ c1 ≠ left ∧
        p.Keys[1]? = some k1 ∧
        old1.IsLeaf = false ∧ old1.Parent = p.Parent ∧ NodeLocal old1 ∧ old1.NumKeys = 2 ∧
        old1.Pointers[0]? = some (Ptr.node left) ∧ old1.Pointers[1]? = some (Ptr.node right) ∧
        old1.Keys[0]? = some kl ∧ old1.Keys[1]? = some key ∧
        nn.IsLeaf = false ∧ nn.Parent = p.Parent ∧ NodeLocal nn ∧ nn.NumKeys = 1 ∧
        nn.Pointers[0]? = some (Ptr.node c1) ∧ nn.Keys[0]? = some k1 ∧
        nn.liveChildren = [Ptr.node c1] ∧
        (old1.liveChildren ++ [Ptr.node c1]).Perm (p.liveChildren ++ [Ptr.node right]) ∧
        Tree.insertIntoParent (fuel + 1) t left key right
          = Tree.insertIntoParent fuel
            { t with nodes := ((t.nodes.set pa old1).set c1
              { cn1 with Parent := some t.nodes.length } ++ [nn]) } pa k1 t.nodes.length) ∨
    (p.NumKeys = 2 ∧ p.Pointers[1]? = some (Ptr.node left) ∧
      ∃ (old1 nn cn0 : Node) (c0 : Nat),
        p.Pointers[0]? = some (Ptr.node c0) ∧ t.nodes[c0]? = some cn0 ∧ c0 ≠ pa ∧ c0 ≠ left ∧
        old1.IsLeaf = false ∧ old1.Parent = p.Parent ∧ NodeLocal old1 ∧ old1.NumKeys = 2 ∧
        old1.Pointers[0]? = some (Ptr.node c0) ∧ old1.Pointers[1]? = some (Ptr.node left) ∧
        old1.Keys[0]? = p.Keys[0]? ∧ old1.Keys[1]? = some kl ∧
        nn.IsLeaf = false ∧ nn.Parent = p.Parent ∧ NodeLocal nn ∧ nn.NumKeys = 1 ∧
        nn.Pointers[0]? = some (Ptr.node right) ∧ nn.Keys[0]? = some key ∧
        nn.liveChildren = [Ptr.node right] ∧
        (old1.liveChildren ++ [Ptr.node right]).Perm (p.liveChildren ++ [Ptr.node right]) ∧
        Tree.insertIntoParent (fuel + 1) t left key right
          = Tree.insertIntoParent fuel
            { t with nodes := ((t.nodes.set pa old1).set right
              { r with Parent := some t.nodes.length } ++ [nn]) } pa key t.nodes.length) := by
  obtain ⟨hk, hpl, hn, -⟩ := hploc
  obtain ⟨s0, s1, s2, s3, hK⟩ := list4 hk
  obtain ⟨q0, q1, q2, q3, hP⟩ := list4 hpl
  obtain ⟨P, K, par, isl, num, nxt⟩ := p
  simp only at hK hP hn hpos hmem hchildren hint hnd
  subst hK hP hint
  have hpalt : pa < t.nodes.length := (List.getElem?_eq_some.mp hp).1
  have hcases : num = 1 ∨ num = 2 := by simp [order] at hn; omega
  rcases hcases with rfl | rfl
  · -- the parent has room
    left
    simp [Node.liveChildren] at hmem
    subst hmem
    refine ⟨rfl, rfl, Node.mk [Ptr.node left, Ptr.node right, q2, q3] [kl, key, s2, s3] par false
      2 nxt, ?_, rfl, rfl, rfl, rfl, rfl, rfl, rfl⟩
    unfold Tree.insertIntoParent
    simp only [hl, hlp, hp]
    simp [getNodeIndex, wr, setNode, hpalt, order, hlk, insertIntoNode, andThen, shiftRight]
  · -- the parent is full
    simp [Node.liveChildren] at hmem hchildren hnd
    obtain ⟨⟨c0, hq0, ⟨cn0, hcn0⟩, hc0pa⟩, ⟨c1, hq1, ⟨cn1, hcn1⟩, hc1pa⟩⟩ := hchildren
    subst hq0 hq1
    have hc0lt : c0 < t.nodes.length := (List.getElem?_eq_some.mp hcn0).1
    have hc1lt : c1 < t.nodes.length := (List.getElem?_eq_some.mp hcn1).1
    have hrlt : right < t.nodes.length := (List.getElem?_eq_some.mp hr).1
    by_cases hA : c0 = left
    · subst hA
      right; left
      refine ⟨rfl, rfl,
        Node.mk [Ptr.node c0, Ptr.node right, q2, q3] [kl, key, s2, s3] par false 2 nxt,
        Node.mk [Ptr.node c1, Ptr.nil, Ptr.nil, Ptr.nil] [s1, 0, 0, 0] par false 1 none,
        cn1, c1, s1, rfl, hcn1, hc1pa, fun e => hnd (by rw [e]), rfl, rfl, rfl,
        ⟨rfl, rfl, Nat.le_of_ble_eq_true rfl, by simp⟩, rfl, rfl, rfl, rfl, rfl, rfl, rfl,
        ⟨rfl, rfl, Nat.le_of_ble_eq_true rfl, by simp⟩, rfl, rfl, rfl, rfl, ?_, ?_⟩
      · simp only [Node.liveChildren, List.take, List.cons_append, List.nil_append]
        exact List.Perm.cons _ (List.Perm.swap _ _ _)
      · conv_lhs => unfold Tree.insertIntoParent
        simp only [hl, hlp, hp, hlk]
        simp [getNodeIndex, wr, setNode, hpalt, order, Tree.splitNode, andThen, copySkip,
          copyRange, cut, makeNode, setParents, append_set_lookup _ _ hc1pa hcn1,
          set_append_lookup_len _ _ _ hc1lt, hc1lt, Nat.lt_succ_of_lt hc1lt, lastKey]
    · have hB : c1 = left := by
        rcases hmem with e | e
        · simp only [Ptr.node.injEq] at e; exact absurd e.symm hA
        · simp only [Ptr.node.injEq] at e; exact e.symm
      subst hB
      right; right
      have hA2 : ¬ Ptr.node c0 = Ptr.node c1 := by simpa using hA
      refine ⟨rfl, rfl,
        Node.mk [Ptr.node c0, Ptr.node c1, q2, q3] [s0, kl, s2, s3] par false 2 nxt,
        Node.mk [Ptr.node right, Ptr.nil, Ptr.nil, Ptr.nil] [key, 0, 0, 0] par false 1 none,
        cn0, c0, rfl, hcn0, hc0pa, hA, rfl, rfl,
        ⟨rfl, rfl, Nat.le_of_ble_eq_true rfl, by simp⟩, rfl, rfl, rfl, rfl, rfl, rfl, rfl,
        ⟨rfl, rfl, Nat.le_of_ble_eq_true rfl, by simp⟩, rfl, rfl, rfl, rfl, ?_, ?_⟩
      · simp only [Node.liveChildren, List.take, List.cons_append, List.nil_append]
        exact List.Perm.refl _
      · conv_lhs => unfold Tree.insertIntoParent
        simp only [hl, hlp, hp, hlk]
        simp [getNodeIndex, wr, setNode, hpalt, order, Tree.splitNode, andThen, copySkip,
          copyRange, cut, makeNode, setParents, append_set_lookup _ _ hrpa hr,
          set_append_lookup_len _ _ _ hrlt, hrlt, Nat.lt_succ_of_lt hrlt, lastKey, hA2, hA]
theorem lastKeyAt_eq {nodes : List Node} {c : Nat} {cn : Node} (h : nodes[c]? = some cn) :
    lastKeyAt nodes c = lastKey cn := by
  simp [lastKeyAt, h]

theorem lastKeyAt_congr {nodes nodes1 : List Node} {c : Nat} (h : nodes1[c]? = nodes[c]?) :
    lastKeyAt nodes1 c = lastKeyAt nodes c := by
  simp [lastKeyAt, h]

/-- A node whose keys, pointers and count are kept stays in order in a new
heap and under new bounds, when its own bound and flag are kept and those of
its children are, with the last keys of the children. -/
theorem OrdNode_frame {nodes nodes1 : List Node} {lo lo1 : Nat → Option Int}
    {b b1 : Nat → Bool} {x x1 : Option Nat} {a : Nat} {n n1 : Node}
    (h : OrdNode nodes lo b x a n)
    (hK : n1.Keys = n.Keys) (hP : n1.Pointers = n.Pointers) (hN : n1.NumKeys = n.NumKeys)
    (hL : n1.IsLeaf = n.IsLeaf) (hlo : lo1 a = lo a) (hb : b1 a = b a)
    (hc : n.IsLeaf = false → ∀ (i c : Nat), i < n.NumKeys →
      n.Pointers[i]? = some (Ptr.node c) →
      lo1 c = lo c ∧ (x1 ≠ some c → x ≠ some c ∧ b1 c = b c ∧
        (b c = true → lastKeyAt nodes1 c = lastKeyAt nodes c))) :
    OrdNode nodes1 lo1 b1 x1 a n1 := by
  constructor
  · intro hl
    rw [hL] at hl
    have := h.leaf hl
    simp only [Node.liveKeys, hK, hN, hlo] at this ⊢
    exact this
  · intro hl i c hi hp
    rw [hL] at hl
    rw [hN] at hi
    rw [hP] at hp
    obtain ⟨h1, h2⟩ := h.child hl i c hi hp
    obtain ⟨h3, h4⟩ := hc hl i c hi hp
    rw [hK, hN, hlo, hb, h3]
    refine ⟨h1, fun hx => ?_⟩
    obtain ⟨h5, h6, h7⟩ := h4 hx
    rw [h6]
    refine ⟨(h2 h5).1, fun hbc => ?_⟩
    rw [h7 hbc]
    exact (h2 h5).2 hbc

theorem child_parent {t : Tree} {x : Option Nat} (h : t.WFx x) {a i c : Nat} {n : Node}
    (hn : t.nodes[a]? = some n) (hint : n.IsLeaf = false) (hi : i < n.NumKeys)
    (hp : n.Pointers[i]? = some (Ptr.node c)) :
    ∃ cn, t.nodes[c]? = some cn ∧ cn.Parent = some a := by
  obtain ⟨k, hk⟩ := ((h.1 a n hn).1).children hint
  obtain ⟨c1, cn, hc1, hcn, hcp, -⟩ := hk _ (mem_take_of_getElem? hp hi)
  simp only [Ptr.node.injEq] at hc1
  subst hc1
  exact ⟨cn, hcn, hcp⟩

/-- The parent had room: with the new node in it the tree is in order. -/
theorem Ordered_room {t : Tree} {lo : Nat → Option Int} {b : Nat → Bool}
    {left right pa : Nat} {l r p p2 : Node} {key kl : Int}
    (hpre : InsPre t left right l r) (hord : InsOrd t lo b left right l r key)
    (hlp : l.Parent = some pa) (hp : t.nodes[pa]? = some p) (hlk : lastKey l = some kl)
    (hnum : p.NumKeys = 1) (hp0 : p.Pointers[0]? = some (Ptr.node left))
    (h1 : p2.IsLeaf = false) (h3 : p2.NumKeys = 2)
    (h4 : p2.Pointers[0]? = some (Ptr.node left)) (h5 : p2.Pointers[1]? = some (Ptr.node right))
    (h6 : p2.Keys[0]? = some kl) (h7 : p2.Keys[1]? = some key) :
    Tree.Ordered { t with nodes := t.nodes.set pa p2 } lo b none := by
  have hlook := fun a => set_lookup p2 hp (b := a)
  have hwl := (hpre.wf.1 left l hpre.hl).1
  have hwr := (hpre.wf.1 right r hpre.hr).1
  have hrp : r.Parent = some pa := hpre.par.trans hlp
  have hlpa : left ≠ pa := by
    intro e; subst e; exact hwl.notSelf hlp
  have hrpa : right ≠ pa := by
    intro e; subst e; exact hwr.notSelf hrp
  obtain ⟨p0, hp0', hpint⟩ := hwl.parentInternal pa hlp
  rw [hp] at hp0'; simp only [Option.some.injEq] at hp0'; subst hp0'
  obtain ⟨kl1, hkl1, hlor⟩ := hord.low
  rw [hlk] at hkl1; simp only [Option.some.injEq] at hkl1; subst hkl1
  have hpar := hord.par pa p 0 hlp hp (by omega) hp0
  simp only [hnum, Nat.lt_irrefl, if_false] at hpar
  refine ⟨?_, ?_⟩
  · intro rt hrt
    obtain ⟨e1, e2⟩ := hord.ord.1 rt hrt
    refine ⟨e1, fun _ => e2 ?_⟩
    intro e
    simp only [Option.some.injEq] at e
    subst e
    obtain ⟨rn, hrn, hrnp, -⟩ := hpre.wf.2 _ hrt
    rw [hpre.hl] at hrn; simp only [Option.some.injEq] at hrn; subst hrn
    rw [hlp] at hrnp; exact Option.noConfusion hrnp
  · intro a n ha
    have ha2 : (t.nodes.set pa p2)[a]? = some n := ha
    rw [hlook] at ha2
    split at ha2
    · rename_i hap; subst hap
      simp only [Option.some.injEq] at ha2; subst ha2
      constructor
      · intro e; rw [h1] at e; exact Bool.noConfusion e
      · intro _ i c hi hc
        rw [h3] at hi
        have hi2 : i = 0 ∨ i = 1 := by omega
        rcases hi2 with rfl | rfl
        · rw [h4] at hc
          simp only [Option.some.injEq, Ptr.node.injEq] at hc
          subst hc
          have hold := (hord.ord.2 a p hp).child hpint 0 left (by omega) hp0
          simp only [if_true] at hold
          refine ⟨by simpa using hold.1, fun _ => ?_⟩
          simp only [h3, hord.bl, h6]
          refine ⟨by simp, fun _ => ?_⟩
          show lastKeyAt (t.nodes.set a p2) left = some kl
          unfold lastKeyAt
          rw [hlook, if_neg hlpa, hpre.hl]
          exact hlk
        · rw [h5] at hc
          simp only [Option.some.injEq, Ptr.node.injEq] at hc
          subst hc
          refine ⟨by simp [h6, hlor], fun _ => ?_⟩
          simp only [h3, Nat.lt_irrefl, if_false, h7]
          refine ⟨hpar.1, fun _ => ?_⟩
          show lastKeyAt (t.nodes.set a p2) right = some key
          unfold lastKeyAt
          rw [hlook, if_neg hrpa, hpre.hr]
          exact hord.last
    · rename_i hap
      refine OrdNode_frame (hord.ord.2 a n ha2) rfl rfl rfl rfl rfl rfl ?_
      intro hint i c hi hc
      obtain ⟨cn, hcn, hcp⟩ := child_parent hpre.wf ha2 hint hi hc
      refine ⟨rfl, fun _ => ⟨?_, rfl, fun hbc => ?_⟩⟩
      · intro e
        simp only [Option.some.injEq] at e
        subst e
        rw [hpre.hl] at hcn; simp only [Option.some.injEq] at hcn; subst hcn
        rw [hlp] at hcp; simp only [Option.some.injEq] at hcp; exact hap hcp.symm
      · show lastKeyAt (t.nodes.set pa p2) c = lastKeyAt t.nodes c
        by_cases hcpa : c = pa
        · subst hcpa
          have hl2 : (t.nodes.set c p2)[c]? = some p2 := by rw [hlook]; simp
          rw [lastKeyAt_eq hp, lastKeyAt_eq hl2]
          have hbr : b right = true := by rw [hpar.1]; exact hbc
          simp [lastKey, h3, hnum, hpar.2 hbr, h7]
        · exact lastKeyAt_congr (by rw [hlook, if_neg hcpa])
/-- `insertIntoNewRoot` on two nodes that hold a key: the new root holds the
two nodes and their last keys. -/
theorem insertIntoNewRoot_fwd {t : Tree} {left right : Nat} {l r : Node} {kl kr : Int}
    (hl : t.nodes[left]? = some l) (hr : t.nodes[right]? = some r) (hne : left ≠ right)
    (hkl : lastKey l = some kl) (hkr : lastKey r = some kr) :
    t.insertIntoNewRoot left right = some { t with
      Root := some t.nodes.length
      nodes := ((t.nodes ++ [Node.mk [Ptr.node left, Ptr.node right, Ptr.nil, Ptr.nil]
        [kl, kr, 0, 0] none false 2 none]).set left
          { l with Parent := some t.nodes.length }).set right
          { r with Parent := some t.nodes.length } } := by
  have hll : left < t.nodes.length := (List.getElem?_eq_some.mp hl).1
  have hrl : right < t.nodes.length := (List.getElem?_eq_some.mp hr).1
  have hl2 : (t.nodes ++ [makeNode])[left]? = some l := by
    rw [List.getElem?_append_left hll]; exact hl
  have hr2 : (t.nodes ++ [makeNode])[right]? = some r := by
    rw [List.getElem?_append_left hrl]; exact hr
  unfold Tree.insertIntoNewRoot
  simp only [hl2, hr2, andThen, hkl, hkr]
  have hr3 : (t.nodes.set left { l with Parent := some t.nodes.length } ++
      [Node.mk [Ptr.node left, Ptr.node right, Ptr.nil, Ptr.nil] [kl, kr, 0, 0] none false 2
        none])[right]? = some r := by
    rw [List.getElem?_append_left (by simpa using hrl), List.getElem?_set_ne hne, hr]
  simp [makeNode, order, wr, setNode, set_append_length, List.getElem?_append_left hll, hl,
    hll, hrl, Nat.lt_succ_of_lt hll, Nat.lt_succ_of_lt hrl, hr3]

/-- The root was split: under the new root the tree is in order. -/
theorem Ordered_newRoot {t : Tree} {lo : Nat → Option Int} {b : Nat → Bool}
    {left right : Nat} {l r : Node} {key kl : Int}
    (hpre : InsPre t left right l r) (hord : InsOrd t lo b left right l r key)
    (hlp : l.Parent = none) (hlk : lastKey l = some kl) :
    Tree.Ordered { t with
      Root := some t.nodes.length
      nodes := ((t.nodes ++ [Node.mk [Ptr.node left, Ptr.node right, Ptr.nil, Ptr.nil]
        [kl, key, 0, 0] none false 2 none]).set left
          { l with Parent := some t.nodes.length }).set right
          { r with Parent := some t.nodes.length } }
      (fun a => if a = t.nodes.length then none else lo a)
      (fun a => if a = t.nodes.length then false else b a) none := by
  have hll : left < t.nodes.length := (List.getElem?_eq_some.mp hpre.hl).1
  have hrl : right < t.nodes.length := (List.getElem?_eq_some.mp hpre.hr).1
  have hlook := fun a => @newRoot_lookup t.nodes left right
    { l with Parent := some t.nodes.length } { r with Parent := some t.nodes.length }
    (Node.mk [Ptr.node left, Ptr.node right, Ptr.nil, Ptr.nil] [kl, key, 0, 0] none false 2 none)
    hll hrl hpre.ne a
  have hroot : t.Root = some left := hpre.linked.2 hlp
  obtain ⟨kl1, hkl1, hlor⟩ := hord.low
  rw [hlk] at hkl1; simp only [Option.some.injEq] at hkl1; subst hkl1
  have hlast : ∀ c, c ≠ t.nodes.length →
      lastKeyAt (((t.nodes ++ [Node.mk [Ptr.node left, Ptr.node right, Ptr.nil, Ptr.nil]
        [kl, key, 0, 0] none false 2 none]).set left
          { l with Parent := some t.nodes.length }).set right
          { r with Parent := some t.nodes.length }) c = lastKeyAt t.nodes c := by
    intro c hc
    unfold lastKeyAt
    rw [hlook]
    by_cases h1 : c = right
    · subst h1; simp [hpre.hr, lastKey]
    · by_cases h2 : c = left
      · subst h2; simp [h1, hpre.hl, lastKey]
      · simp [h1, h2, hc]
  have hsame : ∀ a n1, (((t.nodes ++ [Node.mk [Ptr.node left, Ptr.node right, Ptr.nil, Ptr.nil]
        [kl, key, 0, 0] none false 2 none]).set left
          { l with Parent := some t.nodes.length }).set right
          { r with Parent := some t.nodes.length })[a]? = some n1 → a ≠ t.nodes.length →
      ∃ n, t.nodes[a]? = some n ∧ n1.Keys = n.Keys ∧ n1.Pointers = n.Pointers ∧
        n1.NumKeys = n.NumKeys ∧ n1.IsLeaf = n.IsLeaf := by
    intro a n1 ha hne
    rw [hlook] at ha
    by_cases h1 : a = right
    · subst h1
      simp only [if_true, Option.some.injEq] at ha
      subst ha
      exact ⟨r, hpre.hr, rfl, rfl, rfl, rfl⟩
    · by_cases h2 : a = left
      · subst h2
        simp only [h1, if_false, if_true, Option.some.injEq] at ha
        subst ha
        exact ⟨l, hpre.hl, rfl, rfl, rfl, rfl⟩
      · simp only [h1, h2, hne, if_false] at ha
        exact ⟨n1, ha, rfl, rfl, rfl, rfl⟩
  refine ⟨?_, ?_⟩
  · intro rt hrt
    simp only [Option.some.injEq] at hrt
    subst hrt
    simp
  · intro a n1 ha
    by_cases haN : a = t.nodes.length
    · subst haN
      have ha2 := ha
      simp only at ha2
      rw [hlook] at ha2
      simp only [Nat.ne_of_gt hrl, Nat.ne_of_gt hll, if_false, if_true,
        Option.some.injEq] at ha2
      subst ha2
      constructor
      · intro e; exact Bool.noConfusion e
      · intro _ i c hi hc
        have hi2 : i = 0 ∨ i = 1 := by simp only at hi; omega
        rcases hi2 with rfl | rfl
        · simp only [List.getElem?_cons_zero, Option.some.injEq, Ptr.node.injEq] at hc
          subst hc
          simp only [Nat.ne_of_lt hll, if_false, if_true]
          refine ⟨(hord.ord.1 _ hroot).1, fun _ => ⟨by simp [hord.bl], fun _ => ?_⟩⟩
          rw [hlast _ (Nat.ne_of_lt hll), lastKeyAt_eq hpre.hl, hlk]
          rfl
        · simp only [List.getElem?_cons_succ, List.getElem?_cons_zero, Option.some.injEq,
            Ptr.node.injEq] at hc
          subst hc
          simp only [Nat.ne_of_lt hrl, if_false, if_true]
          refine ⟨by simp [hlor], fun _ => ⟨by simp [hord.root hlp], fun hb => ?_⟩⟩
          rw [hord.root hlp] at hb
          exact Bool.noConfusion hb
    · obtain ⟨n, hn, e1, e2, e3, e4⟩ := hsame a n1 ha haN
      refine OrdNode_frame (hord.ord.2 a n hn) e1 e2 e3 e4 (by simp [haN]) (by simp [haN]) ?_
      intro hint i c hi hc
      obtain ⟨cn, hcn, hcp⟩ := child_parent hpre.wf hn hint hi hc
      have hcl : c ≠ t.nodes.length := Nat.ne_of_lt (List.getElem?_eq_some.mp hcn).1
      refine ⟨by simp [hcl], fun _ => ⟨?_, by simp [hcl], fun _ => hlast c hcl⟩⟩
      intro e
      simp only [Option.some.injEq] at e
      subst e
      rw [hpre.hl] at hcn; simp only [Option.some.injEq] at hcn; subst hcn
      rw [hlp] at hcp; exact Option.noConfusion hcp
theorem lastKey_of_two {n : Node} {k : Int} (h2 : n.NumKeys = 2) (hk : n.Keys[1]? = some k) :
    lastKey n = some k := by
  simp [lastKey, h2, hk]

theorem lastKey_of_one {n : Node} {k : Int} (h1 : n.NumKeys = 1) (hk : n.Keys[0]? = some k) :
    lastKey n = some k := by
  simp [lastKey, h1, hk]

/-- After the split of a full parent, a node that is neither the parent nor
the new node is in order as before. -/
theorem OrdNode_split_other {t : Tree} {lo : Nat → Option Int} {b : Nat → Bool}
    {left right pa m : Nat} {l r p old1 nn mn : Node} {key : Int}
    (hpre : InsPre t left right l r) (hord : InsOrd t lo b left right l r key)
    (hlp : l.Parent = some pa) (hp : t.nodes[pa]? = some p) (hm : t.nodes[m]? = some mn)
    (hmpa : m ≠ pa) (klo : Option Int) {a : Nat} {n1 : Node}
    (ha : ((t.nodes.set pa old1).set m { mn with Parent := some t.nodes.length } ++ [nn])[a]?
      = some n1) (h1 : a ≠ t.nodes.length) (h2 : a ≠ pa) :
    OrdNode ((t.nodes.set pa old1).set m { mn with Parent := some t.nodes.length } ++ [nn])
      (fun a => if a = t.nodes.length then klo else lo a)
      (fun a => if a = t.nodes.length then b pa else if a = pa then true else b a)
      (some pa) a n1 := by
  have hlook := fun c => split_lookup old1 { mn with Parent := some t.nodes.length } nn hp hm
    hmpa c
  have hsame : ∃ n, t.nodes[a]? = some n ∧ n1.Keys = n.Keys ∧ n1.Pointers = n.Pointers ∧
      n1.NumKeys = n.NumKeys ∧ n1.IsLeaf = n.IsLeaf := by
    rw [hlook] at ha
    simp only [h1, if_false] at ha
    by_cases h3 : a = m
    · subst h3
      simp only [if_true, Option.some.injEq] at ha
      subst ha
      exact ⟨mn, hm, rfl, rfl, rfl, rfl⟩
    · simp only [h3, h2, if_false] at ha
      exact ⟨n1, ha, rfl, rfl, rfl, rfl⟩
  obtain ⟨n, hn, e1, e2, e3, e4⟩ := hsame
  refine OrdNode_frame (hord.ord.2 a n hn) e1 e2 e3 e4 (by simp [h1]) (by simp [h1, h2]) ?_
  intro hint i c hi hc
  obtain ⟨cn, hcn, hcp⟩ := child_parent hpre.wf hn hint hi hc
  have hcl : c ≠ t.nodes.length := Nat.ne_of_lt (List.getElem?_eq_some.mp hcn).1
  refine ⟨by simp [hcl], fun hx => ?_⟩
  have hcpa : c ≠ pa := fun e => hx (by rw [e])
  refine ⟨?_, by simp [hcl, hcpa], fun _ => ?_⟩
  · intro e
    simp only [Option.some.injEq] at e
    subst e
    rw [hpre.hl] at hcn; simp only [Option.some.injEq] at hcn; subst hcn
    rw [hlp] at hcp; simp only [Option.some.injEq] at hcp; exact h2 hcp.symm
  · unfold lastKeyAt
    rw [hlook]
    simp only [hcl, hcpa, if_false]
    by_cases h3 : c = m
    · subst h3
      simp [hm, lastKey]
    · simp [h3]

/-- The facts about the parent of the split node that the call one level up
needs. -/
theorem InsOrd_split_up {t : Tree} {lo : Nat → Option Int} {b : Nat → Bool}
    {left right pa m : Nat} {l r p old1 nn mn : Node} {key k1 : Int}
    (hpre : InsPre t left right l r) (hord : InsOrd t lo b left right l r key)
    (hlp : l.Parent = some pa) (hp : t.nodes[pa]? = some p) (hm : t.nodes[m]? = some mn)
    (hmpa : m ≠ pa) (hopar : old1.Parent = p.Parent)
    (hpk : b pa = true → lastKey p = some k1) :
    (old1.Parent = none →
      (fun a => if a = t.nodes.length then b pa else if a = pa then true else b a)
        t.nodes.length = false) ∧
    ∀ (G : Nat) (g : Node) (j : Nat), old1.Parent = some G →
      ((t.nodes.set pa old1).set m { mn with Parent := some t.nodes.length } ++ [nn])[G]?
        = some g →
      j < g.NumKeys → g.Pointers[j]? = some (Ptr.node pa) →
      (fun a => if a = t.nodes.length then b pa else if a = pa then true else b a)
          t.nodes.length
        = (if j + 1 < g.NumKeys then true
           else (fun a => if a = t.nodes.length then b pa else if a = pa then true else b a) G) ∧
      ((fun a => if a = t.nodes.length then b pa else if a = pa then true else b a)
          t.nodes.length = true → g.Keys[j]? = some k1) := by
  have hlook := fun c => split_lookup old1 { mn with Parent := some t.nodes.length } nn hp hm
    hmpa c
  have hwl := (hpre.wf.1 left l hpre.hl).1
  have hwr := (hpre.wf.1 right r hpre.hr).1
  have hrp : r.Parent = some pa := hpre.par.trans hlp
  have hrpa : right ≠ pa := by
    intro e; subst e; exact hwr.notSelf hrp
  have hlpa : left ≠ pa := by
    intro e; subst e; exact hwl.notSelf hlp
  obtain ⟨p0, hp0', hpint⟩ := hwl.parentInternal pa hlp
  rw [hp] at hp0'; simp only [Option.some.injEq] at hp0'; subst hp0'
  have hwp := hpre.wf.1 pa p hp
  have hlinked := hwp.2 hpint (fun e => hrpa (by simpa using e))
  constructor
  · intro hpn
    rw [hopar] at hpn
    have hroot := hlinked.2 hpn
    simp only [if_true]
    exact (hord.ord.1 pa hroot).2 (fun e => hlpa (by simpa using e))
  · intro G g j hG hg hj hgp
    rw [hopar] at hG
    obtain ⟨g0, hg0, hg0int⟩ := hwp.1.parentInternal G hG
    have hGl : G ≠ t.nodes.length := Nat.ne_of_lt (List.getElem?_eq_some.mp hg0).1
    have hGpa : G ≠ pa := fun e => hwp.1.notSelf (by rw [hG, e])
    have hsame : g.Keys = g0.Keys ∧ g.Pointers = g0.Pointers ∧ g.NumKeys = g0.NumKeys := by
      rw [hlook] at hg
      simp only [hGl, if_false] at hg
      by_cases h3 : G = m
      · subst h3
        simp only [if_true, Option.some.injEq] at hg
        subst hg
        rw [hm] at hg0; simp only [Option.some.injEq] at hg0; subst hg0
        exact ⟨rfl, rfl, rfl⟩
      · simp only [h3, hGpa, if_false] at hg
        rw [hg0] at hg; simp only [Option.some.injEq] at hg; subst hg
        exact ⟨rfl, rfl, rfl⟩
    obtain ⟨e1, e2, e3⟩ := hsame
    rw [e3] at hj
    rw [e2] at hgp
    obtain ⟨-, hold⟩ := (hord.ord.2 G g0 hg0).child hg0int j pa hj hgp
    obtain ⟨hb1, hb2⟩ := hold (fun e => hlpa (by simpa using e))
    simp only [if_true, hGl, hGpa, if_false, e3, e1]
    refine ⟨hb1, fun hb => ?_⟩
    rw [← hb2 hb, lastKeyAt_eq hp]
    exact hpk hb
/-- The split of a full parent whose first child is `left`: the call one level
up meets the precondition on the order again. -/
theorem InsOrd_splitA {t : Tree} {lo : Nat → Option Int} {b : Nat → Bool}
    {left right pa c1 : Nat} {l r p old1 nn cn1 : Node} {key kl k1 : Int}
    (hpre : InsPre t left right l r) (hord : InsOrd t lo b left right l r key)
    (hlp : l.Parent = some pa) (hp : t.nodes[pa]? = some p) (hlk : lastKey l = some kl)
    (hnum : p.NumKeys = 2) (hp0 : p.Pointers[0]? = some (Ptr.node left))
    (hp1 : p.Pointers[1]? = some (Ptr.node c1)) (hc1 : t.nodes[c1]? = some cn1)
    (hc1pa : c1 ≠ pa) (hc1l : c1 ≠ left) (hk1 : p.Keys[1]? = some k1)
    (ho1 : old1.IsLeaf = false) (ho2 : old1.Parent = p.Parent) (ho4 : old1.NumKeys = 2)
    (ho5 : old1.Pointers[0]? = some (Ptr.node left))
    (ho6 : old1.Pointers[1]? = some (Ptr.node right))
    (ho7 : old1.Keys[0]? = some kl) (ho8 : old1.Keys[1]? = some key)
    (hn1 : nn.IsLeaf = false) (hn4 : nn.NumKeys = 1)
    (hn5 : nn.Pointers[0]? = some (Ptr.node c1)) (hn6 : nn.Keys[0]? = some k1) :
    InsOrd { t with nodes := ((t.nodes.set pa old1).set c1
        { cn1 with Parent := some t.nodes.length } ++ [nn]) }
      (fun a => if a = t.nodes.length then some key else lo a)
      (fun a => if a = t.nodes.length then b pa else if a = pa then true else b a)
      pa t.nodes.length old1 nn k1 := by
  have hlook := fun c => split_lookup old1 { cn1 with Parent := some t.nodes.length } nn hp hc1
    hc1pa c
  have hwl := (hpre.wf.1 left l hpre.hl).1
  have hwr := (hpre.wf.1 right r hpre.hr).1
  have hrp : r.Parent = some pa := hpre.par.trans hlp
  have hrpa : right ≠ pa := by
    intro e; subst e; exact hwr.notSelf hrp
  have hlpa : left ≠ pa := by
    intro e; subst e; exact hwl.notSelf hlp
  obtain ⟨p0, hp0', hpint⟩ := hwl.parentInternal pa hlp
  rw [hp] at hp0'; simp only [Option.some.injEq] at hp0'; subst hp0'
  have hll : left < t.nodes.length := (List.getElem?_eq_some.mp hpre.hl).1
  have hrl : right < t.nodes.length := (List.getElem?_eq_some.mp hpre.hr).1
  have hpl : pa < t.nodes.length := (List.getElem?_eq_some.mp hp).1
  have hc1l' : c1 < t.nodes.length := (List.getElem?_eq_some.mp hc1).1
  have hrc1 : right ≠ c1 := by
    intro e
    subst e
    exact hpre.unheld pa p hp hpint (mem_take_of_getElem? hp1 (by omega))
  obtain ⟨kl1, hkl1, hlor⟩ := hord.low
  rw [hlk] at hkl1; simp only [Option.some.injEq] at hkl1; subst hkl1
  have hpar := hord.par pa p 0 hlp hp (by omega) hp0
  simp only [hnum, show 0 + 1 < 2 by omega, if_true] at hpar
  have hpk0 : p.Keys[0]? = some key := hpar.2 hpar.1
  have holdL := (hord.ord.2 pa p hp).child hpint 0 left (by omega) hp0
  have holdC := (hord.ord.2 pa p hp).child hpint 1 c1 (by omega) hp1
  simp only [if_true] at holdL
  simp only [Nat.one_ne_zero, if_false, Nat.sub_self, hnum, Nat.lt_irrefl] at holdC
  obtain ⟨hloC, hbC⟩ := holdC
  obtain ⟨hbC1, hbC2⟩ := hbC (fun e => hc1l (by simpa using e.symm))
  have hup := @InsOrd_split_up _ _ _ _ _ _ _ _ _ _ _ nn _ _ k1 hpre hord hlp hp hc1 hc1pa ho2
    (fun _ => lastKey_of_two hnum hk1)
  refine ⟨⟨?_, ?_⟩, lastKey_of_one hn4 hn6, ⟨key, lastKey_of_two ho4 ho8, by simp⟩, by
    simp [Nat.ne_of_lt hpl], hup.1, hup.2⟩
  · intro rt hrt
    have hrt2 : t.Root = some rt := hrt
    obtain ⟨rn, hrn, hrnp, -⟩ := hpre.wf.2 rt hrt2
    have hrtl : rt ≠ t.nodes.length := Nat.ne_of_lt (List.getElem?_eq_some.mp hrn).1
    obtain ⟨e1, e2⟩ := hord.ord.1 rt hrt2
    refine ⟨by simp [hrtl, e1], fun hx => ?_⟩
    have hrtpa : rt ≠ pa := fun e => hx (by rw [e])
    simp only [hrtl, hrtpa, if_false]
    apply e2
    intro e
    simp only [Option.some.injEq] at e
    subst e
    rw [hpre.hl] at hrn; simp only [Option.some.injEq] at hrn; subst hrn
    rw [hlp] at hrnp; exact Option.noConfusion hrnp
  · intro a n1 ha
    have ha2 : ((t.nodes.set pa old1).set c1 { cn1 with Parent := some t.nodes.length }
      ++ [nn])[a]? = some n1 := ha
    by_cases haN : a = t.nodes.length
    · subst haN
      rw [hlook] at ha2
      simp only [if_true, Option.some.injEq] at ha2
      subst ha2
      constructor
      · intro e; rw [hn1] at e; exact Bool.noConfusion e
      · intro _ i c hi hc
        rw [hn4] at hi
        have hi0 : i = 0 := by omega
        subst hi0
        rw [hn5] at hc
        simp only [Option.some.injEq, Ptr.node.injEq] at hc
        subst hc
        simp only [Nat.ne_of_lt hc1l', if_false, if_true, hc1pa, hn4, hn6, Nat.lt_irrefl]
        refine ⟨by rw [hloC, hpk0], fun _ => ⟨hbC1, fun hb => ?_⟩⟩
        rw [← hk1, ← hbC2 hb]
        unfold lastKeyAt
        rw [hlook]
        simp [Nat.ne_of_lt hc1l', hc1, lastKey]
    · by_cases hapa : a = pa
      · subst hapa
        rw [hlook] at ha2
        simp only [haN, Ne.symm hc1pa, if_false, if_true, Option.some.injEq] at ha2
        subst ha2
        constructor
        · intro e; rw [ho1] at e; exact Bool.noConfusion e
        · intro _ i c hi hc
          rw [ho4] at hi
          have hi2 : i = 0 ∨ i = 1 := by omega
          rcases hi2 with rfl | rfl
          · rw [ho5] at hc
            simp only [Option.some.injEq, Ptr.node.injEq] at hc
            subst hc
            simp only [Nat.ne_of_lt hll, Nat.ne_of_lt hpl, hlpa, if_false, if_true, ho4, ho7]
            refine ⟨holdL.1, fun _ => ⟨by simp [hord.bl], fun _ => ?_⟩⟩
            unfold lastKeyAt
            rw [hlook]
            simp [Nat.ne_of_lt hll, Ne.symm hc1l, hlpa, hpre.hl, hlk]
          · rw [ho6] at hc
            simp only [Option.some.injEq, Ptr.node.injEq] at hc
            subst hc
            simp only [Nat.ne_of_lt hrl, Nat.ne_of_lt hpl, hrpa, if_false, if_true, ho4, ho7,
              ho8, Nat.lt_irrefl, Nat.one_ne_zero, Nat.sub_self]
            refine ⟨hlor, fun _ => ⟨hpar.1, fun _ => ?_⟩⟩
            unfold lastKeyAt
            rw [hlook]
            simp [Nat.ne_of_lt hrl, hrc1, hrpa, hpre.hr, hord.last]
      · exact OrdNode_split_other hpre hord hlp hp hc1 hc1pa (some key) ha2 haN hapa
/-- The split of a full parent whose second child is `left`: the call one
level up meets the precondition on the order again. -/
theorem InsOrd_splitB {t : Tree} {lo : Nat → Option Int} {b : Nat → Bool}
    {left right pa c0 : Nat} {l r p old1 nn cn0 : Node} {key kl : Int}
    (hpre : InsPre t left right l r) (hord : InsOrd t lo b left right l r key)
    (hlp : l.Parent = some pa) (hp : t.nodes[pa]? = some p) (hlk : lastKey l = some kl)
    (hnum : p.NumKeys = 2) (hp1 : p.Pointers[1]? = some (Ptr.node left))
    (hp0 : p.Pointers[0]? = some (Ptr.node c0)) (hc0 : t.nodes[c0]? = some cn0)
    (hc0pa : c0 ≠ pa) (hc0l : c0 ≠ left)
    (ho1 : old1.IsLeaf = false) (ho2 : old1.Parent = p.Parent) (ho4 : old1.NumKeys = 2)
    (ho5 : old1.Pointers[0]? = some (Ptr.node c0))
    (ho6 : old1.Pointers[1]? = some (Ptr.node left))
    (ho7 : old1.Keys[0]? = p.Keys[0]?) (ho8 : old1.Keys[1]? = some kl)
    (hn1 : nn.IsLeaf = false) (hn4 : nn.NumKeys = 1)
    (hn5 : nn.Pointers[0]? = some (Ptr.node right)) (hn6 : nn.Keys[0]? = some key) :
    InsOrd { t with nodes := ((t.nodes.set pa old1).set right
        { r with Parent := some t.nodes.length } ++ [nn]) }
      (fun a => if a = t.nodes.length then some kl else lo a)
      (fun a => if a = t.nodes.length then b pa else if a = pa then true else b a)
      pa t.nodes.length old1 nn key := by
  have hwl := (hpre.wf.1 left l hpre.hl).1
  have hwr := (hpre.wf.1 right r hpre.hr).1
  have hrp : r.Parent = some pa := hpre.par.trans hlp
  have hrpa : right ≠ pa := by
    intro e; subst e; exact hwr.notSelf hrp
  have hlpa : left ≠ pa := by
    intro e; subst e; exact hwl.notSelf hlp
  have hlook := fun c => split_lookup old1 { r with Parent := some t.nodes.length } nn hp
    hpre.hr hrpa c
  obtain ⟨p0, hp0', hpint⟩ := hwl.parentInternal pa hlp
  rw [hp] at hp0'; simp only [Option.some.injEq] at hp0'; subst hp0'
  have hll : left < t.nodes.length := (List.getElem?_eq_some.mp hpre.hl).1
  have hrl : right < t.nodes.length := (List.getElem?_eq_some.mp hpre.hr).1
  have hpl : pa < t.nodes.length := (List.getElem?_eq_some.mp hp).1
  have hc0l' : c0 < t.nodes.length := (List.getElem?_eq_some.mp hc0).1
  have hrc0 : right ≠ c0 := by
    intro e
    subst e
    exact hpre.unheld pa p hp hpint (mem_take_of_getElem? hp0 (by omega))
  obtain ⟨kl1, hkl1, hlor⟩ := hord.low
  rw [hlk] at hkl1; simp only [Option.some.injEq] at hkl1; subst hkl1
  have hpar := hord.par pa p 1 hlp hp (by omega) hp1
  simp only [hnum, Nat.lt_irrefl, if_false] at hpar
  have holdL := (hord.ord.2 pa p hp).child hpint 1 left (by omega) hp1
  have holdC := (hord.ord.2 pa p hp).child hpint 0 c0 (by omega) hp0
  simp only [Nat.one_ne_zero, if_false, Nat.sub_self] at holdL
  simp only [if_true, hnum, show 0 + 1 < 2 by omega] at holdC
  obtain ⟨hloC, hbC⟩ := holdC
  obtain ⟨hbC1, hbC2⟩ := hbC (fun e => hc0l (by simpa using e.symm))
  have hup := @InsOrd_split_up _ _ _ _ _ _ _ _ _ _ _ nn _ _ key hpre hord hlp hp hpre.hr hrpa ho2
    (fun hb => by
      rw [lastKey_of_two hnum (hpar.2 (by rw [hpar.1]; exact hb))])
  refine ⟨⟨?_, ?_⟩, lastKey_of_one hn4 hn6, ⟨kl, lastKey_of_two ho4 ho8, by simp⟩, by
    simp [Nat.ne_of_lt hpl], hup.1, hup.2⟩
  · intro rt hrt
    have hrt2 : t.Root = some rt := hrt
    obtain ⟨rn, hrn, hrnp, -⟩ := hpre.wf.2 rt hrt2
    have hrtl : rt ≠ t.nodes.length := Nat.ne_of_lt (List.getElem?_eq_some.mp hrn).1
    obtain ⟨e1, e2⟩ := hord.ord.1 rt hrt2
    refine ⟨by simp [hrtl, e1], fun hx => ?_⟩
    have hrtpa : rt ≠ pa := fun e => hx (by rw [e])
    simp only [hrtl, hrtpa, if_false]
    apply e2
    intro e
    simp only [Option.some.injEq] at e
    subst e
    rw [hpre.hl] at hrn; simp only [Option.some.injEq] at hrn; subst hrn
    rw [hlp] at hrnp; exact Option.noConfusion hrnp
  · intro a n1 ha
    have ha2 : ((t.nodes.set pa old1).set right { r with Parent := some t.nodes.length }
      ++ [nn])[a]? = some n1 := ha
    by_cases haN : a = t.nodes.length
    · subst haN
      rw [hlook] at ha2
      simp only [if_true, Option.some.injEq] at ha2
      subst ha2
      constructor
      · intro e; rw [hn1] at e; exact Bool.noConfusion e
      · intro _ i c hi hc
        rw [hn4] at hi
        have hi0 : i = 0 := by omega
        subst hi0
        rw [hn5] at hc
        simp only [Option.some.injEq, Ptr.node.injEq] at hc
        subst hc
        simp only [Nat.ne_of_lt hrl, if_false, if_true, hrpa, hn4, hn6, Nat.lt_irrefl]
        refine ⟨hlor, fun _ => ⟨hpar.1, fun _ => ?_⟩⟩
        unfold lastKeyAt
        rw [hlook]
        simp only [Nat.ne_of_lt hrl, if_false, if_true]
        exact hord.last
    · by_cases hapa : a = pa
      · subst hapa
        rw [hlook] at ha2
        simp only [haN, Ne.symm hrpa, if_false, if_true, Option.some.injEq] at ha2
        subst ha2
        constructor
        · intro e; rw [ho1] at e; exact Bool.noConfusion e
        · intro _ i c hi hc
          rw [ho4] at hi
          have hi2 : i = 0 ∨ i = 1 := by omega
          rcases hi2 with rfl | rfl
          · rw [ho5] at hc
            simp only [Option.some.injEq, Ptr.node.injEq] at hc
            subst hc
            simp only [Nat.ne_of_lt hc0l', Nat.ne_of_lt hpl, hc0pa, if_false, if_true, ho4,
              ho7]
            refine ⟨hloC, fun _ => ⟨by simp [hbC1], fun hb => ?_⟩⟩
            rw [← hbC2 (by simpa using hbC1)]
            unfold lastKeyAt
            rw [hlook]
            simp [Nat.ne_of_lt hc0l', Ne.symm hrc0, hc0pa]
          · rw [ho6] at hc
            simp only [Option.some.injEq, Ptr.node.injEq] at hc
            subst hc
            simp only [Nat.ne_of_lt hll, Nat.ne_of_lt hpl, hlpa, if_false, if_true, ho4, ho7,
              ho8, Nat.lt_irrefl, Nat.one_ne_zero, Nat.sub_self]
            refine ⟨holdL.1, fun _ => ⟨hord.bl, fun _ => ?_⟩⟩
            unfold lastKeyAt
            rw [hlook]
            simp [Nat.ne_of_lt hll, hpre.ne, hlpa, hpre.hl, hlk]
      · exact OrdNode_split_other hpre hord hlp hp hpre.hr hrpa (some kl) ha2 haN hapa
theorem SameLeaves_trans {n0 n1 n2 : List Node} {lo0 lo1 lo2 : Nat → Option Int}
    {b0 b1 b2 : Nat → Bool} (h01 : SameLeaves n0 n1 lo0 lo1 b0 b1)
    (h12 : SameLeaves n1 n2 lo1 lo2 b1 b2) : SameLeaves n0 n2 lo0 lo2 b0 b2 := by
  constructor
  · intro a n hn hl
    obtain ⟨e1, e2, m, hm, e3, e4, e5, e6⟩ := h01.1 a n hn hl
    obtain ⟨f1, f2, k, hk, f3, f4, f5, f6⟩ := h12.1 a m hm e6
    exact ⟨f1.trans e1, f2.trans e2, k, hk, f3.trans e3, f4.trans e4, f5.trans e5, f6⟩
  · intro a n hn hl
    obtain ⟨m, hm, hml⟩ := h12.2 a n hn hl
    exact h01.2 a m hm hml

/-- The heights after the split of a full parent: the new node has the height
of the parent. -/
theorem split_Heights {t : Tree} {left right pa m : Nat} {l r p old1 nn mn : Node}
    {ht : Nat → Nat}
    (hpre : InsPre t left right l r) (hlp : l.Parent = some pa) (hp : t.nodes[pa]? = some p)
    (hm : t.nodes[m]? = some mn) (hmpa : m ≠ pa)
    (hmem : Ptr.node m ∈ p.liveChildren ∨ m = right)
    (ho1 : old1.IsLeaf = false) (hn1 : nn.IsLeaf = false)
    (hn5 : nn.liveChildren = [Ptr.node m])
    (hperm : (old1.liveChildren ++ [Ptr.node m]).Perm (p.liveChildren ++ [Ptr.node right]))
    (hht : Heights t.nodes ht) (heq : ht right = ht left) :
    Heights ((t.nodes.set pa old1).set m { mn with Parent := some t.nodes.length } ++ [nn])
      (fun a => if a = t.nodes.length then ht pa else ht a) := by
  have hlook := fun b => split_lookup old1 { mn with Parent := some t.nodes.length } nn hp hm
    hmpa b
  have hwl := (hpre.wf.1 left l hpre.hl).1
  obtain ⟨p0, hp0', hpint⟩ := hwl.parentInternal pa hlp
  rw [hp] at hp0'; simp only [Option.some.injEq] at hp0'; subst hp0'
  have hleft : Ptr.node left ∈ p.liveChildren := by
    obtain ⟨p0, hp0, hmem0⟩ := hpre.linked.1 pa hlp
    rw [hp] at hp0; simp only [Option.some.injEq] at hp0; subst hp0
    exact hmem0
  have hml : m < t.nodes.length := (List.getElem?_eq_some.mp hm).1
  have hrl : right < t.nodes.length := (List.getElem?_eq_some.mp hpre.hr).1
  have hhtpa : ht pa = ht left + 1 := (hht pa p hp).2 hpint left hleft
  have hhtm : ht pa = ht m + 1 := by
    rcases hmem with hmem | rfl
    · exact (hht pa p hp).2 hpint m hmem
    · rw [heq]; exact hhtpa
  intro a n1' ha2
  rw [hlook] at ha2
  split at ha2
  · rename_i haN; subst haN
    simp only [Option.some.injEq] at ha2; subst ha2
    refine ⟨fun e => by rw [hn1] at e; simp at e, ?_⟩
    intro _ c hc
    rw [hn5] at hc
    simp at hc
    subst hc
    simp [Nat.ne_of_lt hml, hhtm]
  · rename_i haN
    simp only [haN, if_false]
    split at ha2
    · rename_i ham; subst ham
      simp only [Option.some.injEq] at ha2; subst ha2
      refine ⟨fun e => (hht a mn hm).1 e, ?_⟩
      intro e c hc
      have hclt := child_lt hpre.wf hm e hc
      simp only [Nat.ne_of_lt hclt, if_false]
      exact (hht a mn hm).2 e c hc
    · split at ha2
      · rename_i hap; subst hap
        simp only [Option.some.injEq] at ha2; subst ha2
        refine ⟨fun e => by rw [ho1] at e; simp at e, ?_⟩
        intro _ c hc
        rcases mem_of_perm_split hperm hc with hc | hc
        · have hclt := child_lt hpre.wf hp hpint hc
          simp only [Nat.ne_of_lt hclt, if_false]
          exact (hht a p hp).2 hpint c hc
        · simp only [Ptr.node.injEq] at hc; subst hc
          simp only [Nat.ne_of_lt hrl, if_false]
          rw [heq]; exact hhtpa
      · refine ⟨fun e => (hht a n1' ha2).1 e, ?_⟩
        intro e c hc
        have hclt := child_lt hpre.wf ha2 e hc
        simp only [Nat.ne_of_lt hclt, if_false]
        exact (hht a n1' ha2).2 e c hc

/-- The split of a full parent keeps the leaves. -/
theorem SameLeaves_split {nodes : List Node} {pa m : Nat} {p old1 nn mn : Node}
    (lo : Nat → Option Int) (b : Nat → Bool) (klo : Option Int) (bn bp : Bool)
    (hp : nodes[pa]? = some p) (hm : nodes[m]? = some mn) (hmpa : m ≠ pa)
    (hpint : p.IsLeaf = false) (ho1 : old1.IsLeaf = false) (hn1 : nn.IsLeaf = false) :
    SameLeaves nodes ((nodes.set pa old1).set m { mn with Parent := some nodes.length } ++ [nn])
      lo (fun a => if a = nodes.length then klo else lo a)
      b (fun a => if a = nodes.length then bn else if a = pa then bp else b a) := by
  have hlook := fun b => split_lookup old1 { mn with Parent := some nodes.length } nn hp hm
    hmpa b
  constructor
  · intro a n hn hl
    have hal : a ≠ nodes.length := Nat.ne_of_lt (List.getElem?_eq_some.mp hn).1
    have hapa : a ≠ pa := by
      intro e; subst e
      rw [hp] at hn; simp only [Option.some.injEq] at hn; subst hn
      rw [hpint] at hl; exact Bool.noConfusion hl
    refine ⟨by simp [hal], by simp [hal, hapa], ?_⟩
    rw [hlook]
    simp only [hal, hapa, if_false]
    by_cases h3 : a = m
    · subst h3
      rw [hm] at hn; simp only [Option.some.injEq] at hn; subst hn
      exact ⟨{ mn with Parent := some nodes.length }, by simp, rfl, rfl, rfl, hl⟩
    · exact ⟨n, by simp [h3, hn], rfl, rfl, rfl, hl⟩
  · intro a n1 hn1' hl
    rw [hlook] at hn1'
    split at hn1'
    · simp only [Option.some.injEq] at hn1'; subst hn1'
      rw [hn1] at hl; exact Bool.noConfusion hl
    · split at hn1'
      · rename_i _ ham; subst ham
        simp only [Option.some.injEq] at hn1'; subst hn1'
        exact ⟨mn, hm, hl⟩
      · split at hn1'
        · simp only [Option.some.injEq] at hn1'; subst hn1'
          rw [ho1] at hl; exact Bool.noConfusion hl
        · exact ⟨n1, hn1', hl⟩
/-- `insertIntoParent` on a tree in order, with fuel for the levels above
`left`: it returns, the tree it returns is in order, and the leaves are as
they were. -/
theorem insertIntoParent_ord : ∀ (fuel : Nat) (t : Tree) (left right : Nat) (l r : Node)
    (key : Int) (lo : Nat → Option Int) (b : Nat → Bool) (ht : Nat → Nat) (H : Nat),
    InsPre t left right l r → InsOrd t lo b left right l r key →
    Heights t.nodes ht → ht right = ht left →
    (∀ (a : Nat) (n : Node), t.nodes[a]? = some n → ht a ≤ H) → H < ht left + fuel →
    ∃ (t1 : Tree) (lo1 : Nat → Option Int) (b1 : Nat → Bool),
      Tree.insertIntoParent fuel t left key right = some t1 ∧ t1.Ordered lo1 b1 none ∧
      SameLeaves t.nodes t1.nodes lo lo1 b b1 ∧ (t.Root ≠ none → t1.Root ≠ none) := by
  intro fuel
  induction fuel with
  | zero =>
    intro t left right l r key lo b ht H hpre _ _ _ hH hfuel
    have := hH left l hpre.hl
    omega
  | succ fuel ih =>
    intro t left right l r key lo b ht H hpre hord hht heq hH hfuel
    obtain ⟨kl, hlk, hlor⟩ := hord.low
    have hll : left < t.nodes.length := (List.getElem?_eq_some.mp hpre.hl).1
    have hrl : right < t.nodes.length := (List.getElem?_eq_some.mp hpre.hr).1
    cases hlp : l.Parent with
    | none =>
      have hrun : Tree.insertIntoParent (fuel + 1) t left key right
          = t.insertIntoNewRoot left right := by
        unfold Tree.insertIntoParent
        simp only [hpre.hl, hlp]
      rw [hrun, insertIntoNewRoot_fwd hpre.hl hpre.hr hpre.ne hlk hord.last]
      refine ⟨_, _, _, rfl, Ordered_newRoot hpre hord hlp hlk, ?_,
        fun _ e => Option.noConfusion e⟩
      have hlook := fun a => @newRoot_lookup t.nodes left right
        { l with Parent := some t.nodes.length } { r with Parent := some t.nodes.length }
        (Node.mk [Ptr.node left, Ptr.node right, Ptr.nil, Ptr.nil] [kl, key, 0, 0] none false 2
          none) hll hrl hpre.ne a
      constructor
      · intro a n hn hl
        have hal : a ≠ t.nodes.length := Nat.ne_of_lt (List.getElem?_eq_some.mp hn).1
        refine ⟨by simp [hal], by simp [hal], ?_⟩
        simp only
        rw [hlook]
        by_cases h1 : a = right
        · subst h1
          rw [hpre.hr] at hn; simp only [Option.some.injEq] at hn; subst hn
          exact ⟨{ r with Parent := some t.nodes.length }, by simp, rfl, rfl, rfl, hl⟩
        · by_cases h2 : a = left
          · subst h2
            rw [hpre.hl] at hn; simp only [Option.some.injEq] at hn; subst hn
            exact ⟨{ l with Parent := some t.nodes.length }, by simp [h1], rfl, rfl, rfl, hl⟩
          · exact ⟨n, by simp [h1, h2, hal, hn], rfl, rfl, rfl, hl⟩
      · intro a n1 hn1 hl
        have hn2 : (((t.nodes ++ [_]).set left _).set right _)[a]? = some n1 := hn1
        rw [hlook] at hn2
        split at hn2
        · rename_i h1; subst h1
          simp only [Option.some.injEq] at hn2; subst hn2
          exact ⟨r, hpre.hr, hl⟩
        · split at hn2
          · rename_i _ h2; subst h2
            simp only [Option.some.injEq] at hn2; subst hn2
            exact ⟨l, hpre.hl, hl⟩
          · split at hn2
            · simp only [Option.some.injEq] at hn2; subst hn2
              exact Bool.noConfusion hl
            · exact ⟨n1, hn2, hl⟩
    | some pa =>
      have hwl := (hpre.wf.1 left l hpre.hl).1
      have hwr := (hpre.wf.1 right r hpre.hr).1
      have hrp : r.Parent = some pa := hpre.par.trans hlp
      have hpar : right ≠ pa := by
        intro e; subst e; exact hwr.notSelf hrp
      obtain ⟨p, hp, hpint⟩ := hwl.parentInternal pa hlp
      have hwp := (hpre.wf.1 pa p hp).1
      obtain ⟨k, hk⟩ := hwp.children hpint
      have hleft : Ptr.node left ∈ p.liveChildren := by
        obtain ⟨p0, hp0, hmem0⟩ := hpre.linked.1 pa hlp
        rw [hp] at hp0; simp only [Option.some.injEq] at hp0; subst hp0
        exact hmem0
      have hchildren : ∀ q ∈ p.liveChildren, ∃ (c : Nat) (cn : Node), q = Ptr.node c ∧
          t.nodes[c]? = some cn ∧ c ≠ pa := by
        intro q hq
        obtain ⟨c, cn, hc, hcn, hcp, -⟩ := hk q hq
        refine ⟨c, cn, hc, hcn, ?_⟩
        intro e; subst e
        rw [hp] at hcn; simp only [Option.some.injEq] at hcn; subst hcn
        exact hwp.notSelf hcp
      have hpl : pa < t.nodes.length := (List.getElem?_eq_some.mp hp).1
      have hhtpa : ht pa = ht left + 1 := (hht pa p hp).2 hpint left hleft
      rcases @insertIntoParent_fwd fuel _ _ _ _ key _ _ _ _ hpre.hl hpre.hr hlp hp hwp.loc
        hpint (hwp.numPos hpint) hlk hleft hpar hchildren (hwp.childrenNodup hpint) with
        ⟨hnum, hp0, p2, hrun, e1, e2, e3, e4, e5, e6, e7⟩ |
        ⟨hnum, hp0, old1, nn, cn1, c1, k1, hp1, hc1, hc1pa, hc1l, hk1, o1, o2, o3, o4, o5, o6,
          o7, o8, n1, n2, n3, n4, n5, n6, n7, hperm, hrun⟩ |
        ⟨hnum, hp1, old1, nn, cn0, c0, hp0, hc0, hc0pa, hc0l, o1, o2, o3, o4, o5, o6,
          o7, o8, n1, n2, n3, n4, n5, n6, n7, hperm, hrun⟩
      · -- the parent had room
        refine ⟨_, lo, b, hrun, Ordered_room hpre hord hlp hp hlk hnum hp0 e1 e3 e4 e5 e6 e7,
          ?_, fun h => h⟩
        have hlook := fun a => set_lookup p2 hp (b := a)
        constructor
        · intro a n hn hl
          have hapa : a ≠ pa := by
            intro e; subst e
            rw [hp] at hn; simp only [Option.some.injEq] at hn; subst hn
            rw [hpint] at hl; exact Bool.noConfusion hl
          refine ⟨rfl, rfl, n, ?_, rfl, rfl, rfl, hl⟩
          show (t.nodes.set pa p2)[a]? = some n
          rw [hlook, if_neg hapa, hn]
        · intro a n1 hn1 hl
          have hn2 : (t.nodes.set pa p2)[a]? = some n1 := hn1
          rw [hlook] at hn2
          split at hn2
          · simp only [Option.some.injEq] at hn2; subst hn2
            rw [e1] at hl; exact Bool.noConfusion hl
          · exact ⟨n1, hn2, hl⟩
      · -- the parent was full and `left` its first child
        have hmem : Ptr.node c1 ∈ p.liveChildren ∨ c1 = right :=
          Or.inl (mem_take_of_getElem? hp1 (by omega))
        have hpre2 := split_InsPre hpre hlp hp hc1 hc1pa hmem (o1.trans hpint.symm) o2 o3 o4 n1 n2 n3 n4 n7 hperm
        have hord2 := InsOrd_splitA hpre hord hlp hp hlk hnum hp0 hp1 hc1 hc1pa hc1l hk1
          o1 o2 o4 o5 o6 o7 o8 n1 n4 n5 n6
        have hht2 := split_Heights hpre hlp hp hc1 hc1pa hmem o1 n1 n7 hperm hht heq
        have hlook := fun b => split_lookup old1 { cn1 with Parent := some t.nodes.length } nn
          hp hc1 hc1pa b
        obtain ⟨t1, lo1, b1, hrun1, hord1, hsame1, hroot1⟩ := ih _ pa t.nodes.length old1 nn k1 _ _ _ H
          hpre2 hord2 hht2 (by simp [Nat.ne_of_lt hpl]) (by
            intro a n ha
            have ha2 : ((t.nodes.set pa old1).set c1 { cn1 with Parent := some t.nodes.length }
              ++ [nn])[a]? = some n := ha
            rw [hlook] at ha2
            by_cases haN : a = t.nodes.length
            · simp only [haN, if_true]
              exact hH pa p hp
            · simp only [haN, if_false] at ha2 ⊢
              split at ha2
              · rename_i ham; subst ham
                exact hH a cn1 hc1
              · split at ha2
                · rename_i hap; subst hap
                  exact hH a p hp
                · exact hH a n ha2) (by
            simp only [Nat.ne_of_lt hpl, if_false]
            omega)
        refine ⟨t1, lo1, b1, hrun.trans hrun1, hord1, SameLeaves_trans ?_ hsame1, hroot1⟩
        exact SameLeaves_split lo b (some key) (b pa) true hp hc1 hc1pa hpint o1 n1
      · -- the parent was full and `left` its second child
        have hmem : Ptr.node right ∈ p.liveChildren ∨ right = right := Or.inr rfl
        have hpre2 := split_InsPre hpre hlp hp hpre.hr hpar hmem (o1.trans hpint.symm) o2 o3 o4 n1 n2 n3 n4 n7 hperm
        have hord2 := InsOrd_splitB hpre hord hlp hp hlk hnum hp1 hp0 hc0 hc0pa hc0l
          o1 o2 o4 o5 o6 o7 o8 n1 n4 n5 n6
        have hht2 := split_Heights hpre hlp hp hpre.hr hpar hmem o1 n1 n7 hperm hht heq
        have hlook := fun b => split_lookup old1 { r with Parent := some t.nodes.length } nn
          hp hpre.hr hpar b
        obtain ⟨t1, lo1, b1, hrun1, hord1, hsame1, hroot1⟩ := ih _ pa t.nodes.length old1 nn key _ _ _ H
          hpre2 hord2 hht2 (by simp [Nat.ne_of_lt hpl]) (by
            intro a n ha
            have ha2 : ((t.nodes.set pa old1).set right { r with Parent := some t.nodes.length }
              ++ [nn])[a]? = some n := ha
            rw [hlook] at ha2
            by_cases haN : a = t.nodes.length
            · simp only [haN, if_true]
              exact hH pa p hp
            · simp only [haN, if_false] at ha2 ⊢
              split at ha2
              · rename_i ham; subst ham
                exact hH a r hpre.hr
              · split at ha2
                · rename_i hap; subst hap
                  exact hH a p hp
                · exact hH a n ha2) (by
            simp only [Nat.ne_of_lt hpl, if_false]
            omega)
        refine ⟨t1, lo1, b1, hrun.trans hrun1, hord1, SameLeaves_trans ?_ hsame1, hroot1⟩
        exact SameLeaves_split lo b (some kl) (b pa) true hp hpre.hr hpar hpint o1 n1
/-- The inner loop of `findLeaf` on a node of one or two children: the second
child is taken exactly for a key above the first key. -/
theorem findLeaf_child_run {n : Node} (key : Int) (hloc : NodeLocal n) (hpos : 1 ≤ n.NumKeys) :
    ∃ (i : Nat) (k0 : Int), n.Keys[0]? = some k0 ∧
      findLeaf.child n key n.NumKeys 0 = some i ∧ i < n.NumKeys ∧
      (i = 0 → n.NumKeys = 2 → key ≤ k0) ∧ (i ≠ 0 → i = 1 ∧ k0 < key) := by
  obtain ⟨hk, -, hn, -⟩ := hloc
  obtain ⟨k0, k1, k2, k3, hK⟩ := list4 hk
  obtain ⟨P, K, par, isl, num, nxt⟩ := n
  simp only at hK hn hpos ⊢
  subst hK
  have hcases : num = 1 ∨ num = 2 := by simp [order] at hn; omega
  rcases hcases with rfl | rfl
  · exact ⟨0, k0, rfl, by simp [findLeaf.child], by omega, fun _ h => by omega,
      fun h => absurd rfl h⟩
  · by_cases hgt : key > k0
    · exact ⟨1, k0, rfl, by simp [findLeaf.child, hgt], by omega, fun h => by omega,
        fun _ => ⟨rfl, hgt⟩⟩
    · exact ⟨0, k0, rfl, by simp [findLeaf.child, hgt], by omega, fun _ _ => by omega,
        fun h => absurd rfl h⟩

/-- The descent of `findLeaf` in a tree in order, with fuel for the levels
below: it ends in a leaf whose lower bound is below the key and whose last
key, if the leaf has a right neighbour, is not below it. -/
theorem findLeaf_descend_route {t : Tree} {lo : Nat → Option Int} {b : Nat → Bool}
    {ht : Nat → Nat} (hwf : t.WF) (hord : t.Ordered lo b none) (hht : Heights t.nodes ht)
    (key : Int) :
    ∀ (fuel a : Nat) (n : Node), t.nodes[a]? = some n → ht a < fuel → Linked t a n →
      Above (lo a) key → (b a = true → ∃ v, lastKey n = some v ∧ key ≤ v) →
      ∃ (leaf : Nat) (l : Node), findLeaf.descend t.nodes key fuel a = some leaf ∧
        t.nodes[leaf]? = some l ∧ l.IsLeaf = true ∧ Linked t leaf l ∧
        Above (lo leaf) key ∧ (b leaf = true → ∃ v, lastKey l = some v ∧ key ≤ v) := by
  intro fuel
  induction fuel with
  | zero => intro a n _ h; omega
  | succ fuel ih =>
    intro a n hn hfuel hlk hlo hhi
    unfold findLeaf.descend
    simp only [hn]
    cases hleaf : n.IsLeaf with
    | true =>
      simp only [if_true]
      exact ⟨a, n, rfl, hn, hleaf, hlk, hlo, hhi⟩
    | false =>
      simp only [Bool.false_eq_true, if_false]
      have hw := (hwf.1 a n hn).1
      obtain ⟨i, k0, hk0, hrun, hlt, hi0, hi1⟩ :=
        findLeaf_child_run key hw.loc (hw.numPos hleaf)
      simp only [hrun]
      have hpl : i < n.Pointers.length := by
        have := hw.loc.2.1
        have := hw.loc.2.2.1
        simp only [order] at *
        omega
      have hq : n.Pointers[i]? = some (n.Pointers[i]) := List.getElem?_eq_getElem hpl
      obtain ⟨kd, hkd⟩ := hw.children hleaf
      obtain ⟨c, cn, hc, hcn, hcp, -⟩ := hkd _ (mem_take_of_getElem? hq hlt)
      rw [hc] at hq
      simp only [hq]
      have hmem : Ptr.node c ∈ n.liveChildren := mem_take_of_getElem? hq hlt
      have hhtc : ht a = ht c + 1 := (hht a n hn).2 hleaf c hmem
      obtain ⟨hloc, hrest⟩ := (hord.2 a n hn).child hleaf i c hlt hq
      obtain ⟨hbc, hlast⟩ := hrest (fun e => Option.noConfusion e)
      refine ih c cn hcn (by omega) (Linked_child hn hmem hcp) ?_ ?_
      · rw [hloc]
        by_cases hi : i = 0
        · simp only [hi, if_true]
          exact hlo
        · obtain ⟨rfl, hgt⟩ := hi1 hi
          simp only [Nat.one_ne_zero, if_false, Nat.sub_self, hk0]
          intro v hv
          simp only [Option.some.injEq] at hv
          subst hv
          exact hgt
      · intro hb
        have hl2 := hlast hb
        rw [lastKeyAt_eq hcn] at hl2
        by_cases hlast2 : i + 1 < n.NumKeys
        · have hi : i = 0 := by
            have := hw.loc.2.2.1
            simp only [order] at this
            omega
          subst hi
          have hnum : n.NumKeys = 2 := by
            have := hw.loc.2.2.1
            simp only [order] at this
            omega
          rw [hk0] at hl2
          exact ⟨k0, hl2, hi0 rfl hnum⟩
        · simp only [hlast2, if_false] at hbc
          rw [hbc] at hb
          obtain ⟨v, hv, hle⟩ := hhi hb
          have hin : i = n.NumKeys - 1 := by omega
          have hne : n.NumKeys ≠ 0 := by omega
          simp only [lastKey, hne, if_false] at hv
          rw [hin, hv] at hl2
          exact ⟨v, hl2, hle⟩
theorem liveEntries_keys {n : Node} (hloc : NodeLocal n) :
    n.liveEntries.map Prod.fst = n.liveKeys := by
  unfold Node.liveEntries Node.liveKeys
  rw [List.map_take, List.map_fst_zip]
  rw [hloc.1, hloc.2.1]

theorem entriesAt_keys {nodes : List Node} {a : Nat}
    (hloc : ∀ n, nodes[a]? = some n → NodeLocal n) :
    (entriesAt nodes a).map Prod.fst = keysAt nodes a := by
  unfold entriesAt keysAt
  cases h : nodes[a]? with
  | none => rfl
  | some n => exact liveEntries_keys (hloc n h)

/-- The last key of a leaf that holds an entry is its greatest key. -/
theorem lastKey_max {n : Node} (hloc : NodeLocal n) (hleaf : n.IsLeaf = true)
    (hpos : 1 ≤ n.NumKeys) :
    ∃ v, lastKey n = some v ∧ v ∈ n.liveKeys ∧ ∀ x ∈ n.liveKeys, x ≤ v := by
  obtain ⟨hk, -, hn, hs⟩ := hloc
  obtain ⟨k0, k1, k2, k3, hK⟩ := list4 hk
  obtain ⟨P, K, par, isl, num, nxt⟩ := n
  simp only at hK hn hpos hleaf hs ⊢
  subst hK hleaf
  have hcases : num = 1 ∨ num = 2 := by simp [order] at hn; omega
  rcases hcases with rfl | rfl
  · exact ⟨k0, by simp [lastKey], by simp [Node.liveKeys], by simp [Node.liveKeys]⟩
  · simp [Node.liveKeys] at hs
    refine ⟨k1, by simp [lastKey], by simp [Node.liveKeys], ?_⟩
    simp [Node.liveKeys]
    omega

theorem Chained_tail {nodes : List Node} {lo : Nat → Option Int} {b : Nat → Bool} {a : Nat}
    {rest : List Nat} (h : Chained nodes lo b (a :: rest)) : Chained nodes lo b rest := by
  cases rest with
  | nil => trivial
  | cons a1 rest1 => exact h.2.2

/-- A chain over a heap is a chain over any heap with the same leaves. -/
theorem Chained_frame {nodes nodes1 : List Node} {lo lo1 : Nat → Option Int}
    {b b1 : Nat → Bool} :
    ∀ (chain : List Nat), Chained nodes lo b chain →
      (∀ a ∈ chain, lo1 a = lo a ∧ b1 a = b a ∧ ∀ n, nodes[a]? = some n →
        ∃ n1, nodes1[a]? = some n1 ∧ n1.Pointers = n.Pointers ∧ n1.Keys = n.Keys ∧
          n1.NumKeys = n.NumKeys) →
      Chained nodes1 lo1 b1 chain := by
  intro chain
  induction chain with
  | nil => intro _ _; trivial
  | cons a rest ih =>
    intro h hsame
    cases rest with
    | nil =>
      obtain ⟨hb, n, hn, hp⟩ := h
      obtain ⟨-, e2, e3⟩ := hsame a (List.mem_cons_self _ _)
      obtain ⟨n1, hn1, f1, -, -⟩ := e3 n hn
      exact ⟨e2.trans hb, n1, hn1, by rw [f1]; exact hp⟩
    | cons a1 rest1 =>
      obtain ⟨hb, ⟨n, v, hn, hp, hl, hlo⟩, hrest⟩ := h
      obtain ⟨-, e2, e3⟩ := hsame a (List.mem_cons_self _ _)
      obtain ⟨g1, -, -⟩ := hsame a1 (List.mem_cons_of_mem _ (List.mem_cons_self _ _))
      obtain ⟨n1, hn1, f1, f2, f3⟩ := e3 n hn
      refine ⟨e2.trans hb, ⟨n1, v, hn1, by rw [f1]; exact hp, ?_, g1.trans hlo⟩,
        ih hrest (fun x hx => hsame x (List.mem_cons_of_mem _ hx))⟩
      simp only [lastKey, f2, f3] at hl ⊢
      exact hl

/-- Every key from the second leaf of a chain on lies above the last key of
the first. -/
theorem Chained_above {nodes : List Node} {lo : Nat → Option Int} {b : Nat → Bool}
    (hleaf : ∀ (a : Nat) (n : Node), nodes[a]? = some n → n.IsLeaf = true →
      NodeLocal n ∧ 1 ≤ n.NumKeys ∧ ∀ k ∈ n.liveKeys, Above (lo a) k) :
    ∀ (chain : List Nat) (a : Nat), Chained nodes lo b (a :: chain) →
      (∀ x ∈ a :: chain, ∃ n, nodes[x]? = some n ∧ n.IsLeaf = true) →
      ∀ k ∈ (a :: chain).flatMap (keysAt nodes), Above (lo a) k := by
  intro chain
  induction chain with
  | nil =>
    intro a _ hmem k hk
    obtain ⟨n, hn, hl⟩ := hmem a (List.mem_cons_self _ _)
    simp only [List.flatMap_cons, List.flatMap_nil, List.append_nil, keysAt, hn] at hk
    exact (hleaf a n hn hl).2.2 k hk
  | cons a1 rest ih =>
    intro a h hmem k hk
    obtain ⟨n, hn, hl⟩ := hmem a (List.mem_cons_self _ _)
    rw [List.flatMap_cons, List.mem_append] at hk
    rcases hk with hk | hk
    · simp only [keysAt, hn] at hk
      exact (hleaf a n hn hl).2.2 k hk
    · obtain ⟨-, ⟨n', v, hn', -, hlast, hlo⟩, hrest⟩ := h
      rw [hn] at hn'; simp only [Option.some.injEq] at hn'; subst hn'
      have h1 := ih a1 hrest (fun x hx => hmem x (List.mem_cons_of_mem _ hx)) k hk
      obtain ⟨hloc, hpos, habove⟩ := hleaf a n hn hl
      obtain ⟨v1, hv1, hv1mem, -⟩ := lastKey_max hloc hl hpos
      rw [hlast] at hv1; simp only [Option.some.injEq] at hv1; subst hv1
      intro w hw
      have := habove v hv1mem w hw
      have := h1 v hlo
      omega

/-- The keys on a chain strictly increase. -/
theorem Chained_sorted {nodes : List Node} {lo : Nat → Option Int} {b : Nat → Bool}
    (hleaf : ∀ (a : Nat) (n : Node), nodes[a]? = some n → n.IsLeaf = true →
      NodeLocal n ∧ 1 ≤ n.NumKeys ∧ ∀ k ∈ n.liveKeys, Above (lo a) k) :
    ∀ (chain : List Nat), Chained nodes lo b chain →
      (∀ x ∈ chain, ∃ n, nodes[x]? = some n ∧ n.IsLeaf = true) →
      (chain.flatMap (keysAt nodes)).Pairwise (fun x y => x < y) := by
  intro chain
  induction chain with
  | nil => intro _ _; simp
  | cons a rest ih =>
    intro h hmem
    obtain ⟨n, hn, hl⟩ := hmem a (List.mem_cons_self _ _)
    obtain ⟨hloc, hpos, habove⟩ := hleaf a n hn hl
    rw [List.flatMap_cons, List.pairwise_append]
    refine ⟨by simp only [keysAt, hn]; exact hloc.2.2.2 hl,
      ih (Chained_tail h) (fun x hx => hmem x (List.mem_cons_of_mem _ hx)), ?_⟩
    intro x hx y hy
    cases rest with
    | nil => simp at hy
    | cons a1 rest1 =>
      obtain ⟨-, ⟨n', v, hn', -, hlast, hlo⟩, hrest⟩ := h
      rw [hn] at hn'; simp only [Option.some.injEq] at hn'; subst hn'
      obtain ⟨v1, hv1, -, hmax⟩ := lastKey_max hloc hl hpos
      rw [hlast] at hv1; simp only [Option.some.injEq] at hv1; subst hv1
      simp only [keysAt, hn] at hx
      have h1 := hmax x hx
      have h2 := Chained_above hleaf rest1 a1 hrest
        (fun z hz => hmem z (List.mem_cons_of_mem _ hz)) y hy v hlo
      omega
/-- `insertIntoLeaf` on a leaf that holds one entry, for a key it does not
hold: the leaf holds both entries in the order of the keys, its
`Pointers[order]` is kept, and so is its last key if the new key is below
it. -/
theorem insertIntoLeaf_run (nodes : List Node) (leaf : Nat) (l : Node) (key : Int) (r : Nat)
    (hl : nodes[leaf]? = some l) (hloc : NodeLocal l) (hleaf : l.IsLeaf = true)
    (hnum : l.NumKeys = 1) (hkey : key ∉ l.liveKeys) :
    ∃ l1, insertIntoLeaf nodes leaf key r = some (nodes.set leaf l1) ∧
      l1.IsLeaf = true ∧ l1.Parent = l.Parent ∧ NodeLocal l1 ∧ l1.NumKeys = 2 ∧
      l1.Pointers[order]? = l.Pointers[order]? ∧
      l1.liveEntries.Perm ((key, Ptr.record r) :: l.liveEntries) ∧
      (∀ v, lastKey l = some v → key < v → lastKey l1 = some v) ∧
      ∀ k, k ∈ l1.liveKeys ↔ k = key ∨ k ∈ l.liveKeys := by
  obtain ⟨hk, hp, hn, hs⟩ := hloc
  obtain ⟨k0, k1, k2, k3, hK⟩ := list4 hk
  obtain ⟨p0, p1, p2, p3, hP⟩ := list4 hp
  obtain ⟨P, K, par, isl, num, nxt⟩ := l
  simp only at hK hP hleaf hnum hkey hs
  subst hK hP hleaf hnum
  have hlt : leaf < nodes.length := (List.getElem?_eq_some.mp hl).1
  simp [Node.liveKeys] at hkey
  by_cases h0 : k0 < key
  · refine ⟨Node.mk [p0, Ptr.record r, p2, p3] [k0, key, k2, k3] par true 2 nxt, ?_, rfl, rfl,
      ⟨rfl, rfl, Nat.le_of_ble_eq_true rfl, by simp [Node.liveKeys, h0]⟩, rfl, rfl, ?_, ?_, ?_⟩
    · simp [insertIntoLeaf, andThen, hl, insertIntoLeaf.point, shiftRight, wr, setNode, h0, hlt]
    · simp only [Node.liveEntries, List.zip_cons_cons, List.take]
      exact List.Perm.swap _ _ _
    · intro v hv hlt2
      simp [lastKey] at hv
      omega
    · intro k; simp [Node.liveKeys]; tauto
  · have h0' : key < k0 := by omega
    refine ⟨Node.mk [Ptr.record r, p0, p2, p3] [key, k0, k2, k3] par true 2 nxt, ?_, rfl, rfl,
      ⟨rfl, rfl, Nat.le_of_ble_eq_true rfl, by simp [Node.liveKeys, h0']⟩, rfl, rfl, ?_, ?_, ?_⟩
    · simp [insertIntoLeaf, andThen, hl, insertIntoLeaf.point, shiftRight, wr, setNode, h0, hlt]
    · simp only [Node.liveEntries, List.zip_cons_cons, List.take]
      exact List.Perm.refl _
    · intro v hv _
      simp [lastKey] at hv ⊢
      exact hv
    · intro k; simp [Node.liveKeys]

/-- The split step of `insertIntoLeafAfterSplitting` on a leaf that holds two
entries, for a key it does not hold: the facts of `split_run`, and the two
leaves hold the three entries in the order of the keys, the keys of the new
leaf lie above the last key of the old one, and the key handed on is the old
last key if the new key is below it. -/
theorem leaf_split_run (nodes : List Node) (leaf : Nat) (l : Node) (key : Int) (r : Nat)
    (hl : nodes[leaf]? = some l) (hloc : NodeLocal l) (hleaf : l.IsLeaf = true)
    (hnum : l.NumKeys = order - 1) (hkey : key ∉ l.liveKeys) :
    ∃ l1 nn k, insertIntoLeafAfterSplitting.split nodes leaf key r
        = some (nodes.set leaf l1 ++ [nn], k) ∧
      l1.IsLeaf = true ∧ l1.Parent = l.Parent ∧ NodeLocal l1 ∧
      nn.IsLeaf = true ∧ nn.Parent = l.Parent ∧ NodeLocal nn ∧
      l1.NumKeys = 1 ∧ nn.NumKeys = 2 ∧
      l1.Pointers[order]? = some (Ptr.node nodes.length) ∧
      nn.Pointers[order]? = l.Pointers[order]? ∧
      lastKey nn = some k ∧
      (l1.liveEntries ++ nn.liveEntries).Perm ((key, Ptr.record r) :: l.liveEntries) ∧
      (∃ kl, lastKey l1 = some kl ∧ ∀ x ∈ nn.liveKeys, kl < x) ∧
      (∀ v, lastKey l = some v → key < v → k = v) ∧
      (∀ x, x ∈ l1.liveKeys ++ nn.liveKeys ↔ x = key ∨ x ∈ l.liveKeys) := by
  obtain ⟨hk, hp, hn, hs⟩ := hloc
  obtain ⟨k0, k1, k2, k3, hK⟩ := list4 hk
  obtain ⟨p0, p1, p2, p3, hP⟩ := list4 hp
  obtain ⟨P, K, par, isl, num, nxt⟩ := l
  simp only at hK hP hleaf hnum hkey hs
  subst hK hP hleaf hnum
  simp [Node.liveKeys, order] at hkey hs
  have hlt : leaf < nodes.length := (List.getElem?_eq_some.mp hl).1
  by_cases h0 : k0 < key
  · by_cases h1 : k1 < key
    · refine ⟨(Node.mk [p0, Ptr.nil, Ptr.nil, Ptr.node nodes.length] [k0, k1, k2, k3] par true 1
          nxt),
        (Node.mk [p1, Ptr.record r, Ptr.nil, p3] [k1, key, 0, 0] par true 2 none), key, ?_, rfl, rfl,
        ⟨rfl, rfl, Nat.le_of_ble_eq_true rfl, ?_⟩, rfl, rfl,
        ⟨rfl, rfl, Nat.le_of_ble_eq_true rfl, ?_⟩, rfl, rfl, rfl, rfl, rfl, ?_, ?_, ?_, ?_⟩
      · simp [insertIntoLeafAfterSplitting.split, andThen, hl, insertIntoLeafAfterSplitting.point,
          copySkip, copyRange, clearFrom, wr, setNode, order, cut, makeLeaf, makeNode, lastKey, hlt,
          h0, h1]
      · simp [Node.liveKeys, cut, order]
      · simp [Node.liveKeys, cut, order, h1]
      · simp only [Node.liveEntries, List.zip_cons_cons, List.take, order, List.cons_append,
          List.nil_append]
        exact (List.Perm.cons _ (List.Perm.swap _ _ _)).trans (List.Perm.swap _ _ _)
      · exact ⟨k0, by simp [lastKey], by simp [Node.liveKeys]; omega⟩
      · intro v hv hlt2
        simp [lastKey, order] at hv
        omega
      · intro x; simp [Node.liveKeys, cut, order]; tauto
    · have h1' : key < k1 := by omega
      refine ⟨(Node.mk [p0, Ptr.nil, Ptr.nil, Ptr.node nodes.length] [k0, k1, k2, k3] par true 1
          nxt),
        (Node.mk [Ptr.record r, p1, Ptr.nil, p3] [key, k1, 0, 0] par true 2 none), k1, ?_, rfl, rfl,
        ⟨rfl, rfl, Nat.le_of_ble_eq_true rfl, ?_⟩, rfl, rfl,
        ⟨rfl, rfl, Nat.le_of_ble_eq_true rfl, ?_⟩, rfl, rfl, rfl, rfl, rfl, ?_, ?_, ?_, ?_⟩
      · simp [insertIntoLeafAfterSplitting.split, andThen, hl, insertIntoLeafAfterSplitting.point,
          copySkip, copyRange, clearFrom, wr, setNode, order, cut, makeLeaf, makeNode, lastKey, hlt,
          h0, h1]
      · simp [Node.liveKeys, cut, order]
      · simp [Node.liveKeys, cut, order, h1']
      · simp only [Node.liveEntries, List.zip_cons_cons, List.take, order, List.cons_append,
          List.nil_append]
        exact List.Perm.swap _ _ _
      · exact ⟨k0, by simp [lastKey], by simp [Node.liveKeys]; omega⟩
      · intro v hv _
        simp [lastKey, order] at hv
        exact hv
      · intro x; simp [Node.liveKeys, cut, order]; tauto
  · have h0' : key < k0 := by omega
    refine ⟨(Node.mk [Ptr.record r, Ptr.nil, Ptr.nil, Ptr.node nodes.length] [key, k1, k2, k3] par
        true 1 nxt),
        (Node.mk [p0, p1, Ptr.nil, p3] [k0, k1, 0, 0] par true 2 none), k1, ?_, rfl, rfl,
        ⟨rfl, rfl, Nat.le_of_ble_eq_true rfl, ?_⟩, rfl, rfl,
      ⟨rfl, rfl, Nat.le_of_ble_eq_true rfl, ?_⟩, rfl, rfl, rfl, rfl, rfl, ?_, ?_, ?_, ?_⟩
    · simp [insertIntoLeafAfterSplitting.split, andThen, hl, insertIntoLeafAfterSplitting.point,
        copySkip, copyRange, clearFrom, wr, setNode, order, cut, makeLeaf, makeNode, lastKey, hlt,
        h0]
    · simp [Node.liveKeys, cut, order]
    · simp [Node.liveKeys, cut, order, hs]
    · simp only [Node.liveEntries, List.zip_cons_cons, List.take, order, List.cons_append,
        List.nil_append]
      exact List.Perm.refl _
    · exact ⟨key, by simp [lastKey], by simp [Node.liveKeys]; omega⟩
    · intro v hv _
      simp [lastKey, order] at hv
      exact hv
    · intro x; simp [Node.liveKeys, cut, order]
/-- Writing a leaf that still lies above its lower bound and keeps its last
key, if it has a right neighbour, keeps the tree in order. -/
theorem Ordered_set_leaf {t : Tree} {lo : Nat → Option Int} {b : Nat → Bool} {leaf : Nat}
    {l l1 : Node} (hord : t.Ordered lo b none) (hl : t.nodes[leaf]? = some l)
    (h1 : l1.IsLeaf = true) (hpos : 1 ≤ l1.NumKeys)
    (habove : ∀ k ∈ l1.liveKeys, Above (lo leaf) k)
    (hlast : b leaf = true → lastKey l1 = lastKey l) :
    Tree.Ordered { t with nodes := t.nodes.set leaf l1 } lo b none := by
  have hlook := fun a => set_lookup l1 hl (b := a)
  refine ⟨hord.1, ?_⟩
  intro a n ha
  have ha2 : (t.nodes.set leaf l1)[a]? = some n := ha
  rw [hlook] at ha2
  split at ha2
  · rename_i hal; subst hal
    simp only [Option.some.injEq] at ha2; subst ha2
    exact ⟨fun _ => ⟨hpos, habove⟩, fun e => by rw [h1] at e; exact Bool.noConfusion e⟩
  · refine OrdNode_frame (hord.2 a n ha2) rfl rfl rfl rfl rfl rfl ?_
    intro _ i c _ _
    refine ⟨rfl, fun hx => ⟨hx, rfl, fun hb => ?_⟩⟩
    show lastKeyAt (t.nodes.set leaf l1) c = lastKeyAt t.nodes c
    by_cases hc : c = leaf
    · subst hc
      have hl2 : (t.nodes.set c l1)[c]? = some l1 := by rw [hlook]; simp
      rw [lastKeyAt_eq hl2, lastKeyAt_eq hl]
      exact hlast hb
    · exact lastKeyAt_congr (by rw [hlook, if_neg hc])

theorem leafSplit_lookup {nodes : List Node} {leaf : Nat} {l : Node} (l1 nn : Node)
    (hl : nodes[leaf]? = some l) (a : Nat) :
    (nodes.set leaf l1 ++ [nn])[a]? =
      if a = nodes.length then some nn else if a = leaf then some l1 else nodes[a]? := by
  have hll : leaf < nodes.length := (List.getElem?_eq_some.mp hl).1
  have h := @append_lookup (nodes.set leaf l1) nn a
  simp only [List.length_set] at h
  rw [h, set_lookup l1 hl]

/-- After the split of a leaf the call of `insertIntoParent` meets its
precondition on the order. -/
theorem InsOrd_leafSplit {t : Tree} {lo : Nat → Option Int} {b : Nat → Bool} {leaf : Nat}
    {l l1 nn : Node} {key k kl : Int}
    (hwf : t.WF) (hord : t.Ordered lo b none) (hl : t.nodes[leaf]? = some l)
    (hleaf : l.IsLeaf = true) (hlinked : Linked t leaf l)
    (hpos : 1 ≤ l.NumKeys)
    (a1 : l1.IsLeaf = true) (a2 : l1.Parent = l.Parent) (a4 : l1.NumKeys = 1)
    (b1 : nn.IsLeaf = true) (b4 : nn.NumKeys = 2)
    (hk : lastKey nn = some k) (hkl : lastKey l1 = some kl)
    (hsep : ∀ x ∈ nn.liveKeys, kl < x)
    (hkeys : ∀ x, x ∈ l1.liveKeys ++ nn.liveKeys ↔ x = key ∨ x ∈ l.liveKeys)
    (hkeep : ∀ v, lastKey l = some v → key < v → k = v)
    (hkey : key ∉ l.liveKeys) (hlo : Above (lo leaf) key)
    (hhi : b leaf = true → ∃ v, lastKey l = some v ∧ key ≤ v) :
    InsOrd { t with nodes := t.nodes.set leaf l1 ++ [nn] }
      (fun a => if a = t.nodes.length then some kl else lo a)
      (fun a => if a = t.nodes.length then b leaf else if a = leaf then true else b a)
      leaf t.nodes.length l1 nn k := by
  have hlook := fun a => leafSplit_lookup l1 nn hl a
  have hll : leaf < t.nodes.length := (List.getElem?_eq_some.mp hl).1
  have hwl := (hwf.1 leaf l hl).1
  have hold := (hord.2 leaf l hl).leaf hleaf
  refine ⟨⟨?_, ?_⟩, hk, ⟨kl, hkl, by simp⟩, by simp [Nat.ne_of_lt hll], ?_, ?_⟩
  · intro rt hrt
    have hrt2 : t.Root = some rt := hrt
    obtain ⟨rn, hrn, -, -⟩ := hwf.2 rt hrt2
    have hrtl : rt ≠ t.nodes.length := Nat.ne_of_lt (List.getElem?_eq_some.mp hrn).1
    obtain ⟨e1, e2⟩ := hord.1 rt hrt2
    refine ⟨by simp [hrtl, e1], fun hx => ?_⟩
    have hrtl2 : rt ≠ leaf := fun e => hx (by rw [e])
    simp only [hrtl, hrtl2, if_false]
    exact e2 (fun e => Option.noConfusion e)
  · intro a n ha
    have ha2 : (t.nodes.set leaf l1 ++ [nn])[a]? = some n := ha
    rw [hlook] at ha2
    by_cases haN : a = t.nodes.length
    · subst haN
      simp only [if_true, Option.some.injEq] at ha2; subst ha2
      refine ⟨fun _ => ⟨by omega, ?_⟩, fun e => by rw [b1] at e; exact Bool.noConfusion e⟩
      intro x hx v hv
      simp only [if_true, Option.some.injEq] at hv
      subst hv
      exact hsep x hx
    · simp only [haN, if_false] at ha2
      by_cases hal : a = leaf
      · subst hal
        simp only [if_true, Option.some.injEq] at ha2; subst ha2
        refine ⟨fun _ => ⟨by omega, ?_⟩, fun e => by rw [a1] at e; exact Bool.noConfusion e⟩
        intro x hx
        simp only [haN, if_false]
        rcases (hkeys x).mp (List.mem_append_left _ hx) with rfl | h
        · exact hlo
        · exact hold.2 x h
      · simp only [hal, if_false] at ha2
        refine OrdNode_frame (hord.2 a n ha2) rfl rfl rfl rfl (by simp [haN])
          (by simp [haN, hal]) ?_
        intro hint i c hi hc
        obtain ⟨cn, hcn, hcp⟩ := child_parent hwf ha2 hint hi hc
        have hcl : c ≠ t.nodes.length := Nat.ne_of_lt (List.getElem?_eq_some.mp hcn).1
        refine ⟨by simp [hcl], fun hx => ?_⟩
        have hcl2 : c ≠ leaf := fun e => hx (by rw [e])
        refine ⟨fun e => Option.noConfusion e, by simp [hcl, hcl2], fun _ => ?_⟩
        exact lastKeyAt_congr (by rw [hlook]; simp [hcl, hcl2])
  · intro hp
    rw [a2] at hp
    have hroot := hlinked.2 hp
    simp only [if_true]
    exact (hord.1 leaf hroot).2 (fun e => Option.noConfusion e)
  · intro pa p j hpa hp hj hpj
    rw [a2] at hpa
    obtain ⟨p0, hp0, hpint⟩ := hwl.parentInternal pa hpa
    have hpal : pa ≠ t.nodes.length := Nat.ne_of_lt (List.getElem?_eq_some.mp hp0).1
    have hpal2 : pa ≠ leaf := fun e => hwl.notSelf (by rw [hpa, e])
    have hp2 : (t.nodes.set leaf l1 ++ [nn])[pa]? = some p := hp
    rw [hlook] at hp2
    simp only [hpal, hpal2, if_false] at hp2
    rw [hp0] at hp2; simp only [Option.some.injEq] at hp2; subst hp2
    obtain ⟨-, hrest⟩ := (hord.2 pa p0 hp0).child hpint j leaf hj hpj
    obtain ⟨hb1, hb2⟩ := hrest (fun e => Option.noConfusion e)
    simp only [if_true, hpal, hpal2, if_false]
    refine ⟨hb1, fun hb => ?_⟩
    have h3 := hb2 hb
    rw [lastKeyAt_eq hl] at h3
    obtain ⟨v, hv, hle⟩ := hhi hb
    obtain ⟨v1, hv1, hv1mem, -⟩ := lastKey_max hwl.loc hleaf hpos
    rw [hv] at hv1; simp only [Option.some.injEq] at hv1; subst hv1
    have hne : key ≠ v := fun e => hkey (e ▸ hv1mem)
    rw [← h3, hv, hkeep v hv (by omega)]
/-- Writing a leaf that keeps its `Pointers[order]`, and its last key if it
has a right neighbour, keeps the chain. -/
theorem Chained_set_leaf {nodes : List Node} {lo : Nat → Option Int} {b : Nat → Bool}
    {leaf : Nat} {l l1 : Node} (hl : nodes[leaf]? = some l)
    (hp : l1.Pointers[order]? = l.Pointers[order]?)
    (hlast : b leaf = true → lastKey l1 = lastKey l) :
    ∀ (chain : List Nat), Chained nodes lo b chain →
      Chained (nodes.set leaf l1) lo b chain := by
  have hlook := fun a => set_lookup l1 hl (b := a)
  intro chain
  induction chain with
  | nil => intro _; trivial
  | cons a rest ih =>
    intro h
    cases rest with
    | nil =>
      obtain ⟨hb, n, hn, hpn⟩ := h
      refine ⟨hb, ?_⟩
      by_cases hal : a = leaf
      · subst hal
        rw [hl] at hn; simp only [Option.some.injEq] at hn; subst hn
        exact ⟨l1, by rw [hlook]; simp, hp.trans hpn⟩
      · exact ⟨n, by rw [hlook, if_neg hal]; exact hn, hpn⟩
    | cons a1 rest1 =>
      obtain ⟨hb, ⟨n, v, hn, hpn, hlk, hlo⟩, hrest⟩ := h
      refine ⟨hb, ?_, ih hrest⟩
      by_cases hal : a = leaf
      · subst hal
        rw [hl] at hn; simp only [Option.some.injEq] at hn; subst hn
        exact ⟨l1, v, by rw [hlook]; simp, hp.trans hpn, (hlast hb).trans hlk, hlo⟩
      · exact ⟨n, v, by rw [hlook, if_neg hal]; exact hn, hpn, hlk, hlo⟩

/-- The split of a leaf puts the new leaf after it in the chain. -/
theorem Chained_split {nodes : List Node} {lo : Nat → Option Int} {b : Nat → Bool}
    {leaf : Nat} {l l1 nn : Node} {kl k : Int} (hl : nodes[leaf]? = some l)
    (hl1p : l1.Pointers[order]? = some (Ptr.node nodes.length))
    (hnnp : nn.Pointers[order]? = l.Pointers[order]?)
    (hkl : lastKey l1 = some kl) (hk : lastKey nn = some k)
    (hkeep : b leaf = true → lastKey l = some k) :
    ∀ (chain : List Nat), chain.Nodup → (∀ a ∈ chain, a < nodes.length) →
      Chained nodes lo b chain →
      Chained (nodes.set leaf l1 ++ [nn])
        (fun a => if a = nodes.length then some kl else lo a)
        (fun a => if a = nodes.length then b leaf else if a = leaf then true else b a)
        (insertAfter leaf nodes.length chain) := by
  have hlook := fun a => leafSplit_lookup l1 nn hl a
  have hll : leaf < nodes.length := (List.getElem?_eq_some.mp hl).1
  have hnew : Chained (nodes.set leaf l1 ++ [nn])
      (fun a => if a = nodes.length then some kl else lo a)
      (fun a => if a = nodes.length then b leaf else if a = leaf then true else b a)
      [nodes.length] ↔ b leaf = false ∧ l.Pointers[order]? = some Ptr.nil := by
    simp only [Chained, if_true, hlook, Option.some.injEq, exists_eq_left', hnnp]
  intro chain
  induction chain with
  | nil => intro _ _ _; trivial
  | cons a rest ih =>
    intro hnd hlt h
    simp only [List.nodup_cons] at hnd
    have hal : a ≠ nodes.length := Nat.ne_of_lt (hlt a (List.mem_cons_self _ _))
    unfold insertAfter
    by_cases hale : a = leaf
    · subst hale
      simp only [if_true]
      have hframe : Chained (nodes.set a l1 ++ [nn])
          (fun x => if x = nodes.length then some kl else lo x)
          (fun x => if x = nodes.length then b a else if x = a then true else b x) rest := by
        refine Chained_frame rest (Chained_tail h) ?_
        intro x hx
        have hxl : x ≠ nodes.length := Nat.ne_of_lt (hlt x (List.mem_cons_of_mem _ hx))
        have hxa : x ≠ a := fun e => hnd.1 (e ▸ hx)
        refine ⟨by simp [hxl], by simp [hxl, hxa], fun n hn => ⟨n, ?_, rfl, rfl, rfl⟩⟩
        rw [hlook]
        simp [hxl, hxa, hn]
      cases rest with
      | nil =>
        obtain ⟨hb, n, hn, hpn⟩ := h
        rw [hl] at hn; simp only [Option.some.injEq] at hn; subst hn
        refine ⟨by simp [hal], ⟨l1, kl, by rw [hlook]; simp [hal], hl1p, hkl, by simp⟩, ?_⟩
        exact hnew.mpr ⟨hb, hpn⟩
      | cons a1 rest1 =>
        obtain ⟨hb, ⟨n, v, hn, hpn, hlk, hlo⟩, hrest⟩ := h
        rw [hl] at hn; simp only [Option.some.injEq] at hn; subst hn
        have ha1l : a1 ≠ nodes.length :=
          Nat.ne_of_lt (hlt a1 (List.mem_cons_of_mem _ (List.mem_cons_self _ _)))
        refine ⟨by simp [hal], ⟨l1, kl, by rw [hlook]; simp [hal], hl1p, hkl, by simp⟩, ?_⟩
        refine ⟨by simp [hb], ⟨nn, k, by rw [hlook]; simp, hnnp.trans hpn, hk, ?_⟩, hframe⟩
        have := hkeep hb
        rw [hlk] at this
        simp only [Option.some.injEq] at this
        simp [ha1l, hlo, this]
    · simp only [hale, if_false]
      have hih := ih hnd.2 (fun x hx => hlt x (List.mem_cons_of_mem _ hx)) (Chained_tail h)
      cases rest with
      | nil =>
        obtain ⟨hb, n, hn, hpn⟩ := h
        simp only [insertAfter]
        exact ⟨by simp [hal, hale, hb], n, by rw [hlook]; simp [hal, hale, hn], hpn⟩
      | cons a1 rest1 =>
        obtain ⟨hb, ⟨n, v, hn, hpn, hlk, hlo⟩, hrest⟩ := h
        have ha1l : a1 ≠ nodes.length :=
          Nat.ne_of_lt (hlt a1 (List.mem_cons_of_mem _ (List.mem_cons_self _ _)))
        unfold insertAfter at hih ⊢
        exact ⟨by simp [hal, hale, hb],
          ⟨n, v, by rw [hlook]; simp [hal, hale, hn], hpn, hlk, by simp [ha1l, hlo]⟩, hih⟩

theorem mem_insertAfter {x y : Nat} {chain : List Nat} (hx : x ∈ chain) (a : Nat) :
    a ∈ insertAfter x y chain ↔ a = y ∨ a ∈ chain := by
  induction chain with
  | nil => simp at hx
  | cons c rest ih =>
    unfold insertAfter
    by_cases hc : c = x
    · simp only [hc, if_true, List.mem_cons]
      tauto
    · simp only [hc, if_false, List.mem_cons]
      have hx2 : x ∈ rest := by
        rcases List.mem_cons.mp hx with e | e
        · exact absurd e.symm hc
        · exact e
      rw [ih hx2]
      tauto

theorem insertAfter_of_not_mem {x y : Nat} {chain : List Nat} (hx : x ∉ chain) :
    insertAfter x y chain = chain := by
  induction chain with
  | nil => rfl
  | cons c rest ih =>
    simp only [List.mem_cons, not_or] at hx
    unfold insertAfter
    rw [if_neg (Ne.symm hx.1), ih hx.2]

theorem nodup_insertAfter {x y : Nat} {chain : List Nat} (hnd : chain.Nodup)
    (hy : y ∉ chain) : (insertAfter x y chain).Nodup := by
  induction chain with
  | nil => simp [insertAfter]
  | cons c rest ih =>
    simp only [List.nodup_cons] at hnd
    simp only [List.mem_cons, not_or] at hy
    unfold insertAfter
    by_cases hc : c = x
    · simp only [hc, if_true, List.nodup_cons, List.mem_cons, not_or]
      subst hc
      exact ⟨⟨Ne.symm hy.1, hnd.1⟩, hy.2, hnd.2⟩
    · simp only [hc, if_false, List.nodup_cons]
      refine ⟨?_, ih hnd.2 hy.2⟩
      by_cases hx : x ∈ rest
      · rw [mem_insertAfter hx]
        simp only [not_or]
        exact ⟨Ne.symm hy.1, hnd.1⟩
      · rw [insertAfter_of_not_mem hx]
        exact hnd.1

theorem flatMap_congr_mem {α : Type} {f g : Nat → List α} {chain : List Nat}
    (h : ∀ a ∈ chain, f a = g a) : chain.flatMap f = chain.flatMap g := by
  induction chain with
  | nil => rfl
  | cons c rest ih =>
    rw [List.flatMap_cons, List.flatMap_cons, h c (List.mem_cons_self _ _),
      ih (fun a ha => h a (List.mem_cons_of_mem _ ha))]

/-- The entries along a chain after one leaf gained an entry. -/
theorem flatMap_set_perm {α : Type} {f g : Nat → List α} {chain : List Nat} {x : Nat} {e : α}
    (hnd : chain.Nodup) (hx : x ∈ chain) (hfx : (g x).Perm (e :: f x))
    (hother : ∀ a ∈ chain, a ≠ x → g a = f a) :
    (chain.flatMap g).Perm (e :: chain.flatMap f) := by
  induction chain with
  | nil => simp at hx
  | cons c rest ih =>
    simp only [List.nodup_cons] at hnd
    rw [List.flatMap_cons, List.flatMap_cons]
    by_cases hc : c = x
    · subst hc
      have hrest : rest.flatMap g = rest.flatMap f :=
        flatMap_congr_mem (fun a ha => hother a (List.mem_cons_of_mem _ ha)
          (fun e => hnd.1 (e ▸ ha)))
      rw [hrest]
      exact (hfx.append_right _)
    · have hx2 : x ∈ rest := by
        rcases List.mem_cons.mp hx with e | e
        · exact absurd e.symm hc
        · exact e
      rw [hother c (List.mem_cons_self _ _) hc]
      have := ih hnd.2 hx2 (fun a ha => hother a (List.mem_cons_of_mem _ ha))
      exact (this.append_left _).trans List.perm_middle

/-- The entries along a chain after one leaf was split and gained an entry. -/
theorem flatMap_split_perm {α : Type} {f g : Nat → List α} {chain : List Nat} {x y : Nat}
    {e : α} (hnd : chain.Nodup) (hx : x ∈ chain)
    (hfx : (g x ++ g y).Perm (e :: f x))
    (hother : ∀ a ∈ chain, a ≠ x → g a = f a) :
    ((insertAfter x y chain).flatMap g).Perm (e :: chain.flatMap f) := by
  induction chain with
  | nil => simp at hx
  | cons c rest ih =>
    simp only [List.nodup_cons] at hnd
    unfold insertAfter
    by_cases hc : c = x
    · subst hc
      simp only [if_true, List.flatMap_cons]
      have hrest : rest.flatMap g = rest.flatMap f :=
        flatMap_congr_mem (fun a ha => hother a (List.mem_cons_of_mem _ ha)
          (fun e => hnd.1 (e ▸ ha)))
      rw [hrest, ← List.append_assoc]
      exact (hfx.append_right _)
    · have hx2 : x ∈ rest := by
        rcases List.mem_cons.mp hx with e | e
        · exact absurd e.symm hc
        · exact e
      simp only [hc, if_false, List.flatMap_cons]
      rw [hother c (List.mem_cons_self _ _) hc]
      have := ih hnd.2 hx2 (fun a ha => hother a (List.mem_cons_of_mem _ ha))
      exact (this.append_left _).trans List.perm_middle
theorem nodup_length_le {path : List Nat} {n : Nat} (hnd : path.Nodup)
    (hlt : ∀ x ∈ path, x < n) : path.length ≤ n := by
  have hsub : path ⊆ List.range n := fun x hx => List.mem_range.mpr (hlt x hx)
  have := (List.subperm_of_subset hnd hsub).length_le
  simpa using this

/-- The height of a node is below the number of nodes of the heap: under a
node of height `h` lie nodes of each of the heights below `h`. -/
theorem height_lt_length {t : Tree} {ht : Nat → Nat} (hwf : t.WF)
    (hht : Heights t.nodes ht) (a : Nat) (n : Node) (hn : t.nodes[a]? = some n) :
    ht a < t.nodes.length := by
  have key : ∀ (h a : Nat) (n : Node), t.nodes[a]? = some n → ht a = h →
      ∃ path : List Nat, path.length = h + 1 ∧ path.Nodup ∧
        ∀ x ∈ path, x < t.nodes.length ∧ ht x ≤ h := by
    intro h
    induction h with
    | zero =>
      intro a n hn ha
      exact ⟨[a], rfl, by simp, fun x hx => by
        simp only [List.mem_singleton] at hx
        subst hx
        exact ⟨(List.getElem?_eq_some.mp hn).1, Nat.le_of_eq ha⟩⟩
    | succ h ih =>
      intro a n hn ha
      have hw := (hwf.1 a n hn).1
      cases hleaf : n.IsLeaf with
      | true =>
        have := (hht a n hn).1 hleaf
        omega
      | false =>
        have hpos := hw.numPos hleaf
        have hpl : 0 < n.Pointers.length := by
          have := hw.loc.2.1
          simp only [order] at this
          omega
        have hq : n.Pointers[0]? = some (n.Pointers[0]) := List.getElem?_eq_getElem hpl
        have hmem := mem_take_of_getElem? hq hpos
        obtain ⟨kd, hkd⟩ := hw.children hleaf
        obtain ⟨c, cn, hc, hcn, -, -⟩ := hkd _ hmem
        rw [hc] at hmem
        have hhc := (hht a n hn).2 hleaf c hmem
        obtain ⟨path, h1, h2, h3⟩ := ih c cn hcn (by omega)
        refine ⟨a :: path, by simp [h1], ?_, ?_⟩
        · rw [List.nodup_cons]
          refine ⟨fun hmem2 => ?_, h2⟩
          have := (h3 a hmem2).2
          omega
        · intro x hx
          rcases List.mem_cons.mp hx with rfl | hx
          · exact ⟨(List.getElem?_eq_some.mp hn).1, Nat.le_of_eq ha⟩
          · exact ⟨(h3 x hx).1, Nat.le_succ_of_le (h3 x hx).2⟩
  obtain ⟨path, h1, h2, h3⟩ := key (ht a) a n hn rfl
  have := nodup_length_le h2 (fun x hx => (h3 x hx).1)
  omega

/-- `Find.scan` on a leaf for a key it does not hold. -/
theorem Find_scan_absent {l : Node} {key : Int} (hloc : NodeLocal l)
    (hkey : key ∉ l.liveKeys) : Find.scan l key l.NumKeys 0 = some l.NumKeys := by
  obtain ⟨hk, -, hn, -⟩ := hloc
  obtain ⟨k0, k1, k2, k3, hK⟩ := list4 hk
  obtain ⟨P, K, par, isl, num, nxt⟩ := l
  simp only at hK hn hkey ⊢
  subst hK
  have hcases : num = 0 ∨ num = 1 ∨ num = 2 := by simp [order] at hn; omega
  rcases hcases with rfl | rfl | rfl
  · simp [Find.scan]
  · simp [Node.liveKeys] at hkey
    simp [Find.scan, Ne.symm hkey]
  · simp [Node.liveKeys] at hkey
    simp [Find.scan, Ne.symm hkey.1, Ne.symm hkey.2]

/-- `Find.scan` on a leaf for the key of one of its entries. -/
theorem Find_scan_present {l : Node} {key : Int} {q : Ptr} (hloc : NodeLocal l)
    (hleaf : l.IsLeaf = true) (hmem : (key, q) ∈ l.liveEntries) :
    ∃ i, Find.scan l key l.NumKeys 0 = some i ∧ i ≠ l.NumKeys ∧ l.Pointers[i]? = some q := by
  obtain ⟨hk, hp, hn, hs⟩ := hloc
  obtain ⟨k0, k1, k2, k3, hK⟩ := list4 hk
  obtain ⟨p0, p1, p2, p3, hP⟩ := list4 hp
  obtain ⟨P, K, par, isl, num, nxt⟩ := l
  simp only at hK hP hn hmem hs hleaf ⊢
  subst hK hP hleaf
  have hcases : num = 0 ∨ num = 1 ∨ num = 2 := by simp [order] at hn; omega
  rcases hcases with rfl | rfl | rfl
  · simp [Node.liveEntries] at hmem
  · simp [Node.liveEntries] at hmem
    obtain ⟨rfl, rfl⟩ := hmem
    exact ⟨0, by simp [Find.scan], by simp, rfl⟩
  · simp [Node.liveEntries] at hmem
    simp [Node.liveKeys] at hs
    rcases hmem with ⟨rfl, rfl⟩ | ⟨rfl, rfl⟩
    · exact ⟨0, by simp [Find.scan], by simp, rfl⟩
    · have : ¬ k0 = key := by omega
      exact ⟨1, by simp [Find.scan, this], by simp, rfl⟩
/-- `findLeaf` in a tree in order that has a root: it returns a leaf whose
lower bound is below the key and whose last key, if the leaf has a right
neighbour, is not below it. -/
theorem Tree.findLeaf_route {t : Tree} {lo : Nat → Option Int} {b : Nat → Bool}
    {ht : Nat → Nat} (hwf : t.WF) (hord : t.Ordered lo b none) (hht : Heights t.nodes ht)
    (key : Int) {r : Nat} (hroot : t.Root = some r) :
    ∃ (leaf : Nat) (l : Node), t.findLeaf key = some (some leaf) ∧
      t.nodes[leaf]? = some l ∧ l.IsLeaf = true ∧ Linked t leaf l ∧
      Above (lo leaf) key ∧ (b leaf = true → ∃ v, lastKey l = some v ∧ key ≤ v) := by
  obtain ⟨rn, hrn, hp, -⟩ := hwf.2 r hroot
  obtain ⟨e1, e2⟩ := hord.1 r hroot
  have hb := e2 (fun e => Option.noConfusion e)
  obtain ⟨leaf, l, h1, h2⟩ := findLeaf_descend_route hwf hord hht key (t.nodes.length + 1) r rn
    hrn (Nat.lt_succ_of_lt (height_lt_length hwf hht r rn hrn))
    ⟨fun p hpp => by rw [hp] at hpp; exact Option.noConfusion hpp, fun _ => hroot⟩
    (fun v hv => by rw [e1] at hv; exact Option.noConfusion hv)
    (fun h => by rw [hb] at h; exact Bool.noConfusion h)
  refine ⟨leaf, l, ?_, h2⟩
  simp [Tree.findLeaf, hroot, h1]

/-- A chain of leaves is a chain of any heap that has the same leaves, and
holds the same entries there. -/
theorem LeafChain_transfer {nodes nodes1 : List Node} {lo lo1 : Nat → Option Int}
    {b b1 : Nat → Bool} {chain : List Nat} (h : LeafChain nodes lo b chain)
    (hs : SameLeaves nodes nodes1 lo lo1 b b1) :
    LeafChain nodes1 lo1 b1 chain ∧
      chain.flatMap (entriesAt nodes1) = chain.flatMap (entriesAt nodes) := by
  refine ⟨⟨?_, h.nodup, ?_, ?_⟩, ?_⟩
  · intro a
    rw [h.mem a]
    constructor
    · rintro ⟨n, hn, hl⟩
      obtain ⟨-, -, n1, hn1, -, -, -, hl1⟩ := hs.1 a n hn hl
      exact ⟨n1, hn1, hl1⟩
    · rintro ⟨n1, hn1, hl1⟩
      exact hs.2 a n1 hn1 hl1
  · refine Chained_frame chain h.links ?_
    intro a ha
    obtain ⟨n, hn, hl⟩ := (h.mem a).mp ha
    obtain ⟨e1, e2, n1, hn1, f1, f2, f3, -⟩ := hs.1 a n hn hl
    refine ⟨e1, e2, fun n' hn' => ?_⟩
    rw [hn] at hn'; simp only [Option.some.injEq] at hn'; subst hn'
    exact ⟨n1, hn1, f1, f2, f3⟩
  · intro a rest hc
    have ha : a ∈ chain := by rw [hc]; exact List.mem_cons_self _ _
    obtain ⟨n, hn, hl⟩ := (h.mem a).mp ha
    rw [(hs.1 a n hn hl).1]
    exact h.head a rest hc
  · apply flatMap_congr_mem
    intro a ha
    obtain ⟨n, hn, hl⟩ := (h.mem a).mp ha
    obtain ⟨-, -, n1, hn1, f1, f2, f3, -⟩ := hs.1 a n hn hl
    simp only [entriesAt, hn, hn1, Node.liveEntries, f1, f2, f3]

/-! ## The order invariant: one `Insert` on a built tree -/

/-- A key of a leaf of the heap is the key of an entry of the chain. -/
theorem mem_keys_of_chain {nodes : List Node} {lo : Nat → Option Int} {b : Nat → Bool}
    {chain : List Nat} {leaf : Nat} {l : Node} {k : Int} (hch : LeafChain nodes lo b chain)
    (hl : nodes[leaf]? = some l) (hleaf : l.IsLeaf = true) (hloc : NodeLocal l)
    (hk : k ∈ l.liveKeys) : k ∈ (chain.flatMap (entriesAt nodes)).map Prod.fst := by
  have hmem : leaf ∈ chain := (hch.mem leaf).mpr ⟨l, hl, hleaf⟩
  rw [← liveEntries_keys hloc] at hk
  obtain ⟨e, he, rfl⟩ := List.mem_map.mp hk
  refine List.mem_map.mpr ⟨e, ?_, rfl⟩
  rw [List.mem_flatMap]
  exact ⟨leaf, hmem, by simp only [entriesAt, hl]; exact he⟩

/-- The first `Insert` into an empty tree builds a tree of one leaf. -/
theorem Built_create {t : Tree} (key : Int) (r : Nat)
    (hinv : Tree.Inv { t with
      Root := some 0
      nodes := [Node.mk [Ptr.record r, Ptr.nil, Ptr.nil, Ptr.nil] [key, 0, 0, 0] none true 1
        none] }) :
    Tree.Built { t with
      Root := some 0
      nodes := [Node.mk [Ptr.record r, Ptr.nil, Ptr.nil, Ptr.nil] [key, 0, 0, 0] none true 1
        none] } [(key, Ptr.record r)] := by
  refine ⟨hinv, fun e => Option.noConfusion e, fun _ => none, fun _ => false, [0], ?_, ?_, ?_⟩
  · refine ⟨fun _ _ => ⟨rfl, fun _ => rfl⟩, ?_⟩
    intro a n ha
    have ha2 : [Node.mk [Ptr.record r, Ptr.nil, Ptr.nil, Ptr.nil] [key, 0, 0, 0] none true 1
      none][a]? = some n := ha
    cases a with
    | zero =>
      simp only [List.getElem?_cons_zero, Option.some.injEq] at ha2
      subst ha2
      exact ⟨fun _ => ⟨Nat.le_refl 1, fun _ _ v hv => Option.noConfusion hv⟩,
        fun e => Bool.noConfusion e⟩
    | succ a => simp at ha2
  · refine ⟨?_, by simp, ?_, fun _ _ _ => rfl⟩
    · intro a
      cases a with
      | zero => simp
      | succ a => simp
    · exact ⟨rfl, _, rfl, rfl⟩
  · simp [entriesAt, Node.liveEntries]

/-- An `Insert` into a leaf with room keeps the tree built, with the new
entry among its entries. -/
theorem Built_leaf {t : Tree} {lo : Nat → Option Int} {b : Nat → Bool} {chain : List Nat}
    {leaf : Nat} {l l1 : Node} {key : Int} {q : Ptr}
    (hroot : t.Root ≠ none) (hord : t.Ordered lo b none) (hch : LeafChain t.nodes lo b chain)
    (hl : t.nodes[leaf]? = some l) (hleaf : l.IsLeaf = true) (hloc : NodeLocal l)
    (hpos : 1 ≤ l.NumKeys)
    (hlo : Above (lo leaf) key) (hhi : b leaf = true → ∃ v, lastKey l = some v ∧ key ≤ v)
    (hkey : key ∉ l.liveKeys)
    (a1 : l1.IsLeaf = true) (a4 : l1.NumKeys = 2)
    (a5 : l1.Pointers[order]? = l.Pointers[order]?)
    (a6 : l1.liveEntries.Perm ((key, q) :: l.liveEntries))
    (a7 : ∀ v, lastKey l = some v → key < v → lastKey l1 = some v)
    (a8 : ∀ k, k ∈ l1.liveKeys ↔ k = key ∨ k ∈ l.liveKeys)
    (hinv : Tree.Inv { t with nodes := t.nodes.set leaf l1 }) :
    ∃ E1, Tree.Built { t with nodes := t.nodes.set leaf l1 } E1 ∧
      E1.Perm ((key, q) :: chain.flatMap (entriesAt t.nodes)) := by
  have hlook := fun a => set_lookup l1 hl (b := a)
  have hmem : leaf ∈ chain := (hch.mem leaf).mpr ⟨l, hl, hleaf⟩
  have hold := (hord.2 leaf l hl).leaf hleaf
  have hlast : b leaf = true → lastKey l1 = lastKey l := by
    intro hb
    obtain ⟨v, hv, hle⟩ := hhi hb
    obtain ⟨v1, hv1, hv1mem, -⟩ := lastKey_max hloc hleaf hpos
    rw [hv] at hv1; simp only [Option.some.injEq] at hv1; subst hv1
    have hne : key ≠ v := fun e => hkey (e ▸ hv1mem)
    rw [hv]
    exact a7 v hv (by omega)
  refine ⟨chain.flatMap (entriesAt (t.nodes.set leaf l1)),
    ⟨hinv, fun e => absurd e hroot, lo, b, chain, ?_, ⟨?_, hch.nodup, ?_, hch.head⟩, rfl⟩, ?_⟩
  · refine Ordered_set_leaf hord hl a1 (by omega) ?_ hlast
    intro k hk
    rcases (a8 k).mp hk with rfl | h
    · exact hlo
    · exact hold.2 k h
  · intro a
    rw [hch.mem a]
    show _ ↔ ∃ n, (t.nodes.set leaf l1)[a]? = some n ∧ n.IsLeaf = true
    simp only [hlook]
    by_cases ha : a = leaf
    · subst ha
      simp [hl, hleaf, a1]
    · simp [ha]
  · exact Chained_set_leaf hl a5 hlast chain hch.links
  · refine flatMap_set_perm hch.nodup hmem ?_ ?_
    · have h1 : entriesAt (t.nodes.set leaf l1) leaf = l1.liveEntries := by
        simp [entriesAt, hlook]
      have h2 : entriesAt t.nodes leaf = l.liveEntries := by simp [entriesAt, hl]
      rw [h1, h2]
      exact a6
    · intro a _ ha
      simp [entriesAt, hlook, ha]
/-- An `Insert` into a full leaf: `insertIntoLeafAfterSplitting` returns, and
the tree it returns is built, with the new entry among its entries. -/
theorem Built_split {t : Tree} {lo : Nat → Option Int} {b : Nat → Bool} {chain : List Nat}
    {leaf : Nat} {l : Node} {key : Int} (r : Nat)
    (hinv : t.Inv) (hroot : t.Root ≠ none) (hord : t.Ordered lo b none)
    (hch : LeafChain t.nodes lo b chain)
    (hl : t.nodes[leaf]? = some l) (hleaf : l.IsLeaf = true) (hlinked : Linked t leaf l)
    (hnum : l.NumKeys = order - 1)
    (hlo : Above (lo leaf) key) (hhi : b leaf = true → ∃ v, lastKey l = some v ∧ key ≤ v)
    (hkey : key ∉ l.liveKeys) :
    ∃ t1 E1, t.insertIntoLeafAfterSplitting leaf key r = some t1 ∧
      (t1.Inv → t1.Built E1) ∧
      E1.Perm ((key, Ptr.record r) :: chain.flatMap (entriesAt t.nodes)) := by
  have hwf := hinv.1
  obtain ⟨ht, hht⟩ := hinv.2.2
  have hwl := (hwf.1 leaf l hl).1
  have hll : leaf < t.nodes.length := (List.getElem?_eq_some.mp hl).1
  have hpos : 1 ≤ l.NumKeys := by rw [hnum]; decide
  obtain ⟨l1, nn, k, hsp, a1, a2, a3, b1, b2, b3, c1, c2, d1, d2, hk, hperm, ⟨kl, hkl, hsep⟩,
    hkeep, hkeys⟩ := leaf_split_run t.nodes leaf l key r hl hwl.loc hleaf hnum hkey
  have hlook := fun a => leafSplit_lookup l1 nn hl a
  have hmem : leaf ∈ chain := (hch.mem leaf).mpr ⟨l, hl, hleaf⟩
  have hclt : ∀ a ∈ chain, a < t.nodes.length := by
    intro a ha
    obtain ⟨n, hn, -⟩ := (hch.mem a).mp ha
    exact (List.getElem?_eq_some.mp hn).1
  have hkeep2 : b leaf = true → lastKey l = some k := by
    intro hb
    obtain ⟨v, hv, hle⟩ := hhi hb
    obtain ⟨v1, hv1, hv1mem, -⟩ := lastKey_max hwl.loc hleaf hpos
    rw [hv] at hv1; simp only [Option.some.injEq] at hv1; subst hv1
    have hne : key ≠ v := fun e => hkey (e ▸ hv1mem)
    rw [hv, hkeep v hv (by omega)]
  have hpre := leafSplit_InsPre hwf hl hleaf hlinked a1 a2 a3 (by omega) b1 b2 b3
  have hord2 := InsOrd_leafSplit hwf hord hl hleaf hlinked hpos a1 a2 c1 b1 c2 hk hkl hsep
    hkeys hkeep hkey hlo hhi
  obtain ⟨hwfA, hfullA, -⟩ := Inv_set_leaf hinv hl hleaf a1 a2 a3 (fun _ => by omega)
    (fun h0 => by omega)
  have hhtA : Heights (t.nodes.set leaf l1) ht := by
    intro a n1 ha
    rw [set_lookup l1 hl] at ha
    split at ha
    · rename_i hal; subst hal
      simp only [Option.some.injEq] at ha; subst ha
      exact ⟨fun _ => (hht a l hl).1 hleaf, fun e => by rw [a1] at e; simp at e⟩
    · exact hht a n1 ha
  have hx := @append_leaf_extra { t with nodes := t.nodes.set leaf l1 } none nn ht hwfA
    hfullA hhtA b1 (by omega)
  have hlen : (t.nodes.set leaf l1).length = t.nodes.length := by simp
  have hht2 : Heights (t.nodes.set leaf l1 ++ [nn])
      (fun a => if a = t.nodes.length then 0 else ht a) := by
    have := hx.2
    simp only [hlen] at this
    exact this
  obtain ⟨t1, lo1, b1', hrun, hord1, hsame, hroot1⟩ := insertIntoParent_ord
    ((t.nodes.set leaf l1 ++ [nn]).length + 1) { t with nodes := t.nodes.set leaf l1 ++ [nn] }
    leaf t.nodes.length l1 nn k _ _ _ t.nodes.length hpre hord2 hht2
    (by
      simp only [if_true, Nat.ne_of_lt hll, if_false]
      exact ((hht leaf l hl).1 hleaf).symm)
    (by
      intro a n ha
      have ha2 : (t.nodes.set leaf l1 ++ [nn])[a]? = some n := ha
      rw [hlook] at ha2
      by_cases haN : a = t.nodes.length
      · simp [haN]
      · simp only [haN, if_false] at ha2 ⊢
        split at ha2
        · rename_i hal; subst hal
          exact Nat.le_of_lt (height_lt_length hwf hht a l hl)
        · exact Nat.le_of_lt (height_lt_length hwf hht a n ha2))
    (by
      simp only [List.length_append, List.length_set, List.length_singleton,
        Nat.ne_of_lt hll, if_false]
      omega)
  have hmid : LeafChain (t.nodes.set leaf l1 ++ [nn])
      (fun a => if a = t.nodes.length then some kl else lo a)
      (fun a => if a = t.nodes.length then b leaf else if a = leaf then true else b a)
      (insertAfter leaf t.nodes.length chain) := by
    refine ⟨?_, ?_, ?_, ?_⟩
    · intro a
      rw [mem_insertAfter hmem, hch.mem a, hlook]
      by_cases haN : a = t.nodes.length
      · subst haN
        simp [b1]
      · simp only [haN, false_or, if_false]
        by_cases hal : a = leaf
        · subst hal
          simp [hl, hleaf, a1]
        · simp [hal]
    · exact nodup_insertAfter hch.nodup (fun h => Nat.lt_irrefl _ (hclt _ h))
    · exact Chained_split hl d1 d2 hkl hk hkeep2 chain hch.nodup hclt hch.links
    · intro a rest hc
      cases hchain : chain with
      | nil => rw [hchain] at hmem; simp at hmem
      | cons c rest0 =>
        rw [hchain] at hc
        unfold insertAfter at hc
        simp only [List.cons.injEq] at hc
        obtain ⟨rfl, -⟩ := hc
        have hcl := hclt c (by rw [hchain]; exact List.mem_cons_self _ _)
        simp only [Nat.ne_of_lt hcl, if_false]
        exact hch.head c rest0 hchain
  obtain ⟨hfin, hflat⟩ := LeafChain_transfer hmid hsame
  have hrun2 : t.insertIntoLeafAfterSplitting leaf key r = some t1 := by
    unfold Tree.insertIntoLeafAfterSplitting
    rw [hsp]
    simp only [andThen]
    exact hrun
  refine ⟨t1, (insertAfter leaf t.nodes.length chain).flatMap (entriesAt t1.nodes), hrun2,
    ?_, ?_⟩
  · intro hI
    exact ⟨hI, fun e => absurd e (hroot1 hroot), lo1, b1', _, hord1, hfin, rfl⟩
  · show ((insertAfter leaf t.nodes.length chain).flatMap (entriesAt t1.nodes)).Perm _
    have hflat2 : (insertAfter leaf t.nodes.length chain).flatMap (entriesAt t1.nodes)
        = (insertAfter leaf t.nodes.length chain).flatMap
          (entriesAt (t.nodes.set leaf l1 ++ [nn])) := hflat
    rw [hflat2]
    refine flatMap_split_perm hch.nodup hmem ?_ ?_
    · have h1 : entriesAt (t.nodes.set leaf l1 ++ [nn]) leaf = l1.liveEntries := by
        simp [entriesAt, hlook, Nat.ne_of_lt hll]
      have h2 : entriesAt (t.nodes.set leaf l1 ++ [nn]) t.nodes.length = nn.liveEntries := by
        simp [entriesAt, hlook]
      have h3 : entriesAt t.nodes leaf = l.liveEntries := by simp [entriesAt, hl]
      rw [h1, h2, h3]
      exact hperm
    · intro a ha hal
      have haN : a ≠ t.nodes.length := Nat.ne_of_lt (hclt a ha)
      simp [entriesAt, hlook, hal, haN]
/-- `Insert` of a record with a new key into a built tree returns nil, and
the tree is built again, with the new entry among its entries. -/
theorem Insert_built {t : Tree} {E : List (Int × Ptr)} {recs : List Record} {record : Nat}
    {rc : Record} (h : t.Built E) (hrc : recs[record]? = some rc)
    (hfresh : rc.Key ∉ E.map Prod.fst) :
    ∃ t1 E1, t.Insert recs record = some (t1, none) ∧ t1.Built E1 ∧
      E1.Perm ((rc.Key, Ptr.record record) :: E) := by
  obtain ⟨hinv, hempty, lo, b, chain, hord, hch, rfl⟩ := h
  cases hroot : t.Root with
  | none =>
    have hnodes := hempty hroot
    have hfind := Find_of_no_root hroot rc.Key
    have hrun : t.Insert recs record = some ({ t with
        Root := some 0
        nodes := [Node.mk [Ptr.record record, Ptr.nil, Ptr.nil, Ptr.nil] [rc.Key, 0, 0, 0] none
          true 1 none] }, none) := by
      unfold Tree.Insert
      simp [hrc, hfind, hroot, Tree.createNewTree, andThen, makeLeaf, makeNode, order, wr,
        hnodes]
    have hchain : chain = [] := by
      cases hc : chain with
      | nil => rfl
      | cons a rest =>
        obtain ⟨n, hn, -⟩ := (hch.mem a).mp (by rw [hc]; exact List.mem_cons_self _ _)
        rw [hnodes] at hn
        simp at hn
    exact ⟨_, [(rc.Key, Ptr.record record)], hrun,
      Built_create rc.Key record (Insert_Inv hinv hrun), by simp [hchain]⟩
  | some r =>
    have hwf := hinv.1
    obtain ⟨ht, hht⟩ := hinv.2.2
    obtain ⟨leaf, l, hfl, hl, hleaf, hlinked, hlo, hhi⟩ :=
      Tree.findLeaf_route hwf hord hht rc.Key hroot
    have hwl := (hwf.1 leaf l hl).1
    have hkey : rc.Key ∉ l.liveKeys :=
      fun hk => hfresh (mem_keys_of_chain hch hl hleaf hwl.loc hk)
    have hpos := ((hord.2 leaf l hl).leaf hleaf).1
    have hfind : t.Find rc.Key = some (.error .ErrKeyNotFound) := by
      unfold Tree.Find
      simp [hfl, hl, Find_scan_absent hwl.loc hkey]
    have hrootne : t.Root ≠ none := by rw [hroot]; exact fun e => Option.noConfusion e
    by_cases hnum : l.NumKeys < order - 1
    · have hnum1 : l.NumKeys = 1 := by simp only [order] at hnum; omega
      obtain ⟨l1, hins, a1, a2, a3, a4, a5, a6, a7, a8⟩ :=
        insertIntoLeaf_run t.nodes leaf l rc.Key record hl hwl.loc hleaf hnum1 hkey
      have hrun : t.Insert recs record
          = some ({ t with nodes := t.nodes.set leaf l1 }, none) := by
        unfold Tree.Insert
        simp [hrc, hfind, hroot, hfl, hl, hnum, hins]
      obtain ⟨E1, hB, hperm⟩ := Built_leaf hrootne hord hch hl hleaf hwl.loc hpos hlo hhi hkey
        a1 a4 a5 a6 a7 a8 (Insert_Inv hinv hrun)
      exact ⟨_, E1, hrun, hB, hperm⟩
    · have hnum2 : l.NumKeys = order - 1 := by
        have := hwl.loc.2.2.1
        omega
      obtain ⟨t1, E1, hrun2, hB, hperm⟩ := Built_split record hinv hrootne hord hch hl hleaf
        hlinked hnum2 hlo hhi hkey
      have hrun : t.Insert recs record = some (t1, none) := by
        unfold Tree.Insert
        simp [hrc, hfind, hroot, hfl, hl, hnum, hrun2]
      exact ⟨t1, E1, hrun, hB (Insert_Inv hinv hrun), hperm⟩

theorem Built_new : NewTree.Built [] := by
  refine ⟨NewTree_Inv, fun _ => rfl, fun _ => none, fun _ => false, [], ?_, ?_, rfl⟩
  · refine ⟨fun r hr => ?_, fun a n ha => ?_⟩
    · simp [NewTree] at hr
    · simp [NewTree] at ha
  · refine ⟨fun a => ?_, List.nodup_nil, trivial, fun a rest h => ?_⟩
    · simp [NewTree]
    · exact List.noConfusion h
/-! ## The order invariant: reading a built tree -/

/-- What the order invariant and the structural invariant say of a leaf. -/
theorem Built_leaf_facts {t : Tree} {lo : Nat → Option Int} {b : Nat → Bool} (hwf : t.WF)
    (hord : t.Ordered lo b none) (a : Nat) (n : Node) (hn : t.nodes[a]? = some n)
    (hl : n.IsLeaf = true) :
    NodeLocal n ∧ 1 ≤ n.NumKeys ∧ ∀ k ∈ n.liveKeys, Above (lo a) k :=
  ⟨(hwf.1 a n hn).1.loc, ((hord.2 a n hn).leaf hl).1, ((hord.2 a n hn).leaf hl).2⟩

/-- The keys of a built tree, read along the leaf chain, strictly increase. -/
theorem Built_sorted {t : Tree} {E : List (Int × Ptr)} (h : t.Built E) :
    (E.map Prod.fst).Pairwise (fun x y => x < y) := by
  obtain ⟨hinv, -, lo, b, chain, hord, hch, rfl⟩ := h
  have hkeys : (chain.flatMap (entriesAt t.nodes)).map Prod.fst
      = chain.flatMap (keysAt t.nodes) := by
    rw [List.map_flatMap]
    apply flatMap_congr_mem
    intro a _
    exact entriesAt_keys (fun n hn => (hinv.1.1 a n hn).1.loc)
  rw [hkeys]
  exact Chained_sorted (Built_leaf_facts hinv.1 hord) chain hch.links
    (fun x hx => (hch.mem x).mp hx)

/-- The lower bound of every later leaf of a chain is not below the last key
of the first. -/
theorem Chained_lo_ge {nodes : List Node} {lo : Nat → Option Int} {b : Nat → Bool}
    (hleaf : ∀ (a : Nat) (n : Node), nodes[a]? = some n → n.IsLeaf = true →
      NodeLocal n ∧ 1 ≤ n.NumKeys ∧ ∀ k ∈ n.liveKeys, Above (lo a) k) :
    ∀ (rest : List Nat) (c : Nat), Chained nodes lo b (c :: rest) →
      (∀ x ∈ c :: rest, ∃ n, nodes[x]? = some n ∧ n.IsLeaf = true) →
      ∀ x ∈ rest, ∃ (n : Node) (v w : Int), nodes[c]? = some n ∧ lastKey n = some v ∧
        lo x = some w ∧ v ≤ w := by
  intro rest
  induction rest with
  | nil => intro c _ _ x hx; simp at hx
  | cons a1 rest1 ih =>
    intro c h hmem x hx
    obtain ⟨-, ⟨n, v, hn, -, hlast, hlo⟩, hrest⟩ := h
    rcases List.mem_cons.mp hx with rfl | hx1
    · exact ⟨n, v, v, hn, hlast, hlo, Int.le_refl v⟩
    · obtain ⟨n1, v1, w, hn1, hlast1, hlox, hle⟩ := ih a1 hrest
        (fun z hz => hmem z (List.mem_cons_of_mem _ hz)) x hx1
      obtain ⟨n1', hn1', hl1⟩ := hmem a1 (List.mem_cons_of_mem _ (List.mem_cons_self _ _))
      rw [hn1] at hn1'; simp only [Option.some.injEq] at hn1'; subst hn1'
      obtain ⟨hloc, hpos, habove⟩ := hleaf a1 n1 hn1 hl1
      obtain ⟨v1', hv1', hv1mem, -⟩ := lastKey_max hloc hl1 hpos
      rw [hlast1] at hv1'; simp only [Option.some.injEq] at hv1'; subst hv1'
      have := habove v1 hv1mem v hlo
      exact ⟨n, v, w, hn, hlast, hlox, by omega⟩

/-- The leaf of a chain that holds a key is the leaf the key is routed to. -/
theorem Chained_unique {nodes : List Node} {lo : Nat → Option Int} {b : Nat → Bool}
    (hleaf : ∀ (a : Nat) (n : Node), nodes[a]? = some n → n.IsLeaf = true →
      NodeLocal n ∧ 1 ≤ n.NumKeys ∧ ∀ k ∈ n.liveKeys, Above (lo a) k) (k : Int) :
    ∀ (chain : List Nat), Chained nodes lo b chain →
      (∀ x ∈ chain, ∃ n, nodes[x]? = some n ∧ n.IsLeaf = true) →
      ∀ (a ℓ : Nat) (n l : Node), a ∈ chain → ℓ ∈ chain → nodes[a]? = some n →
        nodes[ℓ]? = some l → k ∈ n.liveKeys → Above (lo ℓ) k →
        (b ℓ = true → ∃ v, lastKey l = some v ∧ k ≤ v) → a = ℓ := by
  intro chain
  induction chain with
  | nil => intro _ _ a ℓ n l ha; simp at ha
  | cons c rest ih =>
    intro h hmem a ℓ n l ha hℓ hn hl hk hlo hhi
    have hbc : rest ≠ [] → b c = true := by
      intro hne
      cases rest with
      | nil => exact absurd rfl hne
      | cons a1 rest1 => exact h.1
    rcases List.mem_cons.mp ha with rfl | ha1
    · rcases List.mem_cons.mp hℓ with rfl | hℓ1
      · rfl
      · exfalso
        obtain ⟨n', v, w, hn', hlast, hlow, hle⟩ := Chained_lo_ge hleaf rest a h hmem ℓ hℓ1
        rw [hn] at hn'; simp only [Option.some.injEq] at hn'; subst hn'
        obtain ⟨n2, hn2, hl2⟩ := hmem a (List.mem_cons_self _ _)
        rw [hn] at hn2; simp only [Option.some.injEq] at hn2; subst hn2
        obtain ⟨hloc, hpos, -⟩ := hleaf a n hn hl2
        obtain ⟨v', hv', -, hmax⟩ := lastKey_max hloc hl2 hpos
        rw [hlast] at hv'; simp only [Option.some.injEq] at hv'; subst hv'
        have := hmax k hk
        have := hlo w hlow
        omega
    · rcases List.mem_cons.mp hℓ with rfl | hℓ1
      · exfalso
        obtain ⟨n', v, w, hn', hlast, hlow, hle⟩ := Chained_lo_ge hleaf rest ℓ h hmem a ha1
        rw [hl] at hn'; simp only [Option.some.injEq] at hn'; subst hn'
        obtain ⟨v', hv', hkv⟩ := hhi (hbc (List.ne_nil_of_mem ha1))
        rw [hlast] at hv'; simp only [Option.some.injEq] at hv'; subst hv'
        obtain ⟨n2, hn2, hl2⟩ := hmem a (List.mem_cons_of_mem _ ha1)
        rw [hn] at hn2; simp only [Option.some.injEq] at hn2; subst hn2
        have := (hleaf a n hn hl2).2.2 k hk w hlow
        omega
      · exact ih (Chained_tail h) (fun x hx => hmem x (List.mem_cons_of_mem _ hx)) a ℓ n l
          ha1 hℓ1 hn hl hk hlo hhi

/-- `Find` in a built tree returns the record of the entry with the key. -/
theorem Built_Find {t : Tree} {E : List (Int × Ptr)} (h : t.Built E) {k : Int} {r : Nat}
    (hmem : (k, Ptr.record r) ∈ E) : t.Find k = some (.ok r) := by
  obtain ⟨hinv, hempty, lo, b, chain, hord, hch, rfl⟩ := h
  obtain ⟨a, ha, hka⟩ := List.mem_flatMap.mp hmem
  obtain ⟨n, hn, hnl⟩ := (hch.mem a).mp ha
  simp only [entriesAt, hn] at hka
  have hwn := (hinv.1.1 a n hn).1
  have hk : k ∈ n.liveKeys := by
    rw [← liveEntries_keys hwn.loc]
    exact List.mem_map.mpr ⟨_, hka, rfl⟩
  cases hroot : t.Root with
  | none =>
    have := hempty hroot
    rw [this] at hn
    simp at hn
  | some rt =>
    obtain ⟨ht, hht⟩ := hinv.2.2
    obtain ⟨leaf, l, hfl, hl, hleaf, -, hlo, hhi⟩ :=
      Tree.findLeaf_route hinv.1 hord hht k hroot
    have hℓ : leaf ∈ chain := (hch.mem leaf).mpr ⟨l, hl, hleaf⟩
    have heq := Chained_unique (Built_leaf_facts hinv.1 hord) k chain hch.links
      (fun x hx => (hch.mem x).mp hx) a leaf n l ha hℓ hn hl hk hlo hhi
    subst heq
    rw [hn] at hl; simp only [Option.some.injEq] at hl; subst hl
    obtain ⟨i, hscan, hi, hp⟩ := Find_scan_present hwn.loc hnl hka
    unfold Tree.Find
    simp [hfl, hn, hscan, hi, hp]
/-- The descent through `Pointers[0]` ends at a leaf that has no lower bound. -/
theorem leftmost_route {t : Tree} {lo : Nat → Option Int} {b : Nat → Bool}
    {ht : Nat → Nat} (hwf : t.WF) (hord : t.Ordered lo b none) (hht : Heights t.nodes ht) :
    ∀ (fuel a : Nat) (n : Node), t.nodes[a]? = some n → ht a < fuel → lo a = none →
      ∃ (leaf : Nat) (l : Node), FineByValue.leftmost t.nodes fuel a = some leaf ∧
        t.nodes[leaf]? = some l ∧ l.IsLeaf = true ∧ lo leaf = none := by
  intro fuel
  induction fuel with
  | zero => intro a n _ h; omega
  | succ fuel ih =>
    intro a n hn hfuel hlo
    unfold FineByValue.leftmost
    simp only [hn]
    cases hleaf : n.IsLeaf with
    | true =>
      simp only [if_true]
      exact ⟨a, n, rfl, hn, hleaf, hlo⟩
    | false =>
      simp only [Bool.false_eq_true, if_false]
      have hw := (hwf.1 a n hn).1
      have hpos := hw.numPos hleaf
      have hpl : 0 < n.Pointers.length := by
        have := hw.loc.2.1
        simp only [order] at *
        omega
      have hq : n.Pointers[0]? = some (n.Pointers[0]) := List.getElem?_eq_getElem hpl
      obtain ⟨kd, hkd⟩ := hw.children hleaf
      obtain ⟨c, cn, hc, hcn, -, -⟩ := hkd _ (mem_take_of_getElem? hq hpos)
      rw [hc] at hq
      simp only [hq]
      have hmem : Ptr.node c ∈ n.liveChildren := mem_take_of_getElem? hq hpos
      have hhtc : ht a = ht c + 1 := (hht a n hn).2 hleaf c hmem
      obtain ⟨hloc, -⟩ := (hord.2 a n hn).child hleaf 0 c hpos hq
      simp only [if_true] at hloc
      exact ih c cn hcn (by omega) (hloc.trans hlo)

/-- Every leaf of a chain after the first has a lower bound. -/
theorem Chained_lo_some {nodes : List Node} {lo : Nat → Option Int} {b : Nat → Bool} :
    ∀ (rest : List Nat) (c : Nat), Chained nodes lo b (c :: rest) →
      ∀ x ∈ rest, ∃ w, lo x = some w := by
  intro rest
  induction rest with
  | nil => intro c _ x hx; simp at hx
  | cons a1 rest1 ih =>
    intro c h x hx
    obtain ⟨-, ⟨n, v, -, -, -, hlo⟩, hrest⟩ := h
    rcases List.mem_cons.mp hx with rfl | hx1
    · exact ⟨v, hlo⟩
    · exact ih a1 hrest x hx1

/-- Following `Pointers[order]` from the first leaf of a chain meets the leaves
of the chain in order, and their keys. -/
theorem walk_chain {nodes : List Node} {lo : Nat → Option Int} {b : Nat → Bool} :
    ∀ (rest : List Nat) (a fuel : Nat), Chained nodes lo b (a :: rest) → rest.length < fuel →
      leafChain.walk nodes fuel a = some ((a :: rest).flatMap (keysAt nodes)) ∧
      leafChain.visit nodes fuel a = some (a :: rest) := by
  intro rest
  induction rest with
  | nil =>
    intro a fuel h hf
    obtain ⟨-, n, hn, hp⟩ := h
    cases fuel with
    | zero => omega
    | succ fuel =>
      unfold leafChain.walk leafChain.visit
      simp [hn, hp, keysAt]
  | cons a1 rest1 ih =>
    intro a fuel h hf
    obtain ⟨-, ⟨n, v, hn, hp, -, -⟩, hrest⟩ := h
    cases fuel with
    | zero => omega
    | succ fuel =>
      obtain ⟨e1, e2⟩ := ih a1 fuel hrest (by simpa using hf)
      unfold leafChain.walk leafChain.visit
      simp only [hn, hp, e1, e2]
      simp [keysAt, hn]

/-- The leaf chain of a built tree: the walk from the leftmost leaf returns the
keys of the entries, and visits the leaves of the heap, each once. -/
theorem Built_leafChain {t : Tree} {E : List (Int × Ptr)} (h : t.Built E) :
    t.leafChain = some (E.map Prod.fst) ∧
    ∃ chain : List Nat, t.leafAddrs = some chain ∧ chain.Nodup ∧
      ∀ a, a ∈ chain ↔ ∃ n, t.nodes[a]? = some n ∧ n.IsLeaf = true := by
  obtain ⟨hinv, hempty, lo, b, chain, hord, hch, rfl⟩ := h
  have hkeys : (chain.flatMap (entriesAt t.nodes)).map Prod.fst
      = chain.flatMap (keysAt t.nodes) := by
    rw [List.map_flatMap]
    apply flatMap_congr_mem
    intro a _
    exact entriesAt_keys (fun n hn => (hinv.1.1 a n hn).1.loc)
  rw [hkeys]
  cases hroot : t.Root with
  | none =>
    have hnil := hempty hroot
    have hc : chain = [] := by
      cases chain with
      | nil => rfl
      | cons a rest =>
        obtain ⟨n, hn, -⟩ := (hch.mem a).mp (List.mem_cons_self _ _)
        rw [hnil] at hn
        simp at hn
    subst hc
    refine ⟨by simp [Tree.leafChain, hroot], [], by simp [Tree.leafAddrs, hroot], List.nodup_nil,
      hch.mem⟩
  | some r =>
    obtain ⟨ht, hht⟩ := hinv.2.2
    obtain ⟨rn, hrn, -, -⟩ := hinv.1.2 r hroot
    obtain ⟨leaf, l, hlm, hl, hleaf, hlo⟩ := leftmost_route hinv.1 hord hht
      (t.nodes.length + 1) r rn hrn
      (Nat.lt_succ_of_lt (height_lt_length hinv.1 hht r rn hrn)) (hord.1 r hroot).1
    have hmem : leaf ∈ chain := (hch.mem leaf).mpr ⟨l, hl, hleaf⟩
    cases hc : chain with
    | nil => rw [hc] at hmem; simp at hmem
    | cons c rest =>
      subst hc
      have hhead : leaf = c := by
        rcases List.mem_cons.mp hmem with e | hr
        · exact e
        · obtain ⟨w, hw⟩ := Chained_lo_some rest c hch.links leaf hr
          rw [hlo] at hw
          exact Option.noConfusion hw
      subst hhead
      have hlen : (leaf :: rest).length ≤ t.nodes.length :=
        nodup_length_le hch.nodup (fun x hx => by
          obtain ⟨n, hn, -⟩ := (hch.mem x).mp hx
          exact (List.getElem?_eq_some.mp hn).1)
      obtain ⟨e1, e2⟩ := walk_chain rest leaf (t.nodes.length + 1) hch.links (by
        simp only [List.length_cons] at hlen
        omega)
      refine ⟨by simp [Tree.leafChain, hroot, hlm, e1], leaf :: rest,
        by simp [Tree.leafAddrs, hroot, hlm, e2], hch.nodup, hch.mem⟩
/-! ## Runs of `Insert` with pairwise distinct keys -/

/-- A run of `Insert` calls with fresh, pairwise distinct keys on a built tree:
every call returns nil, the records are appended to the record heap, and the
tree is built of the old entries and one entry for each record. -/
theorem run_inserts : ∀ (records : List Record) (s : TreeState) (E : List (Int × Ptr)),
    s.t.Built E → (records.map fun rc => rc.Key).Nodup →
    (∀ rc ∈ records, rc.Key ∉ E.map Prod.fst) →
    ∃ (s1 : TreeState) (E1 : List (Int × Ptr)),
      s.run (records.map TreeCall.Insert) = some s1 ∧
      s.results (records.map TreeCall.Insert) = some (List.replicate records.length none) ∧
      s1.recs = s.recs ++ records ∧ s1.t.Built E1 ∧
      E1.Perm (E ++ insertedEntries s.recs.length records) := by
  intro records
  induction records with
  | nil =>
    intro s E h _ _
    exact ⟨s, E, rfl, rfl, by simp, h, by simp [insertedEntries]⟩
  | cons rc rest ih =>
    intro s E h hnd hfresh
    have hrc : (s.recs ++ [rc])[s.recs.length]? = some rc := by simp
    obtain ⟨t1, E1, hins, hb1, hp1⟩ := Insert_built h hrc
      (hfresh rc (List.mem_cons_self _ _))
    simp only [List.map_cons, List.nodup_cons] at hnd
    have hfresh1 : ∀ rc1 ∈ rest, rc1.Key ∉ E1.map Prod.fst := by
      intro rc1 hrc1 hmem
      have := (hp1.map Prod.fst).subset hmem
      simp only [List.map_cons, List.mem_cons] at this
      rcases this with e | e
      · exact hnd.1 (List.mem_map.mpr ⟨rc1, hrc1, e⟩)
      · exact hfresh rc1 (List.mem_cons_of_mem _ hrc1) e
    obtain ⟨s2, E2, hrun, hres, hrecs, hb2, hp2⟩ :=
      ih { s with t := t1, recs := s.recs ++ [rc] } E1 hb1 hnd.2 hfresh1
    refine ⟨s2, E2, ?_, ?_, ?_, hb2, ?_⟩
    · simp only [List.map_cons, TreeState.run, TreeState.step, hins]
      exact hrun
    · simp only [List.map_cons, TreeState.results, TreeState.step, hins, hres]
      simp [List.replicate_succ]
    · rw [hrecs]
      simp
    · refine hp2.trans ?_
      simp only [insertedEntries, List.enumFrom_cons, List.map_cons, List.length_append,
        List.length_singleton]
      refine (List.Perm.append_right _ hp1).trans ?_
      simp only [List.cons_append]
      exact List.perm_middle.symm

/-- The keys of the entries written for `records` are the keys of `records`. -/
theorem insertedEntries_keys (base : Nat) (records : List Record) :
    (insertedEntries base records).map Prod.fst = records.map fun rc => rc.Key := by
  induction records generalizing base with
  | nil => rfl
  | cons rc rest ih =>
    have := ih (base + 1)
    simp only [insertedEntries, List.enumFrom_cons, List.map_cons] at this ⊢
    rw [this]

/-- The entry written for the record at position `i` of `records`. -/
theorem mem_insertedEntries {records : List Record} {i : Nat} {rc : Record}
    (h : records[i]? = some rc) (base : Nat) :
    (rc.Key, Ptr.record (base + i)) ∈ insertedEntries base records := by
  induction records generalizing base i with
  | nil => simp at h
  | cons r0 rest ih =>
    simp only [insertedEntries, List.enumFrom_cons, List.map_cons, List.mem_cons]
    cases i with
    | zero =>
      simp only [List.getElem?_cons_zero, Option.some.injEq] at h
      subst h
      exact Or.inl rfl
    | succ i =>
      simp only [List.getElem?_cons_succ] at h
      have := ih h (base + 1)
      simp only [insertedEntries] at this
      rw [show base + (i + 1) = base + 1 + i by omega]
      exact Or.inr this

/-- Inserting records with pairwise distinct keys into an empty tree: every
call returns, with nil, and the tree is built of one entry for each record. -/
theorem inserts_built (records : List Record) (hnd : (records.map fun rc => rc.Key).Nodup) :
    ∃ (s : TreeState) (E : List (Int × Ptr)),
      TreeState.run {} (records.map TreeCall.Insert) = some s ∧
      TreeState.results {} (records.map TreeCall.Insert)
        = some (List.replicate records.length none) ∧
      s.recs = records ∧ s.t.Built E ∧ E.Perm (insertedEntries 0 records) := by
  obtain ⟨s, E, h1, h2, h3, h4, h5⟩ := run_inserts records {} [] Built_new hnd
    (fun _ _ h => by simp at h)
  refine ⟨s, E, h1, h2, ?_, h4, ?_⟩
  · simpa using h3
  · simpa using h5

/-- C36: a sequence of `Insert` calls with pairwise distinct keys into an empty
tree runs to the end, and in the tree it leaves, following `Pointers[order]`
from the leftmost leaf visits each leaf of the heap exactly once and yields
the inserted keys, each once, in strictly ascending order. -/
theorem insert_only_leaf_chain (records : List Record)
    (hnd : (records.map fun rc => rc.Key).Nodup) :
    ∃ (s : TreeState) (chain : List Nat) (ks : List Int),
      TreeState.run {} (records.map TreeCall.Insert) = some s ∧
      s.t.leafAddrs = some chain ∧ chain.Nodup ∧
      (∀ a, a ∈ chain ↔ ∃ n, s.t.nodes[a]? = some n ∧ n.IsLeaf = true) ∧
      s.t.leafChain = some ks ∧ ks.Pairwise (fun x y => x < y) ∧
      ks.Perm (records.map fun rc => rc.Key) := by
  obtain ⟨s, E, hrun, -, -, hb, hp⟩ := inserts_built records hnd
  obtain ⟨hk, chain, hc, hcn, hcm⟩ := Built_leafChain hb
  refine ⟨s, chain, E.map Prod.fst, hrun, hc, hcn, hcm, hk, Built_sorted hb, ?_⟩
  rw [← insertedEntries_keys 0 records]
  exact hp.map Prod.fst

theorem insert_only_leaf_chain_witness :
    (([{ Key := 2, Value := ["b"] }, { Key := 3, Value := ["c"] }, { Key := 1, Value := ["a"] },
        { Key := 5, Value := ["e"] }, { Key := 4, Value := ["d"] }] : List Record).map
      fun rc => rc.Key).Nodup ∧
    ∃ (s : TreeState) (chain : List Nat) (ks : List Int),
      TreeState.run {} (([{ Key := 2, Value := ["b"] }, { Key := 3, Value := ["c"] },
        { Key := 1, Value := ["a"] }, { Key := 5, Value := ["e"] },
        { Key := 4, Value := ["d"] }] : List Record).map TreeCall.Insert) = some s ∧
      s.t.leafAddrs = some chain ∧ chain.Nodup ∧
      (∀ a, a ∈ chain ↔ ∃ n, s.t.nodes[a]? = some n ∧ n.IsLeaf = true) ∧
      s.t.leafChain = some ks ∧ ks.Pairwise (fun x y => x < y) ∧
      ks.Perm (([{ Key := 2, Value := ["b"] }, { Key := 3, Value := ["c"] },
        { Key := 1, Value := ["a"] }, { Key := 5, Value := ["e"] },
        { Key := 4, Value := ["d"] }] : List Record).map fun rc => rc.Key) :=
  ⟨by decide, insert_only_leaf_chain _ (by decide)⟩

/-- C1: for records with pairwise distinct keys inserted one after the other
into an empty tree, every `Insert` returns nil, and afterwards `Find` of the
key of each record returns, with a nil error, the record that was inserted
with that key. -/
theorem insert_then_find (records : List Record)
    (hnd : (records.map fun rc => rc.Key).Nodup) :
    ∃ s : TreeState,
      TreeState.run {} (records.map TreeCall.Insert) = some s ∧
      TreeState.results {} (records.map TreeCall.Insert)
        = some (List.replicate records.length none) ∧
      ∀ (i : Nat) (rc : Record), records[i]? = some rc →
        s.t.Find rc.Key = some (.ok i) ∧ s.recs[i]? = some rc := by
  obtain ⟨s, E, hrun, hres, hrecs, hb, hp⟩ := inserts_built records hnd
  refine ⟨s, hrun, hres, ?_⟩
  intro i rc hi
  refine ⟨Built_Find hb (hp.symm.subset ?_), by rw [hrecs]; exact hi⟩
  have := mem_insertedEntries hi 0
  simpa using this

theorem insert_then_find_witness :
    (([{ Key := 2, Value := ["b"] }, { Key := 3, Value := ["c"] }, { Key := 1, Value := ["a"] },
        { Key := 5, Value := ["e"] }, { Key := 4, Value := ["d"] }] : List Record).map
      fun rc => rc.Key).Nodup ∧
    ∃ s : TreeState,
      TreeState.run {} (([{ Key := 2, Value := ["b"] }, { Key := 3, Value := ["c"] },
        { Key := 1, Value := ["a"] }, { Key := 5, Value := ["e"] },
        { Key := 4, Value := ["d"] }] : List Record).map TreeCall.Insert) = some s ∧
      TreeState.results {} (([{ Key := 2, Value := ["b"] }, { Key := 3, Value := ["c"] },
        { Key := 1, Value := ["a"] }, { Key := 5, Value := ["e"] },
        { Key := 4, Value := ["d"] }] : List Record).map TreeCall.Insert)
        = some (List.replicate 5 none) ∧
      ∀ (i : Nat) (rc : Record),
        ([{ Key := 2, Value := ["b"] }, { Key := 3, Value := ["c"] },
          { Key := 1, Value := ["a"] }, { Key := 5, Value := ["e"] },
          { Key := 4, Value := ["d"] }] : List Record)[i]? = some rc →
        s.t.Find rc.Key = some (.ok i) ∧ s.recs[i]? = some rc :=
  ⟨by decide, insert_then_find _ (by decide)⟩

theorem mapGet_fold_of_not_mem (k : Int) : ∀ (m acc : TxSet), k ∉ m.map Prod.fst →
    mapGet (m.foldl (fun r kb => mapSet r kb.1 kb.2) acc) k = mapGet acc k := by
  intro m
  induction m with
  | nil => intro acc _; rfl
  | cons x rest ih =>
    intro acc h
    simp only [List.map_cons, List.mem_cons, not_or] at h
    simp only [List.foldl_cons]
    rw [ih _ h.2, mapGet_mapSet]
    simp [h.1]

theorem has_copyMap_mapDel (m : TxSet) (k : Int) : TxSet.has (copyMap (mapDel m k)) k = false := by
  unfold TxSet.has copyMap
  rw [mapGet_fold_of_not_mem]
  · rfl
  · rw [mapDel_keys]
    simp

end IDB
